import Mathlib

/-!
# Preimage oracle of v3-minierigon

A shallow embedding of `oracle/prefetch.go`, `oracle/apitypes.go`,
`oracle/database.go` and the input decoding of `cmd/minierigon/main.go`.

Go's package-level variables (`preimages`, `cached`, `unhashMap`, `inputs`,
`outputs`, `inputhash`, `root`) and the disk become the fields of one
`OracleState` that every operation takes and returns. A call ends either
normally or with a `Failure` (an explicit `panic`, a run-time panic, or
`log.Fatal` through `check`); in both cases the state reached is returned, so
that what a failing call has already written can be stated.

Library code that is not part of the repository (Keccak-256, the RLP encoder,
`types.DeriveSha`, `encoding/json`, `net/http`) is a field of `Env`.
-/

namespace Oracle

set_option maxRecDepth 1000000

/-! ## Bytes, hashes and addresses -/

abbrev Byte := Fin 256

abbrev Bytes := List Byte

/-- A `libcommon.Hash`: an array of exactly 32 bytes. -/
structure Hash where
  bytes : Bytes
  size : bytes.length = 32
deriving DecidableEq

/-- A `libcommon.Address`: an array of exactly 20 bytes. -/
structure Address where
  bytes : Bytes
  size : bytes.length = 20
deriving DecidableEq

/-- The zero value `libcommon.Hash{}`. -/
def Hash.zero : Hash := ⟨List.replicate 32 0, by simp⟩

/-- The zero value `libcommon.Address{}`. -/
def Address.zero : Address := ⟨List.replicate 20 0, by simp⟩

instance : Inhabited Hash := ⟨Hash.zero⟩

instance : Inhabited Address := ⟨Address.zero⟩

/-- Copy of `b` into an array of `n` bytes the way `Hash.SetBytes` and
`Address.SetBytes` do it: when `b` is longer than `n` only its last `n` bytes
are kept, and the bytes go to the right end of the array, the left end staying
zero. -/
def setBytes (n : Nat) (b : Bytes) : Bytes :=
  let b1 := if b.length > n then b.drop (b.length - n) else b
  List.replicate (n - b1.length) 0 ++ b1

theorem setBytes_length (n : Nat) (b : Bytes) : (setBytes n b).length = n := by
  unfold setBytes
  by_cases h : b.length > n
  · simp [h]; omega
  · simp [h]; omega

/-- `libcommon.BytesToHash`. -/
def BytesToHash (b : Bytes) : Hash := ⟨setBytes 32 b, setBytes_length 32 b⟩

/-- `libcommon.BytesToAddress`. -/
def BytesToAddress (b : Bytes) : Address := ⟨setBytes 20 b, setBytes_length 20 b⟩

/-- `Address.Hash()`: `BytesToHash(a[:])`. -/
def Address.Hash (a : Address) : Hash := BytesToHash a.bytes

/-! ## `math/big` and machine integers

A `*big.Int` is an `Int`; a `uint64` is a `Nat` below `2^64`. -/

/-- Big-endian digits of `n` in base 256, most significant first, without
leading zeros; `fuel` bounds the number of digits produced. -/
def bigBytesAux : Nat → Nat → Bytes → Bytes
  | 0, _, acc => acc
  | fuel + 1, n, acc =>
    if n = 0 then acc else bigBytesAux fuel (n / 256) (Fin.ofNat (n % 256) :: acc)

/-- `(*big.Int).Bytes()`: the absolute value as a big-endian byte slice. -/
def bigBytes (x : Int) : Bytes := bigBytesAux x.natAbs x.natAbs []

/-- `(*big.Int).SetBytes`: the big-endian unsigned value of a byte slice. -/
def bytesToNat (b : Bytes) : Nat := b.foldl (fun acc d => acc * 256 + d.val) 0

/-- The conversion `int64(x)` of a `uint64`: the same 64 bits read as two's
complement. -/
def toInt64 (x : Nat) : Int :=
  if x % 2 ^ 64 < 2 ^ 63 then ((x % 2 ^ 64 : Nat) : Int) else ((x % 2 ^ 64 : Nat) : Int) - 2 ^ 64

/-- `(*big.Int).Uint64()`: the low 64 bits of the absolute value. -/
def bigUint64 (x : Int) : Nat := x.natAbs % 2 ^ 64

/-- `(*big.Int).Int64()`: the low 64 bits of the absolute value read as an
`int64`, negated (with wrap-around) when `x` is negative. -/
def bigInt64 (x : Int) : Int :=
  let v := toInt64 (x.natAbs % 2 ^ 64)
  if x < 0 then (if v = -(2 ^ 63) then v else -v) else v

/-- `libcommon.BigToHash`: `BytesToHash(b.Bytes())`. -/
def BigToHash (x : Int) : Hash := BytesToHash (bigBytes x)

/-- `libcommon.BigToAddress`: `BytesToAddress(b.Bytes())`. -/
def BigToAddress (x : Int) : Address := BytesToAddress (bigBytes x)

/-- `Hash.Big()`: `new(big.Int).SetBytes(h[:])`. -/
def Hash.Big (h : Hash) : Int := (bytesToNat h.bytes : Nat)

/-! ## Hexadecimal text -/

/-- One lower-case hexadecimal digit. -/
def hexDigit (n : Nat) : Char :=
  if n < 10 then Char.ofNat (48 + n) else Char.ofNat (87 + n)

/-- `hex.EncodeToString`: two lower-case digits for each byte. -/
def hexOfBytes : Bytes → List Char
  | [] => []
  | b :: rest => hexDigit (b.val / 16) :: hexDigit (b.val % 16) :: hexOfBytes rest

/-- `hexutil.Encode` (and `Hash.Hex`): the digits after `0x`. -/
def hexEncode (b : Bytes) : String := "0x" ++ String.mk (hexOfBytes b)

/-- Digits of `n` in base 16, most significant first (`0` for zero). -/
def hexOfNatAux : Nat → Nat → List Char → List Char
  | 0, _, acc => acc
  | fuel + 1, n, acc =>
    if n < 16 then hexDigit n :: acc else hexOfNatAux fuel (n / 16) (hexDigit (n % 16) :: acc)

/-- `fmt.Sprintf("0x%x", v)` for a signed integer `v`: Go prints the sign
after the `0x`. -/
def sprintf0x (v : Int) : String :=
  "0x" ++ (if v < 0 then "-" else "") ++ String.mk (hexOfNatAux (v.natAbs + 1) v.natAbs [])

/-- The value of one ASCII hexadecimal digit (`reverseHexTable` of
`encoding/hex`), `none` for any other byte. -/
def fromHexChar (c : Byte) : Option Nat :=
  if 48 ≤ c.val ∧ c.val ≤ 57 then some (c.val - 48)
  else if 97 ≤ c.val ∧ c.val ≤ 102 then some (c.val - 87)
  else if 65 ≤ c.val ∧ c.val ≤ 70 then some (c.val - 55)
  else none

/-- `hex.DecodeString` with the error dropped, as every caller in
`prefetch.go` does (`ret, _ := hex.DecodeString(..)`): the bytes decoded
before the first invalid digit, or before a trailing odd digit. A Go string
is its sequence of bytes. -/
def hexDecodeString : Bytes → Bytes
  | p :: q :: rest =>
    match fromHexChar p, fromHexChar q with
    | some a, some b => Fin.ofNat (a * 16 + b) :: hexDecodeString rest
    | _, _ => []
  | _ => []

/-! ## Headers and transactions (`apitypes.go`) -/

/-- The fields of `types.Header` that `ToHeader` fills. `Difficulty`,
`Number` and `BaseFee` are `*big.Int` and may be nil. -/
structure Header where
  ParentHash : Hash
  UncleHash : Hash
  Coinbase : Address
  Root : Hash
  TxHash : Hash
  ReceiptHash : Hash
  Bloom : Bytes
  Difficulty : Option Nat
  Number : Option Nat
  GasLimit : Nat
  GasUsed : Nat
  Time : Nat
  Extra : Bytes
  MixDigest : Hash
  Nonce : Bytes
  BaseFee : Option Nat
deriving DecidableEq

/-- An `types2.AccessList`: addresses with their storage keys. -/
abbrev AccessList := List (Address × List Hash)

/-- The struct `SendTxArgs`; a pointer field is an `Option`. Quantities are
decoded from hexadecimal text and are never negative. -/
structure SendTxArgs where
  From : Address
  To : Option Address
  Gas : Nat
  GasPrice : Option Nat
  MaxFeePerGas : Option Nat
  MaxPriorityFeePerGas : Option Nat
  Value : Nat
  Nonce : Nat
  Data : Option Bytes
  Input : Option Bytes
  AccessList : Option AccessList
  ChainID : Option Nat
  V : Option Nat
  R : Option Nat
  S : Option Nat
deriving DecidableEq

/-- The struct `oracle.Header` a block response is decoded into. Every field
but `Transactions` is a pointer, nil when the response has no such key. The
struct has no field for the block hash that the response reports. -/
structure ApiHeader where
  ParentHash : Option Hash
  UncleHash : Option Hash
  Coinbase : Option Address
  Root : Option Hash
  TxHash : Option Hash
  ReceiptHash : Option Hash
  Bloom : Option Bytes
  Difficulty : Option Nat
  Number : Option Nat
  GasLimit : Option Nat
  GasUsed : Option Nat
  Time : Option Nat
  Extra : Option Bytes
  MixDigest : Option Hash
  Nonce : Option Bytes
  BaseFee : Option Nat
  Transactions : List SendTxArgs
deriving DecidableEq

/-- `(*Header).ToHeader`. Eleven pointers are dereferenced (`Difficulty`,
`Number` and `BaseFee` are only converted, `MixDigest` and `Nonce` are tested
first), so the result is `none`, a nil dereference, when one of the eleven is
nil. -/
def ApiHeader.ToHeader (dec : ApiHeader) : Option Header :=
  match dec.ParentHash, dec.UncleHash, dec.Coinbase, dec.Root, dec.TxHash, dec.ReceiptHash,
    dec.Bloom, dec.GasLimit, dec.GasUsed, dec.Time, dec.Extra with
  | some parentHash, some uncleHash, some coinbase, some root, some txHash, some receiptHash,
    some bloom, some gasLimit, some gasUsed, some time, some extra =>
    some
      { ParentHash := parentHash
        UncleHash := uncleHash
        Coinbase := coinbase
        Root := root
        TxHash := txHash
        ReceiptHash := receiptHash
        Bloom := bloom
        Difficulty := dec.Difficulty
        Number := dec.Number
        GasLimit := gasLimit
        GasUsed := gasUsed
        Time := time
        Extra := extra
        MixDigest := dec.MixDigest.getD Hash.zero
        Nonce := dec.Nonce.getD (List.replicate 8 0)
        BaseFee := dec.BaseFee }
  | _, _, _, _, _, _, _, _, _, _, _ => none

/-- `types.CommonTx` as `ToTransaction` fills it. -/
structure CommonTx where
  ChainID : Option Nat
  To : Option Address
  Nonce : Nat
  Gas : Nat
  Value : Option Nat
  Data : Bytes
  V : Nat
  R : Nat
  S : Nat
deriving DecidableEq

/-- The three transaction types `ToTransaction` builds. -/
inductive Transaction where
  | dynamicFee (common : CommonTx) (accessList : AccessList) (tip feeCap : Option Nat)
  | accessList (common : CommonTx) (gasPrice chainID : Option Nat) (accessList : AccessList)
  | legacy (common : CommonTx) (gasPrice : Option Nat)
deriving DecidableEq

/-- `uint256.FromBig` with the overflow flag dropped: nil for nil, else the
value reduced to 256 bits. -/
def fromBig (b : Option Nat) : Option Nat := b.map (fun v => v % 2 ^ 256)

/-- `(*SendTxArgs).ToTransaction`. `V`, `R` and `S` are dereferenced: the
result is `none`, a nil dereference, when one of them is nil. -/
def SendTxArgs.ToTransaction (args : SendTxArgs) : Option Transaction :=
  let dst := args.To
  let input : Bytes :=
    match args.Input with
    | some i => i
    | none =>
      match args.Data with
      | some d => d
      | none => []
  let chainId := fromBig args.ChainID
  let value := fromBig (some args.Value)
  let gasPrice := fromBig args.GasPrice
  let tip := fromBig args.MaxPriorityFeePerGas
  let feeCap := fromBig args.MaxFeePerGas
  match fromBig args.V, fromBig args.R, fromBig args.S with
  | some v, some r, some s =>
    let common : CommonTx :=
      { ChainID := chainId, To := dst, Nonce := args.Nonce, Gas := args.Gas, Value := value,
        Data := input, V := v, R := r, S := s }
    if args.MaxFeePerGas.isSome then
      some (.dynamicFee common (args.AccessList.getD []) tip feeCap)
    else
      match args.AccessList with
      | some al => some (.accessList common gasPrice chainId al)
      | none => some (.legacy common gasPrice)
  | _, _, _ => none

/-- The loop of `PrefetchBlock` that converts the transactions of the
response, stopping at the first that cannot be converted. -/
def convertTxs : List SendTxArgs → Option (List Transaction)
  | [] => some []
  | a :: rest =>
    match a.ToTransaction with
    | none => none
    | some t =>
      match convertTxs rest with
      | none => none
      | some ts => some (t :: ts)

/-! ## JSON-RPC envelopes (`prefetch.go`) -/

/-- One element of `jsonreq.Params`, a `[]interface{}`. -/
inductive Param where
  | str (s : String)
  | bool (b : Bool)
  | addr (a : Address)
  | hashes (hs : List Hash)
deriving DecidableEq

/-- The struct `jsonreq`. -/
structure jsonreq where
  Jsonrpc : String
  Method : String
  Params : List Param
  Id : Nat
deriving DecidableEq

/-- The struct `StorageResult`; strings are their bytes. -/
structure StorageResult where
  Key : Bytes
  Value : Option Nat
  Proof : List Bytes
deriving DecidableEq

/-- The struct `AccountResult`. -/
structure AccountResult where
  Address : Address
  AccountProof : List Bytes
  Balance : Option Nat
  CodeHash : Hash
  Nonce : Nat
  StorageHash : Hash
  StorageProof : List StorageResult
deriving DecidableEq

/-- The zero value of `AccountResult`, what `jsonresp{}` holds before the
decoding. -/
def AccountResult.zero : AccountResult :=
  { Address := Address.zero, AccountProof := [], Balance := none, CodeHash := Hash.zero,
    Nonce := 0, StorageHash := Hash.zero, StorageProof := [] }

/-- What a call of `Decode` whose error is dropped leaves behind: `value` is
the result the target holds afterwards, the zero value filled as far as the
decoder got, and `err` tells that `Decode` returned an error. -/
structure Decoded (α : Type) where
  value : α
  err : Bool
deriving DecidableEq

/-! ## The environment -/

/-- The library functions and the remote node the oracle calls. -/
structure Env where
  /-- The function `crypto.Keccak256`. -/
  keccak256 : Bytes → Hash
  /-- The call `rlp.EncodeToBytes(&header)`; `none` when it returns an error. -/
  rlpHeader : Header → Option Bytes
  /-- The call `rlp.EncodeToBytes(uncles)`, its error dropped. -/
  rlpHeaders : List Header → Bytes
  /-- The method `(*types.Header).Hash`. -/
  headerHash : Header → Hash
  /-- The function `types.DeriveSha` on a transaction list. -/
  deriveSha : List Transaction → Hash
  /-- The function `json.Marshal` on a `jsonreq`. -/
  jsonMarshal : jsonreq → Bytes
  /-- Decoding of a body into `jsonrespt`; `none` when `Decode` returns an error. -/
  decodeBlock : Bytes → Option ApiHeader
  /-- The block hash a block response reports (the key `hash` of its result).
  No struct of the oracle has a field for it, so no decoder reads it. -/
  reportedHash : Bytes → Option Hash
  /-- Decoding of a body into `jsonresp`: the field `Result` after the call,
  and whether `Decode` returned an error. -/
  decodeProof : Bytes → Decoded AccountResult
  /-- Decoding of a body into `jsonresps`: the field `Result` after the call,
  and whether `Decode` returned an error. -/
  decodeString : Bytes → Decoded Bytes
  /-- Decoding of a body into `jsonrespi`; `none` when `Decode` returns an error. -/
  decodeCount : Bytes → Option Nat
  /-- The call `http.Post` followed by `ioutil.ReadAll`: the body the node
  answers to the `n`-th request of the run, `none` when the request fails. -/
  httpPost : Nat → Bytes → Option Bytes
  /-- The text `%s` prints for an address (its checksummed hexadecimal form). -/
  addrString : Address → String

/-! ## Oracle state -/

/-- How a call can end other than normally. -/
inductive Failure where
  /-- An explicit `panic(msg)`. -/
  | panic (msg : String)
  /-- A run-time panic: nil dereference, index or slice bound out of range. -/
  | runtime
  /-- The exit of `log.Fatal`, reached through `check(err)`. -/
  | fatal
deriving DecidableEq

/-- The package-level variables of `oracle` and the disk. -/
structure OracleState where
  /-- The map `preimages`. -/
  preimages : Hash → Option Bytes
  /-- The map `cached`; a missing key reads as `false`. -/
  cached : String → Bool
  /-- The map `unhashMap`. -/
  unhashMap : Hash → Option Address
  /-- The variable `inputhash`. -/
  inputhash : Hash
  /-- The array `inputs`. -/
  inputs : Fin 6 → Hash
  /-- The array `outputs`. -/
  outputs : Fin 2 → Hash
  /-- The directory `root`. -/
  root : String
  /-- The files on disk, by path. -/
  files : String → Option Bytes
  /-- The bodies posted to the node so far, oldest first. -/
  posts : List Bytes

/-- The state of a process that has just started, with `root` set. -/
def OracleState.fresh (root : String) : OracleState :=
  { preimages := fun _ => none
    cached := fun _ => false
    unhashMap := fun _ => none
    inputhash := Hash.zero
    inputs := fun _ => Hash.zero
    outputs := fun _ => Hash.zero
    root := root
    files := fun _ => none
    posts := [] }

/-- The result of a call: the value returned or the failure, and the state
reached. -/
inductive Res (α : Type) where
  | ok (a : α) (s : OracleState)
  | fail (f : Failure) (s : OracleState)

/-- The state a call ends in, however it ends. -/
def Res.state {α : Type} : Res α → OracleState
  | .ok _ s => s
  | .fail _ s => s

/-- The failure a call ends with, `none` when it returns. -/
def Res.failure {α : Type} : Res α → Option Failure
  | .ok _ _ => none
  | .fail f _ => some f

/-- The value a call returns, `none` when it fails. -/
def Res.value {α : Type} : Res α → Option α
  | .ok a _ => some a
  | .fail _ _ => none

/-- The assignment `m[k] = v` on a Go map. -/
def mapSet {β : Type} (m : Hash → Option β) (k : Hash) (v : β) : Hash → Option β :=
  fun h => if h = k then some v else m h

/-- The loop `for hash, val := range newPreimages { preimages[hash] = val }`. -/
def mapMerge (newPreimages store : Hash → Option Bytes) : Hash → Option Bytes :=
  fun h =>
    match newPreimages h with
    | some v => some v
    | none => store h

/-- The assignment `a[i] = v` on an array. -/
def arrSet {n : Nat} (a : Fin n → Hash) (i : Fin n) (v : Hash) : Fin n → Hash :=
  fun j => if j = i then v else a j

/-- The loops `for i := 0; i < len(a); i++ { out = append(out, a[i].Bytes()...) }`. -/
def concatHashes {n : Nat} (a : Fin n → Hash) : Bytes :=
  (List.finRange n).foldl (fun out i => out ++ (a i).bytes) []

/-! ## The request cache (`prefetch.go`, lines 89-120) -/

/-- `toFilename`. -/
def toFilename (s : OracleState) (key : String) : String := s.root ++ "/json_" ++ key

/-- `cacheExists`. -/
def cacheExists (s : OracleState) (key : String) : Bool := (s.files (toFilename s key)).isSome

/-- `cacheRead`. -/
def cacheRead (s : OracleState) (key : String) : Res Bytes :=
  match s.files (toFilename s key) with
  | some dat => .ok dat s
  | none => .fail (.panic "cache missing") s

/-- `ioutil.WriteFile`, whose error the callers drop; the write is taken to
succeed. -/
def writeFile (s : OracleState) (path : String) (value : Bytes) : OracleState :=
  { s with files := fun p => if p = path then some value else s.files p }

/-- `cacheWrite`. -/
def cacheWrite (s : OracleState) (key : String) (value : Bytes) : OracleState :=
  writeFile s (toFilename s key) value

/-- `getAPI`. When `http.Post` fails `resp` is nil and `resp.Body` is a nil
dereference. -/
def getAPI (E : Env) (jsonData : Bytes) (s : OracleState) : Res Bytes :=
  let key := hexEncode (E.keccak256 jsonData).bytes
  if cacheExists s key then cacheRead s key
  else
    let s1 := { s with posts := s.posts ++ [jsonData] }
    match E.httpPost s.posts.length jsonData with
    | none => .fail .runtime s1
    | some ret => .ok ret (cacheWrite s1 key ret)

/-! ## Proofs and code (`prefetch.go`, lines 122-189 and 336-374) -/

/-- `getProofAccount`. The error of `Decode` is dropped and `jr` is used as
the decoder left it; `StorageProof[0]` is an index out of range on an empty
list. -/
def getProofAccount (E : Env) (blockNumber : Int) (addr : Address) (skey : Hash)
    (storage : Bool) (s : OracleState) : Res (List Bytes) :=
  let addrHash := E.keccak256 addr.bytes
  let s1 := { s with unhashMap := mapSet s.unhashMap addrHash addr }
  let r : jsonreq :=
    { Jsonrpc := "2.0", Method := "eth_getProof",
      Params := [.addr addr, .hashes [skey], .str (sprintf0x (bigInt64 blockNumber))], Id := 1 }
  match getAPI E (E.jsonMarshal r) s1 with
  | .fail f s2 => .fail f s2
  | .ok body s2 =>
    let jr := (E.decodeProof body).value
    if storage then
      match jr.StorageProof with
      | [] => .fail .runtime s2
      | sp :: _ => .ok sp.Proof s2
    else .ok jr.AccountProof s2

/-- The bytes `hex.DecodeString(s[2:])` of a proof node `s`. -/
def decodeNode (s : Bytes) : Bytes := hexDecodeString (s.drop 2)

/-- The loop over the proof nodes in `PrefetchStorage` and `PrefetchAccount`:
each node `s` is decoded from `s[2:]`, hashed and put in `newPreimages`. The
slice `s[2:]` is out of range, and the result `none`, on a node shorter than
two bytes. -/
def collectPreimages (E : Env) : List Bytes → (Hash → Option Bytes) → Option (Hash → Option Bytes)
  | [], newPreimages => some newPreimages
  | s :: rest, newPreimages =>
    if s.length < 2 then none
    else
      let ret := decodeNode s
      collectPreimages E rest (mapSet newPreimages (E.keccak256 ret) ret)

/-- What `PrefetchStorage` and `PrefetchAccount` do once the proof is
fetched. A `postProcess` callback is handed the map `newPreimages` itself and
may change it; it is modelled by the map it leaves behind. -/
def storeProof (E : Env) (ap : List Bytes)
    (postProcess : Option ((Hash → Option Bytes) → (Hash → Option Bytes)))
    (s : OracleState) : Res Unit :=
  match collectPreimages E ap (fun _ => none) with
  | none => .fail .runtime s
  | some newPreimages =>
    let processed :=
      match postProcess with
      | some f => f newPreimages
      | none => newPreimages
    .ok () { s with preimages := mapMerge processed s.preimages }

/-- The assignment `cached[key] = true`. -/
def markFetched (s : OracleState) (key : String) : OracleState :=
  { s with cached := fun k => if k = key then true else s.cached k }

/-- The key `fmt.Sprintf("proof_%d_%s_%s", blockNumber, addr, skey)`. -/
def storageKey (E : Env) (blockNumber : Int) (addr : Address) (skey : Hash) : String :=
  "proof_" ++ toString blockNumber ++ "_" ++ E.addrString addr ++ "_" ++ hexEncode skey.bytes

/-- The key `fmt.Sprintf("proof_%d_%s", blockNumber, addr)`. -/
def accountKey (E : Env) (blockNumber : Int) (addr : Address) : String :=
  "proof_" ++ toString blockNumber ++ "_" ++ E.addrString addr

/-- The key `fmt.Sprintf("code_%d_%s", blockNumber, addrHash)`. -/
def codeKey (blockNumber : Int) (addrHash : Hash) : String :=
  "code_" ++ toString blockNumber ++ "_" ++ hexEncode addrHash.bytes

/-- `PrefetchStorage`. -/
def PrefetchStorage (E : Env) (blockNumber : Int) (addr : Address) (skey : Hash)
    (postProcess : Option ((Hash → Option Bytes) → (Hash → Option Bytes)))
    (s : OracleState) : Res Unit :=
  let key := storageKey E blockNumber addr skey
  if s.cached key then .ok () s
  else
    match getProofAccount E blockNumber addr skey true (markFetched s key) with
    | .fail f s2 => .fail f s2
    | .ok ap s2 => storeProof E ap postProcess s2

/-- `PrefetchAccount`. -/
def PrefetchAccount (E : Env) (blockNumber : Int) (addr : Address)
    (postProcess : Option ((Hash → Option Bytes) → (Hash → Option Bytes)))
    (s : OracleState) : Res Unit :=
  let key := accountKey E blockNumber addr
  if s.cached key then .ok () s
  else
    match getProofAccount E blockNumber addr Hash.zero false (markFetched s key) with
    | .fail f s2 => .fail f s2
    | .ok ap s2 => storeProof E ap postProcess s2

/-- `unhash`: a missing key reads as the zero address. -/
def unhash (s : OracleState) (addrHash : Hash) : Address :=
  (s.unhashMap addrHash).getD Address.zero

/-- `getProvedCodeBytes`. The error of `Decode` is dropped and `jr.Result` is
used as the decoder left it; `jr.Result[2:]` is out of range on a string
shorter than two bytes, such as the zero value. -/
def getProvedCodeBytes (E : Env) (blockNumber : Int) (addrHash : Hash) (s : OracleState) :
    Res Bytes :=
  let addr := unhash s addrHash
  let r : jsonreq :=
    { Jsonrpc := "2.0", Method := "eth_getCode",
      Params := [.addr addr, .str (sprintf0x (bigInt64 blockNumber))], Id := 1 }
  match getAPI E (E.jsonMarshal r) s with
  | .fail f s1 => .fail f s1
  | .ok body s1 =>
    let result := (E.decodeString body).value
    if result.length < 2 then .fail .runtime s1
    else .ok (hexDecodeString (result.drop 2)) s1

/-- `PrefetchCode`. -/
def PrefetchCode (E : Env) (blockNumber : Int) (addrHash : Hash) (s : OracleState) : Res Unit :=
  let key := codeKey blockNumber addrHash
  if s.cached key then .ok () s
  else
    match getProvedCodeBytes E blockNumber addrHash (markFetched s key) with
    | .fail f s2 => .fail f s2
    | .ok ret s2 => .ok () { s2 with preimages := mapSet s2.preimages (E.keccak256 ret) ret }

/-! ## Blocks and uncles (`prefetch.go`, lines 191-334) -/

/-- `InputHash`. -/
def InputHash (s : OracleState) : Hash := s.inputhash

/-- The number of rounds of `for u := 0; u < int(jr.Result); u++`: a count
of `2^63` or more is negative as an `int`. -/
def uncleRounds (count : Nat) : Nat := if count % 2 ^ 64 < 2 ^ 63 then count % 2 ^ 64 else 0

/-- The loop of `prefetchUncles`: `n` more rounds from index `u`, `uncles`
holding the headers fetched so far. -/
def fetchUncles (E : Env) (blockHash : Hash) :
    Nat → Nat → List Header → OracleState → Res (List Header)
  | 0, _, uncles, s => .ok uncles s
  | n + 1, u, uncles, s =>
    let r : jsonreq :=
      { Jsonrpc := "2.0", Method := "eth_getUncleByBlockHashAndIndex",
        Params := [.str (hexEncode blockHash.bytes), .str (sprintf0x (u : Nat))], Id := 1 }
    match getAPI E (E.jsonMarshal r) s with
    | .fail f s1 => .fail f s1
    | .ok body s1 =>
      match E.decodeBlock body with
      | none => .fail .fatal s1
      | some result =>
        match result.ToHeader with
        | none => .fail .runtime s1
        | some uncleHeader => fetchUncles E blockHash n (u + 1) (uncles ++ [uncleHeader]) s1

/-- Lines 220-248 of `prefetchUncles`: the uncle count (its decoding
checked), then the uncles one by one. -/
def fetchUncleList (E : Env) (blockHash : Hash) (s : OracleState) : Res (List Header) :=
  let r : jsonreq :=
    { Jsonrpc := "2.0", Method := "eth_getUncleCountByBlockHash",
      Params := [.str (hexEncode blockHash.bytes)], Id := 1 }
  match getAPI E (E.jsonMarshal r) s with
  | .fail f s1 => .fail f s1
  | .ok body s1 =>
    match E.decodeCount body with
    | none => .fail .fatal s1
    | some count => fetchUncles E blockHash (uncleRounds count) 0 [] s1

/-- `prefetchUncles`. -/
def prefetchUncles (E : Env) (blockHash uncleHash : Hash) (s : OracleState) : Res Unit :=
  match fetchUncleList E blockHash s with
  | .fail f s2 => .fail f s2
  | .ok uncles s2 =>
    let unclesRlp := E.rlpHeaders uncles
    let hash := E.keccak256 unclesRlp
    if hash ≠ uncleHash then .fail (.panic "wrong uncle hash") s2
    else .ok () { s2 with preimages := mapSet s2.preimages hash unclesRlp }

/-- Lines 261-274 of `PrefetchBlock`: the request, the decoding of the
response (checked) and `ToHeader`. Returns the decoded response and the
header rebuilt from it. -/
def fetchBlock (E : Env) (blockNumber : Int) (s : OracleState) : Res (ApiHeader × Header) :=
  let r : jsonreq :=
    { Jsonrpc := "2.0", Method := "eth_getBlockByNumber",
      Params := [.str (sprintf0x (bigInt64 blockNumber)), .bool true], Id := 1 }
  match getAPI E (E.jsonMarshal r) s with
  | .fail f s1 => .fail f s1
  | .ok body s1 =>
    match E.decodeBlock body with
    | none => .fail .fatal s1
    | some result =>
      match result.ToHeader with
      | none => .fail .runtime s1
      | some blockHeader => .ok (result, blockHeader) s1

/-- Lines 277-287 of `PrefetchBlock`, the start block. -/
def startBlockStep (E : Env) (blockHeader : Header) (s : OracleState) : Res Unit :=
  match E.rlpHeader blockHeader with
  | none => .fail .fatal s
  | some blockHeaderRlp =>
    let hash := E.keccak256 blockHeaderRlp
    let s1 := { s with preimages := mapSet s.preimages hash blockHeaderRlp }
    if s1.inputs 0 = Hash.zero then .ok () { s1 with inputs := arrSet s1.inputs 0 hash }
    else .ok () s1

/-- Lines 294-319 of `PrefetchBlock`: the input vector, its hash, the
preimage of the hash, the input file, the output vector and the output
file. -/
def commitBlock (E : Env) (blockHeader : Header) (s : OracleState) : OracleState :=
  let inputs1 := arrSet s.inputs 1 blockHeader.TxHash
  let inputs2 := arrSet inputs1 2 blockHeader.Coinbase.Hash
  let inputs3 := arrSet inputs2 3 blockHeader.UncleHash
  let inputs4 := arrSet inputs3 4 (BigToHash (toInt64 blockHeader.GasLimit))
  let inputs5 := arrSet inputs4 5 (BigToHash (toInt64 blockHeader.Time))
  let saveinput := concatHashes inputs5
  let inputhash := E.keccak256 saveinput
  let s1 := { s with inputs := inputs5, inputhash := inputhash,
                     preimages := mapSet s.preimages inputhash saveinput }
  let s2 := writeFile s1 (s1.root ++ "/input") inputhash.bytes
  let outputs0 := arrSet s2.outputs 0 blockHeader.Root
  let outputs1 := arrSet outputs0 1 blockHeader.ReceiptHash
  let s3 := { s2 with outputs := outputs1 }
  writeFile s3 (s3.root ++ "/output") (concatHashes outputs1)

/-- Lines 321-333 of `PrefetchBlock`: the transaction root and the uncles. -/
def checkBlock (E : Env) (jr : ApiHeader) (blockHeader : Header) (s : OracleState) : Res Unit :=
  match convertTxs jr.Transactions with
  | none => .fail .runtime s
  | some txs =>
    let testTxHash := E.deriveSha txs
    if testTxHash ≠ blockHeader.TxHash then .fail (.panic "tx hash derived wrong") s
    else prefetchUncles E (E.headerHash blockHeader) blockHeader.UncleHash s

/-- `PrefetchBlock`. -/
def PrefetchBlock (E : Env) (blockNumber : Int) (startBlock : Bool) (s : OracleState) :
    Res Unit :=
  match fetchBlock E blockNumber s with
  | .fail f s1 => .fail f s1
  | .ok (jr, blockHeader) s1 =>
    if startBlock then startBlockStep E blockHeader s1
    else if blockHeader.ParentHash ≠ s1.inputs 0 then
      .fail (.panic "block transition isn\x27t correct") s1
    else checkBlock E jr blockHeader (commitBlock E blockHeader s1)

/-- `Output`. -/
def Output (output receipts : Hash) (s : OracleState) : Res Unit :=
  if receipts ≠ s.outputs 1 then .fail (.panic "BAD receipts") s
  else if output = s.outputs 0 then .ok () s
  else .fail (.panic "BAD transition :((") s

/-- `NewDatabase` (`database.go`): the account proof of the zero address is
prefetched. -/
def NewDatabase (E : Env) (blockNumber : Int) (s : OracleState) : Res Unit :=
  PrefetchAccount E blockNumber Address.zero none s

/-! ## Reading the inputs back (`cmd/minierigon/main.go`, lines 67-89) -/

/-- Modelled from the spec: `oracle.Preimage`, which `main` calls and whose
source is not in the repository's files at hand. By the spec (4.1) `get`
returns the bytes stored under the hash and fails when there are none. -/
def Preimage (hash : Hash) (s : OracleState) : Res Bytes :=
  match s.preimages hash with
  | some v => .ok v s
  | none => .fail (.panic "missing preimage") s

/-- The loop `inputs[i] = common.BytesToHash(inputBytes[i*0x20 : i*0x20+0x20])`
of `main`; the slices are out of range, and the result `none`, on fewer than
192 bytes. -/
def splitInputs (inputBytes : Bytes) : Option (Fin 6 → Hash) :=
  if inputBytes.length < 192 then none
  else some (fun i => BytesToHash ((inputBytes.drop (i.val * 32)).take 32))

/-- The fields of the new header that `main` takes from the input oracle. -/
structure ReplayHeader where
  TxHash : Hash
  Coinbase : Address
  UncleHash : Hash
  GasLimit : Nat
  Time : Nat
deriving DecidableEq

/-- Lines 85-89 of `cmd/minierigon/main.go`. -/
def replayHeader (inputs : Fin 6 → Hash) : ReplayHeader :=
  { TxHash := inputs 1
    Coinbase := BigToAddress (inputs 2).Big
    UncleHash := inputs 3
    GasLimit := bigUint64 (inputs 4).Big
    Time := bigUint64 (inputs 5).Big }

/-- Lines 67-72 and 85-89 of `cmd/minierigon/main.go`: the preimage of
`InputHash()` split in six words and decoded. -/
def readInputs (s : OracleState) : Option ReplayHeader :=
  match Preimage (InputHash s) s with
  | .fail _ _ => none
  | .ok inputBytes _ => (splitInputs inputBytes).map replayHeader

/-- The input vector `commitBlock` leaves in `inputs`. -/
def inputsOf (blockHeader : Header) (inputs : Fin 6 → Hash) : Fin 6 → Hash :=
  arrSet (arrSet (arrSet (arrSet (arrSet inputs 1 blockHeader.TxHash) 2 blockHeader.Coinbase.Hash)
    3 blockHeader.UncleHash) 4 (BigToHash (toInt64 blockHeader.GasLimit)))
    5 (BigToHash (toInt64 blockHeader.Time))

/-- The 192 bytes of the input vector, word after word. -/
def inputVector (s : OracleState) : Bytes :=
  (s.inputs 0).bytes ++ (s.inputs 1).bytes ++ (s.inputs 2).bytes ++ (s.inputs 3).bytes ++
    (s.inputs 4).bytes ++ (s.inputs 5).bytes

/-! ## A small environment for concrete runs

A node that holds two blocks, number 5 and its child number 6, with no
transactions and no uncles, and one account proof of two nodes. The request
body is the method followed by the first parameter, and the node is asked
through `httpPost`, which answers a request with the request itself: the
decoders read the answer off it. -/

namespace Toy

/-- The bytes of an ASCII text. -/
def ascii (t : String) : Bytes := t.data.map (fun c => Fin.ofNat c.toNat)

/-- A hash with every byte equal to `b`. -/
def fill (b : Byte) : Hash := ⟨List.replicate 32 b, by simp⟩

/-- The parent block, number 5. -/
def parent : Header :=
  { ParentHash := fill 1, UncleHash := Hash.zero, Coinbase := ⟨List.replicate 20 7, by simp⟩,
    Root := fill 2, TxHash := Hash.zero, ReceiptHash := fill 3, Bloom := [],
    Difficulty := some 2, Number := some 5, GasLimit := 30000000, GasUsed := 0,
    Time := 1700000000, Extra := [], MixDigest := Hash.zero, Nonce := List.replicate 8 0,
    BaseFee := none }

/-- The encoding of a header: its number, then its state root. -/
def rlpHeader (h : Header) : Option Bytes :=
  some (Fin.ofNat (h.Number.getD 0) :: h.Root.bytes)

/-- The hash of the parent block (see `keccak256` below). -/
def parentHash : Hash := BytesToHash (((rlpHeader parent).getD []).take 31)

/-- The child block, number 6. -/
def child : Header :=
  { ParentHash := parentHash, UncleHash := Hash.zero, Coinbase := ⟨List.replicate 20 9, by simp⟩,
    Root := fill 4, TxHash := Hash.zero, ReceiptHash := fill 5, Bloom := [],
    Difficulty := some 2, Number := some 6, GasLimit := 30000000, GasUsed := 0,
    Time := 1700000012, Extra := [], MixDigest := Hash.zero, Nonce := List.replicate 8 0,
    BaseFee := none }

/-- A stand-in for Keccak-256: the first 31 bytes of the text, as a hash. -/
def keccak256 (b : Bytes) : Hash := BytesToHash (b.take 31)

/-- The response that decodes to `h`. -/
def apiHeader (h : Header) (txs : List SendTxArgs) : ApiHeader :=
  { ParentHash := some h.ParentHash, UncleHash := some h.UncleHash, Coinbase := some h.Coinbase,
    Root := some h.Root, TxHash := some h.TxHash, ReceiptHash := some h.ReceiptHash,
    Bloom := some h.Bloom, Difficulty := h.Difficulty, Number := h.Number,
    GasLimit := some h.GasLimit, GasUsed := some h.GasUsed, Time := some h.Time,
    Extra := some h.Extra, MixDigest := some h.MixDigest, Nonce := some h.Nonce,
    BaseFee := h.BaseFee, Transactions := txs }

/-- The request body: the method and the first parameter when it is text. -/
def jsonMarshal (r : jsonreq) : Bytes :=
  ascii r.Method ++
    match r.Params with
    | .str t :: _ => ascii t
    | _ => []

/-- The two proof nodes of the account proof, as the node sends them. -/
def proofNodes : List Bytes := [ascii "0xc0", ascii "0x8180"]

/-- A node whose block 6 is `c` with the transactions `txs`. -/
def node (c : Header) (txs : List SendTxArgs) : Env :=
  { keccak256 := keccak256
    rlpHeader := rlpHeader
    rlpHeaders := fun us => us.flatMap (fun h => (rlpHeader h).getD [])
    headerHash := fun h => keccak256 ((rlpHeader h).getD [])
    deriveSha := fun ts => BytesToHash (ts.map (fun _ => (1 : Byte)))
    jsonMarshal := jsonMarshal
    decodeBlock := fun body =>
      if body = ascii "eth_getBlockByNumber0x5" then some (apiHeader parent [])
      else if body = ascii "eth_getBlockByNumber0x6" then some (apiHeader c txs)
      else none
    reportedHash := fun _ => some (fill 170)
    decodeProof := fun body =>
      if body = ascii "eth_getProof" then
        { value :=
            { AccountResult.zero with
              AccountProof := proofNodes
              StorageProof := [{ Key := ascii "0x00", Value := none, Proof := proofNodes }] }
          err := false }
      else { value := AccountResult.zero, err := true }
    decodeString := fun body =>
      if body = ascii "eth_getCode" then { value := ascii "0x6001", err := false }
      else { value := [], err := true }
    decodeCount := fun _ => some 0
    httpPost := fun _ req => some req
    addrString := fun a => hexEncode a.bytes }

/-- The environment with the child block `child`. -/
def env : Env := node child []

/-- A child block whose gas limit and timestamp have their top bit set. -/
def bigChild : Header :=
  { child with GasLimit := 18446744073709551615, Time := 18446744073709551614 }

/-- A child block whose transactions root is not the root of its (empty)
transaction list. -/
def badTxChild : Header := { child with TxHash := fill 9 }

/-- A child block whose uncle hash is not the hash of its (empty) uncle list. -/
def badUncleChild : Header := { child with UncleHash := fill 9 }

/-- The run directory. -/
def dir : String := "/tmp/cannon/0_5"

/-- The state after the parent block has been recorded as the start block. -/
def started : OracleState := (PrefetchBlock env 5 true (OracleState.fresh dir)).state

end Toy

/-! ## Predicates and helpers of the statements -/

/-- Every entry `(h, v)` of the map satisfies `keccak256(v) = h`. -/
def StoreOk (E : Env) (m : Hash → Option Bytes) : Prop :=
  ∀ h v, m h = some v → E.keccak256 v = h

/-- The map of new preimages that the call `PrefetchAccount(blockNumber, addr,
postProcess)` made in state `s` hands to `postProcess`; `none` when the call
does not get to the callback (the key is fetched already, or the call
panics before). -/
def handedAccount (E : Env) (blockNumber : Int) (addr : Address) (s : OracleState) :
    Option (Hash → Option Bytes) :=
  if s.cached (accountKey E blockNumber addr) then none
  else
    match getProofAccount E blockNumber addr Hash.zero false
        (markFetched s (accountKey E blockNumber addr)) with
    | .fail _ _ => none
    | .ok ap _ => collectPreimages E ap (fun _ => none)

/-- The map of new preimages that the call `PrefetchStorage(blockNumber, addr,
skey, postProcess)` made in state `s` hands to `postProcess`; `none` when the
call does not get to the callback. -/
def handedStorage (E : Env) (blockNumber : Int) (addr : Address) (skey : Hash)
    (s : OracleState) : Option (Hash → Option Bytes) :=
  if s.cached (storageKey E blockNumber addr skey) then none
  else
    match getProofAccount E blockNumber addr skey true
        (markFetched s (storageKey E blockNumber addr skey)) with
    | .fail _ _ => none
    | .ok ap _ => collectPreimages E ap (fun _ => none)

/-- The callback `postProcess` is nil, or it leaves every entry `(h, v)` of
the map `handed`, the one it is handed in the call, with `keccak256(v) = h`.
Nothing is asked of what it does to any other map. -/
def PostOk (E : Env) (postProcess : Option ((Hash → Option Bytes) → (Hash → Option Bytes)))
    (handed : Option (Hash → Option Bytes)) : Prop :=
  ∀ f m, postProcess = some f → handed = some m → StoreOk E (f m)

/-- The encoding of the uncle list that the second-block call fetches for
`child` is not a second Keccak-256 preimage of the input commitment. -/
def NoUncleCollision (E : Env) (blockNumber : Int) (s : OracleState) (child : Header) : Prop :=
  ∀ uncles,
    (fetchUncleList E (E.headerHash child)
      (commitBlock E child (fetchBlock E blockNumber s).state)).value = some uncles →
    E.keccak256 (E.rlpHeaders uncles) = E.keccak256 (concatHashes (inputsOf child s.inputs)) →
    E.rlpHeaders uncles = concatHashes (inputsOf child s.inputs)

/-- The environment `E` with another reported block hash. -/
def withReportedHash (E : Env) (reported : Bytes → Option Hash) : Env :=
  { E with reportedHash := reported }

/-- The request `PrefetchBlock` sends for block 5 or 6 in the small
environment. -/
def Toy.blockRequest (n : Int) : Bytes :=
  Toy.env.jsonMarshal
    { Jsonrpc := "2.0", Method := "eth_getBlockByNumber",
      Params := [.str (sprintf0x (bigInt64 n)), .bool true], Id := 1 }

/-! ## Frame lemmas -/

/-- A cache file is neither the input file nor the output file. -/
theorem toFilename_ne_input (s : OracleState) (key : String) :
    s.root ++ "/input" ≠ toFilename s key := by
  unfold toFilename
  intro h
  have h2 := congrArg String.data h
  simp [String.data_append] at h2

theorem toFilename_ne_output (s : OracleState) (key : String) :
    s.root ++ "/output" ≠ toFilename s key := by
  unfold toFilename
  intro h
  have h2 := congrArg String.data h
  simp [String.data_append] at h2

theorem input_ne_output (root : String) : root ++ "/input" ≠ root ++ "/output" := by
  intro h
  have h2 := congrArg String.data h
  simp [String.data_append] at h2

/-- The state `t` differs from `s` at most in the cache files and in the
log of posted requests. -/
structure CacheOnly (s t : OracleState) : Prop where
  preimages : t.preimages = s.preimages
  cached : t.cached = s.cached
  unhashMap : t.unhashMap = s.unhashMap
  inputhash : t.inputhash = s.inputhash
  inputs : t.inputs = s.inputs
  outputs : t.outputs = s.outputs
  root : t.root = s.root
  inputFile : t.files (s.root ++ "/input") = s.files (s.root ++ "/input")
  outputFile : t.files (s.root ++ "/output") = s.files (s.root ++ "/output")

theorem CacheOnly.refl (s : OracleState) : CacheOnly s s :=
  ⟨rfl, rfl, rfl, rfl, rfl, rfl, rfl, rfl, rfl⟩

theorem CacheOnly.trans {s t u : OracleState} (h1 : CacheOnly s t) (h2 : CacheOnly t u) :
    CacheOnly s u := by
  refine ⟨h2.preimages.trans h1.preimages, h2.cached.trans h1.cached,
    h2.unhashMap.trans h1.unhashMap, h2.inputhash.trans h1.inputhash,
    h2.inputs.trans h1.inputs, h2.outputs.trans h1.outputs, h2.root.trans h1.root, ?_, ?_⟩
  · have := h2.inputFile
    rw [h1.root] at this
    exact this.trans h1.inputFile
  · have := h2.outputFile
    rw [h1.root] at this
    exact this.trans h1.outputFile

theorem getAPI_cacheOnly (E : Env) (jsonData : Bytes) (s : OracleState) :
    CacheOnly s (getAPI E jsonData s).state := by
  unfold getAPI
  simp only
  split
  · unfold cacheRead
    split <;> exact CacheOnly.refl s
  · split
    · exact ⟨rfl, rfl, rfl, rfl, rfl, rfl, rfl, rfl, rfl⟩
    · refine ⟨rfl, rfl, rfl, rfl, rfl, rfl, rfl, ?_, ?_⟩
      · simp only [Res.state, cacheWrite, writeFile]
        rw [if_neg]
        exact toFilename_ne_input _ _
      · simp only [Res.state, cacheWrite, writeFile]
        rw [if_neg]
        exact toFilename_ne_output _ _

theorem fetchBlock_cacheOnly (E : Env) (blockNumber : Int) (s : OracleState) :
    CacheOnly s (fetchBlock E blockNumber s).state := by
  unfold fetchBlock
  simp only
  generalize hreq : E.jsonMarshal _ = req
  have h := getAPI_cacheOnly E req s
  cases hg : getAPI E req s with
  | fail f s1 => rw [hg] at h; exact h
  | ok body s1 =>
    rw [hg] at h
    simp only
    split
    · exact h
    · split <;> exact h

theorem fetchUncles_cacheOnly (E : Env) (blockHash : Hash) (n : Nat) :
    ∀ (u : Nat) (uncles : List Header) (s : OracleState),
      CacheOnly s (fetchUncles E blockHash n u uncles s).state := by
  induction n with
  | zero => intro u uncles s; exact CacheOnly.refl s
  | succ n ih =>
    intro u uncles s
    unfold fetchUncles
    simp only
    generalize hreq : E.jsonMarshal _ = req
    have h := getAPI_cacheOnly E req s
    cases hg : getAPI E req s with
    | fail f s1 => rw [hg] at h; exact h
    | ok body s1 =>
      rw [hg] at h
      simp only
      split
      · exact h
      · split
        · exact h
        · exact h.trans (ih _ _ _)

theorem finRange_six : List.finRange 6 = [0, 1, 2, 3, 4, 5] := by decide

theorem finRange_two : List.finRange 2 = [0, 1] := by decide

/-- The six-word loop produces the words one after the other. -/
theorem concatHashes_six (a : Fin 6 → Hash) :
    concatHashes a =
      (a 0).bytes ++ (a 1).bytes ++ (a 2).bytes ++ (a 3).bytes ++ (a 4).bytes ++ (a 5).bytes := by
  simp [concatHashes, finRange_six]

theorem concatHashes_two (a : Fin 2 → Hash) :
    concatHashes a = (a 0).bytes ++ (a 1).bytes := by
  simp [concatHashes, finRange_two]

theorem concatHashes_six_length (a : Fin 6 → Hash) : (concatHashes a).length = 192 := by
  rw [concatHashes_six]
  simp [Hash.size]

theorem concatHashes_two_length (a : Fin 2 → Hash) : (concatHashes a).length = 64 := by
  rw [concatHashes_two]
  simp [Hash.size]

theorem commitBlock_inputs (E : Env) (h : Header) (s : OracleState) :
    (commitBlock E h s).inputs = inputsOf h s.inputs := rfl

theorem commitBlock_inputhash (E : Env) (h : Header) (s : OracleState) :
    (commitBlock E h s).inputhash = E.keccak256 (concatHashes (inputsOf h s.inputs)) := rfl

theorem commitBlock_root (E : Env) (h : Header) (s : OracleState) :
    (commitBlock E h s).root = s.root := rfl

theorem commitBlock_preimages (E : Env) (h : Header) (s : OracleState) :
    (commitBlock E h s).preimages =
      mapSet s.preimages (E.keccak256 (concatHashes (inputsOf h s.inputs)))
        (concatHashes (inputsOf h s.inputs)) := rfl

theorem commitBlock_outputs (E : Env) (h : Header) (s : OracleState) :
    (commitBlock E h s).outputs = arrSet (arrSet s.outputs 0 h.Root) 1 h.ReceiptHash := rfl

theorem commitBlock_inputFile (E : Env) (h : Header) (s : OracleState) :
    (commitBlock E h s).files (s.root ++ "/input") =
      some (E.keccak256 (concatHashes (inputsOf h s.inputs))).bytes := by
  simp [commitBlock, writeFile, input_ne_output, inputsOf]

theorem commitBlock_outputFile (E : Env) (h : Header) (s : OracleState) :
    (commitBlock E h s).files (s.root ++ "/output") =
      some (concatHashes (arrSet (arrSet s.outputs 0 h.Root) 1 h.ReceiptHash)) := by
  simp [commitBlock, writeFile]

/-- What `prefetchUncles` and `checkBlock` leave alone: everything but the
cache files, the log of requests and the one entry of the preimage store
under the uncle hash. -/
structure UnclesFrame (E : Env) (uncleHash : Hash) (s t : OracleState) : Prop where
  cached : t.cached = s.cached
  unhashMap : t.unhashMap = s.unhashMap
  inputhash : t.inputhash = s.inputhash
  inputs : t.inputs = s.inputs
  outputs : t.outputs = s.outputs
  root : t.root = s.root
  inputFile : t.files (s.root ++ "/input") = s.files (s.root ++ "/input")
  outputFile : t.files (s.root ++ "/output") = s.files (s.root ++ "/output")
  preimagesOther : ∀ h, h ≠ uncleHash → t.preimages h = s.preimages h
  preimagesAt : t.preimages uncleHash = s.preimages uncleHash ∨
    ∃ v, t.preimages uncleHash = some v ∧ E.keccak256 v = uncleHash

theorem CacheOnly.unclesFrame {s t : OracleState} (E : Env) (uncleHash : Hash)
    (h : CacheOnly s t) : UnclesFrame E uncleHash s t :=
  ⟨h.cached, h.unhashMap, h.inputhash, h.inputs, h.outputs, h.root, h.inputFile, h.outputFile,
    fun _ _ => by rw [h.preimages], Or.inl (by rw [h.preimages])⟩

theorem fetchUncleList_cacheOnly (E : Env) (blockHash : Hash) (s : OracleState) :
    CacheOnly s (fetchUncleList E blockHash s).state := by
  unfold fetchUncleList
  simp only
  generalize hreq : E.jsonMarshal _ = req
  have h := getAPI_cacheOnly E req s
  cases hg : getAPI E req s with
  | fail f s1 => rw [hg] at h; exact h
  | ok body s1 =>
    rw [hg] at h
    simp only
    split
    · exact h
    · exact h.trans (fetchUncles_cacheOnly E blockHash _ 0 [] s1)

theorem prefetchUncles_frame (E : Env) (blockHash uncleHash : Hash) (s : OracleState) :
    UnclesFrame E uncleHash s (prefetchUncles E blockHash uncleHash s).state := by
  unfold prefetchUncles
  have h3 := fetchUncleList_cacheOnly E blockHash s
  cases hf : fetchUncleList E blockHash s with
  | fail f s2 => rw [hf] at h3; exact h3.unclesFrame E uncleHash
  | ok uncles s2 =>
    rw [hf] at h3
    simp only
    split
    · exact h3.unclesFrame E uncleHash
    · rename_i heq
      have heq2 : E.keccak256 (E.rlpHeaders uncles) = uncleHash := by
        by_contra hne
        exact heq hne
      refine ⟨h3.cached, h3.unhashMap, h3.inputhash, h3.inputs, h3.outputs, h3.root,
        h3.inputFile, h3.outputFile, ?_, ?_⟩
      · intro k hk
        simp only [Res.state, mapSet]
        rw [if_neg (by rw [heq2]; exact hk)]
        exact congrFun h3.preimages k
      · right
        refine ⟨E.rlpHeaders uncles, ?_, heq2⟩
        simp [Res.state, mapSet, heq2]

theorem checkBlock_frame (E : Env) (jr : ApiHeader) (blockHeader : Header) (s : OracleState) :
    UnclesFrame E blockHeader.UncleHash s (checkBlock E jr blockHeader s).state := by
  unfold checkBlock
  split
  · exact (CacheOnly.refl s).unclesFrame E _
  · simp only
    split
    · exact (CacheOnly.refl s).unclesFrame E _
    · exact prefetchUncles_frame E _ _ s

theorem fetchBlock_of_value {E : Env} {blockNumber : Int} {s : OracleState} {jr : ApiHeader}
    {blockHeader : Header} (h : (fetchBlock E blockNumber s).value = some (jr, blockHeader)) :
    fetchBlock E blockNumber s = .ok (jr, blockHeader) (fetchBlock E blockNumber s).state := by
  cases hf : fetchBlock E blockNumber s with
  | fail f s1 => rw [hf] at h; simp [Res.value] at h
  | ok a s1 =>
    rw [hf] at h
    simp only [Res.value, Option.some.injEq] at h
    rw [h]
    rfl

/-- The second-block call on a header that passes the linkage check: the
commitment is written, then the transactions and uncles are checked. -/
theorem PrefetchBlock_child {E : Env} {blockNumber : Int} {s : OracleState} {jr : ApiHeader}
    {blockHeader : Header} (h : (fetchBlock E blockNumber s).value = some (jr, blockHeader))
    (hlink : blockHeader.ParentHash = s.inputs 0) :
    PrefetchBlock E blockNumber false s =
      checkBlock E jr blockHeader (commitBlock E blockHeader (fetchBlock E blockNumber s).state) := by
  have hc := fetchBlock_cacheOnly E blockNumber s
  unfold PrefetchBlock
  cases hf : fetchBlock E blockNumber s with
  | fail f s1 => rw [hf] at h; simp [Res.value] at h
  | ok a s1 =>
    rw [hf] at h hc
    simp only [Res.value, Option.some.injEq] at h
    subst h
    simp only [Res.state] at hc
    simp only [Bool.false_eq_true, if_false, Res.state]
    rw [if_neg]
    rw [hc.inputs]
    exact fun hne => hne hlink

/-- The second-block call on a header that fails the linkage check. -/
theorem PrefetchBlock_mismatch {E : Env} {blockNumber : Int} {s : OracleState} {jr : ApiHeader}
    {blockHeader : Header} (h : (fetchBlock E blockNumber s).value = some (jr, blockHeader))
    (hlink : blockHeader.ParentHash ≠ s.inputs 0) :
    PrefetchBlock E blockNumber false s =
      .fail (.panic "block transition isn\x27t correct") (fetchBlock E blockNumber s).state := by
  have hc := fetchBlock_cacheOnly E blockNumber s
  unfold PrefetchBlock
  cases hf : fetchBlock E blockNumber s with
  | fail f s1 => rw [hf] at h; simp [Res.value] at h
  | ok a s1 =>
    rw [hf] at h hc
    simp only [Res.value, Option.some.injEq] at h
    subst h
    simp only [Res.state] at hc
    simp only [Bool.false_eq_true, if_false, Res.state]
    rw [if_pos]
    rw [hc.inputs]
    exact hlink

/-- What `prefetchUncles` leaves under a key of the preimage store: the old
entry, or the encoding of the fetched uncle list when the key is its hash. -/
theorem prefetchUncles_preimages (E : Env) (blockHash uncleHash : Hash) (s : OracleState)
    (k : Hash) :
    (prefetchUncles E blockHash uncleHash s).state.preimages k = s.preimages k ∨
    ∃ uncles, (fetchUncleList E blockHash s).value = some uncles ∧
      E.keccak256 (E.rlpHeaders uncles) = k ∧
      (prefetchUncles E blockHash uncleHash s).state.preimages k =
        some (E.rlpHeaders uncles) := by
  unfold prefetchUncles
  have h3 := fetchUncleList_cacheOnly E blockHash s
  cases hf : fetchUncleList E blockHash s with
  | fail f s2 =>
    rw [hf] at h3
    left
    exact congrFun h3.preimages k
  | ok uncles s2 =>
    rw [hf] at h3
    simp only
    split
    · left
      exact congrFun h3.preimages k
    · by_cases hk : k = E.keccak256 (E.rlpHeaders uncles)
      · right
        refine ⟨uncles, rfl, hk.symm, ?_⟩
        simp [Res.state, mapSet, hk]
      · left
        simp only [Res.state, mapSet]
        rw [if_neg hk]
        exact congrFun h3.preimages k

theorem checkBlock_preimages (E : Env) (jr : ApiHeader) (blockHeader : Header)
    (s : OracleState) (k : Hash) :
    (checkBlock E jr blockHeader s).state.preimages k = s.preimages k ∨
    ∃ uncles, (fetchUncleList E (E.headerHash blockHeader) s).value = some uncles ∧
      E.keccak256 (E.rlpHeaders uncles) = k ∧
      (checkBlock E jr blockHeader s).state.preimages k = some (E.rlpHeaders uncles) := by
  unfold checkBlock
  split
  · left; rfl
  · simp only
    split
    · left; rfl
    · exact prefetchUncles_preimages E _ _ s k

/-- The input vector a second-block call ends with, as 192 bytes. -/
theorem PrefetchBlock_inputVector {E : Env} {blockNumber : Int} {s : OracleState}
    {jr : ApiHeader} {child : Header}
    (hfetch : (fetchBlock E blockNumber s).value = some (jr, child))
    (hlink : child.ParentHash = s.inputs 0) :
    inputVector (PrefetchBlock E blockNumber false s).state =
      concatHashes (inputsOf child s.inputs) := by
  have hc := fetchBlock_cacheOnly E blockNumber s
  rw [PrefetchBlock_child hfetch hlink]
  have hfr := checkBlock_frame E jr child (commitBlock E child (fetchBlock E blockNumber s).state)
  rw [concatHashes_six, ← hc.inputs, ← commitBlock_inputs E, ← hfr.inputs]
  rfl

/-- The preimage stored under the input hash after a second-block call on a
header that passes the linkage check. -/
theorem PrefetchBlock_input_preimage {E : Env} {blockNumber : Int} {s : OracleState}
    {jr : ApiHeader} {child : Header}
    (hfetch : (fetchBlock E blockNumber s).value = some (jr, child))
    (hlink : child.ParentHash = s.inputs 0)
    (hcoll : NoUncleCollision E blockNumber s child) :
    (PrefetchBlock E blockNumber false s).state.preimages
        (E.keccak256 (concatHashes (inputsOf child s.inputs))) =
      some (concatHashes (inputsOf child s.inputs)) := by
  have hc := fetchBlock_cacheOnly E blockNumber s
  unfold NoUncleCollision at hcoll
  rw [PrefetchBlock_child hfetch hlink]
  rw [← hc.inputs] at hcoll ⊢
  generalize (fetchBlock E blockNumber s).state = s1 at hc hcoll ⊢
  have hc1 : (commitBlock E child s1).preimages
      (E.keccak256 (concatHashes (inputsOf child s1.inputs))) =
        some (concatHashes (inputsOf child s1.inputs)) := by
    rw [commitBlock_preimages]
    simp [mapSet]
  rcases checkBlock_preimages E jr child (commitBlock E child s1)
      (E.keccak256 (concatHashes (inputsOf child s1.inputs))) with h1 | ⟨uncles, hu, hk, hv⟩
  · rw [h1]; exact hc1
  · rw [hv, hcoll uncles hu hk]

/-! ## The claims -/

/-- C1: for a child header that passes the linkage check, after
`PrefetchBlock(child, false)` the six words of `inputs` make 192 bytes,
`InputHash()` is the Keccak-256 hash of these 192 bytes, the preimage store
maps that hash to exactly these bytes, and the file `<root>/input` holds the
32 bytes of the hash. This holds in the state the call ends in, whether it
returns or fails in the later checks. The encoding of the uncle list, which
the same call stores afterwards under its own hash, is taken not to be a
second Keccak-256 preimage of the commitment. -/
theorem C1_input_commitment (E : Env) (blockNumber : Int) (s : OracleState) (jr : ApiHeader)
    (child : Header)
    (hfetch : (fetchBlock E blockNumber s).value = some (jr, child))
    (hlink : child.ParentHash = s.inputs 0)
    (hcoll : NoUncleCollision E blockNumber s child) :
    (inputVector (PrefetchBlock E blockNumber false s).state).length = 192 ∧
    InputHash (PrefetchBlock E blockNumber false s).state =
      E.keccak256 (inputVector (PrefetchBlock E blockNumber false s).state) ∧
    (PrefetchBlock E blockNumber false s).state.preimages
        (InputHash (PrefetchBlock E blockNumber false s).state) =
      some (inputVector (PrefetchBlock E blockNumber false s).state) ∧
    (PrefetchBlock E blockNumber false s).state.files
        ((PrefetchBlock E blockNumber false s).state.root ++ "/input") =
      some (InputHash (PrefetchBlock E blockNumber false s).state).bytes ∧
    (InputHash (PrefetchBlock E blockNumber false s).state).bytes.length = 32 := by
  have hvec := PrefetchBlock_inputVector hfetch hlink
  have hpre := PrefetchBlock_input_preimage hfetch hlink hcoll
  have hc := fetchBlock_cacheOnly E blockNumber s
  have hfr := checkBlock_frame E jr child (commitBlock E child (fetchBlock E blockNumber s).state)
  rw [← PrefetchBlock_child hfetch hlink] at hfr
  have hhash : InputHash (PrefetchBlock E blockNumber false s).state =
      E.keccak256 (inputVector (PrefetchBlock E blockNumber false s).state) := by
    rw [hvec]
    unfold InputHash
    rw [hfr.inputhash, commitBlock_inputhash, hc.inputs]
  have hif : (PrefetchBlock E blockNumber false s).state.files
      ((fetchBlock E blockNumber s).state.root ++ "/input") =
      (commitBlock E child (fetchBlock E blockNumber s).state).files
        ((fetchBlock E blockNumber s).state.root ++ "/input") := hfr.inputFile
  refine ⟨?_, hhash, ?_, ?_, (InputHash _).size⟩
  · rw [hvec]; exact concatHashes_six_length _
  · rw [hhash, hvec]; exact hpre
  · rw [hfr.root, commitBlock_root, hif, commitBlock_inputFile, hhash, hvec, hc.inputs]

/-- The small environment has no uncles, and the hash of the empty uncle
list is not the input commitment of its child block. -/
theorem Toy.noUncleCollision : NoUncleCollision Toy.env 6 Toy.started Toy.child := by
  intro uncles hu hk
  have hnil : uncles = [] := by
    have h0 : (fetchUncleList Toy.env (Toy.env.headerHash Toy.child)
        (commitBlock Toy.env Toy.child (fetchBlock Toy.env 6 Toy.started).state)).value =
        some [] := by decide
    rw [h0] at hu
    simp only [Option.some.injEq] at hu
    exact hu.symm
  subst hnil
  revert hk
  decide

/-- C1 at the child block of the small environment. -/
theorem C1_input_commitment_witness :
    (fetchBlock Toy.env 6 Toy.started).value = some (Toy.apiHeader Toy.child [], Toy.child) ∧
    Toy.child.ParentHash = Toy.started.inputs 0 ∧
    InputHash (PrefetchBlock Toy.env 6 false Toy.started).state =
      Toy.env.keccak256 (inputVector (PrefetchBlock Toy.env 6 false Toy.started).state) ∧
    (PrefetchBlock Toy.env 6 false Toy.started).state.preimages
        (InputHash (PrefetchBlock Toy.env 6 false Toy.started).state) =
      some (inputVector (PrefetchBlock Toy.env 6 false Toy.started).state) :=
  have h := C1_input_commitment Toy.env 6 Toy.started (Toy.apiHeader Toy.child []) Toy.child
    (by decide) (by decide) Toy.noUncleCollision
  ⟨by decide, by decide, h.2.1, h.2.2.1⟩

/-- The start-block call once the header is fetched. -/
theorem PrefetchBlock_start {E : Env} {blockNumber : Int} {s : OracleState} {jr : ApiHeader}
    {blockHeader : Header} (h : (fetchBlock E blockNumber s).value = some (jr, blockHeader)) :
    PrefetchBlock E blockNumber true s =
      startBlockStep E blockHeader (fetchBlock E blockNumber s).state := by
  unfold PrefetchBlock
  cases hf : fetchBlock E blockNumber s with
  | fail f s1 => rw [hf] at h; simp [Res.value] at h
  | ok a s1 =>
    rw [hf] at h
    simp only [Res.value, Option.some.injEq] at h
    subst h
    simp [Res.state]

/-- The input vector in the state a second-block call ends in, for a header
that passes the linkage check: word 0 is kept and words 1 to 5 are taken from
the header. -/
theorem PrefetchBlock_inputs {E : Env} {blockNumber : Int} {s : OracleState} {jr : ApiHeader}
    {child : Header} (hfetch : (fetchBlock E blockNumber s).value = some (jr, child))
    (hlink : child.ParentHash = s.inputs 0) :
    (PrefetchBlock E blockNumber false s).state.inputs = inputsOf child s.inputs := by
  have hc := fetchBlock_cacheOnly E blockNumber s
  rw [PrefetchBlock_child hfetch hlink, (checkBlock_frame E jr child _).inputs,
    commitBlock_inputs, hc.inputs]

/-- The start marker after a start-block call on a fresh oracle. -/
theorem PrefetchBlock_start_fresh {E : Env} {blockNumber : Int} {root : String} {jr : ApiHeader}
    {parent : Header} {enc : Bytes}
    (hfetch : (fetchBlock E blockNumber (OracleState.fresh root)).value = some (jr, parent))
    (hrlp : E.rlpHeader parent = some enc) :
    (PrefetchBlock E blockNumber true (OracleState.fresh root)).failure = none ∧
    (PrefetchBlock E blockNumber true (OracleState.fresh root)).state.inputs 0 =
      E.keccak256 enc := by
  have hc := fetchBlock_cacheOnly E blockNumber (OracleState.fresh root)
  rw [PrefetchBlock_start hfetch]
  generalize (fetchBlock E blockNumber (OracleState.fresh root)).state = s1 at hc ⊢
  unfold startBlockStep
  rw [hrlp]
  have h0 : s1.inputs 0 = Hash.zero := by rw [hc.inputs]; rfl
  simp [h0, Res.failure, Res.state, arrSet]

/-- The input vector after the start-block call on the parent and the
second-block call on the child, from a fresh oracle: the six words as the
code computes them. The gas limit and the timestamp go through `int64`. -/
theorem input_vector_of_transition (E : Env) (root : String) (numP numC : Int)
    (jrP jrC : ApiHeader) (P C : Header) (enc : Bytes)
    (hP : (fetchBlock E numP (OracleState.fresh root)).value = some (jrP, P))
    (hrlp : E.rlpHeader P = some enc)
    (hC : (fetchBlock E numC (PrefetchBlock E numP true (OracleState.fresh root)).state).value =
      some (jrC, C))
    (hlink : C.ParentHash = E.keccak256 enc) :
    (PrefetchBlock E numC false (PrefetchBlock E numP true (OracleState.fresh root)).state).state.inputs
      = fun i => [E.keccak256 enc, C.TxHash, C.Coinbase.Hash, C.UncleHash,
          BigToHash (toInt64 C.GasLimit), BigToHash (toInt64 C.Time)].getD i.val Hash.zero := by
  have h0 := (PrefetchBlock_start_fresh hP hrlp).2
  rw [PrefetchBlock_inputs hC (hlink.trans h0.symm)]
  funext i
  fin_cases i <;> simp [inputsOf, arrSet, h0]

/-- C2 (failing input): the parent block 5 and a child block 6 whose gas
limit is `2^64 - 1` and whose timestamp is `2^64 - 2`. The child links to the
parent and both calls return normally, yet word 4 of the input vector is the
word of 1 and word 5 the word of 2, not the words of the gas limit and of the
timestamp. -/
theorem C2_gas_limit_word_wraps :
    Toy.bigChild.ParentHash =
      (Toy.node Toy.bigChild []).keccak256 (((Toy.node Toy.bigChild []).rlpHeader Toy.parent).getD []) ∧
    (PrefetchBlock (Toy.node Toy.bigChild []) 6 false
      (PrefetchBlock (Toy.node Toy.bigChild []) 5 true (OracleState.fresh Toy.dir)).state).failure
      = none ∧
    (PrefetchBlock (Toy.node Toy.bigChild []) 6 false
      (PrefetchBlock (Toy.node Toy.bigChild []) 5 true (OracleState.fresh Toy.dir)).state).state.inputs 4
      = BigToHash 1 ∧
    BigToHash 1 ≠ BigToHash (Toy.bigChild.GasLimit : Nat) ∧
    (PrefetchBlock (Toy.node Toy.bigChild []) 6 false
      (PrefetchBlock (Toy.node Toy.bigChild []) 5 true (OracleState.fresh Toy.dir)).state).state.inputs 5
      = BigToHash 2 ∧
    BigToHash 2 ≠ BigToHash (Toy.bigChild.Time : Nat) := by
  refine ⟨by decide, by decide, by decide, by decide, by decide, by decide⟩

/-- C3: for a child header that passes the linkage check,
`PrefetchBlock(child, false)` leaves `outputs = [child.Root, child.ReceiptHash]`
and the file `<root>/output` holds the 64 bytes `child.Root ++ child.ReceiptHash`
themselves. This holds in the state the call ends in, whether it returns or
fails in the later checks. -/
theorem C3_output_vector (E : Env) (blockNumber : Int) (s : OracleState) (jr : ApiHeader)
    (child : Header)
    (hfetch : (fetchBlock E blockNumber s).value = some (jr, child))
    (hlink : child.ParentHash = s.inputs 0) :
    (PrefetchBlock E blockNumber false s).state.outputs 0 = child.Root ∧
    (PrefetchBlock E blockNumber false s).state.outputs 1 = child.ReceiptHash ∧
    (PrefetchBlock E blockNumber false s).state.files
        ((PrefetchBlock E blockNumber false s).state.root ++ "/output") =
      some (child.Root.bytes ++ child.ReceiptHash.bytes) ∧
    (child.Root.bytes ++ child.ReceiptHash.bytes).length = 64 := by
  have hc := fetchBlock_cacheOnly E blockNumber s
  rw [PrefetchBlock_child hfetch hlink]
  generalize (fetchBlock E blockNumber s).state = s1 at hc ⊢
  have hfr := checkBlock_frame E jr child (commitBlock E child s1)
  generalize (checkBlock E jr child (commitBlock E child s1)).state = t at hfr ⊢
  have hof : t.files (s1.root ++ "/output") =
      (commitBlock E child s1).files (s1.root ++ "/output") := hfr.outputFile
  refine ⟨?_, ?_, ?_, ?_⟩
  · rw [hfr.outputs, commitBlock_outputs]; simp [arrSet]
  · rw [hfr.outputs, commitBlock_outputs]; simp [arrSet]
  · rw [hfr.root, commitBlock_root, hof, commitBlock_outputFile, concatHashes_two]
    simp [arrSet]
  · simp [Hash.size]

/-- C3 at the child block of the small environment. -/
theorem C3_output_vector_witness :
    (fetchBlock Toy.env 6 Toy.started).value = some (Toy.apiHeader Toy.child [], Toy.child) ∧
    Toy.child.ParentHash = Toy.started.inputs 0 ∧
    (PrefetchBlock Toy.env 6 false Toy.started).state.files
        ((PrefetchBlock Toy.env 6 false Toy.started).state.root ++ "/output") =
      some (Toy.child.Root.bytes ++ Toy.child.ReceiptHash.bytes) :=
  ⟨by decide, by decide,
    (C3_output_vector Toy.env 6 Toy.started (Toy.apiHeader Toy.child []) Toy.child
      (by decide) (by decide)).2.2.1⟩

/-- C4: for a child header whose `ParentHash` differs from the start marker
`inputs[0]`, `PrefetchBlock(child, false)` panics with "block transition
isn't correct", and in the state it fails in the input file and the output
file are what they were before the call, as are `inputs`, `outputs`,
`inputhash` and the preimage store. -/
theorem C4_linkage_mismatch (E : Env) (blockNumber : Int) (s : OracleState) (jr : ApiHeader)
    (child : Header)
    (hfetch : (fetchBlock E blockNumber s).value = some (jr, child))
    (hlink : child.ParentHash ≠ s.inputs 0) :
    (PrefetchBlock E blockNumber false s).failure =
      some (.panic "block transition isn\x27t correct") ∧
    (PrefetchBlock E blockNumber false s).state.files (s.root ++ "/input") =
      s.files (s.root ++ "/input") ∧
    (PrefetchBlock E blockNumber false s).state.files (s.root ++ "/output") =
      s.files (s.root ++ "/output") ∧
    (PrefetchBlock E blockNumber false s).state.inputs = s.inputs ∧
    (PrefetchBlock E blockNumber false s).state.outputs = s.outputs ∧
    (PrefetchBlock E blockNumber false s).state.inputhash = s.inputhash ∧
    (PrefetchBlock E blockNumber false s).state.preimages = s.preimages ∧
    (PrefetchBlock E blockNumber false s).state.root = s.root := by
  have hc := fetchBlock_cacheOnly E blockNumber s
  rw [PrefetchBlock_mismatch hfetch hlink]
  exact ⟨rfl, hc.inputFile, hc.outputFile, hc.inputs, hc.outputs, hc.inputhash, hc.preimages,
    hc.root⟩

/-- C4 at the child block of the small environment, asked for on a fresh
oracle, whose start marker is still zero. -/
theorem C4_linkage_mismatch_witness :
    (fetchBlock Toy.env 6 (OracleState.fresh Toy.dir)).value =
      some (Toy.apiHeader Toy.child [], Toy.child) ∧
    Toy.child.ParentHash ≠ (OracleState.fresh Toy.dir).inputs 0 ∧
    (PrefetchBlock Toy.env 6 false (OracleState.fresh Toy.dir)).failure =
      some (.panic "block transition isn\x27t correct") ∧
    (PrefetchBlock Toy.env 6 false (OracleState.fresh Toy.dir)).state.files
      ((OracleState.fresh Toy.dir).root ++ "/input") = none :=
  have h := C4_linkage_mismatch Toy.env 6 (OracleState.fresh Toy.dir)
    (Toy.apiHeader Toy.child []) Toy.child (by decide) (by decide)
  ⟨by decide, by decide, h.1, h.2.1⟩


/-- The transaction check of `checkBlock` fails on a root that differs. -/
theorem checkBlock_txMismatch {E : Env} {jr : ApiHeader} {blockHeader : Header}
    {s : OracleState} {txs : List Transaction} (htx : convertTxs jr.Transactions = some txs)
    (hne : E.deriveSha txs ≠ blockHeader.TxHash) :
    checkBlock E jr blockHeader s = .fail (.panic "tx hash derived wrong") s := by
  unfold checkBlock
  rw [htx]
  simp only
  rw [if_pos hne]

/-- The uncle check of `checkBlock` fails on a hash that differs. -/
theorem checkBlock_uncleMismatch {E : Env} {jr : ApiHeader} {blockHeader : Header}
    {s : OracleState} {txs : List Transaction} {uncles : List Header}
    (htx : convertTxs jr.Transactions = some txs)
    (heq : E.deriveSha txs = blockHeader.TxHash)
    (hun : (fetchUncleList E (E.headerHash blockHeader) s).value = some uncles)
    (hne : E.keccak256 (E.rlpHeaders uncles) ≠ blockHeader.UncleHash) :
    (checkBlock E jr blockHeader s).failure = some (.panic "wrong uncle hash") := by
  unfold checkBlock
  rw [htx]
  simp only
  rw [if_neg (fun h => h heq)]
  unfold prefetchUncles
  cases hf : fetchUncleList E (E.headerHash blockHeader) s with
  | fail f s2 => rw [hf] at hun; simp [Res.value] at hun
  | ok us s2 =>
    rw [hf] at hun
    simp only [Res.value, Option.some.injEq] at hun
    subst hun
    simp only
    rw [if_pos hne]
    rfl

/-- When `checkBlock` returns, the derived transaction root and the hash of
the encoded uncle list are the ones the header declares. -/
theorem checkBlock_ok {E : Env} {jr : ApiHeader} {blockHeader : Header} {s : OracleState}
    (h : (checkBlock E jr blockHeader s).failure = none) :
    ∃ txs uncles, convertTxs jr.Transactions = some txs ∧
      E.deriveSha txs = blockHeader.TxHash ∧
      (fetchUncleList E (E.headerHash blockHeader) s).value = some uncles ∧
      E.keccak256 (E.rlpHeaders uncles) = blockHeader.UncleHash := by
  unfold checkBlock at h
  cases htx : convertTxs jr.Transactions with
  | none => rw [htx] at h; simp [Res.failure] at h
  | some txs =>
    rw [htx] at h
    simp only at h
    by_cases hd : E.deriveSha txs = blockHeader.TxHash
    · rw [if_neg (fun hn => hn hd)] at h
      unfold prefetchUncles at h
      cases hf : fetchUncleList E (E.headerHash blockHeader) s with
      | fail f s2 => rw [hf] at h; simp [Res.failure] at h
      | ok us s2 =>
        rw [hf] at h
        simp only at h
        by_cases hu : E.keccak256 (E.rlpHeaders us) = blockHeader.UncleHash
        · exact ⟨txs, us, rfl, hd, rfl, hu⟩
        · rw [if_pos hu] at h; simp [Res.failure] at h
    · rw [if_pos hd] at h; simp [Res.failure] at h

/-- C5: for a child block response that passes the linkage check,
`PrefetchBlock(child, false)` fails with "tx hash derived wrong" when the root
derived from the returned transactions differs from the header's `TxHash`;
it fails when the Keccak-256 hash of the RLP encoding of the fetched uncle
list differs from the header's `UncleHash` (with "wrong uncle hash" once the
transaction root has matched); and when it returns normally both derived
values are the ones the header declares. -/
theorem C5_root_enforcement (E : Env) (blockNumber : Int) (s : OracleState) (jr : ApiHeader)
    (child : Header)
    (hfetch : (fetchBlock E blockNumber s).value = some (jr, child))
    (hlink : child.ParentHash = s.inputs 0) :
    (∀ txs, convertTxs jr.Transactions = some txs → E.deriveSha txs ≠ child.TxHash →
      (PrefetchBlock E blockNumber false s).failure = some (.panic "tx hash derived wrong")) ∧
    (∀ uncles,
      (fetchUncleList E (E.headerHash child)
        (commitBlock E child (fetchBlock E blockNumber s).state)).value = some uncles →
      E.keccak256 (E.rlpHeaders uncles) ≠ child.UncleHash →
      (PrefetchBlock E blockNumber false s).failure ≠ none ∧
      (∀ txs, convertTxs jr.Transactions = some txs → E.deriveSha txs = child.TxHash →
        (PrefetchBlock E blockNumber false s).failure = some (.panic "wrong uncle hash"))) ∧
    ((PrefetchBlock E blockNumber false s).failure = none →
      ∃ txs uncles, convertTxs jr.Transactions = some txs ∧
        E.deriveSha txs = child.TxHash ∧
        (fetchUncleList E (E.headerHash child)
          (commitBlock E child (fetchBlock E blockNumber s).state)).value = some uncles ∧
        E.keccak256 (E.rlpHeaders uncles) = child.UncleHash) := by
  rw [PrefetchBlock_child hfetch hlink]
  refine ⟨?_, ?_, ?_⟩
  · intro txs htx hne
    rw [checkBlock_txMismatch htx hne]
    rfl
  · intro uncles hun hne
    refine ⟨?_, fun txs htx heq => checkBlock_uncleMismatch htx heq hun hne⟩
    intro hok
    obtain ⟨_, us, _, _, hus, hu⟩ := checkBlock_ok hok
    rw [hun] at hus
    simp only [Option.some.injEq] at hus
    subst hus
    exact hne hu
  · exact checkBlock_ok

/-- C5 in the small environment: the child block passes both checks, a child
with another transactions root fails the first and a child with another uncle
hash fails the second. -/
theorem C5_root_enforcement_witness :
    ((fetchBlock Toy.env 6 Toy.started).value = some (Toy.apiHeader Toy.child [], Toy.child) ∧
      Toy.child.ParentHash = Toy.started.inputs 0 ∧
      (PrefetchBlock Toy.env 6 false Toy.started).failure = none ∧
      Toy.env.deriveSha [] = Toy.child.TxHash ∧
      Toy.env.keccak256 (Toy.env.rlpHeaders []) = Toy.child.UncleHash) ∧
    ((Toy.node Toy.badTxChild []).deriveSha [] ≠ Toy.badTxChild.TxHash ∧
      (PrefetchBlock (Toy.node Toy.badTxChild []) 6 false Toy.started).failure =
        some (.panic "tx hash derived wrong")) ∧
    ((Toy.node Toy.badUncleChild []).keccak256 ((Toy.node Toy.badUncleChild []).rlpHeaders []) ≠
        Toy.badUncleChild.UncleHash ∧
      (PrefetchBlock (Toy.node Toy.badUncleChild []) 6 false Toy.started).failure =
        some (.panic "wrong uncle hash")) :=
  ⟨⟨by decide, by decide, by decide, by decide, by decide⟩,
    ⟨by decide,
      (C5_root_enforcement (Toy.node Toy.badTxChild []) 6 Toy.started
        (Toy.apiHeader Toy.badTxChild []) Toy.badTxChild (by decide) (by decide)).1 []
        (by decide) (by decide)⟩,
    ⟨by decide,
      ((C5_root_enforcement (Toy.node Toy.badUncleChild []) 6 Toy.started
        (Toy.apiHeader Toy.badUncleChild []) Toy.badUncleChild (by decide) (by decide)).2.1 []
        (by decide) (by decide)).2 [] (by decide) (by decide)⟩⟩


/-- What a second-block call on a header that passes the linkage check has
written when it ends, however it ends: the input hash and its file, the
output vector and its file. -/
theorem PrefetchBlock_committed {E : Env} {blockNumber : Int} {s : OracleState}
    {jr : ApiHeader} {child : Header}
    (hfetch : (fetchBlock E blockNumber s).value = some (jr, child))
    (hlink : child.ParentHash = s.inputs 0) :
    (PrefetchBlock E blockNumber false s).state.inputhash =
      E.keccak256 (concatHashes (inputsOf child s.inputs)) ∧
    (PrefetchBlock E blockNumber false s).state.files (s.root ++ "/input") =
      some (E.keccak256 (concatHashes (inputsOf child s.inputs))).bytes ∧
    (PrefetchBlock E blockNumber false s).state.outputs =
      arrSet (arrSet s.outputs 0 child.Root) 1 child.ReceiptHash ∧
    (PrefetchBlock E blockNumber false s).state.files (s.root ++ "/output") =
      some (child.Root.bytes ++ child.ReceiptHash.bytes) := by
  have hc := fetchBlock_cacheOnly E blockNumber s
  rw [PrefetchBlock_child hfetch hlink]
  generalize (fetchBlock E blockNumber s).state = s1 at hc ⊢
  have hfr := checkBlock_frame E jr child (commitBlock E child s1)
  generalize (checkBlock E jr child (commitBlock E child s1)).state = t at hfr ⊢
  have hif : t.files (s1.root ++ "/input") =
      (commitBlock E child s1).files (s1.root ++ "/input") := hfr.inputFile
  have hof : t.files (s1.root ++ "/output") =
      (commitBlock E child s1).files (s1.root ++ "/output") := hfr.outputFile
  rw [← hc.root, ← hc.inputs, ← hc.outputs]
  refine ⟨?_, ?_, ?_, ?_⟩
  · rw [hfr.inputhash, commitBlock_inputhash]
  · rw [hif, commitBlock_inputFile]
  · rw [hfr.outputs, commitBlock_outputs]
  · rw [hof, commitBlock_outputFile, concatHashes_two]
    simp [arrSet]

/-- C6 (counterexample): a child block that links to the start block but
declares a transactions root other than the root of its transaction list.
`PrefetchBlock(child, false)` aborts with "tx hash derived wrong", and by
then it has written the input file and the output file, which did not exist,
and has changed `inputhash` and `outputs`. -/
theorem C6_counterexample :
    (PrefetchBlock (Toy.node Toy.badTxChild []) 6 false Toy.started).failure =
      some (.panic "tx hash derived wrong") ∧
    Toy.started.files "/tmp/cannon/0_5/input" = none ∧
    (PrefetchBlock (Toy.node Toy.badTxChild []) 6 false Toy.started).state.files
      "/tmp/cannon/0_5/input" ≠ none ∧
    Toy.started.files "/tmp/cannon/0_5/output" = none ∧
    (PrefetchBlock (Toy.node Toy.badTxChild []) 6 false Toy.started).state.files
      "/tmp/cannon/0_5/output" = some (Toy.badTxChild.Root.bytes ++ Toy.badTxChild.ReceiptHash.bytes) ∧
    (PrefetchBlock (Toy.node Toy.badTxChild []) 6 false Toy.started).state.inputhash ≠
      Toy.started.inputhash ∧
    (PrefetchBlock (Toy.node Toy.badTxChild []) 6 false Toy.started).state.outputs 0 ≠
      Toy.started.outputs 0 := by
  refine ⟨by decide, by decide, by decide, by decide, by decide, by decide, by decide⟩

/-- C6 (amended): a call that aborts on a linkage mismatch has emitted no
commitment: the input file, the output file, `inputhash` and `outputs` are
what they were. A call on a header that passes the linkage check aborts with
"tx hash derived wrong" or "wrong uncle hash" when the derived value differs,
and it writes the commitment before these checks: however it ends, `inputhash`
and the input file hold the hash of the new input vector, and `outputs` and
the output file hold the roots of the child. -/
theorem C6_commitment_before_checks (E : Env) (blockNumber : Int) (s : OracleState)
    (jr : ApiHeader) (child : Header)
    (hfetch : (fetchBlock E blockNumber s).value = some (jr, child)) :
    (child.ParentHash ≠ s.inputs 0 →
      (PrefetchBlock E blockNumber false s).failure =
        some (.panic "block transition isn\x27t correct") ∧
      (PrefetchBlock E blockNumber false s).state.files (s.root ++ "/input") =
        s.files (s.root ++ "/input") ∧
      (PrefetchBlock E blockNumber false s).state.files (s.root ++ "/output") =
        s.files (s.root ++ "/output") ∧
      (PrefetchBlock E blockNumber false s).state.inputhash = s.inputhash ∧
      (PrefetchBlock E blockNumber false s).state.outputs = s.outputs) ∧
    (child.ParentHash = s.inputs 0 →
      (∀ txs, convertTxs jr.Transactions = some txs → E.deriveSha txs ≠ child.TxHash →
        (PrefetchBlock E blockNumber false s).failure = some (.panic "tx hash derived wrong")) ∧
      (∀ txs uncles, convertTxs jr.Transactions = some txs → E.deriveSha txs = child.TxHash →
        (fetchUncleList E (E.headerHash child)
          (commitBlock E child (fetchBlock E blockNumber s).state)).value = some uncles →
        E.keccak256 (E.rlpHeaders uncles) ≠ child.UncleHash →
        (PrefetchBlock E blockNumber false s).failure = some (.panic "wrong uncle hash")) ∧
      (PrefetchBlock E blockNumber false s).state.inputhash =
        E.keccak256 (concatHashes (inputsOf child s.inputs)) ∧
      (PrefetchBlock E blockNumber false s).state.files (s.root ++ "/input") =
        some (E.keccak256 (concatHashes (inputsOf child s.inputs))).bytes ∧
      (PrefetchBlock E blockNumber false s).state.outputs 0 = child.Root ∧
      (PrefetchBlock E blockNumber false s).state.outputs 1 = child.ReceiptHash ∧
      (PrefetchBlock E blockNumber false s).state.files (s.root ++ "/output") =
        some (child.Root.bytes ++ child.ReceiptHash.bytes)) := by
  refine ⟨fun hne => ?_, fun hlink => ?_⟩
  · have hc := fetchBlock_cacheOnly E blockNumber s
    rw [PrefetchBlock_mismatch hfetch hne]
    exact ⟨rfl, hc.inputFile, hc.outputFile, hc.inputhash, hc.outputs⟩
  · obtain ⟨h1, h2, h3, h4⟩ := PrefetchBlock_committed hfetch hlink
    refine ⟨?_, ?_, h1, h2, ?_, ?_, h4⟩
    · intro txs htx hne
      rw [PrefetchBlock_child hfetch hlink, checkBlock_txMismatch htx hne]
      rfl
    · intro txs uncles htx heq hun hne
      rw [PrefetchBlock_child hfetch hlink]
      exact checkBlock_uncleMismatch htx heq hun hne
    · rw [h3]; simp [arrSet]
    · rw [h3]; simp [arrSet]

/-- C6 (amended) in the small environment: the child asked for on a fresh
oracle fails the linkage check, and a child with another transactions root
aborts after the commitment is written. -/
theorem C6_commitment_before_checks_witness :
    ((fetchBlock Toy.env 6 (OracleState.fresh Toy.dir)).value =
        some (Toy.apiHeader Toy.child [], Toy.child) ∧
      Toy.child.ParentHash ≠ (OracleState.fresh Toy.dir).inputs 0 ∧
      (PrefetchBlock Toy.env 6 false (OracleState.fresh Toy.dir)).state.inputhash =
        (OracleState.fresh Toy.dir).inputhash) ∧
    ((fetchBlock (Toy.node Toy.badTxChild []) 6 Toy.started).value =
        some (Toy.apiHeader Toy.badTxChild [], Toy.badTxChild) ∧
      Toy.badTxChild.ParentHash = Toy.started.inputs 0 ∧
      (Toy.node Toy.badTxChild []).deriveSha [] ≠ Toy.badTxChild.TxHash ∧
      (PrefetchBlock (Toy.node Toy.badTxChild []) 6 false Toy.started).failure =
        some (.panic "tx hash derived wrong") ∧
      (PrefetchBlock (Toy.node Toy.badTxChild []) 6 false Toy.started).state.files
        (Toy.started.root ++ "/output") =
        some (Toy.badTxChild.Root.bytes ++ Toy.badTxChild.ReceiptHash.bytes)) :=
  have h1 := (C6_commitment_before_checks Toy.env 6 (OracleState.fresh Toy.dir)
    (Toy.apiHeader Toy.child []) Toy.child (by decide)).1 (by decide)
  have h2 := (C6_commitment_before_checks (Toy.node Toy.badTxChild []) 6 Toy.started
    (Toy.apiHeader Toy.badTxChild []) Toy.badTxChild (by decide)).2 (by decide)
  ⟨⟨by decide, by decide, h1.2.2.2.1⟩,
    ⟨by decide, by decide, by decide, h2.1 [] (by decide) (by decide), h2.2.2.2.2.2.2⟩⟩


theorem getAPI_withReportedHash (E : Env) (reported : Bytes → Option Hash) (d : Bytes)
    (s : OracleState) : getAPI (withReportedHash E reported) d s = getAPI E d s := rfl

theorem fetchBlock_withReportedHash (E : Env) (reported : Bytes → Option Hash)
    (blockNumber : Int) (s : OracleState) :
    fetchBlock (withReportedHash E reported) blockNumber s = fetchBlock E blockNumber s := rfl

theorem fetchUncles_withReportedHash (E : Env) (reported : Bytes → Option Hash)
    (blockHash : Hash) (n : Nat) :
    ∀ (u : Nat) (uncles : List Header) (s : OracleState),
      fetchUncles (withReportedHash E reported) blockHash n u uncles s =
        fetchUncles E blockHash n u uncles s := by
  induction n with
  | zero => intro u uncles s; rfl
  | succ n ih =>
    intro u uncles s
    unfold fetchUncles
    simp only [ih]
    rfl

theorem prefetchUncles_withReportedHash (E : Env) (reported : Bytes → Option Hash)
    (blockHash uncleHash : Hash) (s : OracleState) :
    prefetchUncles (withReportedHash E reported) blockHash uncleHash s =
      prefetchUncles E blockHash uncleHash s := by
  unfold prefetchUncles fetchUncleList
  simp only [fetchUncles_withReportedHash]
  rfl

/-- The outcome of `PrefetchBlock` does not depend on the block hash the
response reports. -/
theorem PrefetchBlock_withReportedHash (E : Env) (reported : Bytes → Option Hash)
    (blockNumber : Int) (startBlock : Bool) (s : OracleState) :
    PrefetchBlock (withReportedHash E reported) blockNumber startBlock s =
      PrefetchBlock E blockNumber startBlock s := by
  unfold PrefetchBlock checkBlock
  simp only [fetchBlock_withReportedHash, prefetchUncles_withReportedHash]
  rfl

/-- C7 (counterexample): the node reports the block hash `0xaa..aa` for the
parent block 5 and for the child block 6. Neither reconstructed header has
that Keccak-256 hash of its RLP encoding, and both calls of `PrefetchBlock`
return normally. -/
theorem C7_counterexample :
    ((getAPI Toy.env (Toy.blockRequest 5) (OracleState.fresh Toy.dir)).value.bind
        Toy.env.reportedHash = some (Toy.fill 170) ∧
      (fetchBlock Toy.env 5 (OracleState.fresh Toy.dir)).value =
        some (Toy.apiHeader Toy.parent [], Toy.parent) ∧
      (Toy.env.rlpHeader Toy.parent).map Toy.env.keccak256 ≠ some (Toy.fill 170) ∧
      (PrefetchBlock Toy.env 5 true (OracleState.fresh Toy.dir)).failure = none) ∧
    ((getAPI Toy.env (Toy.blockRequest 6) Toy.started).value.bind
        Toy.env.reportedHash = some (Toy.fill 170) ∧
      (fetchBlock Toy.env 6 Toy.started).value = some (Toy.apiHeader Toy.child [], Toy.child) ∧
      (Toy.env.rlpHeader Toy.child).map Toy.env.keccak256 ≠ some (Toy.fill 170) ∧
      (PrefetchBlock Toy.env 6 false Toy.started).failure = none) := by
  refine ⟨⟨by decide, by decide, by decide, by decide⟩,
    ⟨by decide, by decide, by decide, by decide⟩⟩

/-- C7 (amended): `PrefetchBlock` does not read the block hash the remote
source reports, so its outcome is the same whatever hash is reported and no
response is refused for its reported hash. The hash of a header is checked
through linkage only: the start-block call stores the RLP encoding of the
reconstructed parent header under the Keccak-256 hash of that encoding, which
a fresh oracle records as the start marker, and the second-block call aborts
whenever the `ParentHash` of the child differs from the start marker. -/
theorem C7_header_hash_unchecked (E : Env) (blockNumber : Int) (s : OracleState)
    (jr : ApiHeader) (hdr : Header)
    (hfetch : (fetchBlock E blockNumber s).value = some (jr, hdr)) :
    (∀ (reported : Bytes → Option Hash) (startBlock : Bool),
      PrefetchBlock (withReportedHash E reported) blockNumber startBlock s =
        PrefetchBlock E blockNumber startBlock s) ∧
    (∀ enc, E.rlpHeader hdr = some enc →
      (PrefetchBlock E blockNumber true s).failure = none ∧
      (PrefetchBlock E blockNumber true s).state.preimages (E.keccak256 enc) = some enc ∧
      (s.inputs 0 = Hash.zero →
        (PrefetchBlock E blockNumber true s).state.inputs 0 = E.keccak256 enc)) ∧
    (hdr.ParentHash ≠ s.inputs 0 →
      (PrefetchBlock E blockNumber false s).failure =
        some (.panic "block transition isn\x27t correct")) := by
  refine ⟨fun reported startBlock => PrefetchBlock_withReportedHash E reported _ _ s, ?_, ?_⟩
  · intro enc henc
    have hc := fetchBlock_cacheOnly E blockNumber s
    rw [PrefetchBlock_start hfetch]
    generalize (fetchBlock E blockNumber s).state = s1 at hc ⊢
    unfold startBlockStep
    rw [henc]
    simp only
    rw [hc.inputs]
    by_cases h0 : s.inputs 0 = Hash.zero
    · simp [h0, Res.failure, Res.state, arrSet, mapSet]
    · simp [h0, Res.failure, Res.state, mapSet]
  · intro hne
    rw [PrefetchBlock_mismatch hfetch hne]
    rfl

/-- C7 (amended) in the small environment, at the parent block asked for on
a fresh oracle. -/
theorem C7_header_hash_unchecked_witness :
    (fetchBlock Toy.env 5 (OracleState.fresh Toy.dir)).value =
      some (Toy.apiHeader Toy.parent [], Toy.parent) ∧
    (PrefetchBlock (withReportedHash Toy.env (fun _ => some Toy.parentHash)) 5 true
        (OracleState.fresh Toy.dir)) =
      PrefetchBlock Toy.env 5 true (OracleState.fresh Toy.dir) ∧
    (PrefetchBlock Toy.env 5 true (OracleState.fresh Toy.dir)).state.inputs 0 = Toy.parentHash ∧
    (PrefetchBlock Toy.env 5 false (OracleState.fresh Toy.dir)).failure =
      some (.panic "block transition isn\x27t correct") :=
  have h := C7_header_hash_unchecked Toy.env 5 (OracleState.fresh Toy.dir)
    (Toy.apiHeader Toy.parent []) Toy.parent (by decide)
  ⟨by decide, h.1 _ true, (h.2.1 _ rfl).2.2 (by decide), h.2.2 (by decide)⟩


/-! ### The hash-content invariant -/

theorem StoreOk.empty (E : Env) : StoreOk E (fun _ => none) := by
  intro h v hv
  simp at hv

theorem StoreOk.mapSet {E : Env} {m : Hash → Option Bytes} (hm : StoreOk E m) (v : Bytes) :
    StoreOk E (mapSet m (E.keccak256 v) v) := by
  intro h w hw
  unfold Oracle.mapSet at hw
  by_cases hk : h = E.keccak256 v
  · rw [if_pos hk] at hw
    simp only [Option.some.injEq] at hw
    rw [← hw, hk]
  · rw [if_neg hk] at hw
    exact hm h w hw

theorem StoreOk.mapMerge {E : Env} {a b : Hash → Option Bytes} (ha : StoreOk E a)
    (hb : StoreOk E b) : StoreOk E (mapMerge a b) := by
  intro h w hw
  unfold Oracle.mapMerge at hw
  cases hah : a h with
  | none => rw [hah] at hw; exact hb h w hw
  | some x =>
    rw [hah] at hw
    simp only [Option.some.injEq] at hw
    rw [← hw]
    exact ha h x hah

theorem collectPreimages_storeOk (E : Env) (ap : List Bytes) :
    ∀ (m m1 : Hash → Option Bytes), StoreOk E m → collectPreimages E ap m = some m1 →
      StoreOk E m1 := by
  induction ap with
  | nil =>
    intro m m1 hm h
    simp only [collectPreimages, Option.some.injEq] at h
    rw [← h]; exact hm
  | cons n rest ih =>
    intro m m1 hm h
    unfold collectPreimages at h
    by_cases hl : n.length < 2
    · rw [if_pos hl] at h; simp at h
    · rw [if_neg hl] at h
      exact ih _ _ (hm.mapSet _) h

theorem PostOk.none (E : Env) (handed : Option (Hash → Option Bytes)) :
    PostOk E none handed := by
  intro f m hf
  simp at hf

theorem storeProof_storeOk {E : Env} {ap : List Bytes}
    {postProcess : Option ((Hash → Option Bytes) → (Hash → Option Bytes))} {s : OracleState}
    (hp : PostOk E postProcess (collectPreimages E ap (fun _ => none)))
    (hs : StoreOk E s.preimages) :
    StoreOk E (storeProof E ap postProcess s).state.preimages := by
  unfold storeProof
  cases hcol : collectPreimages E ap (fun _ => none) with
  | none => exact hs
  | some m1 =>
    have hm1 := collectPreimages_storeOk E ap _ m1 (StoreOk.empty E) hcol
    simp only [Res.state]
    apply StoreOk.mapMerge _ hs
    cases postProcess with
    | none => exact hm1
    | some f => exact hp f m1 rfl hcol

theorem getProofAccount_preimages (E : Env) (blockNumber : Int) (addr : Address) (skey : Hash)
    (storage : Bool) (s : OracleState) :
    (getProofAccount E blockNumber addr skey storage s).state.preimages = s.preimages := by
  unfold getProofAccount
  simp only
  generalize hreq : E.jsonMarshal _ = req
  generalize hs1 : ({ s with unhashMap := mapSet s.unhashMap (E.keccak256 addr.bytes) addr } :
    OracleState) = s1
  have hp : s1.preimages = s.preimages := by rw [← hs1]
  have h := (getAPI_cacheOnly E req s1).preimages
  cases hg : getAPI E req s1 with
  | fail f s2 => rw [hg] at h; exact h.trans hp
  | ok body s2 =>
    rw [hg] at h
    simp only
    split
    · split
      · exact h.trans hp
      · exact h.trans hp
    · exact h.trans hp

theorem getProvedCodeBytes_preimages (E : Env) (blockNumber : Int) (addrHash : Hash)
    (s : OracleState) :
    (getProvedCodeBytes E blockNumber addrHash s).state.preimages = s.preimages := by
  unfold getProvedCodeBytes
  simp only
  generalize hreq : E.jsonMarshal _ = req
  have h := (getAPI_cacheOnly E req s).preimages
  cases hg : getAPI E req s with
  | fail f s2 => rw [hg] at h; exact h
  | ok body s2 =>
    rw [hg] at h
    simp only
    split <;> exact h

theorem PrefetchAccount_storeOk {E : Env} {s : OracleState} (hs : StoreOk E s.preimages)
    (blockNumber : Int) (addr : Address)
    (postProcess : Option ((Hash → Option Bytes) → (Hash → Option Bytes)))
    (hp : PostOk E postProcess (handedAccount E blockNumber addr s)) :
    StoreOk E (PrefetchAccount E blockNumber addr postProcess s).state.preimages := by
  unfold handedAccount at hp
  unfold PrefetchAccount
  simp only
  split
  · exact hs
  · rename_i hc
    rw [if_neg hc] at hp
    have h := getProofAccount_preimages E blockNumber addr Hash.zero false
      (markFetched s (accountKey E blockNumber addr))
    cases hg : getProofAccount E blockNumber addr Hash.zero false
        (markFetched s (accountKey E blockNumber addr)) with
    | fail f s2 =>
      rw [hg] at h
      simp only [Res.state] at h ⊢
      rw [h]; exact hs
    | ok ap s2 =>
      rw [hg] at h hp
      simp only [Res.state] at h
      exact storeProof_storeOk hp (by rw [h]; exact hs)

theorem PrefetchStorage_storeOk {E : Env} {s : OracleState} (hs : StoreOk E s.preimages)
    (blockNumber : Int) (addr : Address) (skey : Hash)
    (postProcess : Option ((Hash → Option Bytes) → (Hash → Option Bytes)))
    (hp : PostOk E postProcess (handedStorage E blockNumber addr skey s)) :
    StoreOk E (PrefetchStorage E blockNumber addr skey postProcess s).state.preimages := by
  unfold handedStorage at hp
  unfold PrefetchStorage
  simp only
  split
  · exact hs
  · rename_i hc
    rw [if_neg hc] at hp
    have h := getProofAccount_preimages E blockNumber addr skey true
      (markFetched s (storageKey E blockNumber addr skey))
    cases hg : getProofAccount E blockNumber addr skey true
        (markFetched s (storageKey E blockNumber addr skey)) with
    | fail f s2 =>
      rw [hg] at h
      simp only [Res.state] at h ⊢
      rw [h]; exact hs
    | ok ap s2 =>
      rw [hg] at h hp
      simp only [Res.state] at h
      exact storeProof_storeOk hp (by rw [h]; exact hs)

/-- The map that an account fetch hands to its callback satisfies the
invariant. -/
theorem handedAccount_storeOk (E : Env) (blockNumber : Int) (addr : Address) (s : OracleState)
    (m : Hash → Option Bytes) (h : handedAccount E blockNumber addr s = some m) :
    StoreOk E m := by
  unfold handedAccount at h
  split at h
  · simp at h
  · split at h
    · simp at h
    · exact collectPreimages_storeOk E _ _ m (StoreOk.empty E) h

theorem PrefetchCode_storeOk {E : Env} {s : OracleState} (hs : StoreOk E s.preimages)
    (blockNumber : Int) (addrHash : Hash) :
    StoreOk E (PrefetchCode E blockNumber addrHash s).state.preimages := by
  unfold PrefetchCode
  simp only
  split
  · exact hs
  · have h := getProvedCodeBytes_preimages E blockNumber addrHash
      (markFetched s (codeKey blockNumber addrHash))
    cases hg : getProvedCodeBytes E blockNumber addrHash
        (markFetched s (codeKey blockNumber addrHash)) with
    | fail f s2 =>
      rw [hg] at h
      simp only [Res.state] at h ⊢
      rw [h]; exact hs
    | ok ret s2 =>
      rw [hg] at h
      simp only [Res.state] at h ⊢
      have hs2 : StoreOk E s2.preimages := by rw [h]; exact hs
      exact hs2.mapSet ret

theorem UnclesFrame.storeOk {E : Env} {uncleHash : Hash} {s t : OracleState}
    (h : UnclesFrame E uncleHash s t) (hs : StoreOk E s.preimages) : StoreOk E t.preimages := by
  intro k v hv
  by_cases hk : k = uncleHash
  · subst hk
    rcases h.preimagesAt with h1 | ⟨w, hw, hkw⟩
    · rw [h1] at hv; exact hs k v hv
    · rw [hw] at hv
      simp only [Option.some.injEq] at hv
      rw [← hv]; exact hkw
  · rw [h.preimagesOther k hk] at hv
    exact hs k v hv

theorem prefetchUncles_storeOk {E : Env} {s : OracleState} (hs : StoreOk E s.preimages)
    (blockHash uncleHash : Hash) :
    StoreOk E (prefetchUncles E blockHash uncleHash s).state.preimages :=
  (prefetchUncles_frame E blockHash uncleHash s).storeOk hs

theorem PrefetchBlock_storeOk {E : Env} {s : OracleState} (hs : StoreOk E s.preimages)
    (blockNumber : Int) (startBlock : Bool) :
    StoreOk E (PrefetchBlock E blockNumber startBlock s).state.preimages := by
  have hc := fetchBlock_cacheOnly E blockNumber s
  unfold PrefetchBlock
  cases hf : fetchBlock E blockNumber s with
  | fail f s1 =>
    rw [hf] at hc
    simp only [Res.state] at hc ⊢
    rw [hc.preimages]; exact hs
  | ok a s1 =>
    rw [hf] at hc
    simp only [Res.state] at hc
    have hs1 : StoreOk E s1.preimages := by rw [hc.preimages]; exact hs
    obtain ⟨jr, blockHeader⟩ := a
    simp only
    cases startBlock with
    | true =>
      simp only [if_true]
      unfold startBlockStep
      split
      · exact hs1
      · simp only
        split
        · exact hs1.mapSet _
        · exact hs1.mapSet _
    | false =>
      simp only [Bool.false_eq_true, if_false]
      split
      · exact hs1
      · apply (checkBlock_frame E jr blockHeader _).storeOk
        rw [commitBlock_preimages]
        exact hs1.mapSet _

/-- C8 (counterexample): on a fresh oracle, whose store is empty,
`PrefetchAccount` is called with a `postProcess` callback that writes the
entry `(0x00..00, [0x01])` into the map it is handed. The call returns and
the store then holds that entry, whose value does not hash to its key. -/
theorem C8_counterexample :
    StoreOk Toy.env (OracleState.fresh Toy.dir).preimages ∧
    (PrefetchAccount Toy.env 5 Address.zero (some (fun m => mapSet m Hash.zero [1]))
      (OracleState.fresh Toy.dir)).failure = none ∧
    (PrefetchAccount Toy.env 5 Address.zero (some (fun m => mapSet m Hash.zero [1]))
      (OracleState.fresh Toy.dir)).state.preimages Hash.zero = some [1] ∧
    Toy.env.keccak256 [1] ≠ Hash.zero ∧
    ¬ StoreOk Toy.env (PrefetchAccount Toy.env 5 Address.zero
      (some (fun m => mapSet m Hash.zero [1])) (OracleState.fresh Toy.dir)).state.preimages := by
  refine ⟨StoreOk.empty _, by decide, by decide, by decide, ?_⟩
  intro h
  have h1 := h Hash.zero [1] (by decide)
  revert h1
  decide

/-- C8 (amended): if every entry `(h, v)` of the store satisfies
`keccak256(v) = h` before a call, it still does after any call of
`PrefetchCode`, `PrefetchBlock` or `prefetchUncles`, and after any call of
`PrefetchAccount` or `PrefetchStorage` whose `postProcess` is nil or leaves
every entry of the map of new preimages it is handed in that call with
`keccak256(v) = h`; what the callback would do to another map plays no
role. -/
theorem C8_hash_content_invariant (E : Env) (s : OracleState)
    (hs : StoreOk E s.preimages) :
    (∀ blockNumber addr postProcess,
      PostOk E postProcess (handedAccount E blockNumber addr s) →
      StoreOk E (PrefetchAccount E blockNumber addr postProcess s).state.preimages) ∧
    (∀ blockNumber addr skey postProcess,
      PostOk E postProcess (handedStorage E blockNumber addr skey s) →
      StoreOk E (PrefetchStorage E blockNumber addr skey postProcess s).state.preimages) ∧
    (∀ blockNumber addrHash,
      StoreOk E (PrefetchCode E blockNumber addrHash s).state.preimages) ∧
    (∀ blockNumber startBlock,
      StoreOk E (PrefetchBlock E blockNumber startBlock s).state.preimages) ∧
    (∀ blockHash uncleHash,
      StoreOk E (prefetchUncles E blockHash uncleHash s).state.preimages) :=
  ⟨fun blockNumber addr postProcess hp => PrefetchAccount_storeOk hs blockNumber addr postProcess hp,
    fun blockNumber addr skey postProcess hp =>
      PrefetchStorage_storeOk hs blockNumber addr skey postProcess hp,
    fun blockNumber addrHash => PrefetchCode_storeOk hs blockNumber addrHash,
    fun blockNumber startBlock => PrefetchBlock_storeOk hs blockNumber startBlock,
    fun blockHash uncleHash => prefetchUncles_storeOk hs blockHash uncleHash⟩

/-- A callback that adds the entry of the value `[7]` under its hash to a map
that holds the proof node `[192]`, and the mismatched entry `(0x00..00,
[0x01])` to any other map. -/
def Toy.fussy (m : Hash → Option Bytes) : Hash → Option Bytes :=
  if (m (Toy.keccak256 [192])).isSome then mapSet m (Toy.keccak256 [7]) [7]
  else mapSet m Hash.zero [1]

/-- C8 (amended) in the small environment, with the callback `Toy.fussy`,
which breaks the invariant on the empty map but not on the map it is handed:
the store after the start block satisfies the invariant and holds an entry,
and after an account prefetch with that callback it still satisfies the
invariant and holds the proof node and the entry of the callback. -/
theorem C8_hash_content_invariant_witness :
    StoreOk Toy.env Toy.started.preimages ∧
    Toy.started.preimages Toy.parentHash ≠ none ∧
    ¬ StoreOk Toy.env (Toy.fussy (fun _ => none)) ∧
    StoreOk Toy.env
      (PrefetchAccount Toy.env 5 Address.zero (some Toy.fussy) Toy.started).state.preimages ∧
    (PrefetchAccount Toy.env 5 Address.zero (some Toy.fussy) Toy.started).state.preimages
      (Toy.env.keccak256 [192]) = some [192] ∧
    (PrefetchAccount Toy.env 5 Address.zero (some Toy.fussy) Toy.started).state.preimages
      (Toy.env.keccak256 [7]) = some [7] :=
  have h0 : StoreOk Toy.env Toy.started.preimages :=
    PrefetchBlock_storeOk (StoreOk.empty Toy.env) 5 true
  ⟨h0, by decide,
    fun h => absurd (h Hash.zero [1] (by decide)) (by decide),
    (C8_hash_content_invariant Toy.env Toy.started h0).1 5 Address.zero (some Toy.fussy)
      (fun f m hf hm => by
        have hf2 : Toy.fussy = f := by simpa using hf
        subst hf2
        have hm1 : StoreOk Toy.env m := handedAccount_storeOk _ _ _ _ m hm
        have hnode : (handedAccount Toy.env 5 Address.zero Toy.started).map
            (fun m => m (Toy.keccak256 [192])) = some (some [192]) := by decide
        rw [hm] at hnode
        simp only [Option.map_some', Option.some.injEq] at hnode
        unfold Toy.fussy
        rw [hnode]
        exact hm1.mapSet [7]),
    by decide, by decide⟩


/-! ### Proof nodes -/

/-- The loop over the proof nodes does not stop on nodes of two bytes or
more; a hash that no node has keeps its entry, and the hash of each node is
mapped to the bytes of a node with that hash. -/
theorem collectPreimages_spec (E : Env) (ap : List Bytes) (hlen : ∀ n ∈ ap, 2 ≤ n.length) :
    ∀ m : Hash → Option Bytes, ∃ m1, collectPreimages E ap m = some m1 ∧
      (∀ h, (∀ n ∈ ap, E.keccak256 (decodeNode n) ≠ h) → m1 h = m h) ∧
      (∀ n ∈ ap, ∃ n1 ∈ ap, E.keccak256 (decodeNode n1) = E.keccak256 (decodeNode n) ∧
        m1 (E.keccak256 (decodeNode n)) = some (decodeNode n1)) := by
  induction ap with
  | nil =>
    intro m
    exact ⟨m, rfl, fun _ _ => rfl, fun n hn => by simp at hn⟩
  | cons x rest ih =>
    intro m
    have hx : ¬ x.length < 2 := by
      have := hlen x (List.mem_cons_self _ _)
      omega
    obtain ⟨m1, hm1, hother, hnode⟩ :=
      ih (fun n hn => hlen n (List.mem_cons_of_mem _ hn))
        (mapSet m (E.keccak256 (decodeNode x)) (decodeNode x))
    refine ⟨m1, ?_, ?_, ?_⟩
    · unfold collectPreimages
      rw [if_neg hx]
      exact hm1
    · intro h hall
      rw [hother h (fun n hn => hall n (List.mem_cons_of_mem _ hn))]
      unfold mapSet
      rw [if_neg (fun e => hall x (List.mem_cons_self _ _) e.symm)]
    · intro n hn
      by_cases hex : ∃ n1 ∈ rest, E.keccak256 (decodeNode n1) = E.keccak256 (decodeNode n)
      · obtain ⟨n1, hn1, he⟩ := hex
        obtain ⟨n2, hn2, he2, hv⟩ := hnode n1 hn1
        refine ⟨n2, List.mem_cons_of_mem _ hn2, he2.trans he, ?_⟩
        rw [← he]; exact hv
      · have hnot : ∀ n1 ∈ rest, E.keccak256 (decodeNode n1) ≠ E.keccak256 (decodeNode n) :=
          fun n1 hn1 e => hex ⟨n1, hn1, e⟩
        have hxn : n = x := by
          rcases List.mem_cons.mp hn with h1 | h1
          · exact h1
          · exact absurd rfl (hnot n h1)
        subst hxn
        refine ⟨n, List.mem_cons_self _ _, rfl, ?_⟩
        rw [hother _ hnot]
        simp [mapSet]

/-- What `storeProof` with a nil callback leaves in the store. -/
theorem storeProof_nodes {E : Env} {ap : List Bytes} {s : OracleState}
    (hlen : ∀ n ∈ ap, 2 ≤ n.length)
    (hcoll : ∀ a ∈ ap, ∀ b ∈ ap, E.keccak256 (decodeNode a) = E.keccak256 (decodeNode b) →
      decodeNode a = decodeNode b) :
    (storeProof E ap none s).failure = none ∧
    (∀ n ∈ ap, (storeProof E ap none s).state.preimages (E.keccak256 (decodeNode n)) =
      some (decodeNode n)) ∧
    (∀ h v, s.preimages h = some v →
      ((storeProof E ap none s).state.preimages h).isSome ∧
      ((∀ n ∈ ap, E.keccak256 (decodeNode n) = h → decodeNode n = v) →
        (storeProof E ap none s).state.preimages h = some v)) := by
  obtain ⟨m1, hm1, hother, hnode⟩ := collectPreimages_spec E ap hlen (fun _ => none)
  have hat : ∀ n ∈ ap, m1 (E.keccak256 (decodeNode n)) = some (decodeNode n) := by
    intro n hn
    obtain ⟨n1, hn1, he, hv⟩ := hnode n hn
    rw [hv, hcoll n1 hn1 n hn he]
  unfold storeProof
  rw [hm1]
  simp only [Res.failure, Res.state, mapMerge]
  refine ⟨trivial, ?_, ?_⟩
  · intro n hn
    rw [hat n hn]
  · intro h v hv
    by_cases hex : ∃ n ∈ ap, E.keccak256 (decodeNode n) = h
    · obtain ⟨n, hn, he⟩ := hex
      subst he
      rw [hat n hn]
      refine ⟨rfl, fun hsame => ?_⟩
      rw [hsame n hn rfl]
    · have hno : m1 h = none := by
        rw [hother h (fun n hn e => hex ⟨n, hn, e⟩)]
      rw [hno]
      simp only
      rw [hv]
      exact ⟨rfl, fun _ => rfl⟩

/-- A node that starts with `0x` has two bytes or more. -/
theorem length_of_prefix {n : Bytes} (h : n.take 2 = [48, 120]) : 2 ≤ n.length := by
  have h1 := congrArg List.length h
  simp only [List.length_take, List.length_cons, List.length_nil] at h1
  omega

/-- C9: for a `(blockNumber, address[, slot])` not fetched before and a
response whose proof nodes start with `0x`, `PrefetchAccount` and
`PrefetchStorage` with a nil `postProcess` return, and then the store maps
`keccak256(decode(s))` to `decode(s)` for every node `s` of the returned
account proof (of the first storage proof for `PrefetchStorage`), where
`decode(s)` is `hex.DecodeString(s[2:])`; every key that was in the store is
still there, with its old value unless a node has that very hash. Keccak-256
is taken to have no collision among the nodes of the proof. -/
theorem C9_proof_nodes_stored (E : Env) (blockNumber : Int) (addr : Address) (skey : Hash)
    (s : OracleState) (ap : List Bytes)
    (hstart : ∀ n ∈ ap, n.take 2 = [48, 120])
    (hcoll : ∀ a ∈ ap, ∀ b ∈ ap, E.keccak256 (decodeNode a) = E.keccak256 (decodeNode b) →
      decodeNode a = decodeNode b) :
    (s.cached (accountKey E blockNumber addr) = false →
      (getProofAccount E blockNumber addr Hash.zero false
        (markFetched s (accountKey E blockNumber addr))).value = some ap →
      (PrefetchAccount E blockNumber addr none s).failure = none ∧
      (∀ n ∈ ap, (PrefetchAccount E blockNumber addr none s).state.preimages
        (E.keccak256 (decodeNode n)) = some (decodeNode n)) ∧
      (∀ h v, s.preimages h = some v →
        ((PrefetchAccount E blockNumber addr none s).state.preimages h).isSome ∧
        ((∀ n ∈ ap, E.keccak256 (decodeNode n) = h → decodeNode n = v) →
          (PrefetchAccount E blockNumber addr none s).state.preimages h = some v))) ∧
    (s.cached (storageKey E blockNumber addr skey) = false →
      (getProofAccount E blockNumber addr skey true
        (markFetched s (storageKey E blockNumber addr skey))).value = some ap →
      (PrefetchStorage E blockNumber addr skey none s).failure = none ∧
      (∀ n ∈ ap, (PrefetchStorage E blockNumber addr skey none s).state.preimages
        (E.keccak256 (decodeNode n)) = some (decodeNode n)) ∧
      (∀ h v, s.preimages h = some v →
        ((PrefetchStorage E blockNumber addr skey none s).state.preimages h).isSome ∧
        ((∀ n ∈ ap, E.keccak256 (decodeNode n) = h → decodeNode n = v) →
          (PrefetchStorage E blockNumber addr skey none s).state.preimages h = some v))) := by
  have hlen : ∀ n ∈ ap, 2 ≤ n.length := fun n hn => length_of_prefix (hstart n hn)
  constructor
  · intro hnc hval
    have hp := getProofAccount_preimages E blockNumber addr Hash.zero false
      (markFetched s (accountKey E blockNumber addr))
    unfold PrefetchAccount
    simp only [hnc, Bool.false_eq_true, if_false]
    cases hg : getProofAccount E blockNumber addr Hash.zero false
        (markFetched s (accountKey E blockNumber addr)) with
    | fail f s2 => rw [hg] at hval; simp [Res.value] at hval
    | ok ap1 s2 =>
      rw [hg] at hval hp
      simp only [Res.value, Option.some.injEq] at hval
      subst hval
      simp only [Res.state] at hp
      have hs2 : s2.preimages = s.preimages := hp
      simp only
      obtain ⟨h1, h2, h3⟩ := storeProof_nodes (s := s2) hlen hcoll
      exact ⟨h1, h2, fun h v hv => h3 h v (by rw [hs2]; exact hv)⟩
  · intro hnc hval
    have hp := getProofAccount_preimages E blockNumber addr skey true
      (markFetched s (storageKey E blockNumber addr skey))
    unfold PrefetchStorage
    simp only [hnc, Bool.false_eq_true, if_false]
    cases hg : getProofAccount E blockNumber addr skey true
        (markFetched s (storageKey E blockNumber addr skey)) with
    | fail f s2 => rw [hg] at hval; simp [Res.value] at hval
    | ok ap1 s2 =>
      rw [hg] at hval hp
      simp only [Res.value, Option.some.injEq] at hval
      subst hval
      simp only [Res.state] at hp
      have hs2 : s2.preimages = s.preimages := hp
      simp only
      obtain ⟨h1, h2, h3⟩ := storeProof_nodes (s := s2) hlen hcoll
      exact ⟨h1, h2, fun h v hv => h3 h v (by rw [hs2]; exact hv)⟩

/-- C9 in the small environment: the account proof and the first storage
proof of the zero address have the nodes `0xc0` and `0x8180`; after either
call on the state left by the start block both decoded nodes are in the
store, and so is the header stored before. -/
theorem C9_proof_nodes_stored_witness :
    (∀ n ∈ Toy.proofNodes, n.take 2 = [48, 120]) ∧
    Toy.started.cached (accountKey Toy.env 5 Address.zero) = false ∧
    (getProofAccount Toy.env 5 Address.zero Hash.zero false
      (markFetched Toy.started (accountKey Toy.env 5 Address.zero))).value = some Toy.proofNodes ∧
    (PrefetchAccount Toy.env 5 Address.zero none Toy.started).failure = none ∧
    (∀ n ∈ Toy.proofNodes, (PrefetchAccount Toy.env 5 Address.zero none Toy.started).state.preimages
      (Toy.env.keccak256 (decodeNode n)) = some (decodeNode n)) ∧
    (∀ n ∈ Toy.proofNodes,
      (PrefetchStorage Toy.env 5 Address.zero Hash.zero none Toy.started).state.preimages
        (Toy.env.keccak256 (decodeNode n)) = some (decodeNode n)) ∧
    Toy.started.preimages Toy.parentHash ≠ none ∧
    ((PrefetchAccount Toy.env 5 Address.zero none Toy.started).state.preimages
      Toy.parentHash).isSome :=
  have h := C9_proof_nodes_stored Toy.env 5 Address.zero Hash.zero Toy.started Toy.proofNodes
    (by decide) (by decide)
  have ha := h.1 (by decide) (by decide)
  have hs := h.2 (by decide) (by decide)
  ⟨by decide, by decide, by decide, ha.1, ha.2.1, hs.2.1,
    by decide, (ha.2.2 Toy.parentHash _ (by rfl)).1⟩


/-! ### Big-endian words -/

theorem bytesToNat_foldl (b : Bytes) (a : Nat) :
    b.foldl (fun acc d => acc * 256 + d.val) a = a * 256 ^ b.length + bytesToNat b := by
  induction b generalizing a with
  | nil => simp [bytesToNat]
  | cons x rest ih =>
    unfold bytesToNat
    simp only [List.foldl_cons, List.length_cons]
    rw [ih, ih (0 * 256 + x.val)]
    ring

theorem bytesToNat_cons (x : Byte) (b : Bytes) :
    bytesToNat (x :: b) = x.val * 256 ^ b.length + bytesToNat b := by
  unfold bytesToNat
  simp only [List.foldl_cons]
  rw [bytesToNat_foldl]
  unfold bytesToNat
  ring

theorem bytesToNat_lt (b : Bytes) : bytesToNat b < 256 ^ b.length := by
  induction b with
  | nil => simp [bytesToNat]
  | cons x rest ih =>
    rw [bytesToNat_cons, List.length_cons, pow_succ]
    have hx : x.val < 256 := x.isLt
    nlinarith [pow_pos (show 0 < 256 by norm_num) rest.length]

theorem bytesToNat_append (a b : Bytes) :
    bytesToNat (a ++ b) = bytesToNat a * 256 ^ b.length + bytesToNat b := by
  induction a with
  | nil => simp [bytesToNat]
  | cons x rest ih =>
    rw [List.cons_append, bytesToNat_cons, ih, bytesToNat_cons, List.length_append, pow_add]
    ring

theorem bytesToNat_replicate_zero (k : Nat) : bytesToNat (List.replicate k (0 : Byte)) = 0 := by
  induction k with
  | zero => rfl
  | succ k ih =>
    rw [List.replicate_succ, bytesToNat_cons, ih]
    simp

/-- Two byte strings of the same length with the same big-endian value are
equal. -/
theorem bytesToNat_injective :
    ∀ (a b : Bytes), a.length = b.length → bytesToNat a = bytesToNat b → a = b := by
  intro a
  induction a with
  | nil =>
    intro b hl _
    cases b with
    | nil => rfl
    | cons y rest => simp at hl
  | cons x rest ih =>
    intro b hl hv
    cases b with
    | nil => simp at hl
    | cons y rest2 =>
      simp only [List.length_cons, Nat.add_right_cancel_iff] at hl
      rw [bytesToNat_cons, bytesToNat_cons, hl] at hv
      have h1 := bytesToNat_lt rest
      have h2 := bytesToNat_lt rest2
      rw [hl] at h1
      have hpos : 0 < 256 ^ rest2.length := pow_pos (by norm_num) _
      have hxy : x.val = y.val := by
        have e1 := congrArg (fun n => n / 256 ^ rest2.length) hv
        simp only at e1
        rw [Nat.add_comm, Nat.add_mul_div_right _ _ hpos, Nat.div_eq_of_lt h1,
          Nat.add_comm (y.val * _), Nat.add_mul_div_right _ _ hpos, Nat.div_eq_of_lt h2] at e1
        simpa using e1
      have hrest : bytesToNat rest = bytesToNat rest2 := by
        rw [hxy] at hv
        omega
      rw [Fin.ext hxy, ih rest2 hl hrest]

theorem bigBytesAux_value (fuel : Nat) :
    ∀ (n : Nat) (acc : Bytes), n ≤ fuel →
      bytesToNat (bigBytesAux fuel n acc) = n * 256 ^ acc.length + bytesToNat acc := by
  induction fuel with
  | zero =>
    intro n acc hn
    have : n = 0 := by omega
    subst this
    simp [bigBytesAux]
  | succ fuel ih =>
    intro n acc hn
    unfold bigBytesAux
    by_cases h0 : n = 0
    · simp [h0]
    · rw [if_neg h0, ih (n / 256) _ (by omega), bytesToNat_cons, List.length_cons, pow_succ]
      have hmod : (Fin.ofNat (n % 256) : Byte).val = n % 256 := by
        simp [Fin.ofNat]
      rw [hmod]
      have e : n * 256 ^ acc.length = (256 * (n / 256) + n % 256) * 256 ^ acc.length := by
        rw [Nat.div_add_mod]
      rw [e]
      ring

theorem bigBytesAux_length (fuel : Nat) :
    ∀ (n k : Nat) (acc : Bytes), n < 256 ^ k →
      (bigBytesAux fuel n acc).length ≤ k + acc.length := by
  induction fuel with
  | zero => intro n k acc _; simp [bigBytesAux]
  | succ fuel ih =>
    intro n k acc hn
    unfold bigBytesAux
    by_cases h0 : n = 0
    · simp [h0]
    · rw [if_neg h0]
      cases k with
      | zero => simp at hn; omega
      | succ k =>
        have hdiv : n / 256 < 256 ^ k := by
          rw [pow_succ] at hn
          exact Nat.div_lt_of_lt_mul (by rw [Nat.mul_comm]; exact hn)
        have := ih (n / 256) k (Fin.ofNat (n % 256) :: acc) hdiv
        simp only [List.length_cons] at this
        omega

theorem bytesToNat_bigBytes (x : Int) : bytesToNat (bigBytes x) = x.natAbs := by
  unfold bigBytes
  rw [bigBytesAux_value _ _ _ (Nat.le_refl _)]
  simp [bytesToNat]

theorem bigBytes_length (x : Int) (k : Nat) (h : x.natAbs < 256 ^ k) :
    (bigBytes x).length ≤ k := by
  have := bigBytesAux_length x.natAbs x.natAbs k [] h
  simpa [bigBytes] using this

/-- A slice that fits is copied whole: the array has the value of the slice. -/
theorem bytesToNat_setBytes (n : Nat) (b : Bytes) (h : b.length ≤ n) :
    bytesToNat (setBytes n b) = bytesToNat b := by
  unfold setBytes
  have h1 : ¬ b.length > n := by omega
  simp only [h1, if_false]
  rw [bytesToNat_append, bytesToNat_replicate_zero]
  simp

/-- A slice of exactly the size of the array is copied as it is. -/
theorem setBytes_self (n : Nat) (b : Bytes) (h : b.length = n) : setBytes n b = b := by
  unfold setBytes
  have h1 : ¬ b.length > n := by omega
  simp only [h1, if_false]
  rw [h]
  simp

/-- The value of the word `BigToHash(x)` is the absolute value of `x`, as
long as it fits in 32 bytes. -/
theorem Big_BigToHash (x : Int) (h : x.natAbs < 256 ^ 32) :
    (BigToHash x).Big = (x.natAbs : Int) := by
  unfold Hash.Big BigToHash BytesToHash
  simp only
  rw [bytesToNat_setBytes 32 _ (bigBytes_length x 32 h), bytesToNat_bigBytes]

/-- An address is read back from its word: `BigToAddress(a.Hash().Big()) = a`. -/
theorem BigToAddress_Hash (a : Address) : BigToAddress a.Hash.Big = a := by
  have hv : bytesToNat a.Hash.bytes = bytesToNat a.bytes := by
    unfold Address.Hash BytesToHash
    simp only
    exact bytesToNat_setBytes 32 _ (by rw [a.size]; norm_num)
  have hlt : bytesToNat a.bytes < 256 ^ 20 := by
    have := bytesToNat_lt a.bytes
    rwa [a.size] at this
  have hlen : (bigBytes ((bytesToNat a.bytes : Nat) : Int)).length ≤ 20 :=
    bigBytes_length _ 20 (by simpa using hlt)
  have hbytes : (BigToAddress a.Hash.Big).bytes = a.bytes := by
    apply bytesToNat_injective
    · rw [(BigToAddress a.Hash.Big).size, a.size]
    · unfold BigToAddress BytesToAddress Hash.Big
      simp only
      rw [hv, bytesToNat_setBytes 20 _ hlen, bytesToNat_bigBytes]
      simp
  cases a with
  | mk ab asz =>
    cases hb : BigToAddress (Address.Hash ⟨ab, asz⟩).Big with
    | mk bb bsz =>
      rw [hb] at hbytes
      simp only at hbytes
      subst hbytes
      rfl

/-- The absolute value of `int64(x)` for a `uint64` `x`: `x` itself up to
`2^63`, and `2^64 - x` above. -/
theorem natAbs_toInt64 (x : Nat) (hx : x < 2 ^ 64) :
    (toInt64 x).natAbs = if x ≤ 2 ^ 63 then x else 2 ^ 64 - x := by
  unfold toInt64
  rw [Nat.mod_eq_of_lt hx]
  by_cases h1 : x < 2 ^ 63
  · rw [if_pos h1, if_pos (Nat.le_of_lt h1)]
    simp
  · rw [if_neg h1]
    by_cases h2 : x ≤ 2 ^ 63
    · rw [if_pos h2]
      have : x = 2 ^ 63 := by omega
      subst this
      decide
    · rw [if_neg h2]
      omega

/-- The replayer reads a `uint64` word back as the absolute value of
`int64(x)`. -/
theorem bigUint64_word (x : Nat) (hx : x < 2 ^ 64) :
    bigUint64 (BigToHash (toInt64 x)).Big = (toInt64 x).natAbs := by
  have hle : (toInt64 x).natAbs ≤ 2 ^ 63 := by
    rw [natAbs_toInt64 x hx]
    split <;> omega
  rw [Big_BigToHash _ (by
    calc (toInt64 x).natAbs ≤ 2 ^ 63 := hle
      _ < 256 ^ 32 := by norm_num)]
  unfold bigUint64
  simp only [Int.natAbs_ofNat]
  exact Nat.mod_eq_of_lt (by omega)


theorem BytesToHash_bytes (h : Hash) : BytesToHash h.bytes = h := by
  cases h with
  | mk b hb =>
    unfold BytesToHash
    simp only [setBytes_self 32 b hb]

theorem drop_take_block (pre : Bytes) (a : Hash) (post : Bytes) (n : Nat)
    (h : pre.length = n) : ((pre ++ a.bytes ++ post).drop n).take 32 = a.bytes := by
  rw [List.append_assoc, List.drop_left' h, List.take_left' a.size]

theorem inputVector_length (s : OracleState) : (inputVector s).length = 192 := by
  simp [inputVector, Hash.size]

/-- The replayer's split of the 192 bytes gives back the six words. -/
theorem splitInputs_inputVector (s : OracleState) :
    splitInputs (inputVector s) = some s.inputs := by
  unfold splitInputs
  rw [if_neg (by rw [inputVector_length]; norm_num)]
  congr 1
  funext i
  have key : ((inputVector s).drop (i.val * 32)).take 32 = (s.inputs i).bytes := by
    unfold inputVector
    fin_cases i
    · have := drop_take_block [] (s.inputs 0) ((s.inputs 1).bytes ++ (s.inputs 2).bytes ++
        (s.inputs 3).bytes ++ (s.inputs 4).bytes ++ (s.inputs 5).bytes) 0 rfl
      simpa [List.append_assoc] using this
    · have := drop_take_block (s.inputs 0).bytes (s.inputs 1) ((s.inputs 2).bytes ++
        (s.inputs 3).bytes ++ (s.inputs 4).bytes ++ (s.inputs 5).bytes) 32 (by simp [Hash.size])
      simpa [List.append_assoc] using this
    · have := drop_take_block ((s.inputs 0).bytes ++ (s.inputs 1).bytes) (s.inputs 2)
        ((s.inputs 3).bytes ++ (s.inputs 4).bytes ++ (s.inputs 5).bytes) 64
        (by simp [Hash.size])
      simpa [List.append_assoc] using this
    · have := drop_take_block ((s.inputs 0).bytes ++ (s.inputs 1).bytes ++ (s.inputs 2).bytes)
        (s.inputs 3) ((s.inputs 4).bytes ++ (s.inputs 5).bytes) 96 (by simp [Hash.size])
      simpa [List.append_assoc] using this
    · have := drop_take_block ((s.inputs 0).bytes ++ (s.inputs 1).bytes ++ (s.inputs 2).bytes ++
        (s.inputs 3).bytes) (s.inputs 4) (s.inputs 5).bytes 128 (by simp [Hash.size])
      simpa [List.append_assoc] using this
    · have := drop_take_block ((s.inputs 0).bytes ++ (s.inputs 1).bytes ++ (s.inputs 2).bytes ++
        (s.inputs 3).bytes ++ (s.inputs 4).bytes) (s.inputs 5) [] 160 (by simp [Hash.size])
      simpa [List.append_assoc] using this
  rw [key, BytesToHash_bytes]

/-- What the replayer reads back after a second-block call on a header that
passes the linkage check (and whose uncle list does not collide with the
commitment): the transactions root, the coinbase and the uncle
hash of the header, and for the gas limit and the timestamp the absolute
value of their `int64` conversion. -/
theorem readInputs_of_PrefetchBlock (E : Env) (blockNumber : Int) (s : OracleState)
    (jr : ApiHeader) (child : Header)
    (hfetch : (fetchBlock E blockNumber s).value = some (jr, child))
    (hlink : child.ParentHash = s.inputs 0)
    (hcoll : NoUncleCollision E blockNumber s child)
    (hgas : child.GasLimit < 2 ^ 64) (htime : child.Time < 2 ^ 64) :
    readInputs (PrefetchBlock E blockNumber false s).state =
      some { TxHash := child.TxHash, Coinbase := child.Coinbase, UncleHash := child.UncleHash,
             GasLimit := (toInt64 child.GasLimit).natAbs,
             Time := (toInt64 child.Time).natAbs } := by
  have hvec := PrefetchBlock_inputVector hfetch hlink
  have hpre := PrefetchBlock_input_preimage hfetch hlink hcoll
  have hin := PrefetchBlock_inputs hfetch hlink
  have hhash : InputHash (PrefetchBlock E blockNumber false s).state =
      E.keccak256 (concatHashes (inputsOf child s.inputs)) :=
    (PrefetchBlock_committed hfetch hlink).1
  unfold readInputs Preimage
  rw [hhash, hpre, ← hvec]
  simp only
  rw [splitInputs_inputVector, Option.map_some']
  unfold replayHeader
  rw [hin]
  simp only [inputsOf, arrSet]
  simp [BigToAddress_Hash, bigUint64_word _ hgas, bigUint64_word _ htime]

/-- Below `2^63` the round trip gives back the gas limit and the timestamp. -/
theorem readInputs_round_trip (E : Env) (blockNumber : Int) (s : OracleState)
    (jr : ApiHeader) (child : Header)
    (hfetch : (fetchBlock E blockNumber s).value = some (jr, child))
    (hlink : child.ParentHash = s.inputs 0)
    (hcoll : NoUncleCollision E blockNumber s child)
    (hgas : child.GasLimit ≤ 2 ^ 63) (htime : child.Time ≤ 2 ^ 63) :
    readInputs (PrefetchBlock E blockNumber false s).state =
      some { TxHash := child.TxHash, Coinbase := child.Coinbase, UncleHash := child.UncleHash,
             GasLimit := child.GasLimit, Time := child.Time } := by
  rw [readInputs_of_PrefetchBlock E blockNumber s jr child hfetch hlink hcoll
    (by omega) (by omega),
    natAbs_toInt64 _ (by omega), natAbs_toInt64 _ (by omega), if_pos hgas, if_pos htime]

/-- C10 (failing input): a child block that links to the start block, with
gas limit `2^64 - 1` and timestamp `2^64 - 2`. `PrefetchBlock(child, false)`
returns normally; the replayer then reads back the transactions root, the
coinbase and the uncle hash of the header, but the gas limit 1 and the
timestamp 2. -/
theorem C10_round_trip_wraps :
    Toy.bigChild.GasLimit = 2 ^ 64 - 1 ∧ Toy.bigChild.Time = 2 ^ 64 - 2 ∧
    (fetchBlock (Toy.node Toy.bigChild []) 6 Toy.started).value =
      some (Toy.apiHeader Toy.bigChild [], Toy.bigChild) ∧
    (PrefetchBlock (Toy.node Toy.bigChild []) 6 false Toy.started).failure = none ∧
    readInputs (PrefetchBlock (Toy.node Toy.bigChild []) 6 false Toy.started).state =
      some { TxHash := Toy.bigChild.TxHash, Coinbase := Toy.bigChild.Coinbase,
             UncleHash := Toy.bigChild.UncleHash, GasLimit := 1, Time := 2 } := by
  refine ⟨by decide, by decide, by decide, by decide, by decide⟩


/-! ### The words of the gas limit and of the timestamp -/

/-- Up to `2^63` the word built from `int64(x)` is the word of `x`: zero
bytes first, then the big-endian bytes of `x`, at most eight of them. -/
theorem word_of_uint64 (x : Nat) (hx : x ≤ 2 ^ 63) :
    (BigToHash (toInt64 x)).bytes =
      List.replicate (32 - (bigBytes (x : Int)).length) 0 ++ bigBytes (x : Int) ∧
    (bigBytes (x : Int)).length ≤ 8 ∧
    bytesToNat (BigToHash (toInt64 x)).bytes = x := by
  have habs : (toInt64 x).natAbs = x := by
    rw [natAbs_toInt64 x (by omega), if_pos hx]
  have hbytes : bigBytes (toInt64 x) = bigBytes (x : Int) := by
    unfold bigBytes
    rw [habs, Int.natAbs_ofNat]
  have hlen : (bigBytes (x : Int)).length ≤ 8 :=
    bigBytes_length _ 8 (by rw [Int.natAbs_ofNat]; norm_num; omega)
  refine ⟨?_, hlen, ?_⟩
  · unfold BigToHash BytesToHash
    simp only [hbytes]
    unfold setBytes
    have h1 : ¬ (bigBytes (x : Int)).length > 32 := by omega
    simp only [h1, if_false]
  · unfold BigToHash BytesToHash
    simp only [hbytes]
    rw [bytesToNat_setBytes 32 _ (by omega), bytesToNat_bigBytes, Int.natAbs_ofNat]

/-- C11 (counterexample): the child block of the small environment has gas
limit 30000000 and timestamp 1700000012, whose big-endian bytes are
`01 c9 c3 80` and `65 53 f1 0c`. After `PrefetchBlock` the two words start
with 28 zero bytes and end with these four bytes: the bytes of the value come
last, not first, and the bytes after the first four are not all zero. -/
theorem C11_counterexample :
    bigBytes (Toy.child.GasLimit : Nat) = [1, 201, 195, 128] ∧
    bigBytes (Toy.child.Time : Nat) = [101, 83, 241, 12] ∧
    ((PrefetchBlock Toy.env 6 false Toy.started).state.inputs 4).bytes =
      List.replicate 28 0 ++ [1, 201, 195, 128] ∧
    ((PrefetchBlock Toy.env 6 false Toy.started).state.inputs 5).bytes =
      List.replicate 28 0 ++ [101, 83, 241, 12] ∧
    ((PrefetchBlock Toy.env 6 false Toy.started).state.inputs 4).bytes ≠
      [1, 201, 195, 128] ++ List.replicate 28 0 ∧
    ((PrefetchBlock Toy.env 6 false Toy.started).state.inputs 5).bytes ≠
      [101, 83, 241, 12] ++ List.replicate 28 0 := by
  refine ⟨by decide, by decide, by decide, by decide, by decide, by decide⟩

/-- C11 (amended): in the input vector built by `PrefetchBlock`, the
gas-limit word and the timestamp word are each the value left-padded into a
32-byte big-endian word: zero bytes come first and the big-endian bytes of the
value, at most eight, come last, so that the word read as a number is the
value. Stated for values up to `2^63`. -/
theorem C11_words_left_padded (E : Env) (blockNumber : Int) (s : OracleState) (jr : ApiHeader)
    (child : Header)
    (hfetch : (fetchBlock E blockNumber s).value = some (jr, child))
    (hlink : child.ParentHash = s.inputs 0)
    (hgas : child.GasLimit ≤ 2 ^ 63) (htime : child.Time ≤ 2 ^ 63) :
    (((PrefetchBlock E blockNumber false s).state.inputs 4).bytes =
        List.replicate (32 - (bigBytes (child.GasLimit : Nat)).length) 0 ++
          bigBytes (child.GasLimit : Nat) ∧
      (bigBytes (child.GasLimit : Nat)).length ≤ 8 ∧
      bytesToNat ((PrefetchBlock E blockNumber false s).state.inputs 4).bytes =
        child.GasLimit) ∧
    (((PrefetchBlock E blockNumber false s).state.inputs 5).bytes =
        List.replicate (32 - (bigBytes (child.Time : Nat)).length) 0 ++
          bigBytes (child.Time : Nat) ∧
      (bigBytes (child.Time : Nat)).length ≤ 8 ∧
      bytesToNat ((PrefetchBlock E blockNumber false s).state.inputs 5).bytes = child.Time) := by
  rw [PrefetchBlock_inputs hfetch hlink]
  have h4 : inputsOf child s.inputs 4 = BigToHash (toInt64 child.GasLimit) := by
    simp [inputsOf, arrSet]
  have h5 : inputsOf child s.inputs 5 = BigToHash (toInt64 child.Time) := by
    simp [inputsOf, arrSet]
  rw [h4, h5]
  exact ⟨word_of_uint64 _ hgas, word_of_uint64 _ htime⟩

/-- C11 (amended) at the child block of the small environment. -/
theorem C11_words_left_padded_witness :
    (fetchBlock Toy.env 6 Toy.started).value = some (Toy.apiHeader Toy.child [], Toy.child) ∧
    Toy.child.ParentHash = Toy.started.inputs 0 ∧
    Toy.child.GasLimit ≤ 2 ^ 63 ∧ Toy.child.Time ≤ 2 ^ 63 ∧
    bytesToNat ((PrefetchBlock Toy.env 6 false Toy.started).state.inputs 4).bytes = 30000000 ∧
    bytesToNat ((PrefetchBlock Toy.env 6 false Toy.started).state.inputs 5).bytes =
      1700000012 :=
  have h := C11_words_left_padded Toy.env 6 Toy.started (Toy.apiHeader Toy.child []) Toy.child
    (by decide) (by decide) (by decide) (by decide)
  ⟨by decide, by decide, by decide, by decide, h.1.2.2, h.2.2.2⟩


/-! ### The request cache -/

/-- A call of `getAPI` that returns leaves the bytes it returns in the cache
file of the request. -/
theorem getAPI_cached {E : Env} {b : Bytes} {s : OracleState} {ret : Bytes}
    (h : (getAPI E b s).value = some ret) :
    (getAPI E b s).state.files
      (toFilename (getAPI E b s).state (hexEncode (E.keccak256 b).bytes)) = some ret := by
  unfold getAPI at h ⊢
  simp only at h ⊢
  by_cases hex : cacheExists s (hexEncode (E.keccak256 b).bytes) = true
  · rw [if_pos hex] at h ⊢
    unfold cacheRead at h ⊢
    cases hf : s.files (toFilename s (hexEncode (E.keccak256 b).bytes)) with
    | none => rw [hf] at h; simp [Res.value] at h
    | some dat =>
      rw [hf] at h
      simp only [Res.value, Option.some.injEq] at h
      simp only [hf, Res.state, h]
  · rw [if_neg hex] at h ⊢
    cases hp : E.httpPost s.posts.length b with
    | none => rw [hp] at h; simp [Res.value] at h
    | some r =>
      rw [hp] at h
      simp only [Res.value, Option.some.injEq] at h
      subst h
      simp [Res.state, cacheWrite, writeFile, toFilename]

/-- A call of `getAPI` posts at most one request, and none when the cache
file of the request exists. -/
theorem getAPI_posts (E : Env) (b : Bytes) (s : OracleState) :
    ((getAPI E b s).state.posts = s.posts ∨ (getAPI E b s).state.posts = s.posts ++ [b]) ∧
    (cacheExists s (hexEncode (E.keccak256 b).bytes) = true →
      (getAPI E b s).state = s) := by
  unfold getAPI
  simp only
  by_cases hex : cacheExists s (hexEncode (E.keccak256 b).bytes) = true
  · rw [if_pos hex]
    unfold cacheRead
    cases hf : s.files (toFilename s (hexEncode (E.keccak256 b).bytes)) with
    | none => exact ⟨Or.inl rfl, fun _ => rfl⟩
    | some dat => exact ⟨Or.inl rfl, fun _ => rfl⟩
  · rw [if_neg hex]
    refine ⟨Or.inr ?_, fun h => absurd h hex⟩
    cases hp : E.httpPost s.posts.length b with
    | none => rfl
    | some r => rfl

/-- C12: for every request body `b`, when a call `getAPI(b)` returns, a second
call `getAPI(b)` right after it returns the same bytes, posts nothing and
leaves the state as it is; the bytes are the content of the cache file named
after `keccak256(b)`; and the first call has posted at most one request, so
the two calls post at most one in total. The disk is a map on which writes
succeed. -/
theorem C12_getAPI_idempotent (E : Env) (b : Bytes) (s : OracleState) (ret : Bytes)
    (h : (getAPI E b s).value = some ret) :
    (getAPI E b (getAPI E b s).state).value = some ret ∧
    (getAPI E b (getAPI E b s).state).state = (getAPI E b s).state ∧
    (getAPI E b (getAPI E b s).state).state.posts = (getAPI E b s).state.posts ∧
    (getAPI E b (getAPI E b s).state).state.posts.length ≤ s.posts.length + 1 ∧
    (getAPI E b s).state.files
      ((getAPI E b s).state.root ++ "/json_" ++ hexEncode (E.keccak256 b).bytes) = some ret := by
  have hfile := getAPI_cached h
  have hposts := (getAPI_posts E b s).1
  generalize getAPI E b s = r1 at h hfile hposts
  have hex : cacheExists r1.state (hexEncode (E.keccak256 b).bytes) = true := by
    unfold cacheExists
    rw [hfile]
    rfl
  have hsame := (getAPI_posts E b r1.state).2 hex
  have hval : (getAPI E b r1.state).value = some ret := by
    unfold getAPI
    simp only
    rw [if_pos hex]
    unfold cacheRead
    rw [hfile]
    rfl
  refine ⟨hval, hsame, by rw [hsame], ?_, hfile⟩
  rw [hsame]
  rcases hposts with hp | hp
  · rw [hp]; omega
  · rw [hp]; simp

/-- C12 in the small environment: the request for block 5 on a fresh oracle
is posted once by the first call and not at all by the second. -/
theorem C12_getAPI_idempotent_witness :
    (getAPI Toy.env (Toy.blockRequest 5) (OracleState.fresh Toy.dir)).value =
      some (Toy.blockRequest 5) ∧
    (getAPI Toy.env (Toy.blockRequest 5) (OracleState.fresh Toy.dir)).state.posts =
      [Toy.blockRequest 5] ∧
    (getAPI Toy.env (Toy.blockRequest 5)
      (getAPI Toy.env (Toy.blockRequest 5) (OracleState.fresh Toy.dir)).state).value =
      some (Toy.blockRequest 5) ∧
    (getAPI Toy.env (Toy.blockRequest 5)
      (getAPI Toy.env (Toy.blockRequest 5) (OracleState.fresh Toy.dir)).state).state.posts =
      [Toy.blockRequest 5] :=
  have h := C12_getAPI_idempotent Toy.env (Toy.blockRequest 5) (OracleState.fresh Toy.dir)
    (Toy.blockRequest 5) (by decide)
  ⟨by decide, by decide, h.1, by rw [h.2.2.1]; decide⟩


/-! ### The set of fetched keys -/

/-- A run of start-block calls, one after the other, for the block numbers of
the list. -/
def startCalls (E : Env) : List Int → OracleState → OracleState
  | [], s => s
  | n :: rest, s => startCalls E rest (PrefetchBlock E n true s).state

/-- What a start-block call leaves alone, however it ends: everything but
word 0 of `inputs`, the preimage store, the cache files and the log of
requests. -/
theorem PrefetchBlock_start_frame (E : Env) (blockNumber : Int) (s : OracleState) :
    (PrefetchBlock E blockNumber true s).state.outputs = s.outputs ∧
    (PrefetchBlock E blockNumber true s).state.inputhash = s.inputhash ∧
    (PrefetchBlock E blockNumber true s).state.root = s.root ∧
    (PrefetchBlock E blockNumber true s).state.files (s.root ++ "/input") =
      s.files (s.root ++ "/input") ∧
    (PrefetchBlock E blockNumber true s).state.files (s.root ++ "/output") =
      s.files (s.root ++ "/output") ∧
    (∀ i : Fin 6, i ≠ 0 → (PrefetchBlock E blockNumber true s).state.inputs i = s.inputs i) ∧
    (s.inputs 0 ≠ Hash.zero → (PrefetchBlock E blockNumber true s).state.inputs = s.inputs) := by
  have hc := fetchBlock_cacheOnly E blockNumber s
  unfold PrefetchBlock
  cases hf : fetchBlock E blockNumber s with
  | fail f s1 =>
    rw [hf] at hc
    simp only [Res.state] at hc ⊢
    exact ⟨hc.outputs, hc.inputhash, hc.root, hc.inputFile, hc.outputFile,
      fun i _ => congrFun hc.inputs i, fun _ => hc.inputs⟩
  | ok a s1 =>
    rw [hf] at hc
    simp only [Res.state] at hc
    obtain ⟨jr, blockHeader⟩ := a
    simp only [if_true]
    unfold startBlockStep
    cases hr : E.rlpHeader blockHeader with
    | none =>
      simp only [Res.state]
      exact ⟨hc.outputs, hc.inputhash, hc.root, hc.inputFile, hc.outputFile,
        fun i _ => congrFun hc.inputs i, fun _ => hc.inputs⟩
    | some enc =>
      simp only
      by_cases h0 : s1.inputs 0 = Hash.zero
      · rw [if_pos h0]
        simp only [Res.state]
        refine ⟨hc.outputs, hc.inputhash, hc.root, hc.inputFile, hc.outputFile, ?_, ?_⟩
        · intro i hi
          simp only [arrSet, if_neg hi]
          exact congrFun hc.inputs i
        · intro hnz
          rw [hc.inputs] at h0
          exact absurd h0 hnz
      · rw [if_neg h0]
        simp only [Res.state]
        exact ⟨hc.outputs, hc.inputhash, hc.root, hc.inputFile, hc.outputFile,
          fun i _ => congrFun hc.inputs i, fun _ => hc.inputs⟩

/-- A start-block call on a fetched header whose encoding succeeds: the
encoding is stored under its hash and word 0 of `inputs` is set when it was
zero. -/
theorem PrefetchBlock_start_ok {E : Env} {blockNumber : Int} {s : OracleState} {jr : ApiHeader}
    {blockHeader : Header} {enc : Bytes}
    (hfetch : (fetchBlock E blockNumber s).value = some (jr, blockHeader))
    (hrlp : E.rlpHeader blockHeader = some enc) :
    (PrefetchBlock E blockNumber true s).failure = none ∧
    (PrefetchBlock E blockNumber true s).state.preimages =
      mapSet s.preimages (E.keccak256 enc) enc ∧
    (PrefetchBlock E blockNumber true s).state.inputs =
      if s.inputs 0 = Hash.zero then arrSet s.inputs 0 (E.keccak256 enc) else s.inputs := by
  have hc := fetchBlock_cacheOnly E blockNumber s
  rw [PrefetchBlock_start hfetch]
  generalize (fetchBlock E blockNumber s).state = s1 at hc ⊢
  unfold startBlockStep
  rw [hrlp]
  simp only
  rw [hc.inputs, hc.preimages]
  by_cases h0 : s.inputs 0 = Hash.zero
  · simp [h0, Res.failure, Res.state]
  · simp [h0, Res.failure, Res.state]

theorem startCalls_marker (E : Env) (later : List Int) :
    ∀ s : OracleState, s.inputs 0 ≠ Hash.zero → (startCalls E later s).inputs = s.inputs := by
  induction later with
  | nil => intro s _; rfl
  | cons n rest ih =>
    intro s hs
    have h1 := (PrefetchBlock_start_frame E n s).2.2.2.2.2.2 hs
    unfold startCalls
    rw [ih _ (by rw [h1]; exact hs), h1]

/-- C14: once a call `PrefetchBlock(_, true)` has set the start marker
`inputs[0]`, which was zero, to the hash of a header, a hash that is not zero,
every later run of calls `PrefetchBlock(h, true)`, for any block numbers and
whatever the node answers, leaves `inputs[0]` equal to the hash of the first
start header. -/
theorem C14_first_start_kept (E : Env) (s : OracleState) (first : Int) (jr : ApiHeader)
    (P : Header) (enc : Bytes) (later : List Int)
    (h0 : s.inputs 0 = Hash.zero)
    (hfetch : (fetchBlock E first s).value = some (jr, P))
    (hrlp : E.rlpHeader P = some enc)
    (hnz : E.keccak256 enc ≠ Hash.zero) :
    (PrefetchBlock E first true s).state.inputs 0 = E.keccak256 enc ∧
    (startCalls E later (PrefetchBlock E first true s).state).inputs 0 = E.keccak256 enc := by
  have h1 : (PrefetchBlock E first true s).state.inputs 0 = E.keccak256 enc := by
    rw [(PrefetchBlock_start_ok hfetch hrlp).2.2, if_pos h0]
    simp [arrSet]
  refine ⟨h1, ?_⟩
  rw [startCalls_marker E later _ (by rw [h1]; exact hnz), h1]

/-- C14 in the small environment: block 5 is the first start block, and the
start-block calls for blocks 6, 5, 7 and 6 that follow leave its hash in
`inputs[0]`. -/
theorem C14_first_start_kept_witness :
    (OracleState.fresh Toy.dir).inputs 0 = Hash.zero ∧
    (fetchBlock Toy.env 5 (OracleState.fresh Toy.dir)).value =
      some (Toy.apiHeader Toy.parent [], Toy.parent) ∧
    Toy.parentHash ≠ Hash.zero ∧
    (startCalls Toy.env [6, 5, 7, 6]
      (PrefetchBlock Toy.env 5 true (OracleState.fresh Toy.dir)).state).inputs 0 =
      Toy.parentHash :=
  ⟨by decide, by decide, by decide,
    (C14_first_start_kept Toy.env (OracleState.fresh Toy.dir) 5 (Toy.apiHeader Toy.parent [])
      Toy.parent ((Toy.rlpHeader Toy.parent).getD []) [6, 5, 7, 6] (by decide) (by decide)
      (by decide) (by decide)).2⟩

/-- C15 (counterexample): in the state left by the start-block call for
block 5, a start-block call for block 6 returns normally, and the preimage
store, which had no entry under the hash of the header of block 6, then has
one: the call is not a no-op on the preimage store. -/
theorem C15_counterexample :
    (PrefetchBlock Toy.env 6 true Toy.started).failure = none ∧
    Toy.started.preimages (Toy.env.keccak256 ((Toy.env.rlpHeader Toy.child).getD [])) = none ∧
    (PrefetchBlock Toy.env 6 true Toy.started).state.preimages
        (Toy.env.keccak256 ((Toy.env.rlpHeader Toy.child).getD [])) =
      Toy.env.rlpHeader Toy.child ∧
    Toy.env.rlpHeader Toy.child ≠ none := by
  refine ⟨by decide, by decide, by decide, by decide⟩

/-- C15 (amended): after a first start-block call has set the start marker to
a hash that is not zero, every later call `PrefetchBlock(h, true)` leaves
`inputs`, `outputs` and `inputhash` as they were. It is not a no-op on the
preimage store: a call that fetches a header `h` stores `RLP(h)` under
`keccak256(RLP(h))`, so the store is unchanged only when it already held that
entry, as it does when `h` is the first start header again. -/
theorem C15_start_block_again (E : Env) (blockNumber : Int) (s : OracleState)
    (hnz : s.inputs 0 ≠ Hash.zero) :
    (PrefetchBlock E blockNumber true s).state.inputs = s.inputs ∧
    (PrefetchBlock E blockNumber true s).state.outputs = s.outputs ∧
    (PrefetchBlock E blockNumber true s).state.inputhash = s.inputhash ∧
    (∀ jr h enc, (fetchBlock E blockNumber s).value = some (jr, h) →
      E.rlpHeader h = some enc →
      (PrefetchBlock E blockNumber true s).failure = none ∧
      (PrefetchBlock E blockNumber true s).state.preimages =
        mapSet s.preimages (E.keccak256 enc) enc ∧
      (s.preimages (E.keccak256 enc) = some enc →
        (PrefetchBlock E blockNumber true s).state.preimages = s.preimages)) := by
  obtain ⟨h1, h2, _, _, _, _, h7⟩ := PrefetchBlock_start_frame E blockNumber s
  refine ⟨h7 hnz, h1, h2, ?_⟩
  intro jr h enc hfetch hrlp
  obtain ⟨hok, hpre, _⟩ := PrefetchBlock_start_ok hfetch hrlp
  refine ⟨hok, hpre, fun hold => ?_⟩
  rw [hpre]
  funext k
  unfold mapSet
  by_cases hk : k = E.keccak256 enc
  · rw [if_pos hk, hk, hold]
  · rw [if_neg hk]

/-- C15 (amended) in the small environment: after the start-block call for
block 5, a second start-block call for block 5 changes nothing in `inputs` or
in the preimage store. -/
theorem C15_start_block_again_witness :
    Toy.started.inputs 0 ≠ Hash.zero ∧
    (PrefetchBlock Toy.env 5 true Toy.started).state.inputs = Toy.started.inputs ∧
    (PrefetchBlock Toy.env 5 true Toy.started).state.preimages = Toy.started.preimages :=
  have h := C15_start_block_again Toy.env 5 Toy.started (by decide)
  ⟨by decide, h.1,
    (h.2.2.2 (Toy.apiHeader Toy.parent []) Toy.parent ((Toy.rlpHeader Toy.parent).getD [])
      (by decide) (by decide)).2.2 (by decide)⟩


/-! ### Determinism of the commitment -/

/-- The state after `PrefetchBlock(numP, true)` and `PrefetchBlock(numC, false)`
on a fresh oracle with the run directory `root`. -/
def transition (E : Env) (root : String) (numP numC : Int) : OracleState :=
  (PrefetchBlock E numC false (PrefetchBlock E numP true (OracleState.fresh root)).state).state

/-- The commitment of a run: the input vector, the input hash, the output
vector and the contents of the input file and of the output file. -/
structure Commitment where
  inputs : List Hash
  inputhash : Hash
  outputs : List Hash
  inputFile : Option Bytes
  outputFile : Option Bytes
deriving DecidableEq

/-- The commitment found in a state. -/
def commitmentOf (s : OracleState) : Commitment :=
  { inputs := (List.finRange 6).map s.inputs
    inputhash := s.inputhash
    outputs := (List.finRange 2).map s.outputs
    inputFile := s.files (s.root ++ "/input")
    outputFile := s.files (s.root ++ "/output") }

/-- The commitment after the two calls, computed from the two headers and the
hash functions alone. -/
def expectedCommitment (E : Env) (P C : Header) : Commitment :=
  let marker : Fin 6 → Hash :=
    match E.rlpHeader P with
    | some enc => arrSet (fun _ => Hash.zero) 0 (E.keccak256 enc)
    | none => fun _ => Hash.zero
  if C.ParentHash = marker 0 then
    { inputs := (List.finRange 6).map (inputsOf C marker)
      inputhash := E.keccak256 (concatHashes (inputsOf C marker))
      outputs := [C.Root, C.ReceiptHash]
      inputFile := some (E.keccak256 (concatHashes (inputsOf C marker))).bytes
      outputFile := some (C.Root.bytes ++ C.ReceiptHash.bytes) }
  else
    { inputs := (List.finRange 6).map marker
      inputhash := Hash.zero
      outputs := [Hash.zero, Hash.zero]
      inputFile := none
      outputFile := none }

/-- The state a start-block call on a fresh oracle ends in, for a fetched
header. -/
theorem PrefetchBlock_start_fresh_state {E : Env} {numP : Int} {root : String} {jr : ApiHeader}
    {P : Header}
    (hP : (fetchBlock E numP (OracleState.fresh root)).value = some (jr, P)) :
    (PrefetchBlock E numP true (OracleState.fresh root)).state.inputs =
      (match E.rlpHeader P with
        | some enc => arrSet (fun _ => Hash.zero) 0 (E.keccak256 enc)
        | none => fun _ => Hash.zero) ∧
    (PrefetchBlock E numP true (OracleState.fresh root)).state.outputs = (fun _ => Hash.zero) ∧
    (PrefetchBlock E numP true (OracleState.fresh root)).state.inputhash = Hash.zero ∧
    (PrefetchBlock E numP true (OracleState.fresh root)).state.root = root ∧
    (PrefetchBlock E numP true (OracleState.fresh root)).state.files (root ++ "/input") = none ∧
    (PrefetchBlock E numP true (OracleState.fresh root)).state.files (root ++ "/output") =
      none := by
  obtain ⟨h1, h2, h3, h4, h5, _, _⟩ := PrefetchBlock_start_frame E numP (OracleState.fresh root)
  refine ⟨?_, h1, h2, h3, h4, h5⟩
  cases hr : E.rlpHeader P with
  | some enc =>
    rw [(PrefetchBlock_start_ok hP hr).2.2]
    simp [OracleState.fresh]
  | none =>
    have hc := fetchBlock_cacheOnly E numP (OracleState.fresh root)
    rw [PrefetchBlock_start hP]
    unfold startBlockStep
    rw [hr]
    exact hc.inputs

/-- The commitment of a run is the one computed from the two headers. -/
theorem commitment_of_transition {E : Env} {root : String} {numP numC : Int}
    {jrP jrC : ApiHeader} {P C : Header}
    (hP : (fetchBlock E numP (OracleState.fresh root)).value = some (jrP, P))
    (hC : (fetchBlock E numC (PrefetchBlock E numP true (OracleState.fresh root)).state).value =
      some (jrC, C)) :
    commitmentOf (transition E root numP numC) = expectedCommitment E P C := by
  obtain ⟨hin, hout, hih, hroot, hfi, hfo⟩ := PrefetchBlock_start_fresh_state hP
  unfold transition at *
  generalize (PrefetchBlock E numP true (OracleState.fresh root)).state = s1 at *
  unfold expectedCommitment commitmentOf
  simp only
  rw [← hin]
  by_cases hlink : C.ParentHash = s1.inputs 0
  · rw [if_pos hlink]
    obtain ⟨c1, c2, c3, c4⟩ := PrefetchBlock_committed hC hlink
    have hr : (PrefetchBlock E numC false s1).state.root = s1.root := by
      have hc := fetchBlock_cacheOnly E numC s1
      rw [PrefetchBlock_child hC hlink, (checkBlock_frame E jrC C _).root, commitBlock_root,
        hc.root]
    rw [hr, PrefetchBlock_inputs hC hlink, c1, c2, c3, c4]
    simp [finRange_two, arrSet]
  · rw [if_neg hlink]
    have hc := fetchBlock_cacheOnly E numC s1
    rw [PrefetchBlock_mismatch hC hlink]
    generalize (fetchBlock E numC s1).state = s2 at hc
    simp only [Res.state]
    rw [hc.root, hc.inputs, hc.inputhash, hc.outputs, hc.inputFile, hc.outputFile, hroot, hfi,
      hfo, hih, hout]
    simp [finRange_two]

/-- The run directory after the two calls. -/
theorem transition_root {E : Env} {root : String} {numP numC : Int}
    {jrP jrC : ApiHeader} {P C : Header}
    (hP : (fetchBlock E numP (OracleState.fresh root)).value = some (jrP, P))
    (hC : (fetchBlock E numC (PrefetchBlock E numP true (OracleState.fresh root)).state).value =
      some (jrC, C)) :
    (transition E root numP numC).root = root := by
  obtain ⟨_, _, _, hroot, _, _⟩ := PrefetchBlock_start_fresh_state hP
  unfold transition at *
  generalize (PrefetchBlock E numP true (OracleState.fresh root)).state = s1 at *
  have hc := fetchBlock_cacheOnly E numC s1
  by_cases hlink : C.ParentHash = s1.inputs 0
  · rw [PrefetchBlock_child hC hlink, (checkBlock_frame E jrC C _).root, commitBlock_root,
      hc.root, hroot]
  · rw [PrefetchBlock_mismatch hC hlink]
    exact hc.root.trans hroot

/-- C17: two runs of `PrefetchBlock(parent, true)` then
`PrefetchBlock(child, false)`, each from a fresh oracle, in which the two
block responses decode to the same parent header and the same child header,
end with the same input vector, input hash, output vector, input file and
output file, byte for byte. The runs may differ in their run directory, in
the transport and the cache, and even in the transactions and uncles
returned: the commitment is a function of the two headers, Keccak-256 and the
RLP encoding of the parent. -/
theorem C17_commitment_determinism (E1 E2 : Env) (root1 root2 : String) (numP numC : Int)
    (jrP1 jrC1 jrP2 jrC2 : ApiHeader) (P C : Header)
    (hk : E1.keccak256 = E2.keccak256) (hr : E1.rlpHeader = E2.rlpHeader)
    (hP1 : (fetchBlock E1 numP (OracleState.fresh root1)).value = some (jrP1, P))
    (hC1 : (fetchBlock E1 numC
      (PrefetchBlock E1 numP true (OracleState.fresh root1)).state).value = some (jrC1, C))
    (hP2 : (fetchBlock E2 numP (OracleState.fresh root2)).value = some (jrP2, P))
    (hC2 : (fetchBlock E2 numC
      (PrefetchBlock E2 numP true (OracleState.fresh root2)).state).value = some (jrC2, C)) :
    commitmentOf (transition E1 root1 numP numC) = commitmentOf (transition E2 root2 numP numC) ∧
    (transition E1 root1 numP numC).inputs = (transition E2 root2 numP numC).inputs ∧
    inputVector (transition E1 root1 numP numC) = inputVector (transition E2 root2 numP numC) ∧
    (transition E1 root1 numP numC).inputhash = (transition E2 root2 numP numC).inputhash ∧
    (transition E1 root1 numP numC).outputs = (transition E2 root2 numP numC).outputs ∧
    (transition E1 root1 numP numC).files (root1 ++ "/input") =
      (transition E2 root2 numP numC).files (root2 ++ "/input") ∧
    (transition E1 root1 numP numC).files (root1 ++ "/output") =
      (transition E2 root2 numP numC).files (root2 ++ "/output") := by
  have e1 := commitment_of_transition hP1 hC1
  have e2 := commitment_of_transition hP2 hC2
  have hexp : expectedCommitment E1 P C = expectedCommitment E2 P C := by
    unfold expectedCommitment
    rw [hk, hr]
  have heq : commitmentOf (transition E1 root1 numP numC) =
      commitmentOf (transition E2 root2 numP numC) := by rw [e1, e2, hexp]
  have hr1 := transition_root hP1 hC1
  have hr2 := transition_root hP2 hC2
  have hin : (transition E1 root1 numP numC).inputs = (transition E2 root2 numP numC).inputs := by
    have h := congrArg Commitment.inputs heq
    simp only [commitmentOf, finRange_six, List.map_cons, List.map_nil, List.cons.injEq,
      and_true] at h
    obtain ⟨h0, h1, h2, h3, h4, h5⟩ := h
    funext i
    fin_cases i
    · exact h0
    · exact h1
    · exact h2
    · exact h3
    · exact h4
    · exact h5
  have hout : (transition E1 root1 numP numC).outputs =
      (transition E2 root2 numP numC).outputs := by
    have h := congrArg Commitment.outputs heq
    simp only [commitmentOf, finRange_two, List.map_cons, List.map_nil, List.cons.injEq,
      and_true] at h
    obtain ⟨h0, h1⟩ := h
    funext i
    fin_cases i
    · exact h0
    · exact h1
  refine ⟨heq, hin, ?_, congrArg Commitment.inputhash heq, hout, ?_, ?_⟩
  · unfold inputVector
    rw [hin]
  · have h := congrArg Commitment.inputFile heq
    simp only [commitmentOf] at h
    rw [hr1, hr2] at h
    exact h
  · have h := congrArg Commitment.outputFile heq
    simp only [commitmentOf] at h
    rw [hr1, hr2] at h
    exact h

/-- C17 in the small environment: a run in `/tmp/cannon/0_5` and a run in
another directory against a node that reports no block hash. -/
theorem C17_commitment_determinism_witness :
    (fetchBlock Toy.env 5 (OracleState.fresh Toy.dir)).value =
      some (Toy.apiHeader Toy.parent [], Toy.parent) ∧
    (fetchBlock Toy.env 6 (PrefetchBlock Toy.env 5 true (OracleState.fresh Toy.dir)).state).value =
      some (Toy.apiHeader Toy.child [], Toy.child) ∧
    (transition Toy.env Toy.dir 5 6).files (Toy.dir ++ "/input") =
      (transition (withReportedHash Toy.env (fun _ => none)) "/var/run2" 5 6).files
        ("/var/run2" ++ "/input") ∧
    (transition Toy.env Toy.dir 5 6).files (Toy.dir ++ "/input") ≠ none :=
  have h := C17_commitment_determinism Toy.env (withReportedHash Toy.env (fun _ => none))
    Toy.dir "/var/run2" 5 6 (Toy.apiHeader Toy.parent []) (Toy.apiHeader Toy.child [])
    (Toy.apiHeader Toy.parent []) (Toy.apiHeader Toy.child []) Toy.parent Toy.child
    rfl rfl (by decide) (by decide) (by decide) (by decide)
  ⟨by decide, by decide, h.2.2.2.2.2.1, by decide⟩


/-! ### Responses that do not decode -/

/-- A node that answers every request with an HTML page, which none of the
decoders can read: `Decode` fails at the first byte and the results keep
their zero values. -/
def Toy.htmlNode : Env :=
  { Toy.env with
    httpPost := fun _ _ => some (Toy.ascii "<html>")
    decodeCount := fun _ => none }

/-- A node that answers every request with a JSON object that holds the
result first and a member of the wrong type after it: `Decode` returns an
error once it has filled the result. -/
def Toy.partlyNode : Env :=
  { Toy.env with
    httpPost := fun _ _ => some (Toy.ascii "result, then an id of the wrong type")
    decodeProof := fun _ =>
      { value :=
          { AccountResult.zero with
            AccountProof := Toy.proofNodes
            StorageProof := [{ Key := Toy.ascii "0x00", Value := none, Proof := Toy.proofNodes }] }
        err := true }
    decodeString := fun _ => { value := Toy.ascii "0x6001", err := true }
    decodeCount := fun _ => none }

/-- With a transport that always answers, `getAPI` returns. -/
theorem getAPI_returns (E : Env) (hpost : ∀ n req, E.httpPost n req ≠ none) (b : Bytes)
    (s : OracleState) : (getAPI E b s).failure = none := by
  unfold getAPI
  simp only
  by_cases hex : cacheExists s (hexEncode (E.keccak256 b).bytes) = true
  · rw [if_pos hex]
    unfold cacheRead
    cases hf : s.files (toFilename s (hexEncode (E.keccak256 b).bytes)) with
    | none =>
      unfold cacheExists at hex
      rw [hf] at hex
      simp at hex
    | some dat => rfl
  · rw [if_neg hex]
    cases hp : E.httpPost s.posts.length b with
    | none => exact absurd hp (hpost _ _)
    | some r => rfl

/-- The account fetch on responses whose decoding leaves the account proof
empty, whether `Decode` returns an error or not: the call returns and the
store is what it was. -/
theorem PrefetchAccount_undecodable (E : Env) (blockNumber : Int) (addr : Address)
    (s : OracleState)
    (hdec : ∀ body, (E.decodeProof body).value.AccountProof = [])
    (hpost : ∀ n req, E.httpPost n req ≠ none)
    (hnew : s.cached (accountKey E blockNumber addr) = false) :
    (PrefetchAccount E blockNumber addr none s).failure = none ∧
    (PrefetchAccount E blockNumber addr none s).state.preimages = s.preimages := by
  have hp := getProofAccount_preimages E blockNumber addr Hash.zero false
    (markFetched s (accountKey E blockNumber addr))
  unfold PrefetchAccount
  simp only [hnew, Bool.false_eq_true, if_false]
  unfold getProofAccount at hp ⊢
  simp only at hp ⊢
  generalize hreq : E.jsonMarshal _ = req at hp ⊢
  generalize hs1 : ({ markFetched s (accountKey E blockNumber addr) with
    unhashMap := mapSet (markFetched s (accountKey E blockNumber addr)).unhashMap
      (E.keccak256 addr.bytes) addr } : OracleState) = s1 at hp ⊢
  cases hg : getAPI E req s1 with
  | fail f s2 =>
    have hr := getAPI_returns E hpost req s1
    rw [hg] at hr
    simp [Res.failure] at hr
  | ok body s2 =>
    rw [hg] at hp
    simp only [hdec body, Bool.false_eq_true, if_false, Res.state] at hp ⊢
    unfold storeProof collectPreimages
    simp only [Res.failure, Res.state, true_and]
    rw [hp]
    funext k
    simp [mapMerge, markFetched]

/-- The storage fetch on responses whose decoding leaves the list of storage
proofs empty: `StorageProof[0]` is out of range. -/
theorem PrefetchStorage_undecodable (E : Env) (blockNumber : Int) (addr : Address) (skey : Hash)
    (postProcess : Option ((Hash → Option Bytes) → (Hash → Option Bytes)))
    (s : OracleState)
    (hdec : ∀ body, (E.decodeProof body).value.StorageProof = [])
    (hnew : s.cached (storageKey E blockNumber addr skey) = false) :
    (PrefetchStorage E blockNumber addr skey postProcess s).failure ≠ none := by
  unfold PrefetchStorage
  simp only [hnew, Bool.false_eq_true, if_false]
  unfold getProofAccount
  simp only
  generalize E.jsonMarshal _ = req
  cases hg : getAPI E req _ with
  | fail f s2 => simp [Res.failure]
  | ok body s2 =>
    simp [hdec body, Res.failure]

/-- The code fetch on responses whose decoding leaves a result shorter than
two bytes: `jr.Result[2:]` is out of range. -/
theorem PrefetchCode_undecodable (E : Env) (blockNumber : Int) (addrHash : Hash)
    (s : OracleState)
    (hdec : ∀ body, (E.decodeString body).value.length < 2)
    (hnew : s.cached (codeKey blockNumber addrHash) = false) :
    (PrefetchCode E blockNumber addrHash s).failure ≠ none := by
  unfold PrefetchCode
  simp only [hnew, Bool.false_eq_true, if_false]
  unfold getProvedCodeBytes
  simp only
  generalize E.jsonMarshal _ = req
  cases hg : getAPI E req _ with
  | fail f s2 => simp [Res.failure]
  | ok body s2 =>
    simp [hdec body, Res.failure]

/-- C16 (failing input): a node that answers every request with an HTML
page. The body is fetched and cached, `Decode` returns an error on it and
leaves the zero value. The account fetch then returns normally and leaves the
store empty; the storage fetch and the code fetch do not return: they end in
a run-time panic, on `StorageProof[0]` and on `jr.Result[2:]`. -/
theorem C16_undecodable_response :
    Toy.htmlNode.decodeProof (Toy.ascii "<html>") = ⟨AccountResult.zero, true⟩ ∧
    Toy.htmlNode.decodeString (Toy.ascii "<html>") = ⟨[], true⟩ ∧
    (PrefetchAccount Toy.htmlNode 5 Address.zero none (OracleState.fresh Toy.dir)).failure =
      none ∧
    (PrefetchAccount Toy.htmlNode 5 Address.zero none
      (OracleState.fresh Toy.dir)).state.posts.length = 1 ∧
    (PrefetchStorage Toy.htmlNode 5 Address.zero Hash.zero none
      (OracleState.fresh Toy.dir)).failure = some Failure.runtime ∧
    (PrefetchStorage Toy.htmlNode 5 Address.zero Hash.zero none
      (OracleState.fresh Toy.dir)).state.posts.length = 1 ∧
    (PrefetchCode Toy.htmlNode 5 Hash.zero (OracleState.fresh Toy.dir)).failure =
      some Failure.runtime ∧
    (PrefetchCode Toy.htmlNode 5 Hash.zero (OracleState.fresh Toy.dir)).state.posts.length =
      1 := by
  refine ⟨by decide, by decide, by decide, by decide, by decide, by decide, by decide,
    by decide⟩

/-- A response on which `Decode` returns an error after it has filled the
result is not treated as a zero value either: the three fetches return
normally, and the proof nodes and the code of the response are in the
store. -/
theorem partly_decoded_example :
    (Toy.partlyNode.decodeProof (Toy.ascii "result, then an id of the wrong type")).err =
      true ∧
    (Toy.partlyNode.decodeString (Toy.ascii "result, then an id of the wrong type")).err =
      true ∧
    (PrefetchAccount Toy.partlyNode 5 Address.zero none (OracleState.fresh Toy.dir)).failure =
      none ∧
    (PrefetchAccount Toy.partlyNode 5 Address.zero none
      (OracleState.fresh Toy.dir)).state.preimages (Toy.keccak256 [192]) = some [192] ∧
    (PrefetchStorage Toy.partlyNode 5 Address.zero Hash.zero none
      (OracleState.fresh Toy.dir)).failure = none ∧
    (PrefetchStorage Toy.partlyNode 5 Address.zero Hash.zero none
      (OracleState.fresh Toy.dir)).state.preimages (Toy.keccak256 [192]) = some [192] ∧
    (PrefetchCode Toy.partlyNode 5 Hash.zero (OracleState.fresh Toy.dir)).failure = none ∧
    (PrefetchCode Toy.partlyNode 5 Hash.zero
      (OracleState.fresh Toy.dir)).state.preimages (Toy.keccak256 [96, 1]) = some [96, 1] := by
  refine ⟨by decide, by decide, by decide, by decide, by decide, by decide, by decide,
    by decide⟩

end Oracle

/-!
# The block builder (`turbo/builder/block_builder.go`)

`NewBlockBuilder` starts a goroutine and hands the builder to callers that
run `Stop` or `Block` on it. The goroutine and the callers are threads of an
interleaving semantics: a state holds the fields of the `BlockBuilder`, the
holder of the mutex `syncCond.L`, and the place each thread has reached in its
code; a step runs one statement of one thread. Every access to `block` and
`err` is made with the mutex held and `interrupt` is accessed atomically, so
the statements that run under the mutex can be taken one at a time.

`NewBlockBuilderMM` is not modelled: it assigns a field `emptyHeader` that the
struct of this file does not declare.
-/

namespace Builder

/-- A `*types.Block` that is not nil; the model only needs to tell blocks
apart. -/
structure Block where
  number : Nat
deriving DecidableEq

/-- The pair `(*types.Block, error)` that a `BlockBuilderFunc` returns; either
component may be nil. -/
structure BuildResult where
  block : Option Block
  err : Option String
deriving DecidableEq

/-- A `BlockBuilderFunc` with its `param` fixed, seen from the builder: what
it returns when it reads the value `v` of the interrupt flag, `none` when it
goes on building at that value. -/
abbrev BlockBuilderFunc := Int → Option BuildResult

/-- The threads: the goroutine of `NewBlockBuilder` and the callers, numbered
from 0. -/
inductive Thread where
  | goroutine
  | caller (i : Nat)
deriving DecidableEq

/-- Where the goroutine of `NewBlockBuilder` (lines 28-43) is. -/
inductive GoroutinePc where
  /-- Inside `build(param, &b.interrupt)` (line 31). -/
  | building
  /-- `build` has returned `r`; the log statement (lines 32-36) is next. -/
  | built (r : BuildResult)
  /-- The log statement has dereferenced a nil block: the process has
  panicked. -/
  | crashed
  /-- About to run `b.syncCond.L.Lock()` (line 38). -/
  | lock (r : BuildResult)
  /-- Holds the mutex; `b.block = block; b.err = err` (lines 40-41) is next. -/
  | record (r : BuildResult)
  /-- Holds the mutex; `b.syncCond.Broadcast()` (line 42) is next. -/
  | broadcast
  /-- Holds the mutex; the deferred `Unlock` is next. -/
  | unlock
  /-- The goroutine has ended. -/
  | done
deriving DecidableEq

/-- The method a caller runs on the builder. -/
inductive Call where
  | stop
  | block
deriving DecidableEq

/-- Where a caller is in `Stop` (lines 80-90) or in `Block` (lines 92-97). -/
inductive CallerPc where
  /-- About to run `atomic.StoreInt32(&b.interrupt, 1)`. -/
  | stopStore
  /-- About to run `b.syncCond.L.Lock()`. -/
  | stopLock
  /-- Holds the mutex; the test `b.block == nil && b.err == nil` is next. -/
  | stopCheck
  /-- Inside `b.syncCond.Wait()`: has released the mutex and sleeps until a
  broadcast. -/
  | stopWait
  /-- Inside `b.syncCond.Wait()`: woken by a broadcast, about to take the
  mutex again. -/
  | stopWoken
  /-- Holds the mutex, has evaluated `return b.block, b.err`; the deferred
  `Unlock` is next. -/
  | stopUnlock (r : BuildResult)
  /-- `Stop` has returned `r`. -/
  | stopDone (r : BuildResult)
  /-- About to run `b.syncCond.L.Lock()` in `Block`. -/
  | blockLock
  /-- Holds the mutex; `return b.block` is next. -/
  | blockRead
  /-- Holds the mutex, has evaluated `return b.block`; the deferred `Unlock`
  is next. -/
  | blockUnlock (b : Option Block)
  /-- `Block` has returned `b`. -/
  | blockDone (b : Option Block)
deriving DecidableEq

/-- The struct `BlockBuilder` with its threads. `records`, `broadcasts` and
`returns` count the assignments of lines 40-41, the calls of `Broadcast` and
the returns of `Stop` made so far; the code does not read them. -/
structure BlockBuilder where
  interrupt : Int
  block : Option Block
  err : Option String
  /-- The holder of `syncCond.L`. -/
  mutex : Option Thread
  goroutine : GoroutinePc
  callers : List CallerPc
  records : Nat
  broadcasts : Nat
  returns : Nat
deriving DecidableEq

/-- The first statement of a call. -/
def Call.start : Call → CallerPc
  | .stop => .stopStore
  | .block => .blockLock

/-- `NewBlockBuilder`: a builder with zero fields and a free mutex, its
goroutine started, and the calls that will be made on it. -/
def NewBlockBuilder (calls : List Call) : BlockBuilder :=
  { interrupt := 0, block := none, err := none, mutex := none, goroutine := .building,
    callers := calls.map Call.start, records := 0, broadcasts := 0, returns := 0 }

/-- The loop condition of `Stop`: `b.block == nil && b.err == nil`. -/
def waitCond (s : BlockBuilder) : Bool := s.block.isNone && s.err.isNone

/-- What a broadcast does to a caller: one that sleeps in `Wait` is woken. -/
def wake : CallerPc → CallerPc
  | .stopWait => .stopWoken
  | c => c

/-- One statement of the goroutine, `none` when it cannot run (the goroutine
has ended, `build` goes on building, or the mutex is taken). A `build` that
returns no error and a nil block makes `block.Hash()` in the log statement of
line 35 a nil dereference: the methods of `types.Block`, a type declared
outside this file, read fields of their receiver. -/
def stepGoroutine (build : BlockBuilderFunc) (s : BlockBuilder) : Option BlockBuilder :=
  match s.goroutine with
  | .building =>
    match build s.interrupt with
    | none => none
    | some r => some { s with goroutine := .built r }
  | .built r =>
    if r.err.isNone && r.block.isNone then some { s with goroutine := .crashed }
    else some { s with goroutine := .lock r }
  | .crashed => none
  | .lock r =>
    if s.mutex = none then some { s with mutex := some .goroutine, goroutine := .record r }
    else none
  | .record r =>
    some { s with block := r.block, err := r.err, records := s.records + 1,
                  goroutine := .broadcast }
  | .broadcast =>
    some { s with callers := s.callers.map wake, broadcasts := s.broadcasts + 1,
                  goroutine := .unlock }
  | .unlock => some { s with mutex := none, goroutine := .done }
  | .done => none

/-- One statement of caller `i`, `none` when it cannot run (no such caller,
the call has returned, the mutex is taken, or the caller sleeps in `Wait`). -/
def stepCaller (s : BlockBuilder) (i : Nat) : Option BlockBuilder :=
  match s.callers.get? i with
  | none => none
  | some .stopStore => some { s with interrupt := 1, callers := s.callers.set i .stopLock }
  | some .stopLock =>
    if s.mutex = none then
      some { s with mutex := some (.caller i), callers := s.callers.set i .stopCheck }
    else none
  | some .stopCheck =>
    if waitCond s then some { s with mutex := none, callers := s.callers.set i .stopWait }
    else some { s with callers := s.callers.set i (.stopUnlock ⟨s.block, s.err⟩) }
  | some .stopWait => none
  | some .stopWoken =>
    if s.mutex = none then
      some { s with mutex := some (.caller i), callers := s.callers.set i .stopCheck }
    else none
  | some (.stopUnlock r) =>
    some { s with mutex := none, callers := s.callers.set i (.stopDone r),
                  returns := s.returns + 1 }
  | some (.stopDone _) => none
  | some .blockLock =>
    if s.mutex = none then
      some { s with mutex := some (.caller i), callers := s.callers.set i .blockRead }
    else none
  | some .blockRead => some { s with callers := s.callers.set i (.blockUnlock s.block) }
  | some (.blockUnlock b) =>
    some { s with mutex := none, callers := s.callers.set i (.blockDone b) }
  | some (.blockDone _) => none

/-- One step of thread `t`. After a panic of the goroutine the process is
gone and no thread runs. -/
def step (build : BlockBuilderFunc) (s : BlockBuilder) (t : Thread) : Option BlockBuilder :=
  if s.goroutine = .crashed then none
  else
    match t with
    | .goroutine => stepGoroutine build s
    | .caller i => stepCaller s i

/-- The state after the threads of `schedule` have run one statement each, in
that order; `none` when one of them cannot run at its turn. -/
def run (build : BlockBuilderFunc) (s : BlockBuilder) : List Thread → Option BlockBuilder
  | [] => some s
  | t :: schedule =>
    match step build s t with
    | none => none
    | some s1 => run build s1 schedule

/-- The states of the one-shot machine of the builder. -/
inductive Phase where
  | running
  | recorded (block : Option Block) (err : Option String)
deriving DecidableEq

/-- The state of the one-shot machine a builder is in. -/
def phase (s : BlockBuilder) : Phase :=
  if s.records = 0 then .running else .recorded s.block s.err

/-- The goroutine has run the assignments of lines 40-41. -/
def hasRecorded : GoroutinePc → Bool
  | .broadcast => true
  | .unlock => true
  | .done => true
  | _ => false

/-- The number of statements the goroutine still has to run. -/
def gRank : GoroutinePc → Nat
  | .building => 6
  | .built _ => 5
  | .lock _ => 4
  | .record _ => 3
  | .broadcast => 2
  | .unlock => 1
  | .crashed => 0
  | .done => 0

/-- The goroutine has run `b.syncCond.Broadcast()` (line 42). -/
def hasBroadcast : GoroutinePc → Bool
  | .unlock => true
  | .done => true
  | _ => false

/-- The goroutine holds the mutex at this place. -/
def GoroutinePc.holds : GoroutinePc → Bool
  | .record _ => true
  | .broadcast => true
  | .unlock => true
  | _ => false

/-- A caller holds the mutex at this place. -/
def CallerPc.holds : CallerPc → Bool
  | .stopCheck => true
  | .stopUnlock _ => true
  | .blockRead => true
  | .blockUnlock _ => true
  | _ => false

/-- The method whose code this place is in. -/
def CallerPc.call : CallerPc → Call
  | .blockLock => .block
  | .blockRead => .block
  | .blockUnlock _ => .block
  | .blockDone _ => .block
  | _ => .stop

/-- The number of steps a caller can still take at most: before the result is
recorded a `Stop` may still go through `Wait`, afterwards it does not. -/
def cSteps (records : Nat) : CallerPc → Nat
  | .stopStore => 6
  | .stopLock => if records = 0 then 5 else 3
  | .stopCheck => if records = 0 then 4 else 2
  | .stopWait => 3
  | .stopWoken => 3
  | .stopUnlock _ => 1
  | .stopDone _ => 0
  | .blockLock => 3
  | .blockRead => 2
  | .blockUnlock _ => 1
  | .blockDone _ => 0

/-- The number of steps the builder can still take at most, whatever its
callers. -/
def stepsLeft (s : BlockBuilder) : Nat :=
  gRank s.goroutine + (s.callers.map (cSteps s.records)).sum

/-- How the mutex, the sleepers and the goroutine go together in every state
reached from `NewBlockBuilder calls`: each caller is in the code of its call;
the holder of the mutex is at a place where it holds it; a caller sleeps in
`Wait` only while the goroutine has not run `Broadcast`, and has been woken
only once it has. -/
structure Sync (calls : List Call) (s : BlockBuilder) : Prop where
  kinds : s.callers.map CallerPc.call = calls
  holderG : s.mutex = some .goroutine → s.goroutine.holds = true
  holderC : ∀ i, s.mutex = some (.caller i) → ∃ c, s.callers.get? i = some c ∧ c.holds = true
  asleep : ∀ c ∈ s.callers, c = .stopWait → hasBroadcast s.goroutine = false
  woken : ∀ c ∈ s.callers, c = .stopWoken → hasBroadcast s.goroutine = true

/-- What holds in every state reached from `NewBlockBuilder`, whatever the
build function and the calls: the fields `block` and `err` are nil until the
goroutine records the pair `build` returned, a pair that is not `(nil, nil)`,
and a `Stop` that has evaluated its result has read the recorded pair. -/
structure Inv (build : BlockBuilderFunc) (s : BlockBuilder) : Prop where
  records : s.records = if hasRecorded s.goroutine then 1 else 0
  running : hasRecorded s.goroutine = false → s.block = none ∧ s.err = none
  result : hasRecorded s.goroutine = true →
    (s.block ≠ none ∨ s.err ≠ none) ∧ ∃ v, build v = some ⟨s.block, s.err⟩
  pending : ∀ r, (s.goroutine = .lock r ∨ s.goroutine = .record r) →
    (r.block ≠ none ∨ r.err ≠ none) ∧ ∃ v, build v = some r
  built : ∀ r, s.goroutine = .built r → ∃ v, build v = some r
  returned : ∀ c ∈ s.callers, ∀ r, (c = .stopUnlock r ∨ c = .stopDone r) →
    hasRecorded s.goroutine = true ∧ r = ⟨s.block, s.err⟩

theorem Call.start_not_returned (c : Call) (r : BuildResult) :
    c.start ≠ .stopUnlock r ∧ c.start ≠ .stopDone r := by
  cases c <;> simp [Call.start]

theorem Inv.init (build : BlockBuilderFunc) (calls : List Call) :
    Inv build (NewBlockBuilder calls) := by
  refine ⟨rfl, fun _ => ⟨rfl, rfl⟩, ?_, ?_, ?_, ?_⟩
  · intro h; simp [NewBlockBuilder, hasRecorded] at h
  · intro r h; simp [NewBlockBuilder] at h
  · intro r h; simp [NewBlockBuilder] at h
  · intro c hc r hr
    simp only [NewBlockBuilder, List.mem_map] at hc
    obtain ⟨c0, _, rfl⟩ := hc
    rcases hr with h | h
    · exact absurd h (Call.start_not_returned c0 r).1
    · exact absurd h (Call.start_not_returned c0 r).2

theorem wake_returned {c : CallerPc} {r : BuildResult}
    (h : wake c = .stopUnlock r ∨ wake c = .stopDone r) :
    c = .stopUnlock r ∨ c = .stopDone r := by
  cases c <;> simp_all [wake]

theorem Inv.stepGoroutine {build : BlockBuilderFunc} {s t : BlockBuilder} (hs : Inv build s)
    (h : stepGoroutine build s = some t) : Inv build t := by
  unfold Builder.stepGoroutine at h
  cases hg : s.goroutine with
  | building =>
    rw [hg] at h
    simp only at h
    cases hb : build s.interrupt with
    | none => rw [hb] at h; simp at h
    | some r =>
      rw [hb] at h
      simp only [Option.some.injEq] at h
      subst h
      refine ⟨?_, ?_, ?_, ?_, ?_, ?_⟩
      · simpa [hasRecorded, hg] using hs.records
      · intro _; simpa [hasRecorded, hg] using hs.running
      · intro h; simp [hasRecorded] at h
      · intro r1 h; simp at h
      · intro r1 h
        simp only [GoroutinePc.built.injEq] at h
        exact ⟨s.interrupt, by rw [hb, h]⟩
      · intro c hc r1 hr
        have := hs.returned c hc r1 hr
        simp [hg, hasRecorded] at this
  | built r =>
    rw [hg] at h
    simp only at h
    by_cases hnil : (r.err.isNone && r.block.isNone) = true
    · rw [if_pos hnil] at h
      simp only [Option.some.injEq] at h
      subst h
      refine ⟨?_, ?_, ?_, ?_, ?_, ?_⟩
      · simpa [hasRecorded, hg] using hs.records
      · intro _; simpa [hasRecorded, hg] using hs.running
      · intro h; simp [hasRecorded] at h
      · intro r1 h; simp at h
      · intro r1 h; simp at h
      · intro c hc r1 hr
        have := hs.returned c hc r1 hr
        simp [hg, hasRecorded] at this
    · rw [if_neg hnil] at h
      simp only [Option.some.injEq] at h
      subst h
      refine ⟨?_, ?_, ?_, ?_, ?_, ?_⟩
      · simpa [hasRecorded, hg] using hs.records
      · intro _; simpa [hasRecorded, hg] using hs.running
      · intro h; simp [hasRecorded] at h
      · intro r1 h
        have h : r = r1 := by simpa using h
        subst h
        refine ⟨?_, hs.built r hg⟩
        simp only [Bool.and_eq_true, Option.isNone_iff_eq_none, not_and] at hnil
        by_cases he : r.err = none
        · exact Or.inl (hnil he)
        · exact Or.inr he
      · intro r1 h; simp at h
      · intro c hc r1 hr
        have := hs.returned c hc r1 hr
        simp [hg, hasRecorded] at this
  | crashed => rw [hg] at h; simp at h
  | lock r =>
    rw [hg] at h
    simp only at h
    by_cases hm : s.mutex = none
    · rw [if_pos hm] at h
      simp only [Option.some.injEq] at h
      subst h
      refine ⟨?_, ?_, ?_, ?_, ?_, ?_⟩
      · simpa [hasRecorded, hg] using hs.records
      · intro _; simpa [hasRecorded, hg] using hs.running
      · intro h; simp [hasRecorded] at h
      · intro r1 h
        have h : r = r1 := by simpa using h
        subst h
        exact hs.pending r (Or.inl hg)
      · intro r1 h; simp at h
      · intro c hc r1 hr
        have := hs.returned c hc r1 hr
        simp [hg, hasRecorded] at this
    · rw [if_neg hm] at h; simp at h
  | record r =>
    rw [hg] at h
    simp only [Option.some.injEq] at h
    subst h
    have hp := hs.pending r (Or.inr hg)
    have hrec := hs.records
    simp only [hg, hasRecorded] at hrec
    refine ⟨?_, ?_, ?_, ?_, ?_, ?_⟩
    · simp [hasRecorded, hrec]
    · intro h; simp [hasRecorded] at h
    · intro _; exact hp
    · intro r1 h; simp at h
    · intro r1 h; simp at h
    · intro c hc r1 hr
      have := hs.returned c hc r1 hr
      simp [hg, hasRecorded] at this
  | broadcast =>
    rw [hg] at h
    simp only [Option.some.injEq] at h
    subst h
    refine ⟨?_, ?_, ?_, ?_, ?_, ?_⟩
    · simpa [hasRecorded, hg] using hs.records
    · intro h; simp [hasRecorded] at h
    · intro _; simpa [hasRecorded, hg] using hs.result
    · intro r1 h; simp at h
    · intro r1 h; simp at h
    · intro c hc r1 hr
      simp only [List.mem_map] at hc
      obtain ⟨c0, hc0, rfl⟩ := hc
      have := hs.returned c0 hc0 r1 (wake_returned hr)
      simpa [hg, hasRecorded] using this
  | unlock =>
    rw [hg] at h
    simp only [Option.some.injEq] at h
    subst h
    refine ⟨?_, ?_, ?_, ?_, ?_, ?_⟩
    · simpa [hasRecorded, hg] using hs.records
    · intro h; simp [hasRecorded] at h
    · intro _; simpa [hasRecorded, hg] using hs.result
    · intro r1 h; simp at h
    · intro r1 h; simp at h
    · intro c hc r1 hr
      have := hs.returned c hc r1 hr
      simpa [hg, hasRecorded] using this
  | done => rw [hg] at h; simp at h

/-- A step that only moves one caller (and may touch the flag, the mutex or
the count of returns) keeps the invariant, as long as the place the caller
moves to agrees with it. -/
theorem Inv.setCaller {build : BlockBuilderFunc} {s t : BlockBuilder} (hs : Inv build s)
    (i : Nat) (new : CallerPc)
    (hg : t.goroutine = s.goroutine) (hb : t.block = s.block) (he : t.err = s.err)
    (hr : t.records = s.records) (hc : t.callers = s.callers.set i new)
    (hnew : ∀ r, (new = .stopUnlock r ∨ new = .stopDone r) →
      hasRecorded s.goroutine = true ∧ r = ⟨s.block, s.err⟩) : Inv build t := by
  refine ⟨?_, ?_, ?_, ?_, ?_, ?_⟩
  · rw [hr, hg]; exact hs.records
  · rw [hg, hb, he]; exact hs.running
  · rw [hg, hb, he]; exact hs.result
  · rw [hg]; exact hs.pending
  · rw [hg]; exact hs.built
  · intro c hmem r hcr
    rw [hg, hb, he]
    rw [hc] at hmem
    rcases List.mem_or_eq_of_mem_set hmem with h | h
    · exact hs.returned c h r hcr
    · subst h
      exact hnew r hcr

theorem Inv.stepCaller {build : BlockBuilderFunc} {s t : BlockBuilder} (hs : Inv build s)
    (i : Nat) (h : stepCaller s i = some t) : Inv build t := by
  unfold Builder.stepCaller at h
  cases hc : s.callers.get? i with
  | none => rw [hc] at h; simp at h
  | some c =>
    rw [hc] at h
    have hmem : c ∈ s.callers := List.get?_mem hc
    cases c with
    | stopStore =>
      simp only [Option.some.injEq] at h
      subst h
      exact hs.setCaller i .stopLock rfl rfl rfl rfl rfl (by simp)
    | stopLock =>
      simp only at h
      by_cases hm : s.mutex = none
      · rw [if_pos hm] at h
        simp only [Option.some.injEq] at h
        subst h
        exact hs.setCaller i .stopCheck rfl rfl rfl rfl rfl (by simp)
      · rw [if_neg hm] at h; simp at h
    | stopCheck =>
      simp only at h
      by_cases hw : waitCond s = true
      · rw [if_pos hw] at h
        simp only [Option.some.injEq] at h
        subst h
        exact hs.setCaller i .stopWait rfl rfl rfl rfl rfl (by simp)
      · rw [if_neg hw] at h
        simp only [Option.some.injEq] at h
        subst h
        refine hs.setCaller i _ rfl rfl rfl rfl rfl ?_
        intro r hr
        have hr2 : r = ⟨s.block, s.err⟩ := by
          rcases hr with h1 | h1
          · simp only [CallerPc.stopUnlock.injEq] at h1
            exact h1.symm
          · simp at h1
        refine ⟨?_, hr2⟩
        by_contra hnot
        have hrun := hs.running (by simpa using hnot)
        apply hw
        simp [waitCond, hrun.1, hrun.2]
    | stopWait => simp at h
    | stopWoken =>
      simp only at h
      by_cases hm : s.mutex = none
      · rw [if_pos hm] at h
        simp only [Option.some.injEq] at h
        subst h
        exact hs.setCaller i .stopCheck rfl rfl rfl rfl rfl (by simp)
      · rw [if_neg hm] at h; simp at h
    | stopUnlock r =>
      simp only [Option.some.injEq] at h
      subst h
      refine hs.setCaller i _ rfl rfl rfl rfl rfl ?_
      intro r1 hr1
      have e : r = r1 := by simpa using hr1
      subst e
      exact hs.returned _ hmem r (Or.inl rfl)
    | stopDone r => simp at h
    | blockLock =>
      simp only at h
      by_cases hm : s.mutex = none
      · rw [if_pos hm] at h
        simp only [Option.some.injEq] at h
        subst h
        exact hs.setCaller i .blockRead rfl rfl rfl rfl rfl (by simp)
      · rw [if_neg hm] at h; simp at h
    | blockRead =>
      simp only [Option.some.injEq] at h
      subst h
      exact hs.setCaller i _ rfl rfl rfl rfl rfl (by simp)
    | blockUnlock b =>
      simp only [Option.some.injEq] at h
      subst h
      exact hs.setCaller i _ rfl rfl rfl rfl rfl (by simp)
    | blockDone b => simp at h

theorem Inv.step {build : BlockBuilderFunc} {s t : BlockBuilder} (hs : Inv build s)
    (th : Thread) (h : step build s th = some t) : Inv build t := by
  unfold Builder.step at h
  split at h
  · simp at h
  · cases th with
    | goroutine => exact hs.stepGoroutine h
    | caller i => exact hs.stepCaller i h

theorem Inv.run {build : BlockBuilderFunc} (schedule : List Thread) :
    ∀ {s t : BlockBuilder}, Inv build s → run build s schedule = some t → Inv build t := by
  induction schedule with
  | nil =>
    intro s t hs h
    simp only [Builder.run, Option.some.injEq] at h
    rw [← h]; exact hs
  | cons th rest ih =>
    intro s t hs h
    unfold Builder.run at h
    cases hst : Builder.step build s th with
    | none => rw [hst] at h; simp at h
    | some s1 =>
      rw [hst] at h
      exact ih (hs.step th hst) h

/-- A caller never assigns `block` or `err`. -/
theorem stepCaller_fields {s t : BlockBuilder} {i : Nat} (h : stepCaller s i = some t) :
    t.block = s.block ∧ t.err = s.err ∧ t.records = s.records ∧ t.goroutine = s.goroutine ∧
    t.broadcasts = s.broadcasts := by
  unfold stepCaller at h
  cases hc : s.callers.get? i with
  | none => rw [hc] at h; simp at h
  | some c =>
    rw [hc] at h
    cases c <;> simp only at h <;>
      first
      | (simp only [Option.some.injEq] at h; subst h; exact ⟨rfl, rfl, rfl, rfl, rfl⟩)
      | (split at h <;>
          first
          | (simp only [Option.some.injEq] at h; subst h; exact ⟨rfl, rfl, rfl, rfl, rfl⟩)
          | simp at h)
      | simp at h

/-- A build function that returns block 7 once it has read the flag set. -/
def Toy.build : BlockBuilderFunc := fun v => if v = 1 then some ⟨some ⟨7⟩, none⟩ else none

/-- A build function that returns `(nil, nil)` once it has read the flag set. -/
def Toy.buildNothing : BlockBuilderFunc := fun v => if v = 1 then some ⟨none, none⟩ else none

/-- A schedule for one `Stop`: the caller sets the flag, takes the mutex and
goes to sleep in `Wait`; the goroutine builds, records, broadcasts and ends;
the caller wakes up and returns. -/
def Toy.schedule : List Thread :=
  [.caller 0, .caller 0, .caller 0, .goroutine, .goroutine, .goroutine, .goroutine,
    .goroutine, .goroutine, .caller 0, .caller 0, .caller 0]

/-- The goroutine assigns `block` and `err` in one step only, the one of
lines 40-41. -/
theorem stepGoroutine_fields {build : BlockBuilderFunc} {s t : BlockBuilder}
    (h : stepGoroutine build s = some t) :
    (∃ r, s.goroutine = .record r ∧ t.goroutine = .broadcast ∧ t.block = r.block ∧
      t.err = r.err ∧ t.records = s.records + 1) ∨
    ((∀ r, s.goroutine ≠ .record r) ∧ t.block = s.block ∧ t.err = s.err ∧
      t.records = s.records) := by
  unfold stepGoroutine at h
  cases hg : s.goroutine with
  | record r =>
    rw [hg] at h
    simp only [Option.some.injEq] at h
    subst h
    exact Or.inl ⟨r, rfl, rfl, rfl, rfl, rfl⟩
  | building =>
    rw [hg] at h
    simp only at h
    right
    refine ⟨by simp, ?_⟩
    split at h
    · simp at h
    · simp only [Option.some.injEq] at h; subst h; exact ⟨rfl, rfl, rfl⟩
  | built r =>
    rw [hg] at h
    simp only at h
    right
    refine ⟨by simp, ?_⟩
    split at h <;> (simp only [Option.some.injEq] at h; subst h; exact ⟨rfl, rfl, rfl⟩)
  | crashed => rw [hg] at h; simp at h
  | lock r =>
    rw [hg] at h
    simp only at h
    right
    refine ⟨by simp, ?_⟩
    split at h
    · simp only [Option.some.injEq] at h; subst h; exact ⟨rfl, rfl, rfl⟩
    · simp at h
  | broadcast =>
    rw [hg] at h
    simp only [Option.some.injEq] at h
    subst h
    exact Or.inr ⟨by simp, rfl, rfl, rfl⟩
  | unlock =>
    rw [hg] at h
    simp only [Option.some.injEq] at h
    subst h
    exact Or.inr ⟨by simp, rfl, rfl, rfl⟩
  | done => rw [hg] at h; simp at h

theorem Inv.records_le {build : BlockBuilderFunc} {s : BlockBuilder} (hs : Inv build s) :
    s.records ≤ 1 := by
  rw [hs.records]
  split <;> omega

theorem Inv.recorded_iff {build : BlockBuilderFunc} {s : BlockBuilder} (hs : Inv build s) :
    s.records = 1 ↔ hasRecorded s.goroutine = true := by
  rw [hs.records]
  by_cases h : hasRecorded s.goroutine = true <;> simp [h]

/-- What a step does to `block`, `err` and the count of records, in a state
that satisfies the invariant. -/
theorem Inv.step_fields {build : BlockBuilderFunc} {s t : BlockBuilder} (hs : Inv build s)
    {th : Thread} (h : Builder.step build s th = some t) :
    (th = .goroutine ∧ s.records = 0 ∧ t.records = 1 ∧
      ∃ r, s.goroutine = .record r ∧ t.block = r.block ∧ t.err = r.err) ∨
    (t.block = s.block ∧ t.err = s.err ∧ t.records = s.records) := by
  unfold Builder.step at h
  split at h
  · simp at h
  · cases th with
    | goroutine =>
      rcases stepGoroutine_fields h with ⟨r, hr, _, hb, he, hrec⟩ | ⟨_, hb, he, hrec⟩
      · left
        have h0 : s.records = 0 := by
          rw [hs.records, hr]; rfl
        exact ⟨rfl, h0, by rw [hrec, h0], r, hr, hb, he⟩
      · exact Or.inr ⟨hb, he, hrec⟩
    | caller i =>
      obtain ⟨hb, he, hrec, _, _⟩ := stepCaller_fields h
      exact Or.inr ⟨hb, he, hrec⟩

/-- Once the pair is recorded no run changes it. -/
theorem Inv.recorded_stays {build : BlockBuilderFunc} (later : List Thread) :
    ∀ {s t : BlockBuilder}, Inv build s → s.records = 1 → Builder.run build s later = some t →
      t.block = s.block ∧ t.err = s.err ∧ t.records = 1 := by
  induction later with
  | nil =>
    intro s t _ hrec h
    simp only [Builder.run, Option.some.injEq] at h
    subst h
    exact ⟨rfl, rfl, hrec⟩
  | cons th rest ih =>
    intro s t hs hrec h
    unfold Builder.run at h
    cases hst : Builder.step build s th with
    | none => rw [hst] at h; simp at h
    | some s1 =>
      rw [hst] at h
      rcases hs.step_fields hst with ⟨_, h0, _⟩ | ⟨hb, he, hr1⟩
      · omega
      · obtain ⟨h1, h2, h3⟩ := ih (hs.step th hst) (by rw [hr1]; exact hrec) h
        exact ⟨h1.trans hb, h2.trans he, h3⟩

/-- C18: the builder is a one-shot machine. It starts in `running`; in every
state reached from `NewBlockBuilder`, by any schedule, for any build function
and any calls of `Stop` and `Block`, the assignment of lines 40-41 has run at
most once; a step either keeps the state of the machine or is that
assignment, made by the goroutine from `running`; no step of a caller (of
`Stop` or of `Block`) changes `block`, `err` or the count; and once the pair
is recorded no later run changes it. -/
theorem C18_one_shot (build : BlockBuilderFunc) (calls : List Call) (schedule : List Thread)
    (s : BlockBuilder) (hrun : run build (NewBlockBuilder calls) schedule = some s) :
    phase (NewBlockBuilder calls) = .running ∧
    s.records ≤ 1 ∧
    (∀ th t, step build s th = some t →
      phase t = phase s ∨
      (th = .goroutine ∧ phase s = .running ∧ t.records = 1 ∧
        ∃ r, s.goroutine = .record r ∧ phase t = .recorded r.block r.err)) ∧
    (∀ i t, step build s (.caller i) = some t →
      t.block = s.block ∧ t.err = s.err ∧ t.records = s.records) ∧
    (s.records = 1 → ∀ later t, run build s later = some t →
      t.block = s.block ∧ t.err = s.err ∧ t.records = 1 ∧ phase t = phase s) := by
  have hs : Inv build s := Inv.run schedule (Inv.init build calls) hrun
  refine ⟨rfl, hs.records_le, ?_, ?_, ?_⟩
  · intro th t hst
    rcases hs.step_fields hst with ⟨hth, h0, h1, r, hr, hb, he⟩ | ⟨hb, he, hrec⟩
    · right
      refine ⟨hth, by simp [phase, h0], h1, r, hr, ?_⟩
      simp [phase, h1, hb, he]
    · left
      simp [phase, hb, he, hrec]
  · intro i t hst
    rcases hs.step_fields hst with ⟨hth, _⟩ | h
    · simp at hth
    · exact h
  · intro hrec later t hl
    obtain ⟨hb, he, h1⟩ := hs.recorded_stays later hrec hl
    exact ⟨hb, he, h1, by simp [phase, hb, he, h1, hrec]⟩

/-- C18 on a builder with one `Stop` and one `Block` to come, along a run of
the `Stop`: the machine goes from
`running` to `recorded` with block 7 and stays there whatever runs later. -/
theorem C18_one_shot_witness :
    (run Toy.build (NewBlockBuilder [.stop, .block]) Toy.schedule).map phase =
      some (.recorded (some ⟨7⟩) none) ∧
    (∀ s, run Toy.build (NewBlockBuilder [.stop, .block]) Toy.schedule = some s →
      s.records ≤ 1 ∧ ∀ later t, run Toy.build s later = some t → phase t = phase s) :=
  ⟨by decide, fun s hs =>
    have h := C18_one_shot Toy.build [.stop, .block] Toy.schedule s hs
    have hrec : s.records = 1 := by
      have h1 : (run Toy.build (NewBlockBuilder [.stop, .block]) Toy.schedule).map
          BlockBuilder.records = some 1 := by decide
      rw [hs] at h1
      simpa using h1
    ⟨h.2.1, fun later t hl => (h.2.2.2.2 hrec later t hl).2.2.2⟩⟩

theorem step_caller {build : BlockBuilderFunc} {s : BlockBuilder} (i : Nat)
    (h : s.goroutine ≠ .crashed) : step build s (.caller i) = stepCaller s i := by
  unfold step
  rw [if_neg h]

theorem step_goroutine {build : BlockBuilderFunc} {s : BlockBuilder}
    (h : s.goroutine ≠ .crashed) : step build s .goroutine = stepGoroutine build s := by
  unfold step
  rw [if_neg h]

/-! ### Sleepers and the mutex -/

theorem Call.start_call (c : Call) : c.start.call = c := by
  cases c <;> rfl

theorem wake_call (c : CallerPc) : (wake c).call = c.call := by
  cases c <;> rfl

theorem wake_holds (c : CallerPc) : (wake c).holds = c.holds := by
  cases c <;> rfl

theorem wake_ne_stopWait (c : CallerPc) : wake c ≠ .stopWait := by
  cases c <;> simp [wake]

theorem wake_stopWoken {c : CallerPc} (h : wake c = .stopWoken) :
    c = .stopWait ∨ c = .stopWoken := by
  cases c <;> simp_all [wake]

theorem hasRecorded_of_hasBroadcast {g : GoroutinePc} (h : hasBroadcast g = true) :
    hasRecorded g = true := by
  cases g <;> simp_all [hasBroadcast, hasRecorded]

theorem sync_init (calls : List Call) : Sync calls (NewBlockBuilder calls) := by
  refine ⟨?_, ?_, ?_, ?_, ?_⟩
  · simp only [NewBlockBuilder, List.map_map]
    conv_rhs => rw [← List.map_id calls]
    apply List.map_congr_left
    intro c _
    exact Call.start_call c
  · intro h; simp [NewBlockBuilder] at h
  · intro i h; simp [NewBlockBuilder] at h
  · intro c _ _; rfl
  · intro c hc h
    subst h
    simp only [NewBlockBuilder, List.mem_map] at hc
    obtain ⟨c0, _, h0⟩ := hc
    cases c0 <;> simp [Call.start] at h0

/-- A step of the goroutine that leaves the callers and the mutex as they
are keeps the invariant when the new place holds the mutex if the old one
did, and is on the same side of the broadcast. -/
theorem sync_setGoroutine {calls : List Call} {s t : BlockBuilder} (hs : Sync calls s)
    (hc : t.callers = s.callers) (hm : t.mutex = s.mutex)
    (hh : s.goroutine.holds = true → t.goroutine.holds = true)
    (hb : hasBroadcast t.goroutine = hasBroadcast s.goroutine) : Sync calls t := by
  refine ⟨?_, ?_, ?_, ?_, ?_⟩
  · rw [hc]; exact hs.kinds
  · intro h
    rw [hm] at h
    exact hh (hs.holderG h)
  · intro i h
    rw [hm] at h
    rw [hc]
    exact hs.holderC i h
  · intro c hmem h
    rw [hc] at hmem
    rw [hb]
    exact hs.asleep c hmem h
  · intro c hmem h
    rw [hc] at hmem
    rw [hb]
    exact hs.woken c hmem h

theorem sync_stepGoroutine {build : BlockBuilderFunc} {calls : List Call} {s t : BlockBuilder}
    (hs : Sync calls s) (h : stepGoroutine build s = some t) : Sync calls t := by
  unfold Builder.stepGoroutine at h
  cases hg : s.goroutine with
  | building =>
    rw [hg] at h
    simp only at h
    cases hb : build s.interrupt with
    | none => rw [hb] at h; simp at h
    | some r =>
      rw [hb] at h
      simp only [Option.some.injEq] at h
      subst h
      exact sync_setGoroutine hs rfl rfl (by simp [hg, GoroutinePc.holds])
        (by simp [hg, hasBroadcast])
  | built r =>
    rw [hg] at h
    simp only at h
    split at h <;>
      (simp only [Option.some.injEq] at h
       subst h
       exact sync_setGoroutine hs rfl rfl (by simp [hg, GoroutinePc.holds])
         (by simp [hg, hasBroadcast]))
  | crashed => rw [hg] at h; simp at h
  | lock r =>
    rw [hg] at h
    simp only at h
    by_cases hm : s.mutex = none
    · rw [if_pos hm] at h
      simp only [Option.some.injEq] at h
      subst h
      refine ⟨hs.kinds, ?_, ?_, ?_, ?_⟩
      · intro _; rfl
      · intro i h; simp at h
      · intro c hmem hc
        have := hs.asleep c hmem hc
        simp [hasBroadcast]
      · intro c hmem hc
        have := hs.woken c hmem hc
        simp [hg, hasBroadcast] at this
    · rw [if_neg hm] at h; simp at h
  | record r =>
    rw [hg] at h
    simp only [Option.some.injEq] at h
    subst h
    exact sync_setGoroutine hs rfl rfl (by simp [GoroutinePc.holds])
      (by simp [hg, hasBroadcast])
  | broadcast =>
    rw [hg] at h
    simp only [Option.some.injEq] at h
    subst h
    refine ⟨?_, ?_, ?_, ?_, ?_⟩
    · simp only [List.map_map]
      rw [← hs.kinds]
      apply List.map_congr_left
      intro c _
      exact wake_call c
    · intro _; rfl
    · intro i h
      obtain ⟨c, hc, hh⟩ := hs.holderC i h
      refine ⟨wake c, ?_, by rw [wake_holds]; exact hh⟩
      simp only [List.get?_eq_getElem?, List.getElem?_map] at hc ⊢
      rw [hc]
      rfl
    · intro c hmem hc
      simp only [List.mem_map] at hmem
      obtain ⟨c0, _, h0⟩ := hmem
      rw [hc] at h0
      exact absurd h0 (wake_ne_stopWait c0)
    · intro _ _ _; rfl
  | unlock =>
    rw [hg] at h
    simp only [Option.some.injEq] at h
    subst h
    refine ⟨hs.kinds, ?_, ?_, ?_, ?_⟩
    · intro h; simp at h
    · intro i h; simp at h
    · intro c hmem hc
      have := hs.asleep c hmem hc
      simp [hg, hasBroadcast] at this
    · intro _ _ _; rfl
  | done => rw [hg] at h; simp at h

theorem map_set_call (l : List CallerPc) (i : Nat) (old new : CallerPc)
    (hget : l.get? i = some old) (hcall : new.call = old.call) :
    (l.set i new).map CallerPc.call = l.map CallerPc.call := by
  induction l generalizing i with
  | nil => simp
  | cons x rest ih =>
    cases i with
    | zero =>
      simp only [List.get?_cons_zero, Option.some.injEq] at hget
      subst hget
      simp [hcall]
    | succ j =>
      simp only [List.get?_cons_succ] at hget
      simp only [List.set_cons_succ, List.map_cons, List.cons.injEq, true_and]
      exact ih j hget

theorem get?_set_self (l : List CallerPc) (i : Nat) (old new : CallerPc)
    (hget : l.get? i = some old) : (l.set i new).get? i = some new := by
  induction l generalizing i with
  | nil => simp at hget
  | cons x rest ih =>
    cases i with
    | zero => simp
    | succ j =>
      simp only [List.get?_cons_succ] at hget
      simp only [List.set_cons_succ, List.get?_cons_succ]
      exact ih j hget

theorem get?_set_other (l : List CallerPc) (i j : Nat) (new : CallerPc) (hij : j ≠ i) :
    (l.set i new).get? j = l.get? j := by
  induction l generalizing i j with
  | nil => simp
  | cons x rest ih =>
    cases i with
    | zero =>
      cases j with
      | zero => exact absurd rfl hij
      | succ k => simp
    | succ i1 =>
      cases j with
      | zero => simp
      | succ k =>
        simp only [List.set_cons_succ, List.get?_cons_succ]
        exact ih i1 k (by omega)

/-- A step that moves caller `i` from `old` to `new` keeps the invariant when
`new` is in the code of the same call, the mutex is handled as the places
say, a caller goes to sleep only before the broadcast, and `new` is not the
place of a woken caller. -/
theorem sync_setCaller {calls : List Call} {s t : BlockBuilder} (hs : Sync calls s)
    (i : Nat) (old new : CallerPc) (hget : s.callers.get? i = some old)
    (hg : t.goroutine = s.goroutine) (hc : t.callers = s.callers.set i new)
    (hcall : new.call = old.call)
    (hm : (t.mutex = s.mutex ∧ (old.holds = true → new.holds = true)) ∨ t.mutex = none ∨
      (t.mutex = some (.caller i) ∧ new.holds = true))
    (hsleep : new = .stopWait → hasBroadcast s.goroutine = false)
    (hwoken : new ≠ .stopWoken) : Sync calls t := by
  refine ⟨?_, ?_, ?_, ?_, ?_⟩
  · rw [hc, map_set_call _ _ _ _ hget hcall]
    exact hs.kinds
  · intro h
    rcases hm with ⟨h1, _⟩ | h1 | ⟨h1, _⟩
    · rw [hg]
      exact hs.holderG (h1 ▸ h)
    · rw [h1] at h; simp at h
    · rw [h1] at h; simp at h
  · intro j h
    rcases hm with ⟨h1, hh⟩ | h1 | ⟨h1, hh⟩
    · rw [h1] at h
      obtain ⟨c, hcj, hcs⟩ := hs.holderC j h
      by_cases hij : j = i
      · subst hij
        rw [hget] at hcj
        simp only [Option.some.injEq] at hcj
        subst hcj
        exact ⟨new, by rw [hc]; exact get?_set_self _ _ _ _ hget, hh hcs⟩
      · exact ⟨c, by rw [hc, get?_set_other _ _ _ _ hij]; exact hcj, hcs⟩
    · rw [h1] at h; simp at h
    · rw [h1] at h
      simp only [Option.some.injEq, Thread.caller.injEq] at h
      subst h
      exact ⟨new, by rw [hc]; exact get?_set_self _ _ _ _ hget, hh⟩
  · intro c hmem hcw
    rw [hg]
    rw [hc] at hmem
    rcases List.mem_or_eq_of_mem_set hmem with h | h
    · exact hs.asleep c h hcw
    · exact hsleep (h ▸ hcw)
  · intro c hmem hcw
    rw [hg]
    rw [hc] at hmem
    rcases List.mem_or_eq_of_mem_set hmem with h | h
    · exact hs.woken c h hcw
    · exact absurd (h ▸ hcw) hwoken

theorem not_hasBroadcast_of_waitCond {build : BlockBuilderFunc} {s : BlockBuilder}
    (hi : Inv build s) (hw : waitCond s = true) : hasBroadcast s.goroutine = false := by
  by_contra hne
  have hb : hasBroadcast s.goroutine = true := by simpa using hne
  obtain ⟨h1, _⟩ := hi.result (hasRecorded_of_hasBroadcast hb)
  simp only [waitCond, Bool.and_eq_true, Option.isNone_iff_eq_none] at hw
  rcases h1 with h | h
  · exact h hw.1
  · exact h hw.2

theorem sync_stepCaller {build : BlockBuilderFunc} {calls : List Call} {s t : BlockBuilder}
    (hi : Inv build s) (hs : Sync calls s) (i : Nat) (h : stepCaller s i = some t) :
    Sync calls t := by
  unfold Builder.stepCaller at h
  cases hc : s.callers.get? i with
  | none => rw [hc] at h; simp at h
  | some c =>
    rw [hc] at h
    cases c with
    | stopStore =>
      simp only [Option.some.injEq] at h
      subst h
      exact sync_setCaller hs i _ .stopLock hc rfl rfl rfl
        (Or.inl ⟨rfl, by simp [CallerPc.holds]⟩) (by simp) (by simp)
    | stopLock =>
      simp only at h
      by_cases hm : s.mutex = none
      · rw [if_pos hm] at h
        simp only [Option.some.injEq] at h
        subst h
        exact sync_setCaller hs i _ .stopCheck hc rfl rfl rfl
          (Or.inr (Or.inr ⟨rfl, rfl⟩)) (by simp) (by simp)
      · rw [if_neg hm] at h; simp at h
    | stopCheck =>
      simp only at h
      by_cases hw : waitCond s = true
      · rw [if_pos hw] at h
        simp only [Option.some.injEq] at h
        subst h
        exact sync_setCaller hs i _ .stopWait hc rfl rfl rfl
          (Or.inr (Or.inl rfl)) (fun _ => not_hasBroadcast_of_waitCond hi hw) (by simp)
      · rw [if_neg hw] at h
        simp only [Option.some.injEq] at h
        subst h
        exact sync_setCaller hs i _ _ hc rfl rfl rfl
          (Or.inl ⟨rfl, fun _ => rfl⟩) (by simp) (by simp)
    | stopWait => simp at h
    | stopWoken =>
      simp only at h
      by_cases hm : s.mutex = none
      · rw [if_pos hm] at h
        simp only [Option.some.injEq] at h
        subst h
        exact sync_setCaller hs i _ .stopCheck hc rfl rfl rfl
          (Or.inr (Or.inr ⟨rfl, rfl⟩)) (by simp) (by simp)
      · rw [if_neg hm] at h; simp at h
    | stopUnlock r =>
      simp only [Option.some.injEq] at h
      subst h
      exact sync_setCaller hs i _ _ hc rfl rfl rfl (Or.inr (Or.inl rfl)) (by simp) (by simp)
    | stopDone r => simp at h
    | blockLock =>
      simp only at h
      by_cases hm : s.mutex = none
      · rw [if_pos hm] at h
        simp only [Option.some.injEq] at h
        subst h
        exact sync_setCaller hs i _ .blockRead hc rfl rfl rfl
          (Or.inr (Or.inr ⟨rfl, rfl⟩)) (by simp) (by simp)
      · rw [if_neg hm] at h; simp at h
    | blockRead =>
      simp only [Option.some.injEq] at h
      subst h
      exact sync_setCaller hs i _ _ hc rfl rfl rfl
        (Or.inl ⟨rfl, fun _ => rfl⟩) (by simp) (by simp)
    | blockUnlock b =>
      simp only [Option.some.injEq] at h
      subst h
      exact sync_setCaller hs i _ _ hc rfl rfl rfl (Or.inr (Or.inl rfl)) (by simp) (by simp)
    | blockDone b => simp at h

theorem sync_step {build : BlockBuilderFunc} {calls : List Call} {s t : BlockBuilder}
    (hi : Inv build s) (hs : Sync calls s) (th : Thread) (h : step build s th = some t) :
    Sync calls t := by
  unfold Builder.step at h
  split at h
  · simp at h
  · cases th with
    | goroutine => exact sync_stepGoroutine hs h
    | caller i => exact sync_stepCaller hi hs i h

theorem sync_run {build : BlockBuilderFunc} {calls : List Call} (schedule : List Thread) :
    ∀ {s t : BlockBuilder}, Inv build s → Sync calls s → run build s schedule = some t →
      Sync calls t := by
  induction schedule with
  | nil =>
    intro s t _ hs h
    simp only [Builder.run, Option.some.injEq] at h
    rw [← h]; exact hs
  | cons th rest ih =>
    intro s t hi hs h
    unfold Builder.run at h
    cases hst : Builder.step build s th with
    | none => rw [hst] at h; simp at h
    | some s1 =>
      rw [hst] at h
      exact ih (hi.step th hst) (sync_step hi hs th hst) h

/-! ### Every `Stop` returns -/

theorem sum_map_set (f : CallerPc → Nat) (l : List CallerPc) (i : Nat) (old new : CallerPc)
    (hget : l.get? i = some old) :
    ((l.set i new).map f).sum + f old = (l.map f).sum + f new := by
  induction l generalizing i with
  | nil => simp at hget
  | cons x rest ih =>
    cases i with
    | zero =>
      simp only [List.get?_cons_zero, Option.some.injEq] at hget
      subst hget
      simp only [List.set_cons_zero, List.map_cons, List.sum_cons]
      omega
    | succ j =>
      simp only [List.get?_cons_succ] at hget
      have := ih j hget
      simp only [List.set_cons_succ, List.map_cons, List.sum_cons]
      omega

theorem sum_map_le (f g : CallerPc → Nat) (l : List CallerPc) (h : ∀ c, f c ≤ g c) :
    (l.map f).sum ≤ (l.map g).sum := by
  induction l with
  | nil => simp
  | cons x rest ih =>
    have := h x
    simp only [List.map_cons, List.sum_cons]
    omega

theorem cSteps_le (records : Nat) (c : CallerPc) : cSteps records c ≤ 6 := by
  cases c <;> simp only [cSteps] <;> (try split) <;> omega

theorem cSteps_succ_le (c : CallerPc) : cSteps (0 + 1) c ≤ cSteps 0 c := by
  cases c <;> simp [cSteps]

theorem cSteps_wake_le (records : Nat) (c : CallerPc) :
    cSteps records (wake c) ≤ cSteps records c := by
  cases c <;> simp [wake, cSteps]

theorem stepsLeft_stepGoroutine {build : BlockBuilderFunc} {s t : BlockBuilder}
    (hi : Inv build s) (h : stepGoroutine build s = some t) : stepsLeft t < stepsLeft s := by
  unfold Builder.stepGoroutine at h
  cases hg : s.goroutine with
  | building =>
    rw [hg] at h
    simp only at h
    cases hb : build s.interrupt with
    | none => rw [hb] at h; simp at h
    | some r =>
      rw [hb] at h
      simp only [Option.some.injEq] at h
      subst h
      simp [stepsLeft, hg, gRank]
  | built r =>
    rw [hg] at h
    simp only at h
    split at h <;>
      (simp only [Option.some.injEq] at h
       subst h
       simp [stepsLeft, hg, gRank])
  | crashed => rw [hg] at h; simp at h
  | lock r =>
    rw [hg] at h
    simp only at h
    split at h
    · simp only [Option.some.injEq] at h
      subst h
      simp [stepsLeft, hg, gRank]
    · simp at h
  | record r =>
    rw [hg] at h
    simp only [Option.some.injEq] at h
    subst h
    have h0 : s.records = 0 := by
      rw [hi.records, hg]; rfl
    have hle := sum_map_le (cSteps (0 + 1)) (cSteps 0) s.callers cSteps_succ_le
    simp only [stepsLeft, hg, gRank, h0]
    omega
  | broadcast =>
    rw [hg] at h
    simp only [Option.some.injEq] at h
    subst h
    have hle := sum_map_le (fun c => cSteps s.records (wake c)) (cSteps s.records) s.callers
      (cSteps_wake_le s.records)
    simp only [stepsLeft, hg, gRank, List.map_map, Function.comp_def]
    omega
  | unlock =>
    rw [hg] at h
    simp only [Option.some.injEq] at h
    subst h
    simp [stepsLeft, hg, gRank]
  | done => rw [hg] at h; simp at h

theorem stepsLeft_setCaller {s t : BlockBuilder} (i : Nat) (old new : CallerPc)
    (hget : s.callers.get? i = some old) (hg : t.goroutine = s.goroutine)
    (hr : t.records = s.records) (hc : t.callers = s.callers.set i new)
    (hlt : cSteps s.records new < cSteps s.records old) : stepsLeft t < stepsLeft s := by
  have := sum_map_set (cSteps s.records) s.callers i old new hget
  simp only [stepsLeft, hg, hr, hc]
  omega

theorem stepsLeft_stepCaller {build : BlockBuilderFunc} {calls : List Call} {s t : BlockBuilder}
    (hi : Inv build s) (hs : Sync calls s) (i : Nat) (h : stepCaller s i = some t) :
    stepsLeft t < stepsLeft s := by
  unfold Builder.stepCaller at h
  cases hc : s.callers.get? i with
  | none => rw [hc] at h; simp at h
  | some c =>
    rw [hc] at h
    have hrec := hi.records
    cases c with
    | stopStore =>
      simp only [Option.some.injEq] at h
      subst h
      exact stepsLeft_setCaller i _ .stopLock hc rfl rfl rfl
        (by simp only [cSteps]; split <;> omega)
    | stopLock =>
      simp only at h
      split at h
      · simp only [Option.some.injEq] at h
        subst h
        exact stepsLeft_setCaller i _ .stopCheck hc rfl rfl rfl
          (by simp only [cSteps]; split <;> omega)
      · simp at h
    | stopCheck =>
      simp only at h
      by_cases hw : waitCond s = true
      · rw [if_pos hw] at h
        simp only [Option.some.injEq] at h
        subst h
        have h0 : s.records = 0 := by
          by_contra hne
          have hg : hasRecorded s.goroutine = true := by
            by_contra hng
            rw [if_neg hng] at hrec
            exact hne hrec
          obtain ⟨h1, _⟩ := hi.result hg
          simp only [waitCond, Bool.and_eq_true, Option.isNone_iff_eq_none] at hw
          rcases h1 with h | h
          · exact h hw.1
          · exact h hw.2
        exact stepsLeft_setCaller i _ .stopWait hc rfl rfl rfl (by simp [cSteps, h0])
      · rw [if_neg hw] at h
        simp only [Option.some.injEq] at h
        subst h
        exact stepsLeft_setCaller i _ _ hc rfl rfl rfl
          (by simp only [cSteps]; split <;> omega)
    | stopWait => simp at h
    | stopWoken =>
      simp only at h
      split at h
      · simp only [Option.some.injEq] at h
        subst h
        have hb := hs.woken _ (List.get?_mem hc) rfl
        have h1 : s.records = 1 := by
          rw [hrec, if_pos (hasRecorded_of_hasBroadcast hb)]
        exact stepsLeft_setCaller i _ .stopCheck hc rfl rfl rfl (by simp [cSteps, h1])
      · simp at h
    | stopUnlock r =>
      simp only [Option.some.injEq] at h
      subst h
      exact stepsLeft_setCaller i _ _ hc rfl rfl rfl (by simp [cSteps])
    | stopDone r => simp at h
    | blockLock =>
      simp only at h
      split at h
      · simp only [Option.some.injEq] at h
        subst h
        exact stepsLeft_setCaller i _ .blockRead hc rfl rfl rfl (by simp [cSteps])
      · simp at h
    | blockRead =>
      simp only [Option.some.injEq] at h
      subst h
      exact stepsLeft_setCaller i _ _ hc rfl rfl rfl (by simp [cSteps])
    | blockUnlock b =>
      simp only [Option.some.injEq] at h
      subst h
      exact stepsLeft_setCaller i _ _ hc rfl rfl rfl (by simp [cSteps])
    | blockDone b => simp at h

/-- Every step uses up one of the steps that are left, so a run from a
reached state is never longer than `stepsLeft`. -/
theorem stepsLeft_run {build : BlockBuilderFunc} {calls : List Call} (schedule : List Thread) :
    ∀ {s t : BlockBuilder}, Inv build s → Sync calls s → run build s schedule = some t →
      stepsLeft t + schedule.length ≤ stepsLeft s := by
  induction schedule with
  | nil =>
    intro s t _ _ h
    simp only [Builder.run, Option.some.injEq] at h
    subst h
    simp
  | cons th rest ih =>
    intro s t hi hs h
    unfold Builder.run at h
    cases hst : Builder.step build s th with
    | none => rw [hst] at h; simp at h
    | some s1 =>
      rw [hst] at h
      have hlt : stepsLeft s1 < stepsLeft s := by
        unfold Builder.step at hst
        split at hst
        · simp at hst
        · cases th with
          | goroutine => exact stepsLeft_stepGoroutine hi hst
          | caller i => exact stepsLeft_stepCaller hi hs i hst
      have := ih (hi.step th hst) (sync_step hi hs th hst) h
      simp only [List.length_cons]
      omega

/-- Once the result is recorded at most two steps of the goroutine and six
steps of each caller are left. -/
theorem stepsLeft_le {build : BlockBuilderFunc} {calls : List Call} {s : BlockBuilder}
    (hi : Inv build s) (hs : Sync calls s) (hrec : s.records = 1) :
    stepsLeft s ≤ 2 + 6 * calls.length := by
  have hg := hi.recorded_iff.mp hrec
  have h1 : gRank s.goroutine ≤ 2 := by
    cases hgp : s.goroutine <;> rw [hgp] at hg <;> simp_all [hasRecorded, gRank]
  have h2 : ∀ l : List CallerPc, (l.map (cSteps s.records)).sum ≤ 6 * l.length := by
    intro l
    induction l with
    | nil => simp
    | cons x rest ih =>
      have := cSteps_le s.records x
      simp only [List.map_cons, List.sum_cons, List.length_cons]
      omega
  have h3 : s.callers.length = calls.length := by
    rw [← hs.kinds, List.length_map]
  have := h2 s.callers
  rw [h3] at this
  unfold stepsLeft
  omega

/-- In a reached state with the result recorded in which no thread can take a
step, every `Stop` has returned the recorded pair: a `Stop` that has not, or
the holder it waits for, can take a step, and no `Stop` sleeps in `Wait` once
the goroutine has run `Broadcast`. -/
theorem quiescent_returned {build : BlockBuilderFunc} {calls : List Call} {s : BlockBuilder}
    (hi : Inv build s) (hs : Sync calls s) (hrec : s.records = 1)
    (hq : ∀ th, step build s th = none) :
    ∀ i, calls.get? i = some .stop → s.callers.get? i = some (.stopDone ⟨s.block, s.err⟩) := by
  have hg := hi.recorded_iff.mp hrec
  have hnc : s.goroutine ≠ .crashed := by
    intro hc
    rw [hc] at hg
    simp [hasRecorded] at hg
  have hgq : stepGoroutine build s = none := by
    rw [← step_goroutine hnc]; exact hq .goroutine
  have hcq : ∀ i, stepCaller s i = none := by
    intro i
    have h := hq (.caller i)
    rw [step_caller i hnc] at h
    exact h
  have hdone : s.goroutine = .done := by
    cases hgp : s.goroutine <;> rw [hgp] at hg <;>
      first
      | rfl
      | (simp [hasRecorded] at hg; done)
      | (simp [Builder.stepGoroutine, hgp] at hgq; done)
  have hm : s.mutex = none := by
    cases hmx : s.mutex with
    | none => rfl
    | some th =>
      exfalso
      cases th with
      | goroutine =>
        have := hs.holderG hmx
        rw [hdone] at this
        simp [GoroutinePc.holds] at this
      | caller j =>
        obtain ⟨c, hc, hh⟩ := hs.holderC j hmx
        have hj := hcq j
        unfold Builder.stepCaller at hj
        rw [hc] at hj
        cases c <;> simp [CallerPc.holds] at hh <;> simp at hj
        split at hj <;> simp at hj
  intro i hcall
  have hk : (s.callers.map CallerPc.call).get? i = some .stop := by
    rw [hs.kinds]; exact hcall
  simp only [List.get?_eq_getElem?, List.getElem?_map, Option.map_eq_some'] at hk
  obtain ⟨c, hc, hcc⟩ := hk
  have hc2 : s.callers.get? i = some c := by
    rw [List.get?_eq_getElem?]; exact hc
  have hi2 := hcq i
  unfold Builder.stepCaller at hi2
  rw [hc2] at hi2
  cases c with
  | stopStore => simp at hi2
  | stopLock => simp [hm] at hi2
  | stopCheck =>
    simp only at hi2
    split at hi2 <;> simp at hi2
  | stopWait =>
    have := hs.asleep _ (List.get?_mem hc2) rfl
    rw [hdone] at this
    simp [hasBroadcast] at this
  | stopWoken => simp [hm] at hi2
  | stopUnlock r => simp at hi2
  | stopDone r =>
    obtain ⟨_, hr⟩ := hi.returned _ (List.get?_mem hc2) r (Or.inr rfl)
    rw [hc2, hr]
  | blockLock => simp [CallerPc.call] at hcc
  | blockRead => simp [CallerPc.call] at hcc
  | blockUnlock b => simp [CallerPc.call] at hcc
  | blockDone b => simp [CallerPc.call] at hcc

/-- C19: in every state reached from `NewBlockBuilder`, by any schedule, for
any build function and any calls. When the goroutine has recorded its result,
the pair recorded is one that `build` returned, the wait condition of `Stop`
is false, and a `Stop` at its test leaves the loop with that pair, which is
what every returned `Stop` has returned. When no result has been recorded yet,
the wait condition is true, no `Stop` has returned or left the loop, and a
`Stop` at its test goes to sleep in `Wait`. A `Stop` asleep in `Wait` is woken
by the broadcast: once the goroutine has run `Broadcast` no `Stop` sleeps.
And every `Stop` does return the recorded pair: from a state with the result
recorded every run takes at most `2 + 6 * calls.length` steps, and when no
thread can take a step any more, every `Stop` has returned the recorded pair;
so as long as a `Stop` has not returned, some thread can take a step. A
`build` that returns `(nil, nil)` never gets its result recorded: the
goroutine panics in the log statement before. -/
theorem C19_stop_waits (build : BlockBuilderFunc) (calls : List Call) (schedule : List Thread)
    (s : BlockBuilder) (hrun : run build (NewBlockBuilder calls) schedule = some s) :
    (s.records = 1 →
      waitCond s = false ∧ (∃ v, build v = some ⟨s.block, s.err⟩) ∧
      ∀ i, s.callers.get? i = some .stopCheck →
        step build s (.caller i) =
          some { s with callers := s.callers.set i (.stopUnlock ⟨s.block, s.err⟩) }) ∧
    (∀ i r, s.callers.get? i = some (.stopDone r) →
      s.records = 1 ∧ r = ⟨s.block, s.err⟩ ∧ ∃ v, build v = some r) ∧
    (s.records = 0 →
      waitCond s = true ∧
      (∀ i r, s.callers.get? i ≠ some (.stopDone r) ∧ s.callers.get? i ≠ some (.stopUnlock r)) ∧
      ∀ i, s.callers.get? i = some .stopCheck → s.goroutine ≠ .crashed →
        step build s (.caller i) =
          some { s with mutex := none, callers := s.callers.set i .stopWait }) ∧
    (hasBroadcast s.goroutine = true → ∀ i, s.callers.get? i ≠ some .stopWait) ∧
    (s.records = 1 → ∀ later t, run build s later = some t →
      later.length ≤ 2 + 6 * calls.length ∧
      ((∀ th, step build t th = none) →
        ∀ i, calls.get? i = some .stop →
          t.callers.get? i = some (.stopDone ⟨s.block, s.err⟩)) ∧
      ((∃ i, calls.get? i = some .stop ∧
          t.callers.get? i ≠ some (.stopDone ⟨s.block, s.err⟩)) →
        ∃ th, (step build t th).isSome = true)) := by
  have hs : Inv build s := Inv.run schedule (Inv.init build calls) hrun
  have hsync : Sync calls s := sync_run schedule (Inv.init build calls) (sync_init calls) hrun
  refine ⟨?_, ?_, ?_, ?_, ?_⟩
  · intro hrec
    have hg := hs.recorded_iff.mp hrec
    obtain ⟨hne, hv⟩ := hs.result hg
    have hw : waitCond s = false := by
      unfold waitCond
      rcases hne with h | h
      · cases hb : s.block with
        | none => exact absurd hb h
        | some b => simp
      · cases he : s.err with
        | none => exact absurd he h
        | some e => simp
    refine ⟨hw, hv, ?_⟩
    intro i hi
    have hnc : s.goroutine ≠ .crashed := by
      intro hc
      rw [hc] at hg
      simp [hasRecorded] at hg
    rw [step_caller i hnc]
    unfold stepCaller
    rw [hi]
    simp [hw]
  · intro i r hi
    obtain ⟨hg, hr⟩ := hs.returned _ (List.get?_mem hi) r (Or.inr rfl)
    refine ⟨hs.recorded_iff.mpr hg, hr, ?_⟩
    rw [hr]
    exact (hs.result hg).2
  · intro h0
    have hg : hasRecorded s.goroutine = false := by
      by_contra hne
      have := hs.recorded_iff.mpr (by simpa using hne)
      omega
    obtain ⟨hb, he⟩ := hs.running hg
    have hw : waitCond s = true := by simp [waitCond, hb, he]
    refine ⟨hw, ?_, ?_⟩
    · intro i r
      constructor
      · intro hi
        have := (hs.returned _ (List.get?_mem hi) r (Or.inr rfl)).1
        rw [hg] at this
        simp at this
      · intro hi
        have := (hs.returned _ (List.get?_mem hi) r (Or.inl rfl)).1
        rw [hg] at this
        simp at this
    · intro i hi hnc
      rw [step_caller i hnc]
      unfold stepCaller
      rw [hi]
      simp [hw]
  · intro hb i hi
    have := hsync.asleep _ (List.get?_mem hi) rfl
    rw [hb] at this
    simp at this
  · intro hrec later t hl
    have ht : Inv build t := Inv.run later hs hl
    have htsync : Sync calls t := sync_run later hs hsync hl
    obtain ⟨hb, he, hrt⟩ := hs.recorded_stays later hrec hl
    have hlen := stepsLeft_run later hs hsync hl
    have hle := stepsLeft_le hs hsync hrec
    have hq : (∀ th, step build t th = none) →
        ∀ i, calls.get? i = some .stop →
          t.callers.get? i = some (.stopDone ⟨s.block, s.err⟩) := by
      intro hq i hi
      rw [← hb, ← he]
      exact quiescent_returned ht htsync hrt hq i hi
    refine ⟨by omega, hq, ?_⟩
    rintro ⟨i, hi, hne⟩
    by_contra hno
    apply hne
    apply hq _ i hi
    intro th
    cases hst : step build t th with
    | none => rfl
    | some t1 => exact absurd ⟨th, by simp [hst]⟩ hno

/-- C19 along the run of one `Stop`: after three steps nothing is recorded and
the caller sleeps in `Wait`; after seven steps the result is recorded, before
the broadcast, and the caller still sleeps; from there every run has at most 8
steps and ends, when no thread can take a step, with `Stop` returned; at the
end of the schedule block 7 is recorded and `Stop` has returned it. -/
theorem C19_stop_waits_witness :
    (run Toy.build (NewBlockBuilder [.stop]) (Toy.schedule.take 3)).map
      (fun s => (s.records, s.callers)) = some (0, [.stopWait]) ∧
    (run Toy.build (NewBlockBuilder [.stop]) (Toy.schedule.take 7)).map
      (fun s => (s.records, s.callers, s.goroutine)) =
        some (1, [.stopWait], .broadcast) ∧
    (∀ s7, run Toy.build (NewBlockBuilder [.stop]) (Toy.schedule.take 7) = some s7 →
      ∀ later t, run Toy.build s7 later = some t →
        later.length ≤ 8 ∧
        ((∀ th, step Toy.build t th = none) →
          t.callers.get? 0 = some (.stopDone ⟨some ⟨7⟩, none⟩))) ∧
    (run Toy.build (NewBlockBuilder [.stop]) Toy.schedule).map
      (fun s => (s.records, s.callers)) = some (1, [.stopDone ⟨some ⟨7⟩, none⟩]) ∧
    (∀ s, run Toy.build (NewBlockBuilder [.stop]) Toy.schedule = some s →
      s.block = some ⟨7⟩ ∧ s.err = none) :=
  ⟨by decide, by decide, fun s7 hs7 later t hl =>
    have h := C19_stop_waits Toy.build [.stop] (Toy.schedule.take 7) s7 hs7
    have h7 : (run Toy.build (NewBlockBuilder [.stop]) (Toy.schedule.take 7)).map
        (fun s => (s.records, s.block, s.err)) = some (1, some ⟨7⟩, none) := by decide
    have hrec : s7.records = 1 ∧ s7.block = some ⟨7⟩ ∧ s7.err = none := by
      rw [hs7] at h7
      simpa using h7
    have h5 := h.2.2.2.2 hrec.1 later t hl
    ⟨h5.1, fun hq => by
      have := h5.2.1 hq 0 rfl
      rw [hrec.2.1, hrec.2.2] at this
      exact this⟩,
    by decide, fun s hs =>
    have h := C19_stop_waits Toy.build [.stop] Toy.schedule s hs
    have hc : s.callers.get? 0 = some (.stopDone ⟨some ⟨7⟩, none⟩) := by
      have h1 : (run Toy.build (NewBlockBuilder [.stop]) Toy.schedule).map
          (fun s => s.callers.get? 0) = some (some (.stopDone ⟨some ⟨7⟩, none⟩)) := by decide
      rw [hs] at h1
      simpa using h1
    have h2 := (h.2.1 0 _ hc).2.1
    ⟨(congrArg BuildResult.block h2).symm, (congrArg BuildResult.err h2).symm⟩⟩

/-- Nothing is recorded, broadcast or returned yet. -/
def Pre (s : BlockBuilder) : Prop :=
  s.block = none ∧ s.err = none ∧ s.records = 0 ∧ s.broadcasts = 0 ∧ s.returns = 0

/-- The pair `r` is recorded, with `bc` broadcasts and `ret` returns so far. -/
def Post (r : BuildResult) (s : BlockBuilder) (bc ret : Nat) : Prop :=
  s.block = r.block ∧ s.err = r.err ∧ s.records = 1 ∧ s.broadcasts = bc ∧ s.returns = ret

/-- The places the goroutine and the one caller of `Stop` can be in together,
with what then holds of the flag, the mutex and the fields, when `build`
returns `r` and only once the flag is set. -/
def Good (r : BuildResult) (s : BlockBuilder) : GoroutinePc → CallerPc → Prop
  | .building, .stopStore => s.interrupt = 0 ∧ s.mutex = none ∧ Pre s
  | .building, .stopLock => s.interrupt = 1 ∧ s.mutex = none ∧ Pre s
  | .building, .stopCheck => s.interrupt = 1 ∧ s.mutex = some (.caller 0) ∧ Pre s
  | .building, .stopWait => s.interrupt = 1 ∧ s.mutex = none ∧ Pre s
  | .built x, .stopLock => x = r ∧ s.interrupt = 1 ∧ s.mutex = none ∧ Pre s
  | .built x, .stopCheck => x = r ∧ s.interrupt = 1 ∧ s.mutex = some (.caller 0) ∧ Pre s
  | .built x, .stopWait => x = r ∧ s.interrupt = 1 ∧ s.mutex = none ∧ Pre s
  | .lock x, .stopLock => x = r ∧ s.interrupt = 1 ∧ s.mutex = none ∧ Pre s
  | .lock x, .stopCheck => x = r ∧ s.interrupt = 1 ∧ s.mutex = some (.caller 0) ∧ Pre s
  | .lock x, .stopWait => x = r ∧ s.interrupt = 1 ∧ s.mutex = none ∧ Pre s
  | .record x, .stopLock => x = r ∧ s.interrupt = 1 ∧ s.mutex = some .goroutine ∧ Pre s
  | .record x, .stopWait => x = r ∧ s.interrupt = 1 ∧ s.mutex = some .goroutine ∧ Pre s
  | .broadcast, .stopLock => s.interrupt = 1 ∧ s.mutex = some .goroutine ∧ Post r s 0 0
  | .broadcast, .stopWait => s.interrupt = 1 ∧ s.mutex = some .goroutine ∧ Post r s 0 0
  | .unlock, .stopLock => s.interrupt = 1 ∧ s.mutex = some .goroutine ∧ Post r s 1 0
  | .unlock, .stopWoken => s.interrupt = 1 ∧ s.mutex = some .goroutine ∧ Post r s 1 0
  | .done, .stopLock => s.interrupt = 1 ∧ s.mutex = none ∧ Post r s 1 0
  | .done, .stopWoken => s.interrupt = 1 ∧ s.mutex = none ∧ Post r s 1 0
  | .done, .stopCheck => s.interrupt = 1 ∧ s.mutex = some (.caller 0) ∧ Post r s 1 0
  | .done, .stopUnlock x => x = r ∧ s.interrupt = 1 ∧ s.mutex = some (.caller 0) ∧ Post r s 1 0
  | .done, .stopDone x => x = r ∧ s.interrupt = 1 ∧ s.mutex = none ∧ Post r s 1 1
  | _, _ => False

/-- The invariant of a builder with one caller, of `Stop`. -/
def OneStop (r : BuildResult) (s : BlockBuilder) : Prop :=
  ∃ c, s.callers = [c] ∧ Good r s s.goroutine c

theorem oneStop_init (r : BuildResult) : OneStop r (NewBlockBuilder [.stop]) :=
  ⟨.stopStore, rfl, by simp [Good, NewBlockBuilder, Pre]⟩

theorem oneStop_stepGoroutine {build : BlockBuilderFunc} {r : BuildResult} {s t : BlockBuilder}
    (h0 : build 0 = none) (h1 : build 1 = some r) (hr : r.block ≠ none ∨ r.err ≠ none)
    (hs : OneStop r s) (h : Builder.stepGoroutine build s = some t) : OneStop r t := by
  obtain ⟨c, hc, hgood⟩ := hs
  have hnil : (r.err.isNone && r.block.isNone) = false := by
    rcases hr with h | h
    · cases hb : r.block with
      | none => exact absurd hb h
      | some b => simp
    · cases he : r.err with
      | none => exact absurd he h
      | some e => simp
  unfold Builder.stepGoroutine at h
  cases hg : s.goroutine with
  | building =>
    rw [hg] at h hgood
    cases c <;> simp only [Good, Pre] at hgood <;>
      first
      | exact hgood.elim
      | (obtain ⟨hi, hm, hb, he, hrec, hbc, hret⟩ := hgood
         simp only [hi, h0, h1, Option.some.injEq] at h
         first
         | exact absurd h (by simp)
         | (subst h
            exact ⟨_, hc, by simp [Good, Pre, hi, hm, hb, he, hrec, hbc, hret]⟩))
  | built x =>
    rw [hg] at h hgood
    cases c <;> simp only [Good, Pre] at hgood <;>
      first
      | exact hgood.elim
      | (obtain ⟨hx, hi, hm, hb, he, hrec, hbc, hret⟩ := hgood
         subst hx
         simp only [hnil, Bool.false_eq_true, if_false, Option.some.injEq] at h
         subst h
         exact ⟨_, hc, by simp [Good, Pre, hi, hm, hb, he, hrec, hbc, hret]⟩)
  | crashed => rw [hg] at h; simp at h
  | lock x =>
    rw [hg] at h hgood
    cases c <;> simp only [Good, Pre] at hgood <;>
      first
      | exact hgood.elim
      | (obtain ⟨hx, hi, hm, hb, he, hrec, hbc, hret⟩ := hgood
         subst hx
         simp only [hm, if_true, Option.some.injEq] at h
         first
         | (subst h
            exact ⟨_, hc, by simp [Good, Pre, hi, hb, he, hrec, hbc, hret]⟩)
         | simp at h)
  | record x =>
    rw [hg] at h hgood
    cases c <;> simp only [Good, Pre] at hgood <;>
      first
      | exact hgood.elim
      | (obtain ⟨hx, hi, hm, hb, he, hrec, hbc, hret⟩ := hgood
         subst hx
         simp only [Option.some.injEq] at h
         subst h
         exact ⟨_, hc, by simp [Good, Post, hi, hm, hrec, hbc, hret]⟩)
  | broadcast =>
    rw [hg] at h hgood
    cases c <;> simp only [Good, Post] at hgood <;>
      first
      | exact hgood.elim
      | (obtain ⟨hi, hm, hb, he, hrec, hbc, hret⟩ := hgood
         simp only [Option.some.injEq] at h
         subst h
         exact ⟨_, by simp [hc, wake]; rfl, by simp [Good, Post, hi, hm, hb, he, hrec, hbc, hret]⟩)
  | unlock =>
    rw [hg] at h hgood
    cases c <;> simp only [Good, Post] at hgood <;>
      first
      | exact hgood.elim
      | (obtain ⟨hi, hm, hb, he, hrec, hbc, hret⟩ := hgood
         simp only [Option.some.injEq] at h
         subst h
         exact ⟨_, hc, by simp [Good, Post, hi, hb, he, hrec, hbc, hret]⟩)
  | done => rw [hg] at h; simp at h

theorem oneStop_stepCaller {r : BuildResult} {s t : BlockBuilder} {i : Nat}
    (hr : r.block ≠ none ∨ r.err ≠ none)
    (hs : OneStop r s) (h : Builder.stepCaller s i = some t) : OneStop r t := by
  obtain ⟨c, hc, hgood⟩ := hs
  have hnil : (r.block.isNone && r.err.isNone) = false := by
    rcases hr with h | h
    · cases hb : r.block with
      | none => exact absurd hb h
      | some b => simp
    · cases he : r.err with
      | none => exact absurd he h
      | some e => simp
  unfold Builder.stepCaller at h
  cases i with
  | succ j => simp [hc] at h
  | zero =>
    have hget : s.callers.get? 0 = some c := by simp [hc]
    rw [hget] at h
    have hset : ∀ d, s.callers.set 0 d = [d] := by intro d; simp [hc]
    cases c with
    | stopStore =>
      simp only [Option.some.injEq] at h
      subst h
      refine ⟨_, hset _, ?_⟩
      cases hg : s.goroutine <;> rw [hg] at hgood <;> simp only [Good, Pre] at hgood ⊢ <;>
        first
        | exact hgood.elim
        | (obtain ⟨hi, hm, hb, he, hrec, hbc, hret⟩ := hgood
           simp [hm, hb, he, hrec, hbc, hret])
    | stopLock =>
      simp only at h
      split at h
      · rename_i hm
        simp only [Option.some.injEq] at h
        subst h
        refine ⟨_, hset _, ?_⟩
        cases hg : s.goroutine <;> rw [hg] at hgood <;>
          simp only [Good, Pre, Post] at hgood ⊢ <;>
          first
          | exact hgood.elim
          | (rw [hm] at hgood; simpa using hgood)
      · simp at h
    | stopCheck =>
      simp only at h
      cases hg : s.goroutine <;> rw [hg] at hgood <;>
        simp only [Good, Pre, Post] at hgood <;>
        first
        | exact hgood.elim
        | (obtain ⟨hi, hm, hb, he, hrec, hbc, hret⟩ := hgood
           have hw : waitCond s = true := by simp [waitCond, hb, he]
           simp only [hw, if_true, Option.some.injEq] at h
           subst h
           exact ⟨_, hset _, by simp [hg, Good, Pre, hi, hb, he, hrec, hbc, hret]⟩)
        | (obtain ⟨hx, hi, hm, hb, he, hrec, hbc, hret⟩ := hgood
           have hw : waitCond s = true := by simp [waitCond, hb, he]
           simp only [hw, if_true, Option.some.injEq] at h
           subst h
           exact ⟨_, hset _, by simp [hg, Good, Pre, hx, hi, hb, he, hrec, hbc, hret]⟩)
        | (obtain ⟨hi, hm, hb, he, hrec, hbc, hret⟩ := hgood
           have hw : waitCond s = false := by simp only [waitCond, hb, he]; exact hnil
           simp only [hw, Bool.false_eq_true, if_false, Option.some.injEq] at h
           subst h
           exact ⟨_, hset _, by simp [hg, Good, Post, hi, hm, hb, he, hrec, hbc, hret]⟩)
    | stopWait => simp at h
    | stopWoken =>
      simp only at h
      split at h
      · rename_i hm
        simp only [Option.some.injEq] at h
        subst h
        refine ⟨_, hset _, ?_⟩
        cases hg : s.goroutine <;> rw [hg] at hgood <;>
          simp only [Good, Pre, Post] at hgood ⊢ <;>
          first
          | exact hgood.elim
          | (rw [hm] at hgood; simpa using hgood)
      · simp at h
    | stopUnlock x =>
      simp only [Option.some.injEq] at h
      subst h
      refine ⟨_, hset _, ?_⟩
      cases hg : s.goroutine <;> rw [hg] at hgood <;>
        simp only [Good, Pre, Post] at hgood ⊢ <;>
        first
        | exact hgood.elim
        | (obtain ⟨hx, hi, _, hb, he, hrec, hbc, hret⟩ := hgood
           simp [hx, hi, hb, he, hrec, hbc, hret])
    | stopDone x => simp at h
    | blockLock =>
      cases hg : s.goroutine <;> rw [hg] at hgood <;> simp only [Good] at hgood
    | blockRead =>
      cases hg : s.goroutine <;> rw [hg] at hgood <;> simp only [Good] at hgood
    | blockUnlock b =>
      cases hg : s.goroutine <;> rw [hg] at hgood <;> simp only [Good] at hgood
    | blockDone b =>
      cases hg : s.goroutine <;> rw [hg] at hgood <;> simp only [Good] at hgood

theorem oneStop_step {build : BlockBuilderFunc} {r : BuildResult} {s t : BlockBuilder}
    {th : Thread}
    (h0 : build 0 = none) (h1 : build 1 = some r) (hr : r.block ≠ none ∨ r.err ≠ none)
    (hs : OneStop r s) (h : Builder.step build s th = some t) : OneStop r t := by
  unfold Builder.step at h
  split at h
  · simp at h
  · cases th with
    | goroutine => exact oneStop_stepGoroutine h0 h1 hr hs h
    | caller i => exact oneStop_stepCaller hr hs h

theorem oneStop_run {build : BlockBuilderFunc} {r : BuildResult}
    (h0 : build 0 = none) (h1 : build 1 = some r) (hr : r.block ≠ none ∨ r.err ≠ none) :
    ∀ (schedule : List Thread) (s t : BlockBuilder), OneStop r s →
      Builder.run build s schedule = some t → OneStop r t := by
  intro schedule
  induction schedule with
  | nil =>
    intro s t hs h
    simp only [Builder.run, Option.some.injEq] at h
    exact h ▸ hs
  | cons th rest ih =>
    intro s t hs h
    simp only [Builder.run] at h
    cases hstep : Builder.step build s th with
    | none => rw [hstep] at h; simp at h
    | some s1 =>
      rw [hstep] at h
      exact ih s1 t (oneStop_step h0 h1 hr hs hstep) h

/-- The number of steps a caller of `Stop` can still take at most: before the
result is recorded it may still go through `Wait`, afterwards it does not. -/
def cRank (records : Nat) : CallerPc → Nat
  | .stopStore => 6
  | .stopLock => if records = 0 then 5 else 3
  | .stopCheck => if records = 0 then 4 else 2
  | .stopWait => 3
  | .stopWoken => 3
  | .stopUnlock _ => 1
  | _ => 0

/-- The number of steps the builder can still take at most. -/
def rank (s : BlockBuilder) : Nat :=
  gRank s.goroutine + (s.callers.map (cRank s.records)).sum

theorem OneStop.rank_stepGoroutine {build : BlockBuilderFunc} {r : BuildResult}
    {s t : BlockBuilder} (hs : OneStop r s) (h : Builder.stepGoroutine build s = some t) :
    rank t < rank s := by
  obtain ⟨c, hc, hgood⟩ := hs
  unfold Builder.stepGoroutine at h
  cases hg : s.goroutine with
  | building =>
    rw [hg] at h
    simp only at h
    split at h
    · simp at h
    · simp only [Option.some.injEq] at h
      subst h
      simp [rank, gRank, hg]
  | built x =>
    rw [hg] at h
    simp only at h
    split at h <;>
      (simp only [Option.some.injEq] at h
       subst h
       simp [rank, gRank, hg])
  | crashed => rw [hg] at h; simp at h
  | lock x =>
    rw [hg] at h
    simp only at h
    split at h
    · simp only [Option.some.injEq] at h
      subst h
      simp [rank, gRank, hg]
    · simp at h
  | record x =>
    rw [hg] at h hgood
    simp only [Option.some.injEq] at h
    subst h
    cases c <;> simp only [Good, Pre] at hgood <;>
      first
      | exact hgood.elim
      | (obtain ⟨hx, hi, hm, hb, he, hrec, hbc, hret⟩ := hgood
         simp [rank, gRank, cRank, hg, hc, hrec])
  | broadcast =>
    rw [hg] at h hgood
    simp only [Option.some.injEq] at h
    subst h
    cases c <;> simp only [Good, Post] at hgood <;>
      first
      | exact hgood.elim
      | (obtain ⟨hi, hm, hb, he, hrec, hbc, hret⟩ := hgood
         simp [rank, gRank, cRank, wake, hg, hc, hrec])
  | unlock =>
    rw [hg] at h
    simp only [Option.some.injEq] at h
    subst h
    simp [rank, gRank, hg]
  | done => rw [hg] at h; simp at h

theorem OneStop.rank_stepCaller {r : BuildResult} {s t : BlockBuilder} {i : Nat}
    (hr : r.block ≠ none ∨ r.err ≠ none)
    (hs : OneStop r s) (h : Builder.stepCaller s i = some t) : rank t < rank s := by
  obtain ⟨c, hc, hgood⟩ := hs
  have hnil : (r.block.isNone && r.err.isNone) = false := by
    rcases hr with h | h
    · cases hb : r.block with
      | none => exact absurd hb h
      | some b => simp
    · cases he : r.err with
      | none => exact absurd he h
      | some e => simp
  unfold Builder.stepCaller at h
  cases i with
  | succ j => simp [hc] at h
  | zero =>
    have hget : s.callers.get? 0 = some c := by simp [hc]
    rw [hget] at h
    cases c with
    | stopStore =>
      simp only [Option.some.injEq] at h
      subst h
      simp only [rank, hc, cRank, List.set_cons_zero, List.map, List.sum_cons, List.sum_nil]
      split <;> omega
    | stopLock =>
      simp only at h
      split at h
      · simp only [Option.some.injEq] at h
        subst h
        simp only [rank, hc, cRank, List.set_cons_zero, List.map, List.sum_cons, List.sum_nil]
        split <;> omega
      · simp at h
    | stopCheck =>
      simp only at h
      cases hg : s.goroutine <;> rw [hg] at hgood <;>
        simp only [Good, Pre, Post] at hgood <;>
        first
        | exact hgood.elim
        | (obtain ⟨hi, hm, hb, he, hrec, hbc, hret⟩ := hgood
           have hw : waitCond s = true := by simp [waitCond, hb, he]
           simp only [hw, if_true, Option.some.injEq] at h
           subst h
           simp [rank, cRank, gRank, hg, hc, hrec])
        | (obtain ⟨hx, hi, hm, hb, he, hrec, hbc, hret⟩ := hgood
           have hw : waitCond s = true := by simp [waitCond, hb, he]
           simp only [hw, if_true, Option.some.injEq] at h
           subst h
           simp [rank, cRank, gRank, hg, hc, hrec])
        | (obtain ⟨hi, hm, hb, he, hrec, hbc, hret⟩ := hgood
           have hw : waitCond s = false := by simp only [waitCond, hb, he]; exact hnil
           simp only [hw, Bool.false_eq_true, if_false, Option.some.injEq] at h
           subst h
           simp [rank, cRank, gRank, hg, hc, hrec])
    | stopWait => simp at h
    | stopWoken =>
      simp only at h
      split at h
      · simp only [Option.some.injEq] at h
        subst h
        cases hg : s.goroutine <;> rw [hg] at hgood <;>
          simp only [Good, Pre, Post] at hgood <;>
          first
          | exact hgood.elim
          | (obtain ⟨hi, hm, hb, he, hrec, hbc, hret⟩ := hgood
             simp [rank, cRank, gRank, hg, hc, hrec])
      · simp at h
    | stopUnlock x =>
      simp only [Option.some.injEq] at h
      subst h
      simp [rank, cRank, hc]
    | stopDone x => simp at h
    | blockLock =>
      cases hg : s.goroutine <;> rw [hg] at hgood <;> simp only [Good] at hgood
    | blockRead =>
      cases hg : s.goroutine <;> rw [hg] at hgood <;> simp only [Good] at hgood
    | blockUnlock b =>
      cases hg : s.goroutine <;> rw [hg] at hgood <;> simp only [Good] at hgood
    | blockDone b =>
      cases hg : s.goroutine <;> rw [hg] at hgood <;> simp only [Good] at hgood

theorem OneStop.rank_run {build : BlockBuilderFunc} {r : BuildResult}
    (h0 : build 0 = none) (h1 : build 1 = some r) (hr : r.block ≠ none ∨ r.err ≠ none) :
    ∀ (schedule : List Thread) (s t : BlockBuilder), OneStop r s →
      Builder.run build s schedule = some t → rank t + schedule.length ≤ rank s := by
  intro schedule
  induction schedule with
  | nil =>
    intro s t _ h
    simp only [Builder.run, Option.some.injEq] at h
    subst h
    simp
  | cons th rest ih =>
    intro s t hs h
    simp only [Builder.run] at h
    cases hstep : Builder.step build s th with
    | none => rw [hstep] at h; simp at h
    | some s1 =>
      rw [hstep] at h
      have hs1 := oneStop_step h0 h1 hr hs hstep
      have hlt : rank s1 < rank s := by
        unfold Builder.step at hstep
        split at hstep
        · simp at hstep
        · cases th with
          | goroutine => exact OneStop.rank_stepGoroutine hs hstep
          | caller i => exact OneStop.rank_stepCaller hr hs hstep
      have := ih s1 t hs1 h
      simp only [List.length_cons]
      omega

/-- In every state of the builder with one `Stop`, some thread can take a step
unless the goroutine has ended and `Stop` has returned. -/
theorem OneStop.enabled {build : BlockBuilderFunc} {r : BuildResult} {s : BlockBuilder}
    (h1 : build 1 = some r) (hr : r.block ≠ none ∨ r.err ≠ none) (hs : OneStop r s) :
    (∃ th, (Builder.step build s th).isSome = true) ∨
      (s.goroutine = .done ∧ s.callers = [.stopDone r]) := by
  obtain ⟨c, hc, hgood⟩ := hs
  have hnil : (r.err.isNone && r.block.isNone) = false := by
    rcases hr with h | h
    · cases hb : r.block with
      | none => exact absurd hb h
      | some b => simp
    · cases he : r.err with
      | none => exact absurd he h
      | some e => simp
  have hget : s.callers.get? 0 = some c := by simp [hc]
  cases hg : s.goroutine <;> rw [hg] at hgood <;> cases c <;>
    simp only [Good, Pre, Post] at hgood <;>
    first
    | exact hgood.elim
    | (obtain ⟨hx, hi, hm, hb, he, hrec, hbc, hret⟩ := hgood
       subst hx
       exact Or.inr ⟨rfl, hc⟩)
    | (refine Or.inl ⟨.goroutine, ?_⟩
       obtain ⟨hi, hm, -⟩ := hgood
       simp [Builder.step, Builder.stepGoroutine, hg, hi, hm, h1]
       done)
    | (refine Or.inl ⟨.goroutine, ?_⟩
       obtain ⟨hx, hi, hm, -⟩ := hgood
       subst hx
       simp [Builder.step, Builder.stepGoroutine, hg, hi, hm, hnil]
       done)
    | (refine Or.inl ⟨.caller 0, ?_⟩
       obtain ⟨hi, hm, -⟩ := hgood
       simp only [Builder.step, Builder.stepCaller, hget]
       simp [hg, hm]
       done)
    | (refine Or.inl ⟨.caller 0, ?_⟩
       obtain ⟨hx, hi, hm, -⟩ := hgood
       simp only [Builder.step, Builder.stepCaller, hget]
       simp [hg, hm]
       done)
    | (refine Or.inl ⟨.caller 0, ?_⟩
       simp only [Builder.step, Builder.stepCaller, hget]
       by_cases hw : waitCond s = true <;> simp [hg, hw]
       done)

/-- What a state of the builder with one `Stop` shows of the counters. -/
theorem OneStop.counters {r : BuildResult} {s : BlockBuilder} (hs : OneStop r s) :
    s.returns ≤ 1 ∧ s.broadcasts ≤ 1 ∧
    (s.returns = 1 → s.goroutine = .done ∧ s.callers = [.stopDone r]) ∧
    (s.callers = [.stopDone r] → s.returns = 1) ∧
    (s.goroutine = .done → s.records = 1 ∧ s.broadcasts = 1 ∧ s.block = r.block ∧
      s.err = r.err) := by
  obtain ⟨c, hc, hgood⟩ := hs
  cases hg : s.goroutine <;> rw [hg] at hgood <;> cases c <;>
    simp only [Good, Pre, Post] at hgood <;>
    first
    | exact hgood.elim
    | (obtain ⟨hx, hi, hm, hb, he, hrec, hbc, hret⟩ := hgood
       simp [hc, hx, hb, he, hrec, hbc, hret]
       done)
    | (obtain ⟨hi, hm, hb, he, hrec, hbc, hret⟩ := hgood
       simp [hc, hb, he, hrec, hbc, hret]
       done)

/-- C20, the spec as written fails: `Toy.buildNothing` completes only once the
flag is set, with neither a block nor an error. With `Stop` called
concurrently, the goroutine panics in its log statement (line 35) before it
takes the lock: nothing is recorded or broadcast, `Stop` has not returned and
no thread can take a step any more. -/
theorem C20_counterexample :
    Toy.buildNothing 0 = none ∧ Toy.buildNothing 1 = some ⟨none, none⟩ ∧
    ∃ s, run Toy.buildNothing (NewBlockBuilder [.stop]) [.caller 0, .goroutine, .goroutine]
        = some s ∧
      s.goroutine = .crashed ∧ s.callers = [.stopLock] ∧ s.records = 0 ∧
      s.broadcasts = 0 ∧ s.returns = 0 ∧ ∀ th, step Toy.buildNothing s th = none :=
  ⟨by decide, by decide, _, rfl, rfl, rfl, rfl, rfl, rfl, fun _ => rfl⟩

/-- C20, amended: let `build` complete only once the flag is set, with a pair
`r` that holds a block or an error, and let `Stop` be called once,
concurrently with the goroutine. Then under every interleaving: the run has
at most 12 steps; `Stop` has returned at most once and the result was
broadcast at most once; when `Stop` has returned, the goroutine has ended, the
result `r` is recorded and was broadcast once, and `Stop` returned `r`; and
there is no deadlock: some thread can take a step, unless the goroutine has
ended and `Stop` has returned, exactly once, after exactly one broadcast. -/
theorem C20_stop_race (build : BlockBuilderFunc) (r : BuildResult) (schedule : List Thread)
    (s : BlockBuilder) (h0 : build 0 = none) (h1 : build 1 = some r)
    (hr : r.block ≠ none ∨ r.err ≠ none)
    (hrun : run build (NewBlockBuilder [.stop]) schedule = some s) :
    schedule.length ≤ 12 ∧ s.returns ≤ 1 ∧ s.broadcasts ≤ 1 ∧
    (s.returns = 1 → s.goroutine = .done ∧ s.callers = [.stopDone r] ∧ s.records = 1 ∧
      s.broadcasts = 1 ∧ s.block = r.block ∧ s.err = r.err) ∧
    ((∃ th, (step build s th).isSome = true) ∨
      (s.goroutine = .done ∧ s.callers = [.stopDone r] ∧ s.records = 1 ∧
        s.broadcasts = 1 ∧ s.returns = 1 ∧ s.block = r.block ∧ s.err = r.err)) := by
  have hs : OneStop r s := oneStop_run h0 h1 hr schedule _ s (oneStop_init r) hrun
  have hlen := OneStop.rank_run h0 h1 hr schedule _ s (oneStop_init r) hrun
  have hinit : rank (NewBlockBuilder [.stop]) = 12 := by decide
  obtain ⟨hret, hbc, hone, hdone, hg⟩ := OneStop.counters hs
  refine ⟨by omega, hret, hbc, ?_, ?_⟩
  · intro h
    obtain ⟨h2, h3⟩ := hone h
    obtain ⟨h4, h5, h6, h7⟩ := hg h2
    exact ⟨h2, h3, h4, h5, h6, h7⟩
  · rcases OneStop.enabled h1 hr hs with h | ⟨h2, h3⟩
    · exact Or.inl h
    · obtain ⟨h4, h5, h6, h7⟩ := hg h2
      exact Or.inr ⟨h2, h3, h4, h5, hdone h3, h6, h7⟩

/-- C20 on the run of `Toy.schedule`, which has 12 steps: `Toy.build` completes
with block 7 once the flag is set, `Stop` has returned it, once, the result was
broadcast once, and no thread has a step left. -/
theorem C20_stop_race_witness :
    ∃ s, run Toy.build (NewBlockBuilder [.stop]) Toy.schedule = some s ∧
      Toy.schedule.length = 12 ∧ s.returns = 1 ∧ s.broadcasts = 1 ∧
      s.callers = [.stopDone ⟨some ⟨7⟩, none⟩] ∧ s.block = some ⟨7⟩ ∧ s.err = none ∧
      (∀ th, step Toy.build s th = none) ∧
      (Toy.schedule.length ≤ 12 ∧ s.returns ≤ 1 ∧ s.broadcasts ≤ 1) :=
  ⟨_, rfl, rfl, rfl, rfl, rfl, rfl, rfl, fun th => by
      cases th with
      | goroutine => rfl
      | caller i => cases i <;> rfl,
    have h := C20_stop_race Toy.build ⟨some ⟨7⟩, none⟩ Toy.schedule _ (by decide) (by decide)
      (Or.inl (by decide)) rfl
    ⟨h.1, h.2.1, h.2.2.1⟩⟩

end Builder

namespace Oracle

/-! ### The check of the replayed roots -/

/-- C27: `Output(output, receipts)` returns normally exactly when `receipts`
is the recorded receipts root `outputs[1]` and `output` is the recorded state
root `outputs[0]`; for every other pair it panics, with `BAD receipts` when
the receipts root differs and with `BAD transition :((` when only the state
root does; and it leaves `outputs`, and the whole state, as they are. -/
theorem C27_output_check (output receipts : Hash) (s : OracleState) :
    ((Output output receipts s).failure = none ↔
      (receipts = s.outputs 1 ∧ output = s.outputs 0)) ∧
    (Output output receipts s = .ok () s ∨
      Output output receipts s = .fail (.panic "BAD receipts") s ∨
      Output output receipts s = .fail (.panic "BAD transition :((") s) ∧
    (receipts ≠ s.outputs 1 →
      Output output receipts s = .fail (.panic "BAD receipts") s) ∧
    (receipts = s.outputs 1 → output ≠ s.outputs 0 →
      Output output receipts s = .fail (.panic "BAD transition :((") s) ∧
    (Output output receipts s).state.outputs = s.outputs ∧
    (Output output receipts s).state = s := by
  unfold Output
  by_cases hr : receipts = s.outputs 1
  · by_cases ho : output = s.outputs 0
    · simp [hr, ho, Res.failure, Res.state]
    · simp [hr, ho, Res.failure, Res.state]
  · simp [hr, Res.failure, Res.state]

set_option maxRecDepth 1000000

/-! ### The uncles of a block -/

/-- The request of lines 222-224 for the number of uncles of a block. -/
def uncleCountRequest (blockHash : Hash) : jsonreq :=
  { Jsonrpc := "2.0", Method := "eth_getUncleCountByBlockHash",
    Params := [.str (hexEncode blockHash.bytes)], Id := 1 }

/-- The request of lines 233-236 for the uncle at index `u` of a block. -/
def uncleRequest (blockHash : Hash) (u : Nat) : jsonreq :=
  { Jsonrpc := "2.0", Method := "eth_getUncleByBlockHashAndIndex",
    Params := [.str (hexEncode blockHash.bytes), .str (sprintf0x (u : Nat))], Id := 1 }

/-- The fetch of one uncle, in the words of the spec: the uncle header at
index `u` is requested, decoded and rebuilt. -/
def fetchUncleAt (E : Env) (blockHash : Hash) (u : Nat) (s : OracleState) : Res Header :=
  match getAPI E (E.jsonMarshal (uncleRequest blockHash u)) s with
  | .fail f s1 => .fail f s1
  | .ok body s1 =>
    match E.decodeBlock body with
    | none => .fail .fatal s1
    | some result =>
      match result.ToHeader with
      | none => .fail .runtime s1
      | some uncleHeader => .ok uncleHeader s1

/-- The fetch of the uncles at the given indices, one after the other in the
order of the list; the result lists the headers in that order. -/
def fetchIndices (E : Env) (blockHash : Hash) : List Nat → OracleState → Res (List Header)
  | [], s => .ok [] s
  | u :: rest, s =>
    match fetchUncleAt E blockHash u s with
    | .fail f s1 => .fail f s1
    | .ok uncleHeader s1 =>
      match fetchIndices E blockHash rest s1 with
      | .fail f s2 => .fail f s2
      | .ok uncles s2 => .ok (uncleHeader :: uncles) s2

/-- A node like `Toy.env` that reports `2^63` uncles for every block. -/
def Toy.countNode : Env := { Toy.env with decodeCount := fun _ => some (2 ^ 63) }

/-- The loop of `prefetchUncles` fetches the indices `u`, `u + 1`, ...,
`u + n - 1` in that order. -/
theorem fetchUncles_eq_fetchIndices (E : Env) (blockHash : Hash) (n : Nat) :
    ∀ (u : Nat) (acc : List Header) (s : OracleState),
      fetchUncles E blockHash n u acc s =
        match fetchIndices E blockHash (List.range' u n) s with
        | .fail f s2 => .fail f s2
        | .ok uncles s2 => .ok (acc ++ uncles) s2 := by
  induction n with
  | zero => intro u acc s; simp [fetchUncles, fetchIndices]
  | succ n ih =>
    intro u acc s
    unfold fetchUncles
    simp only [List.range'_succ, fetchIndices, fetchUncleAt, uncleRequest]
    cases hg : getAPI E (E.jsonMarshal
        { Jsonrpc := "2.0", Method := "eth_getUncleByBlockHashAndIndex",
          Params := [.str (hexEncode blockHash.bytes), .str (sprintf0x (u : Nat))], Id := 1 }) s with
    | fail f s1 => rfl
    | ok body s1 =>
      simp only
      cases hd : E.decodeBlock body with
      | none => rfl
      | some result =>
        simp only
        cases ht : result.ToHeader with
        | none => rfl
        | some uncleHeader =>
          simp only
          rw [ih]
          cases fetchIndices E blockHash (List.range' (u + 1) n) s1 with
          | fail f s2 => rfl
          | ok uncles s2 => simp

theorem fetchIndices_length (E : Env) (blockHash : Hash) :
    ∀ (l : List Nat) (s s2 : OracleState) (uncles : List Header),
      fetchIndices E blockHash l s = .ok uncles s2 → uncles.length = l.length := by
  intro l
  induction l with
  | nil =>
    intro s s2 uncles h
    simp only [fetchIndices, Res.ok.injEq] at h
    rw [← h.1]
    rfl
  | cons u rest ih =>
    intro s s2 uncles h
    simp only [fetchIndices] at h
    cases hf : fetchUncleAt E blockHash u s with
    | fail f s1 => rw [hf] at h; simp at h
    | ok uncleHeader s1 =>
      rw [hf] at h
      simp only at h
      cases hr : fetchIndices E blockHash rest s1 with
      | fail f s3 => rw [hr] at h; simp at h
      | ok us s3 =>
        rw [hr] at h
        simp only [Res.ok.injEq] at h
        rw [← h.1, List.length_cons, ih _ _ _ hr]
        rfl

/-- A request body that holds the method and every text parameter. -/
def Toy.marshalAll (r : jsonreq) : Bytes :=
  Toy.ascii r.Method ++
    r.Params.flatMap (fun p =>
      match p with
      | .str t => Toy.ascii t
      | _ => [])

/-- A node whose block with hash `Toy.fill 6` has two uncles, `Toy.parent` at
index 0 and `Toy.child` at index 1. Its stand-in for Keccak-256 reads the last
31 bytes of the text, which tell the three requests apart. -/
def Toy.uncleNode : Env :=
  { Toy.env with
    keccak256 := fun b => BytesToHash (b.reverse.take 31)
    jsonMarshal := Toy.marshalAll
    decodeCount := fun _ => some 2
    decodeBlock := fun body =>
      if body = Toy.marshalAll (uncleRequest (Toy.fill 6) 0) then
        some (Toy.apiHeader Toy.parent [])
      else if body = Toy.marshalAll (uncleRequest (Toy.fill 6) 1) then
        some (Toy.apiHeader Toy.child [])
      else none }

/-- C22 (counterexample): a node reports `2^63` uncles, a count that
`hexutil.Uint64` decodes. As an `int` it is negative, the loop of line 230
does not run, and `prefetchUncles` returns after the one request for the
count: no uncle is fetched, at index 0 or any other. -/
theorem C22_counterexample :
    ((getAPI Toy.countNode (Toy.countNode.jsonMarshal (uncleCountRequest (Toy.fill 6)))
      (OracleState.fresh Toy.dir)).value.bind Toy.countNode.decodeCount) = some (2 ^ 63) ∧
    (fetchUncleList Toy.countNode (Toy.fill 6) (OracleState.fresh Toy.dir)).value = some [] ∧
    (prefetchUncles Toy.countNode (Toy.fill 6) Hash.zero (OracleState.fresh Toy.dir)).failure =
      none ∧
    (prefetchUncles Toy.countNode (Toy.fill 6) Hash.zero (OracleState.fresh Toy.dir)).state.posts =
      [Toy.countNode.jsonMarshal (uncleCountRequest (Toy.fill 6))] ∧
    (List.range' 0 (2 ^ 63)).length ≠ ([] : List Header).length := by
  refine ⟨by decide, by decide, by decide, by decide, ?_⟩
  rw [List.length_range']
  decide

/-- C22 (amended): for every block hash, declared uncle hash and reported
count `n` below `2^63`, `prefetchUncles` fetches the uncles at indices 0, 1,
..., `n - 1` in that order. When these fetches return the list `uncles`, it
has `n` headers; if `keccak256` of its RLP encoding is the declared uncle
hash, `prefetchUncles` returns and has stored the encoding in the preimage
store under the declared uncle hash, the rest of the store being unchanged; if
the hashes differ, it fails with `wrong uncle hash` and the preimage store is
as before the call. -/
theorem C22_uncles_in_order (E : Env) (blockHash uncleHash : Hash) (s s1 : OracleState)
    (body : Bytes) (count : Nat)
    (hcount : getAPI E (E.jsonMarshal (uncleCountRequest blockHash)) s = .ok body s1)
    (hdec : E.decodeCount body = some count) (hlt : count < 2 ^ 63) :
    fetchUncleList E blockHash s = fetchIndices E blockHash (List.range' 0 count) s1 ∧
    ∀ uncles s2, fetchIndices E blockHash (List.range' 0 count) s1 = .ok uncles s2 →
      uncles.length = count ∧ s2.preimages = s.preimages ∧
      (E.keccak256 (E.rlpHeaders uncles) = uncleHash →
        prefetchUncles E blockHash uncleHash s =
          .ok () { s2 with preimages := mapSet s.preimages uncleHash (E.rlpHeaders uncles) }) ∧
      (E.keccak256 (E.rlpHeaders uncles) ≠ uncleHash →
        prefetchUncles E blockHash uncleHash s = .fail (.panic "wrong uncle hash") s2 ∧
        (prefetchUncles E blockHash uncleHash s).state.preimages = s.preimages) := by
  have hrounds : uncleRounds count = count := by
    unfold uncleRounds
    have h1 : count % 2 ^ 64 = count := Nat.mod_eq_of_lt (by omega)
    rw [h1, if_pos hlt]
  have hlist : fetchUncleList E blockHash s =
      fetchIndices E blockHash (List.range' 0 count) s1 := by
    have hc : fetchUncleList E blockHash s =
        fetchUncles E blockHash (uncleRounds count) 0 [] s1 := by
      unfold fetchUncleList
      simp only
      have hcount2 := hcount
      unfold uncleCountRequest at hcount2
      rw [hcount2]
      simp only [hdec]
    rw [hc, hrounds, fetchUncles_eq_fetchIndices]
    cases fetchIndices E blockHash (List.range' 0 count) s1 with
    | fail f s2 => rfl
    | ok uncles s2 => simp
  refine ⟨hlist, ?_⟩
  intro uncles s2 hfetch
  have hpre : s2.preimages = s.preimages := by
    have h := (fetchUncleList_cacheOnly E blockHash s).preimages
    rw [hlist, hfetch] at h
    exact h
  have hlen := fetchIndices_length E blockHash _ _ _ _ hfetch
  rw [List.length_range'] at hlen
  refine ⟨hlen, hpre, ?_, ?_⟩
  · intro heq
    unfold prefetchUncles
    rw [hlist, hfetch]
    simp only [heq, ne_eq, not_true_eq_false, if_false, hpre]
  · intro hne
    have h : prefetchUncles E blockHash uncleHash s = .fail (.panic "wrong uncle hash") s2 := by
      unfold prefetchUncles
      rw [hlist, hfetch]
      simp only [ne_eq, hne, not_false_eq_true, if_true]
    exact ⟨h, by rw [h]; exact hpre⟩

/-- C22 (amended) on the node with two uncles: the uncles at index 0 and at
index 1 are fetched, in that order, by three requests in all, and with the
hash of their encoding declared the encoding is stored under it. -/
theorem C22_uncles_in_order_witness :
    (fetchUncleList Toy.uncleNode (Toy.fill 6) (OracleState.fresh Toy.dir)).value =
      some [Toy.parent, Toy.child] ∧
    (fetchUncleList Toy.uncleNode (Toy.fill 6) (OracleState.fresh Toy.dir)).state.posts =
      [Toy.marshalAll (uncleCountRequest (Toy.fill 6)),
        Toy.marshalAll (uncleRequest (Toy.fill 6) 0),
        Toy.marshalAll (uncleRequest (Toy.fill 6) 1)] ∧
    (prefetchUncles Toy.uncleNode (Toy.fill 6)
      (Toy.uncleNode.keccak256 (Toy.uncleNode.rlpHeaders [Toy.parent, Toy.child]))
      (OracleState.fresh Toy.dir)).state.preimages
        (Toy.uncleNode.keccak256 (Toy.uncleNode.rlpHeaders [Toy.parent, Toy.child])) =
      some (Toy.uncleNode.rlpHeaders [Toy.parent, Toy.child]) :=
  have h := C22_uncles_in_order Toy.uncleNode (Toy.fill 6)
    (Toy.uncleNode.keccak256 (Toy.uncleNode.rlpHeaders [Toy.parent, Toy.child]))
    (OracleState.fresh Toy.dir) _ (Toy.marshalAll (uncleCountRequest (Toy.fill 6))) 2
    rfl rfl (by decide)
  ⟨by rw [h.1]; decide, by rw [h.1]; decide, by
    have h2 := (h.2 [Toy.parent, Toy.child] _ rfl).2.2.1 rfl
    rw [h2]
    simp [Res.state, mapSet]⟩

/-! ### The requests -/

/-- The request of lines 261-264, built by `PrefetchBlock`. -/
def blockRequest (blockNumber : Int) : jsonreq :=
  { Jsonrpc := "2.0", Method := "eth_getBlockByNumber",
    Params := [.str (sprintf0x (bigInt64 blockNumber)), .bool true], Id := 1 }

/-- The request of lines 340-344, built by `getProofAccount`. -/
def proofRequest (blockNumber : Int) (addr : Address) (skey : Hash) : jsonreq :=
  { Jsonrpc := "2.0", Method := "eth_getProof",
    Params := [.addr addr, .hashes [skey], .str (sprintf0x (bigInt64 blockNumber))], Id := 1 }

/-- The request of lines 359-362, built by `getProvedCodeBytes`. -/
def codeRequest (blockNumber : Int) (addr : Address) : jsonreq :=
  { Jsonrpc := "2.0", Method := "eth_getCode",
    Params := [.addr addr, .str (sprintf0x (bigInt64 blockNumber))], Id := 1 }

/-- The text `0x` followed by the digits of `n` in base 16, lower case, as
the spec writes a block number or an index. -/
def hex0x (n : Nat) : String := "0x" ++ String.mk (Nat.toDigits 16 n)

/-- The requests the spec lists, with the envelope it gives. -/
inductive SpecRequest : jsonreq → Prop where
  | getBlockByNumber (n : Nat) :
    SpecRequest ⟨"2.0", "eth_getBlockByNumber", [.str (hex0x n), .bool true], 1⟩
  | getProof (addr : Address) (skey : Hash) (n : Nat) :
    SpecRequest ⟨"2.0", "eth_getProof", [.addr addr, .hashes [skey], .str (hex0x n)], 1⟩
  | getCode (addr : Address) (n : Nat) :
    SpecRequest ⟨"2.0", "eth_getCode", [.addr addr, .str (hex0x n)], 1⟩
  | getUncleCountByBlockHash (blockHash : Hash) :
    SpecRequest ⟨"2.0", "eth_getUncleCountByBlockHash", [.str (hexEncode blockHash.bytes)], 1⟩
  | getUncleByBlockHashAndIndex (blockHash : Hash) (u : Nat) :
    SpecRequest ⟨"2.0", "eth_getUncleByBlockHashAndIndex",
      [.str (hexEncode blockHash.bytes), .str (hex0x u)], 1⟩

/-- Between `s` and `t` the bodies posted to the node are marshalled
requests that satisfy `R`. -/
def Sends (E : Env) (R : jsonreq → Prop) (s t : OracleState) : Prop :=
  ∃ l, t.posts = s.posts ++ l ∧ ∀ b ∈ l, ∃ r, R r ∧ b = E.jsonMarshal r

theorem hexDigit_eq_digitChar (n : Nat) (h : n < 16) : hexDigit n = Nat.digitChar n := by
  interval_cases n <;> rfl

theorem hexOfNatAux_eq_toDigitsCore (fuel : Nat) :
    ∀ (n : Nat) (acc : List Char),
      hexOfNatAux fuel n acc = Nat.toDigitsCore 16 fuel n acc := by
  induction fuel with
  | zero => intro n acc; rfl
  | succ fuel ih =>
    intro n acc
    unfold hexOfNatAux Nat.toDigitsCore
    by_cases h : n < 16
    · have h1 : n / 16 = 0 := Nat.div_eq_of_lt h
      have h2 : n % 16 = n := Nat.mod_eq_of_lt h
      simp only [h, if_true, h1, h2, hexDigit_eq_digitChar n h]
    · have h1 : n / 16 ≠ 0 := by omega
      simp only [h, if_false, h1]
      rw [ih, hexDigit_eq_digitChar _ (Nat.mod_lt _ (by decide))]

/-- The text `fmt.Sprintf("0x%x", v)` of a number that is not negative. -/
theorem sprintf0x_natCast (n : Nat) : sprintf0x (n : Int) = hex0x n := by
  unfold sprintf0x hex0x Nat.toDigits
  have h : ¬ ((n : Int) < 0) := by omega
  rw [if_neg h, Int.natAbs_ofNat, hexOfNatAux_eq_toDigitsCore]
  simp

/-- The value `blockNumber.Int64()` of a block number below `2^63`. -/
theorem bigInt64_of_lt (n : Nat) (h : n < 2 ^ 63) : bigInt64 (n : Int) = (n : Int) := by
  unfold bigInt64 toInt64
  have h1 : n % 2 ^ 64 = n := Nat.mod_eq_of_lt (by omega)
  have h2 : ¬ ((n : Int) < 0) := by omega
  simp only [Int.natAbs_ofNat, h1, Nat.mod_mod, h, if_true, h2, if_false]

theorem sends_refl (E : Env) (R : jsonreq → Prop) (s : OracleState) : Sends E R s s :=
  ⟨[], by simp, by simp⟩

theorem sends_trans {E : Env} {R : jsonreq → Prop} {s t u : OracleState}
    (h1 : Sends E R s t) (h2 : Sends E R t u) : Sends E R s u := by
  obtain ⟨l1, hl1, hr1⟩ := h1
  obtain ⟨l2, hl2, hr2⟩ := h2
  refine ⟨l1 ++ l2, by rw [hl2, hl1, List.append_assoc], ?_⟩
  intro b hb
  rcases List.mem_append.mp hb with h | h
  · exact hr1 b h
  · exact hr2 b h

theorem sends_mono {E : Env} {R Q : jsonreq → Prop} {s t : OracleState}
    (h : Sends E R s t) (hRQ : ∀ r, R r → Q r) : Sends E Q s t := by
  obtain ⟨l, hl, hr⟩ := h
  refine ⟨l, hl, ?_⟩
  intro b hb
  obtain ⟨r, h1, h2⟩ := hr b hb
  exact ⟨r, hRQ r h1, h2⟩

theorem sends_of_posts_eq {E : Env} {R : jsonreq → Prop} {s t : OracleState}
    (h : t.posts = s.posts) : Sends E R s t :=
  ⟨[], by simp [h], by simp⟩

/-- The one request `getAPI` may post is the body it is given. -/
theorem getAPI_sends (E : Env) (r : jsonreq) (s : OracleState) :
    Sends E (fun q => q = r) s (getAPI E (E.jsonMarshal r) s).state := by
  rcases (getAPI_posts E (E.jsonMarshal r) s).1 with h | h
  · exact sends_of_posts_eq h
  · refine ⟨[E.jsonMarshal r], h, ?_⟩
    intro b hb
    simp only [List.mem_singleton] at hb
    exact ⟨r, rfl, hb⟩

/-- On a cache miss `getAPI` posts the body it is given. -/
theorem getAPI_miss {E : Env} {b : Bytes} {s : OracleState}
    (h : cacheExists s (hexEncode (E.keccak256 b).bytes) = false) :
    (getAPI E b s).state.posts = s.posts ++ [b] := by
  unfold getAPI
  simp only [h, Bool.false_eq_true, if_false]
  cases E.httpPost s.posts.length b with
  | none => rfl
  | some ret => rfl

theorem fetchBlock_sends (E : Env) (blockNumber : Int) (s : OracleState) :
    Sends E (fun q => q = blockRequest blockNumber) s (fetchBlock E blockNumber s).state := by
  have h := getAPI_sends E (blockRequest blockNumber) s
  unfold fetchBlock
  unfold blockRequest at h
  simp only
  cases hg : getAPI E (E.jsonMarshal
      { Jsonrpc := "2.0", Method := "eth_getBlockByNumber",
        Params := [.str (sprintf0x (bigInt64 blockNumber)), .bool true], Id := 1 }) s with
  | fail f s1 => rw [hg] at h; exact h
  | ok body s1 =>
    rw [hg] at h
    simp only
    cases E.decodeBlock body with
    | none => exact h
    | some result =>
      simp only
      cases result.ToHeader with
      | none => exact h
      | some blockHeader => exact h

theorem fetchUncleAt_sends (E : Env) (blockHash : Hash) (u : Nat) (s : OracleState) :
    Sends E (fun q => q = uncleRequest blockHash u) s (fetchUncleAt E blockHash u s).state := by
  have h := getAPI_sends E (uncleRequest blockHash u) s
  unfold fetchUncleAt
  cases hg : getAPI E (E.jsonMarshal (uncleRequest blockHash u)) s with
  | fail f s1 => rw [hg] at h; exact h
  | ok body s1 =>
    rw [hg] at h
    simp only
    cases E.decodeBlock body with
    | none => exact h
    | some result =>
      simp only
      cases result.ToHeader with
      | none => exact h
      | some blockHeader => exact h

theorem fetchIndices_sends (E : Env) (blockHash : Hash) :
    ∀ (l : List Nat) (s : OracleState),
      Sends E (fun q => ∃ u, u ∈ l ∧ q = uncleRequest blockHash u) s
        (fetchIndices E blockHash l s).state := by
  intro l
  induction l with
  | nil => intro s; exact sends_refl E _ s
  | cons u rest ih =>
    intro s
    have h1 : Sends E (fun q => ∃ v, v ∈ u :: rest ∧ q = uncleRequest blockHash v) s
        (fetchUncleAt E blockHash u s).state :=
      sends_mono (fetchUncleAt_sends E blockHash u s)
        (fun r hr => ⟨u, List.mem_cons_self _ _, hr⟩)
    simp only [fetchIndices]
    cases hf : fetchUncleAt E blockHash u s with
    | fail f s1 => rw [hf] at h1; exact h1
    | ok uncleHeader s1 =>
      rw [hf] at h1
      have h2 : Sends E (fun q => ∃ v, v ∈ u :: rest ∧ q = uncleRequest blockHash v) s1
          (fetchIndices E blockHash rest s1).state :=
        sends_mono (ih s1) (fun r hr => by
          obtain ⟨v, hv, hq⟩ := hr
          exact ⟨v, List.mem_cons_of_mem _ hv, hq⟩)
      simp only
      cases hr : fetchIndices E blockHash rest s1 with
      | fail f s2 => rw [hr] at h2; exact sends_trans h1 h2
      | ok uncles s2 => rw [hr] at h2; exact sends_trans h1 h2

/-- The requests of `prefetchUncles` for the block `blockHash`. -/
def UncleRequests (blockHash : Hash) (q : jsonreq) : Prop :=
  q = uncleCountRequest blockHash ∨ ∃ u, q = uncleRequest blockHash u

theorem fetchUncleList_sends (E : Env) (blockHash : Hash) (s : OracleState) :
    Sends E (UncleRequests blockHash) s (fetchUncleList E blockHash s).state := by
  have h : Sends E (UncleRequests blockHash) s
      (getAPI E (E.jsonMarshal (uncleCountRequest blockHash)) s).state :=
    sends_mono (getAPI_sends E (uncleCountRequest blockHash) s) (fun r hr => Or.inl hr)
  unfold fetchUncleList
  unfold uncleCountRequest at h
  simp only
  cases hg : getAPI E (E.jsonMarshal
      { Jsonrpc := "2.0", Method := "eth_getUncleCountByBlockHash",
        Params := [.str (hexEncode blockHash.bytes)], Id := 1 }) s with
  | fail f s1 => rw [hg] at h; exact h
  | ok body s1 =>
    rw [hg] at h
    simp only
    cases E.decodeCount body with
    | none => exact h
    | some count =>
      simp only
      have h2 : Sends E (UncleRequests blockHash) s1
          (fetchUncles E blockHash (uncleRounds count) 0 [] s1).state := by
        have h3 : Sends E (UncleRequests blockHash) s1
            (fetchIndices E blockHash (List.range' 0 (uncleRounds count)) s1).state :=
          sends_mono (fetchIndices_sends E blockHash _ s1) (fun r hr => by
            obtain ⟨u, _, hq⟩ := hr
            exact Or.inr ⟨u, hq⟩)
        rw [fetchUncles_eq_fetchIndices]
        cases hfi : fetchIndices E blockHash (List.range' 0 (uncleRounds count)) s1 with
        | fail f s2 => rw [hfi] at h3; exact h3
        | ok uncles s2 => rw [hfi] at h3; exact h3
      exact sends_trans h h2

theorem prefetchUncles_sends (E : Env) (blockHash uncleHash : Hash) (s : OracleState) :
    Sends E (UncleRequests blockHash) s (prefetchUncles E blockHash uncleHash s).state := by
  have h := fetchUncleList_sends E blockHash s
  unfold prefetchUncles
  cases hf : fetchUncleList E blockHash s with
  | fail f s2 => rw [hf] at h; exact h
  | ok uncles s2 =>
    rw [hf] at h
    simp only
    split
    · exact h
    · exact h

/-- The requests of `PrefetchBlock` for the block number `blockNumber`. -/
def BlockRequests (blockNumber : Int) (q : jsonreq) : Prop :=
  q = blockRequest blockNumber ∨ ∃ blockHash, UncleRequests blockHash q

theorem PrefetchBlock_sends (E : Env) (blockNumber : Int) (startBlock : Bool)
    (s : OracleState) :
    Sends E (BlockRequests blockNumber) s (PrefetchBlock E blockNumber startBlock s).state := by
  have h : Sends E (BlockRequests blockNumber) s (fetchBlock E blockNumber s).state :=
    sends_mono (fetchBlock_sends E blockNumber s) (fun r hr => Or.inl hr)
  unfold PrefetchBlock
  cases hf : fetchBlock E blockNumber s with
  | fail f s1 => rw [hf] at h; exact h
  | ok a s1 =>
    obtain ⟨jr, blockHeader⟩ := a
    rw [hf] at h
    simp only
    by_cases hstart : startBlock = true
    · rw [if_pos hstart]
      unfold startBlockStep
      cases E.rlpHeader blockHeader with
      | none => exact h
      | some enc =>
        simp only
        split <;> exact h
    · rw [if_neg hstart]
      split
      · exact h
      · refine sends_trans h ?_
        have hcommit : (commitBlock E blockHeader s1).posts = s1.posts := by
          simp [commitBlock, writeFile]
        unfold checkBlock
        cases convertTxs jr.Transactions with
        | none => exact sends_of_posts_eq hcommit
        | some txs =>
          simp only
          split
          · exact sends_of_posts_eq hcommit
          · have h2 : Sends E (BlockRequests blockNumber) (commitBlock E blockHeader s1)
                (prefetchUncles E (E.headerHash blockHeader) blockHeader.UncleHash
                  (commitBlock E blockHeader s1)).state :=
              sends_mono (prefetchUncles_sends E _ _ _) (fun r hr => Or.inr ⟨_, hr⟩)
            exact sends_trans (sends_of_posts_eq hcommit) h2

theorem storeProof_posts (E : Env) (ap : List Bytes)
    (postProcess : Option ((Hash → Option Bytes) → (Hash → Option Bytes))) (s : OracleState) :
    (storeProof E ap postProcess s).state.posts = s.posts := by
  unfold storeProof
  cases collectPreimages E ap (fun _ => none) with
  | none => rfl
  | some m => rfl

theorem getProofAccount_sends (E : Env) (blockNumber : Int) (addr : Address) (skey : Hash)
    (storage : Bool) (s : OracleState) :
    Sends E (fun q => q = proofRequest blockNumber addr skey) s
      (getProofAccount E blockNumber addr skey storage s).state := by
  have h := getAPI_sends E (proofRequest blockNumber addr skey)
    { s with unhashMap := mapSet s.unhashMap (E.keccak256 addr.bytes) addr }
  unfold getProofAccount
  unfold proofRequest at h
  simp only
  cases hg : getAPI E (E.jsonMarshal
      { Jsonrpc := "2.0", Method := "eth_getProof",
        Params := [.addr addr, .hashes [skey], .str (sprintf0x (bigInt64 blockNumber))],
        Id := 1 })
      { s with unhashMap := mapSet s.unhashMap (E.keccak256 addr.bytes) addr } with
  | fail f s2 => rw [hg] at h; exact h
  | ok body s2 =>
    rw [hg] at h
    simp only
    split
    · split <;> exact h
    · exact h

theorem PrefetchStorage_sends (E : Env) (blockNumber : Int) (addr : Address) (skey : Hash)
    (postProcess : Option ((Hash → Option Bytes) → (Hash → Option Bytes))) (s : OracleState) :
    Sends E (fun q => q = proofRequest blockNumber addr skey) s
      (PrefetchStorage E blockNumber addr skey postProcess s).state := by
  unfold PrefetchStorage
  simp only
  split
  · exact sends_refl E _ s
  · have h := getProofAccount_sends E blockNumber addr skey true
      (markFetched s (storageKey E blockNumber addr skey))
    cases hg : getProofAccount E blockNumber addr skey true
        (markFetched s (storageKey E blockNumber addr skey)) with
    | fail f s2 => rw [hg] at h; exact h
    | ok ap s2 =>
      rw [hg] at h
      exact sends_trans h (sends_of_posts_eq (storeProof_posts E ap postProcess s2))

theorem PrefetchAccount_sends (E : Env) (blockNumber : Int) (addr : Address)
    (postProcess : Option ((Hash → Option Bytes) → (Hash → Option Bytes))) (s : OracleState) :
    Sends E (fun q => q = proofRequest blockNumber addr Hash.zero) s
      (PrefetchAccount E blockNumber addr postProcess s).state := by
  unfold PrefetchAccount
  simp only
  split
  · exact sends_refl E _ s
  · have h := getProofAccount_sends E blockNumber addr Hash.zero false
      (markFetched s (accountKey E blockNumber addr))
    cases hg : getProofAccount E blockNumber addr Hash.zero false
        (markFetched s (accountKey E blockNumber addr)) with
    | fail f s2 => rw [hg] at h; exact h
    | ok ap s2 =>
      rw [hg] at h
      exact sends_trans h (sends_of_posts_eq (storeProof_posts E ap postProcess s2))

theorem getProvedCodeBytes_sends (E : Env) (blockNumber : Int) (addrHash : Hash)
    (s : OracleState) :
    Sends E (fun q => q = codeRequest blockNumber (unhash s addrHash)) s
      (getProvedCodeBytes E blockNumber addrHash s).state := by
  have h := getAPI_sends E (codeRequest blockNumber (unhash s addrHash)) s
  unfold getProvedCodeBytes
  unfold codeRequest at h
  simp only
  cases hg : getAPI E (E.jsonMarshal
      { Jsonrpc := "2.0", Method := "eth_getCode",
        Params := [.addr (unhash s addrHash), .str (sprintf0x (bigInt64 blockNumber))],
        Id := 1 }) s with
  | fail f s2 => rw [hg] at h; exact h
  | ok body s2 =>
    rw [hg] at h
    simp only
    split <;> exact h

theorem PrefetchCode_sends (E : Env) (blockNumber : Int) (addrHash : Hash) (s : OracleState) :
    Sends E (fun q => q = codeRequest blockNumber (unhash s addrHash)) s
      (PrefetchCode E blockNumber addrHash s).state := by
  unfold PrefetchCode
  simp only
  split
  · exact sends_refl E _ s
  · have h := getProvedCodeBytes_sends E blockNumber addrHash
      (markFetched s (codeKey blockNumber addrHash))
    cases hg : getProvedCodeBytes E blockNumber addrHash
        (markFetched s (codeKey blockNumber addrHash)) with
    | fail f s2 => rw [hg] at h; exact h
    | ok ret s2 => rw [hg] at h; exact h

theorem blockRequest_spec (n : Nat) (hlt : n < 2 ^ 63) :
    blockRequest (n : Int) = ⟨"2.0", "eth_getBlockByNumber", [.str (hex0x n), .bool true], 1⟩ := by
  unfold blockRequest
  rw [bigInt64_of_lt n hlt, sprintf0x_natCast]

theorem proofRequest_spec (n : Nat) (hlt : n < 2 ^ 63) (addr : Address) (skey : Hash) :
    proofRequest (n : Int) addr skey =
      ⟨"2.0", "eth_getProof", [.addr addr, .hashes [skey], .str (hex0x n)], 1⟩ := by
  unfold proofRequest
  rw [bigInt64_of_lt n hlt, sprintf0x_natCast]

theorem codeRequest_spec (n : Nat) (hlt : n < 2 ^ 63) (addr : Address) :
    codeRequest (n : Int) addr = ⟨"2.0", "eth_getCode", [.addr addr, .str (hex0x n)], 1⟩ := by
  unfold codeRequest
  rw [bigInt64_of_lt n hlt, sprintf0x_natCast]

theorem uncleRequest_spec (blockHash : Hash) (u : Nat) :
    uncleRequest blockHash u =
      ⟨"2.0", "eth_getUncleByBlockHashAndIndex",
        [.str (hexEncode blockHash.bytes), .str (hex0x u)], 1⟩ := by
  unfold uncleRequest
  rw [sprintf0x_natCast]

theorem uncleRequests_spec {blockHash : Hash} {q : jsonreq} (h : UncleRequests blockHash q) :
    SpecRequest q := by
  rcases h with h | ⟨u, h⟩
  · rw [h]
    exact SpecRequest.getUncleCountByBlockHash blockHash
  · rw [h, uncleRequest_spec]
    exact SpecRequest.getUncleByBlockHashAndIndex blockHash u

/-- C23 (counterexample): for the block number `2^63`, which is not negative,
`blockNumber.Int64()` is `-2^63` and the first parameter of the request that
`PrefetchBlock` builds and posts is the text `0x-8000000000000000`, not `0x`
followed by the hexadecimal digits of the block number. -/
theorem C23_counterexample :
    (0 : Int) ≤ 2 ^ 63 ∧
    blockRequest (2 ^ 63) =
      ⟨"2.0", "eth_getBlockByNumber", [.str "0x-8000000000000000", .bool true], 1⟩ ∧
    hex0x (2 ^ 63) = "0x8000000000000000" ∧
    (PrefetchBlock Toy.env (2 ^ 63) true (OracleState.fresh Toy.dir)).state.posts =
      [Toy.ascii "eth_getBlockByNumber0x-8000000000000000"] := by
  refine ⟨by decide, by decide, by decide, by decide⟩

/-- C23 (amended): every JSON-RPC request built by the oracle has jsonrpc
`2.0` and id 1, and the method and parameter order listed in the spec, for
every block number `n` with `0 ≤ n < 2^63` and every index:
`eth_getBlockByNumber` with `["0x" + lower-case hex of n, true]`;
`eth_getProof` with `[address, [key], "0x" + hex of n]`, the list holding the
storage key, or the zero hash for an account-only proof; `eth_getCode` with
`[address, "0x" + hex of n]`; `eth_getUncleCountByBlockHash` with
`[blockHash]`; `eth_getUncleByBlockHashAndIndex` with
`[blockHash, "0x" + hex of the index]`. And every body that `PrefetchBlock`,
`PrefetchAccount`, `PrefetchStorage` and `PrefetchCode` post to the node is
the marshalling of such a request: the block request or uncle requests, the
proof request of the address (and key), the code request of the address that
`unhash` gives. -/
theorem C23_requests (E : Env) (n : Nat) (hlt : n < 2 ^ 63) (startBlock : Bool)
    (addr : Address) (skey addrHash blockHash : Hash) (u : Nat)
    (postProcess : Option ((Hash → Option Bytes) → (Hash → Option Bytes)))
    (s : OracleState) :
    blockRequest (n : Int) =
      ⟨"2.0", "eth_getBlockByNumber", [.str (hex0x n), .bool true], 1⟩ ∧
    proofRequest (n : Int) addr skey =
      ⟨"2.0", "eth_getProof", [.addr addr, .hashes [skey], .str (hex0x n)], 1⟩ ∧
    codeRequest (n : Int) addr = ⟨"2.0", "eth_getCode", [.addr addr, .str (hex0x n)], 1⟩ ∧
    uncleCountRequest blockHash =
      ⟨"2.0", "eth_getUncleCountByBlockHash", [.str (hexEncode blockHash.bytes)], 1⟩ ∧
    uncleRequest blockHash u =
      ⟨"2.0", "eth_getUncleByBlockHashAndIndex",
        [.str (hexEncode blockHash.bytes), .str (hex0x u)], 1⟩ ∧
    Sends E (fun q => SpecRequest q ∧ BlockRequests (n : Int) q) s
      (PrefetchBlock E (n : Int) startBlock s).state ∧
    Sends E (fun q => SpecRequest q ∧ q = proofRequest (n : Int) addr Hash.zero) s
      (PrefetchAccount E (n : Int) addr postProcess s).state ∧
    Sends E (fun q => SpecRequest q ∧ q = proofRequest (n : Int) addr skey) s
      (PrefetchStorage E (n : Int) addr skey postProcess s).state ∧
    Sends E (fun q => SpecRequest q ∧ q = codeRequest (n : Int) (unhash s addrHash)) s
      (PrefetchCode E (n : Int) addrHash s).state := by
  refine ⟨blockRequest_spec n hlt, proofRequest_spec n hlt addr skey,
    codeRequest_spec n hlt addr, rfl, uncleRequest_spec blockHash u, ?_, ?_, ?_, ?_⟩
  · refine sends_mono (PrefetchBlock_sends E n startBlock s) ?_
    intro q hq
    refine ⟨?_, hq⟩
    rcases hq with hq | ⟨bh, hq⟩
    · rw [hq, blockRequest_spec n hlt]
      exact SpecRequest.getBlockByNumber n
    · exact uncleRequests_spec hq
  · refine sends_mono (PrefetchAccount_sends E n addr postProcess s) ?_
    intro q hq
    refine ⟨?_, hq⟩
    rw [hq, proofRequest_spec n hlt]
    exact SpecRequest.getProof addr Hash.zero n
  · refine sends_mono (PrefetchStorage_sends E n addr skey postProcess s) ?_
    intro q hq
    refine ⟨?_, hq⟩
    rw [hq, proofRequest_spec n hlt]
    exact SpecRequest.getProof addr skey n
  · refine sends_mono (PrefetchCode_sends E n addrHash s) ?_
    intro q hq
    refine ⟨?_, hq⟩
    rw [hq, codeRequest_spec n hlt]
    exact SpecRequest.getCode _ n

/-- C23 (amended) in the small environment, for block 6 and index 1: the
texts of the block number and of the index are `0x6` and `0x1`, the request
for an account-only proof holds the list with the zero hash, and the
second-block call for block 6 posts the block request and the request for the
uncle count of the block. -/
theorem C23_requests_witness :
    (6 : Nat) < 2 ^ 63 ∧
    blockRequest 6 = ⟨"2.0", "eth_getBlockByNumber", [.str "0x6", .bool true], 1⟩ ∧
    proofRequest 6 Address.zero Hash.zero =
      ⟨"2.0", "eth_getProof", [.addr Address.zero, .hashes [Hash.zero], .str "0x6"], 1⟩ ∧
    uncleRequest (Toy.fill 6) 1 =
      ⟨"2.0", "eth_getUncleByBlockHashAndIndex",
        [.str (hexEncode (Toy.fill 6).bytes), .str "0x1"], 1⟩ ∧
    (PrefetchBlock Toy.env 6 false Toy.started).state.posts =
      Toy.started.posts ++
        [Toy.env.jsonMarshal (blockRequest 6),
          Toy.env.jsonMarshal (uncleCountRequest (Toy.env.headerHash Toy.child))] ∧
    Sends Toy.env (fun q => SpecRequest q ∧ BlockRequests 6 q) Toy.started
      (PrefetchBlock Toy.env 6 false Toy.started).state :=
  have h := C23_requests Toy.env 6 (by decide) false Address.zero Hash.zero Hash.zero
    (Toy.fill 6) 1 none Toy.started
  ⟨by decide, h.1.trans (by decide), h.2.1.trans (by decide), h.2.2.2.2.1.trans (by decide),
    by decide, h.2.2.2.2.2.1⟩


/-! ### The map from address hashes to addresses -/

/-- Every entry `(h, a)` of the map satisfies `h = keccak256(a)`. -/
def UnhashOk (E : Env) (m : Hash → Option Address) : Prop :=
  ∀ h a, m h = some a → h = E.keccak256 a.bytes

/-- One call of `PrefetchAccount`, `PrefetchStorage` or `PrefetchCode`, with
its arguments. -/
inductive FetchCall where
  | account (blockNumber : Int) (addr : Address)
    (postProcess : Option ((Hash → Option Bytes) → (Hash → Option Bytes)))
  | storage (blockNumber : Int) (addr : Address) (skey : Hash)
    (postProcess : Option ((Hash → Option Bytes) → (Hash → Option Bytes)))
  | code (blockNumber : Int) (addrHash : Hash)

/-- The call made. -/
def FetchCall.run (E : Env) : FetchCall → OracleState → Res Unit
  | .account blockNumber addr postProcess => PrefetchAccount E blockNumber addr postProcess
  | .storage blockNumber addr skey postProcess =>
    PrefetchStorage E blockNumber addr skey postProcess
  | .code blockNumber addrHash => PrefetchCode E blockNumber addrHash

/-- The state after a sequence of calls, each made in the state the one
before ended in, however it ended. -/
def runFetches (E : Env) : List FetchCall → OracleState → OracleState
  | [], s => s
  | c :: rest, s => runFetches E rest (c.run E s).state

theorem unhashOk_mapSet {E : Env} {m : Hash → Option Address} (h : UnhashOk E m)
    (addr : Address) : UnhashOk E (Oracle.mapSet m (E.keccak256 addr.bytes) addr) := by
  intro k a hk
  unfold Oracle.mapSet at hk
  split at hk
  · rename_i heq
    simp only [Option.some.injEq] at hk
    rw [heq, hk]
  · exact h k a hk

theorem storeProof_unhashMap (E : Env) (ap : List Bytes)
    (postProcess : Option ((Hash → Option Bytes) → (Hash → Option Bytes))) (s : OracleState) :
    (storeProof E ap postProcess s).state.unhashMap = s.unhashMap := by
  unfold storeProof
  cases collectPreimages E ap (fun _ => none) with
  | none => rfl
  | some m => rfl

/-- `getProofAccount` records the address under its hash and leaves the other
entries of `unhashMap`. -/
theorem getProofAccount_unhashMap (E : Env) (blockNumber : Int) (addr : Address) (skey : Hash)
    (storage : Bool) (s : OracleState) :
    (getProofAccount E blockNumber addr skey storage s).state.unhashMap =
      mapSet s.unhashMap (E.keccak256 addr.bytes) addr := by
  unfold getProofAccount
  simp only
  generalize hreq : E.jsonMarshal _ = req
  have h := (getAPI_cacheOnly E req
    { s with unhashMap := mapSet s.unhashMap (E.keccak256 addr.bytes) addr }).unhashMap
  cases hg : getAPI E req
      { s with unhashMap := mapSet s.unhashMap (E.keccak256 addr.bytes) addr } with
  | fail f s2 => rw [hg] at h; exact h
  | ok body s2 =>
    rw [hg] at h
    simp only
    split
    · split <;> exact h
    · exact h

theorem getProvedCodeBytes_unhashMap (E : Env) (blockNumber : Int) (addrHash : Hash)
    (s : OracleState) :
    (getProvedCodeBytes E blockNumber addrHash s).state.unhashMap = s.unhashMap := by
  unfold getProvedCodeBytes
  simp only
  generalize hreq : E.jsonMarshal _ = req
  have h := (getAPI_cacheOnly E req s).unhashMap
  cases hg : getAPI E req s with
  | fail f s2 => rw [hg] at h; exact h
  | ok body s2 =>
    rw [hg] at h
    simp only
    split <;> exact h

/-- What a call of `PrefetchAccount` does to `unhashMap`: nothing when the
key was fetched before, and else the address is recorded under its hash. -/
theorem PrefetchAccount_unhashMap (E : Env) (blockNumber : Int) (addr : Address)
    (postProcess : Option ((Hash → Option Bytes) → (Hash → Option Bytes))) (s : OracleState) :
    (PrefetchAccount E blockNumber addr postProcess s).state.unhashMap =
      if s.cached (accountKey E blockNumber addr) = true then s.unhashMap
      else mapSet s.unhashMap (E.keccak256 addr.bytes) addr := by
  unfold PrefetchAccount
  simp only
  split
  · rfl
  · have h := getProofAccount_unhashMap E blockNumber addr Hash.zero false
      (markFetched s (accountKey E blockNumber addr))
    cases hg : getProofAccount E blockNumber addr Hash.zero false
        (markFetched s (accountKey E blockNumber addr)) with
    | fail f s2 => rw [hg] at h; exact h
    | ok ap s2 =>
      rw [hg] at h
      simp only
      rw [storeProof_unhashMap]
      exact h

theorem PrefetchStorage_unhashMap (E : Env) (blockNumber : Int) (addr : Address) (skey : Hash)
    (postProcess : Option ((Hash → Option Bytes) → (Hash → Option Bytes))) (s : OracleState) :
    (PrefetchStorage E blockNumber addr skey postProcess s).state.unhashMap =
      if s.cached (storageKey E blockNumber addr skey) = true then s.unhashMap
      else mapSet s.unhashMap (E.keccak256 addr.bytes) addr := by
  unfold PrefetchStorage
  simp only
  split
  · rfl
  · have h := getProofAccount_unhashMap E blockNumber addr skey true
      (markFetched s (storageKey E blockNumber addr skey))
    cases hg : getProofAccount E blockNumber addr skey true
        (markFetched s (storageKey E blockNumber addr skey)) with
    | fail f s2 => rw [hg] at h; exact h
    | ok ap s2 =>
      rw [hg] at h
      simp only
      rw [storeProof_unhashMap]
      exact h

theorem PrefetchCode_unhashMap (E : Env) (blockNumber : Int) (addrHash : Hash)
    (s : OracleState) :
    (PrefetchCode E blockNumber addrHash s).state.unhashMap = s.unhashMap := by
  unfold PrefetchCode
  simp only
  split
  · rfl
  · have h := getProvedCodeBytes_unhashMap E blockNumber addrHash
      (markFetched s (codeKey blockNumber addrHash))
    cases hg : getProvedCodeBytes E blockNumber addrHash
        (markFetched s (codeKey blockNumber addrHash)) with
    | fail f s2 => rw [hg] at h; exact h
    | ok ret s2 => rw [hg] at h; exact h

theorem FetchCall.run_unhashOk {E : Env} (c : FetchCall) {s : OracleState}
    (h : UnhashOk E s.unhashMap) : UnhashOk E (c.run E s).state.unhashMap := by
  cases c with
  | account blockNumber addr postProcess =>
    simp only [FetchCall.run]
    rw [PrefetchAccount_unhashMap]
    split
    · exact h
    · exact unhashOk_mapSet h addr
  | storage blockNumber addr skey postProcess =>
    simp only [FetchCall.run]
    rw [PrefetchStorage_unhashMap]
    split
    · exact h
    · exact unhashOk_mapSet h addr
  | code blockNumber addrHash =>
    simp only [FetchCall.run]
    rw [PrefetchCode_unhashMap]
    exact h

theorem runFetches_unhashOk {E : Env} (calls : List FetchCall) :
    ∀ s : OracleState, UnhashOk E s.unhashMap → UnhashOk E (runFetches E calls s).unhashMap := by
  induction calls with
  | nil => intro s h; exact h
  | cons c rest ih =>
    intro s h
    exact ih _ (c.run_unhashOk h)

/-- The state of a process that has made the calls `calls` since it
started. -/
def afterFetches (E : Env) (root : String) (calls : List FetchCall) : OracleState :=
  runFetches E calls (OracleState.fresh root)

theorem getProvedCodeBytes_miss {E : Env} {blockNumber : Int} {addrHash : Hash}
    {s : OracleState}
    (hmiss : cacheExists s (hexEncode (E.keccak256
      (E.jsonMarshal (codeRequest blockNumber (unhash s addrHash)))).bytes) = false) :
    (getProvedCodeBytes E blockNumber addrHash s).state.posts =
      s.posts ++ [E.jsonMarshal (codeRequest blockNumber (unhash s addrHash))] := by
  have hg := getAPI_miss hmiss
  unfold codeRequest at hg
  unfold getProvedCodeBytes codeRequest
  simp only
  cases hget : getAPI E (E.jsonMarshal
      { Jsonrpc := "2.0", Method := "eth_getCode",
        Params := [.addr (unhash s addrHash), .str (sprintf0x (bigInt64 blockNumber))],
        Id := 1 }) s with
  | fail f s2 => rw [hget] at hg; exact hg
  | ok body s2 =>
    rw [hget] at hg
    simp only
    split <;> exact hg

/-- When the code was not fetched before and the cache file of the request
is missing, `PrefetchCode` posts the request for the code of the address that
`unhash` gives. -/
theorem PrefetchCode_miss {E : Env} {blockNumber : Int} {addrHash : Hash} {s : OracleState}
    (hkey : s.cached (codeKey blockNumber addrHash) = false)
    (hmiss : cacheExists s (hexEncode (E.keccak256
      (E.jsonMarshal (codeRequest blockNumber (unhash s addrHash)))).bytes) = false) :
    (PrefetchCode E blockNumber addrHash s).state.posts =
      s.posts ++ [E.jsonMarshal (codeRequest blockNumber (unhash s addrHash))] := by
  have hg := @getProvedCodeBytes_miss E blockNumber addrHash
    (markFetched s (codeKey blockNumber addrHash)) hmiss
  unfold PrefetchCode
  simp only [hkey, Bool.false_eq_true, if_false]
  cases hget : getProvedCodeBytes E blockNumber addrHash
      (markFetched s (codeKey blockNumber addrHash)) with
  | fail f s2 => rw [hget] at hg; exact hg
  | ok ret s2 => rw [hget] at hg; exact hg

/-- C28: after any sequence of `PrefetchAccount`, `PrefetchStorage` and
`PrefetchCode` calls of a process, every entry `(h, a)` of `unhashMap`
satisfies `h = keccak256(a)`. Consequently the one request that
`PrefetchCode(blockNumber, addrHash)` may then post, and does post when
neither the key nor the cache file exists, is `eth_getCode` for the address
`unhash(addrHash)`: an address whose Keccak-256 hash is `addrHash` when
`addrHash` was recorded, and the all-zero address when it never was. A proof
fetch that is not short-circuited records its address under the hash of the
address. -/
theorem C28_unhash_invariant (E : Env) (root : String) (calls : List FetchCall)
    (blockNumber : Int) (addrHash : Hash) (addr : Address) (skey : Hash)
    (postProcess : Option ((Hash → Option Bytes) → (Hash → Option Bytes))) :
    UnhashOk E (afterFetches E root calls).unhashMap ∧
    Sends E
      (fun q => q = codeRequest blockNumber (unhash (afterFetches E root calls) addrHash))
      (afterFetches E root calls)
      (PrefetchCode E blockNumber addrHash (afterFetches E root calls)).state ∧
    ((afterFetches E root calls).cached (codeKey blockNumber addrHash) = false →
      cacheExists (afterFetches E root calls) (hexEncode (E.keccak256 (E.jsonMarshal
        (codeRequest blockNumber (unhash (afterFetches E root calls) addrHash)))).bytes) =
          false →
      (PrefetchCode E blockNumber addrHash (afterFetches E root calls)).state.posts =
        (afterFetches E root calls).posts ++
          [E.jsonMarshal
            (codeRequest blockNumber (unhash (afterFetches E root calls) addrHash))]) ∧
    (∀ a, (afterFetches E root calls).unhashMap addrHash = some a →
      unhash (afterFetches E root calls) addrHash = a ∧ E.keccak256 a.bytes = addrHash) ∧
    ((afterFetches E root calls).unhashMap addrHash = none →
      unhash (afterFetches E root calls) addrHash = Address.zero) ∧
    ((afterFetches E root calls).cached (accountKey E blockNumber addr) = false →
      (PrefetchAccount E blockNumber addr postProcess
        (afterFetches E root calls)).state.unhashMap (E.keccak256 addr.bytes) = some addr) ∧
    ((afterFetches E root calls).cached (storageKey E blockNumber addr skey) = false →
      (PrefetchStorage E blockNumber addr skey postProcess
        (afterFetches E root calls)).state.unhashMap (E.keccak256 addr.bytes) = some addr) := by
  have hok : UnhashOk E (afterFetches E root calls).unhashMap :=
    runFetches_unhashOk calls _ (fun h a hk => by simp [OracleState.fresh] at hk)
  refine ⟨hok, PrefetchCode_sends E blockNumber addrHash _, fun hkey hmiss =>
    PrefetchCode_miss hkey hmiss, ?_, ?_, ?_, ?_⟩
  · intro a ha
    refine ⟨by simp [unhash, ha], (hok addrHash a ha).symm⟩
  · intro hnone
    simp [unhash, hnone]
  · intro hkey
    rw [PrefetchAccount_unhashMap]
    simp [hkey, mapSet]
  · intro hkey
    rw [PrefetchStorage_unhashMap]
    simp [hkey, mapSet]

/-- C28 in the small environment: after the account proof of the address
`07..07` is fetched, its hash is recorded, `PrefetchCode` for that hash asks
for the code of that address, and for a hash never recorded it asks for the
code of the zero address. -/
theorem PrefetchCode_unhash_example :
    unhash (afterFetches Toy.env Toy.dir [.account 5 Toy.parent.Coinbase none])
      (Toy.env.keccak256 Toy.parent.Coinbase.bytes) = Toy.parent.Coinbase ∧
    (PrefetchCode Toy.env 5 (Toy.env.keccak256 Toy.parent.Coinbase.bytes)
      (afterFetches Toy.env Toy.dir [.account 5 Toy.parent.Coinbase none])).state.posts =
      (afterFetches Toy.env Toy.dir [.account 5 Toy.parent.Coinbase none]).posts ++
        [Toy.env.jsonMarshal (codeRequest 5 Toy.parent.Coinbase)] ∧
    (PrefetchCode Toy.env 5 (Toy.fill 9)
      (afterFetches Toy.env Toy.dir [.account 5 Toy.parent.Coinbase none])).state.posts =
      (afterFetches Toy.env Toy.dir [.account 5 Toy.parent.Coinbase none]).posts ++
        [Toy.env.jsonMarshal (codeRequest 5 Address.zero)] := by
  refine ⟨by decide, by decide, by decide⟩

end Oracle

namespace Builder

/-! ### `Block` and the flag -/

/-- The caller is in `Stop` and has run the store of line 81. -/
def pastStore : CallerPc → Bool
  | .stopLock => true
  | .stopCheck => true
  | .stopWait => true
  | .stopWoken => true
  | .stopUnlock _ => true
  | .stopDone _ => true
  | _ => false

/-- What holds of the flag and of the values `Block` has read, in every state
reached from `NewBlockBuilder`: the flag is 1 once a `Stop` has run its first
statement, and a `Block` that has evaluated its result holds nil or the
recorded block. -/
structure Peek (s : BlockBuilder) : Prop where
  flag : ∀ c ∈ s.callers, pastStore c = true → s.interrupt = 1
  peeked : ∀ c ∈ s.callers, ∀ b, (c = .blockUnlock b ∨ c = .blockDone b) →
    b = none ∨ (s.records = 1 ∧ b = s.block)

theorem peek_init (calls : List Call) : Peek (NewBlockBuilder calls) := by
  refine ⟨?_, ?_⟩
  · intro c hc hp
    simp only [NewBlockBuilder, List.mem_map] at hc
    obtain ⟨c0, _, rfl⟩ := hc
    cases c0 <;> simp [Call.start, pastStore] at hp
  · intro c hc b hb
    simp only [NewBlockBuilder, List.mem_map] at hc
    obtain ⟨c0, _, rfl⟩ := hc
    cases c0 <;> simp [Call.start] at hb

theorem pastStore_wake (c : CallerPc) : pastStore (wake c) = pastStore c := by
  cases c <;> rfl

theorem wake_peeked {c : CallerPc} {b : Option Block}
    (h : wake c = .blockUnlock b ∨ wake c = .blockDone b) :
    c = .blockUnlock b ∨ c = .blockDone b := by
  cases c <;> simp [wake] at h ⊢ <;> exact h

/-- The goroutine never writes the flag, and it moves callers only by waking
them. -/
theorem stepGoroutine_callers {build : BlockBuilderFunc} {s t : BlockBuilder}
    (h : stepGoroutine build s = some t) :
    t.interrupt = s.interrupt ∧ (t.callers = s.callers ∨ t.callers = s.callers.map wake) := by
  unfold stepGoroutine at h
  cases hg : s.goroutine <;> rw [hg] at h <;> simp only at h <;>
    first
    | (simp only [Option.some.injEq] at h; subst h; exact ⟨rfl, Or.inl rfl⟩)
    | (simp only [Option.some.injEq] at h; subst h; exact ⟨rfl, Or.inr rfl⟩)
    | (split at h <;>
        first
        | (simp only [Option.some.injEq] at h; subst h; exact ⟨rfl, Or.inl rfl⟩)
        | simp at h)
    | simp at h

theorem peek_stepGoroutine {build : BlockBuilderFunc} {s t : BlockBuilder}
    (hi : Inv build s) (hp : Peek s) (h : stepGoroutine build s = some t) : Peek t := by
  obtain ⟨hint, hcallers⟩ := stepGoroutine_callers h
  have hold : ∀ c ∈ t.callers, ∃ c0 ∈ s.callers, pastStore c = pastStore c0 ∧
      ∀ b, (c = .blockUnlock b ∨ c = .blockDone b) →
        (c0 = .blockUnlock b ∨ c0 = .blockDone b) := by
    intro c hc
    rcases hcallers with hcs | hcs
    · rw [hcs] at hc
      exact ⟨c, hc, rfl, fun _ hb => hb⟩
    · rw [hcs, List.mem_map] at hc
      obtain ⟨c0, hc0, rfl⟩ := hc
      exact ⟨c0, hc0, pastStore_wake c0, fun _ hb => wake_peeked hb⟩
  have hfields : (s.records = 0 ∧ t.records = 1) ∨ (t.block = s.block ∧ t.records = s.records) := by
    rcases stepGoroutine_fields h with ⟨r, hr, _, _, _, hrec⟩ | ⟨_, hb, _, hrec⟩
    · left
      have h0 : s.records = 0 := by rw [hi.records, hr]; rfl
      exact ⟨h0, by rw [hrec, h0]⟩
    · exact Or.inr ⟨hb, hrec⟩
  refine ⟨?_, ?_⟩
  · intro c hc hpast
    obtain ⟨c0, hc0, hpc, _⟩ := hold c hc
    rw [hint]
    exact hp.flag c0 hc0 (by rw [← hpc]; exact hpast)
  · intro c hc b hb
    obtain ⟨c0, hc0, _, hpk⟩ := hold c hc
    rcases hp.peeked c0 hc0 b (hpk b hb) with hnone | ⟨hrec, hblock⟩
    · exact Or.inl hnone
    · rcases hfields with ⟨h0, _⟩ | ⟨hbl, hr⟩
      · omega
      · exact Or.inr ⟨by rw [hr]; exact hrec, by rw [hbl]; exact hblock⟩

/-- A step that moves one caller keeps `Peek`, as long as the place the
caller moves to agrees with it. -/
theorem peek_setCaller {s t : BlockBuilder} (hp : Peek s) (i : Nat) (new : CallerPc)
    (hb : t.block = s.block) (hr : t.records = s.records)
    (hc : t.callers = s.callers.set i new)
    (hint : t.interrupt = s.interrupt ∨ t.interrupt = 1)
    (hflag : pastStore new = true → t.interrupt = 1)
    (hpeek : ∀ b, (new = .blockUnlock b ∨ new = .blockDone b) →
      b = none ∨ (s.records = 1 ∧ b = s.block)) : Peek t := by
  refine ⟨?_, ?_⟩
  · intro c hmem hpast
    rw [hc] at hmem
    rcases List.mem_or_eq_of_mem_set hmem with h | h
    · rcases hint with h1 | h1
      · rw [h1]; exact hp.flag c h hpast
      · exact h1
    · subst h
      exact hflag hpast
  · intro c hmem b hcb
    rw [hb, hr]
    rw [hc] at hmem
    rcases List.mem_or_eq_of_mem_set hmem with h | h
    · exact hp.peeked c h b hcb
    · subst h
      exact hpeek b hcb

theorem peek_stepCaller {build : BlockBuilderFunc} {s t : BlockBuilder}
    (hi : Inv build s) (hp : Peek s) (i : Nat) (h : stepCaller s i = some t) : Peek t := by
  unfold Builder.stepCaller at h
  cases hc : s.callers.get? i with
  | none => rw [hc] at h; simp at h
  | some c =>
    rw [hc] at h
    have hmem : c ∈ s.callers := List.get?_mem hc
    cases c with
    | stopStore =>
      simp only [Option.some.injEq] at h
      subst h
      exact peek_setCaller hp i .stopLock rfl rfl rfl (Or.inr rfl) (fun _ => rfl) (by simp)
    | stopLock =>
      simp only at h
      by_cases hm : s.mutex = none
      · rw [if_pos hm] at h
        simp only [Option.some.injEq] at h
        subst h
        exact peek_setCaller hp i .stopCheck rfl rfl rfl (Or.inl rfl)
          (fun _ => hp.flag _ hmem rfl) (by simp)
      · rw [if_neg hm] at h; simp at h
    | stopCheck =>
      simp only at h
      by_cases hw : waitCond s = true
      · rw [if_pos hw] at h
        simp only [Option.some.injEq] at h
        subst h
        exact peek_setCaller hp i .stopWait rfl rfl rfl (Or.inl rfl)
          (fun _ => hp.flag _ hmem rfl) (by simp)
      · rw [if_neg hw] at h
        simp only [Option.some.injEq] at h
        subst h
        exact peek_setCaller hp i _ rfl rfl rfl (Or.inl rfl)
          (fun _ => hp.flag _ hmem rfl) (by simp)
    | stopWait => simp at h
    | stopWoken =>
      simp only at h
      by_cases hm : s.mutex = none
      · rw [if_pos hm] at h
        simp only [Option.some.injEq] at h
        subst h
        exact peek_setCaller hp i .stopCheck rfl rfl rfl (Or.inl rfl)
          (fun _ => hp.flag _ hmem rfl) (by simp)
      · rw [if_neg hm] at h; simp at h
    | stopUnlock r =>
      simp only [Option.some.injEq] at h
      subst h
      exact peek_setCaller hp i _ rfl rfl rfl (Or.inl rfl)
        (fun _ => hp.flag _ hmem rfl) (by simp)
    | stopDone r => simp at h
    | blockLock =>
      simp only at h
      by_cases hm : s.mutex = none
      · rw [if_pos hm] at h
        simp only [Option.some.injEq] at h
        subst h
        exact peek_setCaller hp i .blockRead rfl rfl rfl (Or.inl rfl)
          (by simp [pastStore]) (by simp)
      · rw [if_neg hm] at h; simp at h
    | blockRead =>
      simp only [Option.some.injEq] at h
      subst h
      refine peek_setCaller hp i _ rfl rfl rfl (Or.inl rfl) (by simp [pastStore]) ?_
      intro b hb
      have hb2 : b = s.block := by
        rcases hb with h1 | h1
        · simp only [CallerPc.blockUnlock.injEq] at h1
          exact h1.symm
        · simp at h1
      by_cases hrec : hasRecorded s.goroutine = true
      · exact Or.inr ⟨hi.recorded_iff.mpr hrec, hb2⟩
      · left
        rw [hb2]
        exact (hi.running (by simpa using hrec)).1
    | blockUnlock b =>
      simp only [Option.some.injEq] at h
      subst h
      refine peek_setCaller hp i _ rfl rfl rfl (Or.inl rfl) (by simp [pastStore]) ?_
      intro b1 hb1
      have e : b = b1 := by simpa using hb1
      subst e
      exact hp.peeked _ hmem b (Or.inl rfl)
    | blockDone b => simp at h

theorem peek_step {build : BlockBuilderFunc} {s t : BlockBuilder}
    (hi : Inv build s) (hp : Peek s) (th : Thread) (h : step build s th = some t) : Peek t := by
  unfold Builder.step at h
  split at h
  · simp at h
  · cases th with
    | goroutine => exact peek_stepGoroutine hi hp h
    | caller i => exact peek_stepCaller hi hp i h

theorem peek_run {build : BlockBuilderFunc} (schedule : List Thread) :
    ∀ {s t : BlockBuilder}, Inv build s → Peek s → run build s schedule = some t → Peek t := by
  induction schedule with
  | nil =>
    intro s t _ hp h
    simp only [Builder.run, Option.some.injEq] at h
    rw [← h]; exact hp
  | cons th rest ih =>
    intro s t hi hp h
    unfold Builder.run at h
    cases hst : Builder.step build s th with
    | none => rw [hst] at h; simp at h
    | some s1 =>
      rw [hst] at h
      exact ih (hi.step th hst) (peek_step hi hp th hst) h

/-- The caller is in `Block`. -/
def inBlock : CallerPc → Bool
  | .blockLock => true
  | .blockRead => true
  | .blockUnlock _ => true
  | .blockDone _ => true
  | _ => false

/-- A step of a caller that is in `Block` leaves the flag, `block` and `err`
as they are. -/
theorem stepCaller_inBlock {s t : BlockBuilder} {i : Nat} {c : CallerPc}
    (hc : s.callers.get? i = some c) (hb : inBlock c = true) (h : stepCaller s i = some t) :
    t.interrupt = s.interrupt ∧ t.block = s.block ∧ t.err = s.err := by
  unfold stepCaller at h
  rw [hc] at h
  cases c <;> simp [inBlock] at hb <;> simp only at h <;>
    first
    | (simp only [Option.some.injEq] at h; subst h; exact ⟨rfl, rfl, rfl⟩)
    | (split at h <;>
        first
        | (simp only [Option.some.injEq] at h; subst h; exact ⟨rfl, rfl, rfl⟩)
        | simp at h)
    | simp at h

/-- A whole call of `Block`, run without another thread in between from a
state in which the mutex is free: it returns the block the builder holds and
changes nothing but its own place. -/
theorem run_Block {build : BlockBuilderFunc} {s : BlockBuilder} {i : Nat}
    (hc : s.callers.get? i = some .blockLock) (hm : s.mutex = none)
    (hg : s.goroutine ≠ .crashed) :
    run build s [.caller i, .caller i, .caller i] =
      some { s with callers := s.callers.set i (.blockDone s.block) } := by
  have hlt : i < s.callers.length := by
    by_contra hge
    rw [List.get?_eq_none.mpr (by omega)] at hc
    simp at hc
  have hget : ∀ (l : List CallerPc) (c : CallerPc), i < l.length → (l.set i c).get? i = some c := by
    intro l c hl
    simp [List.getElem?_set, hl]
  have h1 : step build s (.caller i) =
      some { s with mutex := some (.caller i), callers := s.callers.set i .blockRead } := by
    rw [step_caller i hg]
    unfold stepCaller
    rw [hc]
    simp only [hm, if_true]
  have h2 : step build { s with mutex := some (.caller i), callers := s.callers.set i .blockRead }
      (.caller i) =
      some { s with mutex := some (.caller i),
                    callers := s.callers.set i (.blockUnlock s.block) } := by
    rw [step_caller i (by exact hg)]
    unfold stepCaller
    simp only [hget _ _ hlt, List.set_set]
  have h3 : step build
      { s with mutex := some (.caller i), callers := s.callers.set i (.blockUnlock s.block) }
      (.caller i) =
      some { s with mutex := none, callers := s.callers.set i (.blockDone s.block) } := by
    rw [step_caller i (by exact hg)]
    unfold stepCaller
    simp only [hget _ _ hlt, List.set_set]
  simp only [Builder.run, h1, h2, h3]
  rw [← hm]

/-- C21: in every state reached from `NewBlockBuilder`, by any schedule, for
any build function and any calls. No step of a caller that is in `Block`
changes the flag, `block` or `err`, and a whole call of `Block`, made while
the mutex is free, returns the block the builder then holds and changes
nothing but the place of the caller. While the build is in flight that block
is nil, and what a `Block` has read or returned is nil or the recorded block.
`Stop` begins by setting the flag to 1, and the flag is 1 in every state in
which a `Stop` is past that statement, in particular when it waits. -/
theorem C21_peek (build : BlockBuilderFunc) (calls : List Call) (schedule : List Thread)
    (s : BlockBuilder) (hrun : run build (NewBlockBuilder calls) schedule = some s) :
    (∀ i c t, s.callers.get? i = some c → inBlock c = true →
      step build s (.caller i) = some t →
      t.interrupt = s.interrupt ∧ t.block = s.block ∧ t.err = s.err) ∧
    (∀ i, s.callers.get? i = some .blockLock → s.mutex = none → s.goroutine ≠ .crashed →
      run build s [.caller i, .caller i, .caller i] =
        some { s with callers := s.callers.set i (.blockDone s.block) }) ∧
    (s.records = 0 → s.block = none) ∧
    (∀ i b, (s.callers.get? i = some (.blockUnlock b) ∨
        s.callers.get? i = some (.blockDone b)) →
      b = none ∨ (s.records = 1 ∧ b = s.block)) ∧
    (∀ i, s.callers.get? i = some .stopStore → s.goroutine ≠ .crashed →
      step build s (.caller i) =
        some { s with interrupt := 1, callers := s.callers.set i .stopLock }) ∧
    (∀ i c, s.callers.get? i = some c → pastStore c = true → s.interrupt = 1) ∧
    (∀ i, s.callers.get? i = some .stopWait → s.interrupt = 1) := by
  have hi : Inv build s := Inv.run schedule (Inv.init build calls) hrun
  have hp : Peek s := peek_run schedule (Inv.init build calls) (peek_init calls) hrun
  refine ⟨?_, ?_, ?_, ?_, ?_, ?_, ?_⟩
  · intro i c t hc hb hst
    unfold Builder.step at hst
    split at hst
    · simp at hst
    · exact stepCaller_inBlock hc hb hst
  · intro i hc hm hg
    exact run_Block hc hm hg
  · intro h0
    have hnot : hasRecorded s.goroutine = false := by
      by_contra hne
      have := hi.recorded_iff.mpr (by simpa using hne)
      omega
    exact (hi.running hnot).1
  · intro i b hb
    rcases hb with h | h
    · exact hp.peeked _ (List.get?_mem h) b (Or.inl rfl)
    · exact hp.peeked _ (List.get?_mem h) b (Or.inr rfl)
  · intro i hc hg
    rw [step_caller i hg]
    unfold stepCaller
    rw [hc]
  · intro i c hc hpast
    exact hp.flag c (List.get?_mem hc) hpast
  · intro i hc
    exact hp.flag _ (List.get?_mem hc) rfl

/-- C21 on a builder with one `Stop` and two calls of `Block`: the first
`Block` runs while the build is in flight, the `Stop` then runs to its end
with block 7 recorded, and the state reached is the one of the statement. In
it the first `Block` has returned nil, the flag is 1, set by the `Stop`, and
the second `Block` returns block 7 and changes nothing else. -/
theorem C21_peek_witness :
    (run Toy.build (NewBlockBuilder [.stop, .block, .block])
      [.caller 1, .caller 1, .caller 1]).map (fun s => (s.interrupt, s.callers)) =
      some (0, [.stopStore, .blockDone none, .blockLock]) ∧
    ∃ s, run Toy.build (NewBlockBuilder [.stop, .block, .block])
        ([.caller 1, .caller 1, .caller 1] ++ Toy.schedule) = some s ∧
      s.callers = [.stopDone ⟨some ⟨7⟩, none⟩, .blockDone none, .blockLock] ∧
      s.interrupt = 1 ∧
      run Toy.build s [.caller 2, .caller 2, .caller 2] =
        some { s with callers := s.callers.set 2 (.blockDone (some ⟨7⟩)) } :=
  ⟨by decide, _, rfl, rfl, rfl,
    (C21_peek Toy.build [Call.stop, Call.block, Call.block]
      ([Thread.caller 1, Thread.caller 1, Thread.caller 1] ++ Toy.schedule) _ rfl).2.1
      2 rfl rfl (by decide)⟩

end Builder

/-!
# The difficulty and reward rules (`consensus/ethash/fake_ethash.go`)

A `uint64` is a `Nat` below `2^64`, a `*big.Int` is an `Int`, and a
`*uint256.Int` is a `Nat` below `2^256`. `(*big.Int).Div` is Euclidean
division, as `/` on `Int` is.
-/

namespace Ethash

/-- Modelled from the spec: the constant `params.DifficultyBoundDivisor`,
declared in a package that is not among the sources; the difficulty formula
divides the parent difficulty by 2048. -/
def DifficultyBoundDivisor : Int := 2048

/-- Modelled from the spec: the constant `params.MinimumDifficulty`, declared
in a package that is not among the sources; the minimum difficulty is
131072. -/
def MinimumDifficulty : Int := 131072

/-- The variable `expDiffPeriod`. -/
def expDiffPeriod : Int := 100000

/-- The subtraction `a - b` of two `uint64`, which wraps around. -/
def subUint64 (a b : Nat) : Nat := (a + 2 ^ 64 - b % 2 ^ 64) % 2 ^ 64

/-- The addition `a + b` of two `uint64`, which wraps around. -/
def addUint64 (a b : Nat) : Nat := (a + b) % 2 ^ 64

/-- `z.Exp(big2, y, nil)`: `2` to the power `y`, and 1 when `y ≤ 0`. -/
def exp2 (y : Int) : Int := if y ≤ 0 then 1 else 2 ^ y.toNat

/-- `math.BigMax`: the larger of two numbers. -/
def BigMax (x y : Int) : Int := if x < y then y else x

/-- Lines 209-236 of the calculator made by `makeDifficultyCalculator`: the
difficulty before the exponential factor. `emptyUncleHash` is the constant
`types.EmptyUncleHash`, declared outside the sources. -/
def adjustedDifficulty (emptyUncleHash : Oracle.Hash) (time parentTime : Nat)
    (parentDifficulty : Int) (parentUncleHash : Oracle.Hash) : Int :=
  let bigTime : Int := (time : Int)
  let bigParentTime : Int := (parentTime : Int)
  let x0 := bigTime - bigParentTime
  let x1 := x0 / 9
  let x2 := if parentUncleHash = emptyUncleHash then 1 - x1 else 2 - x1
  let x3 := if x2 < -99 then -99 else x2
  let y := parentDifficulty / DifficultyBoundDivisor
  let x4 := y * x3
  let x5 := parentDifficulty + x4
  if x5 < MinimumDifficulty then MinimumDifficulty else x5

/-- Lines 239-242: the fake block number of the ice-age delay. -/
def fakeBlockNumber (bombDelayFromParent parentNumber : Nat) : Nat :=
  if parentNumber ≥ bombDelayFromParent then subUint64 parentNumber bombDelayFromParent else 0

/-- Lines 244-253: the difficulty `x` with the exponential factor of the
block number `blockNumber` added. -/
def addBomb (x : Int) (blockNumber : Nat) : Int :=
  let periodCount : Int := (blockNumber : Int) / expDiffPeriod
  if periodCount > 1 then x + exp2 (periodCount - 2) else x

/-- `makeDifficultyCalculator(bombDelay)`, applied to the arguments of the
calculator it returns. -/
def makeDifficultyCalculator (emptyUncleHash : Oracle.Hash) (bombDelay : Nat)
    (time parentTime : Nat) (parentDifficulty : Int) (parentNumber : Nat)
    (parentUncleHash : Oracle.Hash) : Int :=
  let bombDelayFromParent := subUint64 bombDelay 1
  let x := adjustedDifficulty emptyUncleHash time parentTime parentDifficulty parentUncleHash
  addBomb x (fakeBlockNumber bombDelayFromParent parentNumber)

/-- `calcDifficultyHomestead`. -/
def calcDifficultyHomestead (time parentTime : Nat) (parentDifficulty : Int)
    (parentNumber : Nat) (_ : Oracle.Hash) : Int :=
  let bigTime : Int := (time : Int)
  let bigParentTime : Int := (parentTime : Int)
  let x0 := bigTime - bigParentTime
  let x1 := x0 / 10
  let x2 := 1 - x1
  let x3 := if x2 < -99 then -99 else x2
  let y := parentDifficulty / DifficultyBoundDivisor
  let x4 := y * x3
  let x5 := parentDifficulty + x4
  let x6 := if x5 < MinimumDifficulty then MinimumDifficulty else x5
  addBomb x6 (addUint64 parentNumber 1)

/-- `calcDifficultyFrontier`. `durationLimit` is the constant
`params.DurationLimit`, declared outside the sources. -/
def calcDifficultyFrontier (durationLimit : Int) (time parentTime : Nat)
    (parentDifficulty : Int) (parentNumber : Nat) (_ : Oracle.Hash) : Int :=
  let adjust := parentDifficulty / DifficultyBoundDivisor
  let bigTime : Int := (time : Int)
  let bigParentTime : Int := (parentTime : Int)
  let diff0 :=
    if bigTime - bigParentTime < durationLimit then parentDifficulty + adjust
    else parentDifficulty - adjust
  let diff1 := if diff0 < MinimumDifficulty then MinimumDifficulty else diff0
  let periodCount : Int := ((addUint64 parentNumber 1 : Nat) : Int) / expDiffPeriod
  if periodCount > 1 then
    let expDiff := exp2 (periodCount - 2)
    BigMax (diff1 + expDiff) MinimumDifficulty
  else diff1

/-- The difficulty formula as documented, in exact integer arithmetic with
floor division: `D` is the bomb delay and `emptyUncles` tells whether the
parent uncle hash is the empty-uncle hash. -/
def documentedDifficulty (D time parentTime : Nat) (parentDifficulty : Int)
    (parentNumber : Nat) (emptyUncles : Bool) : Int :=
  let u : Int := if emptyUncles then 1 else 2
  let p : Int := Int.fdiv (max ((parentNumber : Int) - ((D : Int) - 1)) 0) 100000
  let bomb : Int := if p > 1 then 2 ^ (p - 2).toNat else 0
  max (parentDifficulty +
      Int.fdiv parentDifficulty 2048 *
        max (u - Int.fdiv ((time : Int) - (parentTime : Int)) 9) (-99)) 131072 + bomb

theorem clamp_eq_max (a b : Int) : (if a < b then b else a) = max a b := by
  rw [max_def]
  split <;> split <;> omega

theorem subUint64_of_le {a b : Nat} (ha : a < 2 ^ 64) (hb : b ≤ a) : subUint64 a b = a - b := by
  unfold subUint64
  have h1 : b % 2 ^ 64 = b := Nat.mod_eq_of_lt (by omega)
  rw [h1]
  have h2 : a + 2 ^ 64 - b = (a - b) + 2 ^ 64 := by omega
  rw [h2, Nat.add_mod_right]
  exact Nat.mod_eq_of_lt (by omega)

/-- The fake block number is the exact difference, or 0: the subtraction of
line 241 does not wrap. -/
theorem fakeBlockNumber_eq {b parentNumber : Nat} (hpn : parentNumber < 2 ^ 64) :
    fakeBlockNumber b parentNumber = parentNumber - b := by
  unfold fakeBlockNumber
  split
  · rename_i h
    exact subUint64_of_le hpn h
  · omega

theorem exp2_of_nonneg {y : Int} (h : 0 ≤ y) : exp2 y = 2 ^ y.toNat := by
  unfold exp2
  split
  · have : y = 0 := by omega
    subst this
    rfl
  · rfl

theorem exp2_pos (y : Int) : 0 < exp2 y := by
  unfold exp2
  split
  · decide
  · positivity

theorem addBomb_eq (x : Int) (n : Nat) :
    addBomb x n =
      x + (if (n : Int) / 100000 > 1 then 2 ^ ((n : Int) / 100000 - 2).toNat else 0) := by
  unfold addBomb expDiffPeriod
  simp only
  split
  · rename_i h
    rw [exp2_of_nonneg (by omega)]
  · simp

theorem le_addBomb (x : Int) (n : Nat) : x ≤ addBomb x n := by
  unfold addBomb
  simp only
  split
  · have := exp2_pos ((n : Int) / expDiffPeriod - 2)
    omega
  · exact le_refl x

theorem addBomb_mono {x y : Int} (h : x ≤ y) (n : Nat) : addBomb x n ≤ addBomb y n := by
  unfold addBomb
  simp only
  split <;> omega

theorem le_adjustedDifficulty (emptyUncleHash : Oracle.Hash) (time parentTime : Nat)
    (parentDifficulty : Int) (parentUncleHash : Oracle.Hash) :
    MinimumDifficulty ≤
      adjustedDifficulty emptyUncleHash time parentTime parentDifficulty parentUncleHash := by
  unfold adjustedDifficulty
  simp only
  split <;> omega

/-- C24: for every bomb delay `D ≥ 1`, `time`, `parentTime`,
`parentDifficulty`, `parentNumber` and `parentUncleHash`, the calculator
returned by `makeDifficultyCalculator(D)` equals the documented formula in
exact integer arithmetic with floor division:
`max(parentDifficulty + (parentDifficulty / 2048) * max(u - (time -
parentTime) / 9, -99), 131072) + bomb`, with `u = 1` for the empty-uncle hash
and 2 otherwise, `bomb = 2^(p - 2)` if `p > 1` and 0 otherwise, and
`p = max(parentNumber - (D - 1), 0) / 100000`. The numbers `D` and
`parentNumber` are `uint64`. -/
theorem C24_documented_formula (emptyUncleHash : Oracle.Hash) (D time parentTime : Nat)
    (parentDifficulty : Int) (parentNumber : Nat) (parentUncleHash : Oracle.Hash)
    (hD1 : 1 ≤ D) (hD : D < 2 ^ 64) (hpn : parentNumber < 2 ^ 64) :
    makeDifficultyCalculator emptyUncleHash D time parentTime parentDifficulty parentNumber
        parentUncleHash =
      documentedDifficulty D time parentTime parentDifficulty parentNumber
        (decide (parentUncleHash = emptyUncleHash)) := by
  unfold makeDifficultyCalculator documentedDifficulty
  simp only
  rw [subUint64_of_le hD hD1, fakeBlockNumber_eq hpn, addBomb_eq]
  have hfake : ((parentNumber - (D - 1) : Nat) : Int) =
      max ((parentNumber : Int) - ((D : Int) - 1)) 0 := by
    rw [max_def]
    split <;> omega
  rw [hfake, Int.fdiv_eq_ediv _ (by decide : (0 : Int) ≤ 100000),
    Int.fdiv_eq_ediv _ (by decide : (0 : Int) ≤ 2048),
    Int.fdiv_eq_ediv _ (by decide : (0 : Int) ≤ 9)]
  congr 1
  unfold adjustedDifficulty DifficultyBoundDivisor MinimumDifficulty
  simp only
  rw [clamp_eq_max]
  congr 3
  by_cases hu : parentUncleHash = emptyUncleHash
  · simp only [hu, if_true, decide_True]
    rw [clamp_eq_max]
  · simp only [hu, if_false, decide_False]
    rw [clamp_eq_max]
    simp

/-- C24 at block 13000000 with the bomb delay 11400000 of EIP-5133: the
parent difficulty 2^53 with a child 13 seconds later and no uncles gives
`2^53 + 2^14`, the adjustment being zero and the period count 16. -/
theorem C24_documented_formula_witness :
    (1 : Nat) ≤ 11400000 ∧ (11400000 : Nat) < 2 ^ 64 ∧ (12999999 : Nat) < 2 ^ 64 ∧
    makeDifficultyCalculator Oracle.Hash.zero 11400000 1013 1000 (2 ^ 53) 12999999
      Oracle.Hash.zero = 2 ^ 53 + 2 ^ 14 ∧
    documentedDifficulty 11400000 1013 1000 (2 ^ 53) 12999999 true = 2 ^ 53 + 2 ^ 14 :=
  ⟨by decide, by decide, by decide, by decide,
    (C24_documented_formula Oracle.Hash.zero 11400000 1013 1000 (2 ^ 53) 12999999
      Oracle.Hash.zero (by decide) (by decide) (by decide)).symm.trans (by decide)⟩

/-- C26: for every bomb delay `D ≥ 1` and every `parentNumber` (both
`uint64`), the calculator made by `makeDifficultyCalculator(D)` computes the
fake block number as `parentNumber - (D - 1)` when `parentNumber ≥ D - 1` and
0 otherwise, the machine subtraction giving the exact difference; and its
result is the difficulty before the bomb plus a power of two, which is
positive, when `parentNumber ≥ (D - 1) + 200000`, and the difficulty before
the bomb alone below that block. -/
theorem C26_bomb_offset (emptyUncleHash : Oracle.Hash) (D time parentTime : Nat)
    (parentDifficulty : Int) (parentNumber : Nat) (parentUncleHash : Oracle.Hash)
    (hD1 : 1 ≤ D) (hD : D < 2 ^ 64) (hpn : parentNumber < 2 ^ 64) :
    subUint64 D 1 = D - 1 ∧
    fakeBlockNumber (subUint64 D 1) parentNumber =
      (if parentNumber ≥ D - 1 then parentNumber - (D - 1) else 0) ∧
    ((fakeBlockNumber (subUint64 D 1) parentNumber : Nat) : Int) =
      (if parentNumber ≥ D - 1 then (parentNumber : Int) - ((D : Int) - 1) else 0) ∧
    (parentNumber ≥ (D - 1) + 200000 →
      makeDifficultyCalculator emptyUncleHash D time parentTime parentDifficulty parentNumber
          parentUncleHash =
        adjustedDifficulty emptyUncleHash time parentTime parentDifficulty parentUncleHash +
          2 ^ ((parentNumber - (D - 1)) / 100000 - 2) ∧
      (0 : Int) < 2 ^ ((parentNumber - (D - 1)) / 100000 - 2)) ∧
    (parentNumber < (D - 1) + 200000 →
      makeDifficultyCalculator emptyUncleHash D time parentTime parentDifficulty parentNumber
          parentUncleHash =
        adjustedDifficulty emptyUncleHash time parentTime parentDifficulty parentUncleHash) := by
  have hsub := subUint64_of_le hD hD1
  have hfake : fakeBlockNumber (subUint64 D 1) parentNumber = parentNumber - (D - 1) := by
    rw [hsub]
    exact fakeBlockNumber_eq hpn
  refine ⟨hsub, ?_, ?_, ?_, ?_⟩
  · rw [hfake]
    split <;> omega
  · rw [hfake]
    split <;> omega
  · intro hge
    refine ⟨?_, by positivity⟩
    unfold makeDifficultyCalculator
    simp only
    rw [hfake, addBomb_eq]
    have hp : ((parentNumber - (D - 1) : Nat) : Int) / 100000 > 1 := by omega
    rw [if_pos hp]
    have hexp : (((parentNumber - (D - 1) : Nat) : Int) / 100000 - 2).toNat =
        (parentNumber - (D - 1)) / 100000 - 2 := by omega
    rw [hexp]
  · intro hlt
    unfold makeDifficultyCalculator
    simp only
    rw [hfake, addBomb_eq]
    have hp : ¬ (((parentNumber - (D - 1) : Nat) : Int) / 100000 > 1) := by omega
    rw [if_neg hp]
    simp

/-- C26 with the bomb delay 3000000 of Byzantium: at parent 3199998 no term
is added, at parent 3199999 the term `2^0` is. -/
theorem C26_bomb_offset_witness :
    makeDifficultyCalculator Oracle.Hash.zero 3000000 1013 1000 (2 ^ 40) 3199998
        Oracle.Hash.zero =
      adjustedDifficulty Oracle.Hash.zero 1013 1000 (2 ^ 40) Oracle.Hash.zero ∧
    makeDifficultyCalculator Oracle.Hash.zero 3000000 1013 1000 (2 ^ 40) 3199999
        Oracle.Hash.zero =
      adjustedDifficulty Oracle.Hash.zero 1013 1000 (2 ^ 40) Oracle.Hash.zero + 1 ∧
    fakeBlockNumber (subUint64 3000000 1) 5 = 0 :=
  ⟨(C26_bomb_offset Oracle.Hash.zero 3000000 1013 1000 (2 ^ 40) 3199998 Oracle.Hash.zero
      (by decide) (by decide) (by decide)).2.2.2.2 (by decide),
    ((C26_bomb_offset Oracle.Hash.zero 3000000 1013 1000 (2 ^ 40) 3199999 Oracle.Hash.zero
      (by decide) (by decide) (by decide)).2.2.2.1 (by decide)).1.trans (by decide),
    by decide⟩

/-- C29: each of `calcDifficultyFrontier`, `calcDifficultyHomestead` and every
calculator made by `makeDifficultyCalculator` returns a value greater than or
equal to the minimum difficulty 131072, for every `time`, `parentTime`,
`parentNumber`, `parentUncleHash` and `parentDifficulty`. -/
theorem C29_difficulty_floor (emptyUncleHash : Oracle.Hash) (durationLimit : Int)
    (bombDelay time parentTime : Nat) (parentDifficulty : Int) (parentNumber : Nat)
    (parentUncleHash : Oracle.Hash) :
    MinimumDifficulty = 131072 ∧
    MinimumDifficulty ≤
      calcDifficultyFrontier durationLimit time parentTime parentDifficulty parentNumber
        parentUncleHash ∧
    MinimumDifficulty ≤
      calcDifficultyHomestead time parentTime parentDifficulty parentNumber parentUncleHash ∧
    MinimumDifficulty ≤
      makeDifficultyCalculator emptyUncleHash bombDelay time parentTime parentDifficulty
        parentNumber parentUncleHash := by
  refine ⟨rfl, ?_, ?_, ?_⟩
  · unfold calcDifficultyFrontier BigMax
    simp only
    split
    · split <;> omega
    · split <;> omega
  · unfold calcDifficultyHomestead
    simp only
    refine le_trans ?_ (le_addBomb _ _)
    split <;> omega
  · unfold makeDifficultyCalculator
    simp only
    exact le_trans (le_adjustedDifficulty _ _ _ _ _) (le_addBomb _ _)

theorem clamp_mono {a b : Int} (h : a ≤ b) (c : Int) :
    (if a < c then c else a) ≤ (if b < c then c else b) := by
  split <;> split <;> omega

/-- The difficulty before the bomb does not grow with the timestamp. -/
theorem adjustedDifficulty_antitone (emptyUncleHash : Oracle.Hash) {time1 time2 : Nat}
    (parentTime : Nat) {parentDifficulty : Int} (parentUncleHash : Oracle.Hash)
    (hpd : 0 ≤ parentDifficulty) (ht : time1 ≤ time2) :
    adjustedDifficulty emptyUncleHash time2 parentTime parentDifficulty parentUncleHash ≤
      adjustedDifficulty emptyUncleHash time1 parentTime parentDifficulty parentUncleHash := by
  unfold adjustedDifficulty
  simp only
  apply clamp_mono
  have hy : 0 ≤ parentDifficulty / DifficultyBoundDivisor :=
    Int.ediv_nonneg hpd (by decide)
  have hx : ((time1 : Int) - (parentTime : Int)) / 9 ≤ ((time2 : Int) - (parentTime : Int)) / 9 :=
    Int.ediv_le_ediv (by decide) (by omega)
  have hmul : ∀ a b : Int, a ≤ b →
      parentDifficulty / DifficultyBoundDivisor * a ≤
        parentDifficulty / DifficultyBoundDivisor * b :=
    fun a b hab => mul_le_mul_of_nonneg_left hab hy
  have hclamp : (if (if parentUncleHash = emptyUncleHash
        then 1 - ((time2 : Int) - (parentTime : Int)) / 9
        else 2 - ((time2 : Int) - (parentTime : Int)) / 9) < -99 then (-99 : Int)
      else (if parentUncleHash = emptyUncleHash
        then 1 - ((time2 : Int) - (parentTime : Int)) / 9
        else 2 - ((time2 : Int) - (parentTime : Int)) / 9)) ≤
      (if (if parentUncleHash = emptyUncleHash
        then 1 - ((time1 : Int) - (parentTime : Int)) / 9
        else 2 - ((time1 : Int) - (parentTime : Int)) / 9) < -99 then (-99 : Int)
      else (if parentUncleHash = emptyUncleHash
        then 1 - ((time1 : Int) - (parentTime : Int)) / 9
        else 2 - ((time1 : Int) - (parentTime : Int)) / 9)) := by
    apply clamp_mono
    split <;> omega
  have := hmul _ _ hclamp
  omega

/-- C30: for every calculator made by `makeDifficultyCalculator` and for
`calcDifficultyHomestead`, with `parentTime`, `parentDifficulty ≥ 0`,
`parentNumber` and `parentUncleHash` fixed, `time1 ≤ time2` implies
`difficulty(time2) ≤ difficulty(time1)`. -/
theorem C30_timestamp_monotone (emptyUncleHash : Oracle.Hash) (bombDelay time1 time2 : Nat)
    (parentTime : Nat) (parentDifficulty : Int) (parentNumber : Nat)
    (parentUncleHash : Oracle.Hash) (hpd : 0 ≤ parentDifficulty) (ht : time1 ≤ time2) :
    makeDifficultyCalculator emptyUncleHash bombDelay time2 parentTime parentDifficulty
        parentNumber parentUncleHash ≤
      makeDifficultyCalculator emptyUncleHash bombDelay time1 parentTime parentDifficulty
        parentNumber parentUncleHash ∧
    calcDifficultyHomestead time2 parentTime parentDifficulty parentNumber parentUncleHash ≤
      calcDifficultyHomestead time1 parentTime parentDifficulty parentNumber
        parentUncleHash := by
  refine ⟨?_, ?_⟩
  · unfold makeDifficultyCalculator
    simp only
    exact addBomb_mono
      (adjustedDifficulty_antitone emptyUncleHash parentTime parentUncleHash hpd ht) _
  · unfold calcDifficultyHomestead
    simp only
    apply addBomb_mono
    apply clamp_mono
    have hy : 0 ≤ parentDifficulty / DifficultyBoundDivisor :=
      Int.ediv_nonneg hpd (by decide)
    have hx : ((time1 : Int) - (parentTime : Int)) / 10 ≤
        ((time2 : Int) - (parentTime : Int)) / 10 :=
      Int.ediv_le_ediv (by decide) (by omega)
    have hclamp : (if 1 - ((time2 : Int) - (parentTime : Int)) / 10 < -99 then (-99 : Int)
        else 1 - ((time2 : Int) - (parentTime : Int)) / 10) ≤
        (if 1 - ((time1 : Int) - (parentTime : Int)) / 10 < -99 then (-99 : Int)
        else 1 - ((time1 : Int) - (parentTime : Int)) / 10) := by
      apply clamp_mono
      omega
    have := mul_le_mul_of_nonneg_left hclamp hy
    omega

/-- C30 on a parent of difficulty 2^40 at time 1000: a child at time 1009
gets a lower difficulty than a child at time 1008, under the Byzantium rules
and under the Homestead rules a child at 1010 lower than one at 1009. -/
theorem C30_timestamp_monotone_witness :
    makeDifficultyCalculator Oracle.Hash.zero 3000000 1009 1000 (2 ^ 40) 100 Oracle.Hash.zero <
      makeDifficultyCalculator Oracle.Hash.zero 3000000 1008 1000 (2 ^ 40) 100
        Oracle.Hash.zero ∧
    calcDifficultyHomestead 1010 1000 (2 ^ 40) 100 Oracle.Hash.zero <
      calcDifficultyHomestead 1009 1000 (2 ^ 40) 100 Oracle.Hash.zero ∧
    makeDifficultyCalculator Oracle.Hash.zero 3000000 1009 1000 (2 ^ 40) 100 Oracle.Hash.zero ≤
      makeDifficultyCalculator Oracle.Hash.zero 3000000 1008 1000 (2 ^ 40) 100
        Oracle.Hash.zero :=
  ⟨by decide, by decide,
    (C30_timestamp_monotone Oracle.Hash.zero 3000000 1008 1009 1000 (2 ^ 40) 100
      Oracle.Hash.zero (by decide) (by decide)).1⟩

set_option maxRecDepth 100000

/-! ## Block rewards -/

/-- The methods of `*chain.Config` that the engine calls: whether a fork is
active at a block number, a `uint64`. -/
structure Config where
  IsHomestead : Nat → Bool
  IsByzantium : Nat → Bool
  IsConstantinople : Nat → Bool
  IsMuirGlacier : Nat → Bool
  IsLondon : Nat → Bool
  IsArrowGlacier : Nat → Bool
  IsGrayGlacier : Nat → Bool

/-- The variable `FrontierBlockReward`. -/
def FrontierBlockReward : Nat := 5000000000000000000

/-- The variable `ByzantiumBlockReward`. -/
def ByzantiumBlockReward : Nat := 3000000000000000000

/-- The variable `ConstantinopleBlockReward`. -/
def ConstantinopleBlockReward : Nat := 2000000000000000000

/-- The number of values of a `uint256.Int`. -/
def twoTo256 : Nat := 2 ^ 256

/-- Modelled from the spec: `(*state.IntraBlockState).AddBalance`, a method
of a package that is not among the sources. The state is the map from
addresses to balances, and the amount is added to the balance of `addr` in
256-bit arithmetic. -/
def AddBalance (state : Oracle.Address → Nat) (addr : Oracle.Address) (amount : Nat) :
    Oracle.Address → Nat :=
  fun a => if a = addr then (state a + amount) % twoTo256 else state a

/-- Lines 87-93: the block reward at block number `num`. -/
def selectReward (config : Config) (num : Nat) : Nat :=
  let r0 := FrontierBlockReward
  let r1 := if config.IsByzantium num then ByzantiumBlockReward else r0
  if config.IsConstantinople num then ConstantinopleBlockReward else r1

/-- Lines 101-104: the reward of an uncle, from the numbers `uncleNum` and
`headerNum` as `uint256.Int`. -/
def uncleReward (blockReward headerNum uncleNum : Nat) : Nat :=
  let r1 := (uncleNum + 8) % twoTo256
  let r2 := (r1 + twoTo256 - headerNum % twoTo256) % twoTo256
  let r3 := (r2 * blockReward) % twoTo256
  r3 / 8

/-- The loop of lines 99-109: `uncleRewards` and `reward` after the uncles
left; `none` when an uncle has a nil number, on which `uint256.FromBig`
panics. -/
def rewardLoop (blockReward headerNum : Nat) :
    List Oracle.Header → List Nat → Nat → Option (List Nat × Nat)
  | [], uncleRewards, reward => some (uncleRewards, reward)
  | uncle :: rest, uncleRewards, reward =>
    match uncle.Number with
    | none => none
    | some k =>
      let r := uncleReward blockReward headerNum (k % twoTo256)
      rewardLoop blockReward headerNum rest (uncleRewards ++ [r])
        ((reward + blockReward / 32) % twoTo256)

/-- The loop of lines 110-114: uncle `i` is paid `uncleRewards[i]`, as long
as there is such an entry. -/
def payUncles : (Oracle.Address → Nat) → List Oracle.Header → List Nat → Oracle.Address → Nat
  | state, uncle :: uncles, r :: uncleRewards =>
    payUncles (AddBalance state uncle.Coinbase r) uncles uncleRewards
  | state, _, _ => state

/-- `accumulateRewards`; `none` when the number of the header or of an uncle
is nil, before any balance is changed. -/
def accumulateRewards (config : Config) (state : Oracle.Address → Nat) (header : Oracle.Header)
    (uncles : List Oracle.Header) : Option (Oracle.Address → Nat) :=
  match header.Number with
  | none => none
  | some n =>
    let blockReward := selectReward config (n % 2 ^ 64)
    let headerNum := n % twoTo256
    match rewardLoop blockReward headerNum uncles [] blockReward with
    | none => none
    | some (uncleRewards, reward) =>
      some (AddBalance (payUncles state uncles uncleRewards) header.Coinbase reward)

/-- The block reward in the words of the claim: 5e18 before Byzantium, 3e18
from Byzantium and 2e18 from Constantinople. -/
def blockRewardSpec (config : Config) (num : Nat) : Nat :=
  if config.IsConstantinople num then 2 * 10 ^ 18
  else if config.IsByzantium num then 3 * 10 ^ 18
  else 5 * 10 ^ 18

/-- The reward of an uncle in the words of the claim:
`((uncle.Number + 8 - header.Number) * blockReward) / 8`, the product taken
modulo `2^256`. -/
def uncleRewardSpec (blockReward headerNumber uncleNumber : Nat) : Nat :=
  ((((uncleNumber : Int) + 8 - (headerNumber : Int)) * (blockReward : Int)) %
    ((2 : Int) ^ 256)).toNat / 8

/-- The reward of the miner in the words of the claim:
`blockReward + len(uncles) * (blockReward / 32)`, modulo `2^256`. -/
def minerRewardSpec (blockReward count : Nat) : Nat :=
  (blockReward + count * (blockReward / 32)) % 2 ^ 256

/-- What the claim says is added to the balance of `a`: the reward of every
uncle whose coinbase is `a`, and the reward of the miner when `a` is the
coinbase of the header. -/
def credited (blockReward headerNumber : Nat) (header : Oracle.Header)
    (uncles : List Oracle.Header) (a : Oracle.Address) : Nat :=
  ((uncles.filter (fun u => u.Coinbase = a)).map
      (fun u => uncleRewardSpec blockReward headerNumber (u.Number.getD 0))).sum +
    (if a = header.Coinbase then minerRewardSpec blockReward uncles.length else 0)

theorem selectReward_eq (config : Config) (num : Nat) :
    selectReward config num = blockRewardSpec config num := by
  unfold selectReward blockRewardSpec FrontierBlockReward ByzantiumBlockReward
    ConstantinopleBlockReward
  simp only
  split
  · rfl
  · split <;> rfl

theorem uncleReward_eq (blockReward headerNumber uncleNumber : Nat) :
    uncleReward blockReward (headerNumber % twoTo256) (uncleNumber % twoTo256) =
      uncleRewardSpec blockReward headerNumber uncleNumber := by
  unfold uncleReward uncleRewardSpec twoTo256
  simp only
  have h2 : ((((uncleNumber % 2 ^ 256 + 8) % 2 ^ 256 + 2 ^ 256 -
      headerNumber % 2 ^ 256 % 2 ^ 256) % 2 ^ 256 : Nat) : Int) =
      ((uncleNumber : Int) + 8 - (headerNumber : Int)) % (2 : Int) ^ 256 := by
    omega
  have h3 : ((((uncleNumber % 2 ^ 256 + 8) % 2 ^ 256 + 2 ^ 256 -
      headerNumber % 2 ^ 256 % 2 ^ 256) % 2 ^ 256 * blockReward % 2 ^ 256 : Nat) : Int) =
      (((uncleNumber : Int) + 8 - (headerNumber : Int)) * (blockReward : Int)) %
        (2 : Int) ^ 256 := by
    rw [Int.natCast_mod, Int.natCast_mul, h2]
    norm_num [Int.mul_emod, Int.emod_emod]
  rw [← h3, Int.toNat_natCast]

theorem rewardLoop_eq (blockReward headerNumber : Nat) :
    ∀ (uncles : List Oracle.Header) (acc : List Nat) (reward : Nat),
      (∀ u ∈ uncles, u.Number ≠ none) → reward < twoTo256 →
      rewardLoop blockReward (headerNumber % twoTo256) uncles acc reward =
        some (acc ++ uncles.map
            (fun u => uncleRewardSpec blockReward headerNumber (u.Number.getD 0)),
          (reward + uncles.length * (blockReward / 32)) % twoTo256) := by
  intro uncles
  induction uncles with
  | nil =>
    intro acc reward _ hr
    simp [rewardLoop, Nat.mod_eq_of_lt hr]
  | cons u rest ih =>
    intro acc reward hu hr
    have hnum : u.Number ≠ none := hu u (List.mem_cons_self _ _)
    cases hk : u.Number with
    | none => exact absurd hk hnum
    | some k =>
      simp only [rewardLoop, hk]
      rw [ih _ _ (fun v hv => hu v (List.mem_cons_of_mem _ hv))
        (Nat.mod_lt _ (by unfold twoTo256; positivity)), uncleReward_eq]
      simp only [List.map_cons, hk, Option.getD_some, List.append_assoc, List.singleton_append,
        List.length_cons, Nat.mod_add_mod]
      congr 2
      ring_nf

/-- The balance of `a` after the uncles are paid the rewards `f`. -/
theorem payUncles_eq (f : Oracle.Header → Nat) :
    ∀ (uncles : List Oracle.Header) (state : Oracle.Address → Nat) (a : Oracle.Address),
      payUncles state uncles (uncles.map f) a =
        if ∃ u ∈ uncles, u.Coinbase = a then
          (state a + ((uncles.filter (fun u => u.Coinbase = a)).map f).sum) % twoTo256
        else state a := by
  intro uncles
  induction uncles with
  | nil => intro state a; simp [payUncles]
  | cons u rest ih =>
    intro state a
    simp only [List.map_cons, payUncles]
    rw [ih]
    by_cases hu : u.Coinbase = a
    · have hex : ∃ v ∈ u :: rest, v.Coinbase = a := ⟨u, List.mem_cons_self _ _, hu⟩
      rw [if_pos hex]
      simp only [List.filter_cons, hu, decide_True, if_true, List.map_cons, List.sum_cons]
      unfold AddBalance
      simp only [hu, if_true]
      split
      · rw [Nat.mod_add_mod, Nat.add_assoc]
      · rename_i hno
        have hnil : rest.filter (fun v => decide (v.Coinbase = a)) = [] := by
          rw [List.filter_eq_nil_iff]
          intro v hv hva
          exact hno ⟨v, hv, by simpa using hva⟩
        rw [hnil]
        simp
    · have hiff : (∃ v ∈ u :: rest, v.Coinbase = a) ↔ ∃ v ∈ rest, v.Coinbase = a := by
        constructor
        · rintro ⟨v, hv, hva⟩
          rcases List.mem_cons.mp hv with h | h
          · subst h; exact absurd hva hu
          · exact ⟨v, h, hva⟩
        · rintro ⟨v, hv, hva⟩
          exact ⟨v, List.mem_cons_of_mem _ hv, hva⟩
      have hne : a ≠ u.Coinbase := fun h => hu h.symm
      simp only [hiff, List.filter_cons, hu, decide_False, Bool.false_eq_true, if_false]
      unfold AddBalance
      simp only [hne, if_false]

theorem blockRewardSpec_lt (config : Config) (num : Nat) :
    blockRewardSpec config num < twoTo256 := by
  unfold blockRewardSpec twoTo256
  split
  · decide
  · split <;> decide

/-- C25: for every header and uncle list (their numbers not nil),
`accumulateRewards` returns, and the balance of an address `a` is then the
old balance plus what the claim credits to `a`, modulo `2^256`: for each
uncle whose coinbase is `a` the amount `((uncle.Number + 8 - header.Number) *
blockReward) / 8` in 256-bit wrapping arithmetic, and when `a` is the
coinbase of the header the amount `blockReward + len(uncles) * (blockReward /
32)`; the balance of an address that is neither is unchanged. The block
reward is 5e18 before Byzantium, 3e18 from Byzantium and 2e18 from
Constantinople, at the number of the header as the `uint64` the code reads. -/
theorem C25_rewards (config : Config) (state : Oracle.Address → Nat) (header : Oracle.Header)
    (uncles : List Oracle.Header) (n : Nat) (hn : header.Number = some n)
    (hu : ∀ u ∈ uncles, u.Number ≠ none) :
    accumulateRewards config state header uncles =
      some (fun a =>
        if a = header.Coinbase ∨ ∃ u ∈ uncles, u.Coinbase = a then
          (state a + credited (blockRewardSpec config (n % 2 ^ 64)) n header uncles a) % 2 ^ 256
        else state a) := by
  unfold accumulateRewards
  rw [hn]
  simp only
  rw [selectReward_eq, rewardLoop_eq _ n uncles [] _ hu (blockRewardSpec_lt _ _)]
  simp only [List.nil_append, Option.some.injEq]
  funext a
  unfold AddBalance credited minerRewardSpec
  rw [payUncles_eq]
  unfold twoTo256
  by_cases ha : a = header.Coinbase
  · simp only [ha, true_or, if_true]
    split
    · generalize ((uncles.filter (fun u => decide (u.Coinbase = header.Coinbase))).map
        (fun u => uncleRewardSpec (blockRewardSpec config (n % 2 ^ 64)) n
          (u.Number.getD 0))).sum = total
      generalize blockRewardSpec config (n % 2 ^ 64) +
        uncles.length * (blockRewardSpec config (n % 2 ^ 64) / 32) = miner
      omega
    · rename_i hno
      have hnil : uncles.filter (fun v => decide (v.Coinbase = header.Coinbase)) = [] := by
        rw [List.filter_eq_nil_iff]
        intro v hv hva
        exact hno ⟨v, hv, by simpa using hva⟩
      rw [hnil]
      simp
  · simp only [ha, false_or, if_false, Nat.add_zero]

/-- A chain configuration in which no fork is active. -/
def Toy.frontier : Config :=
  { IsHomestead := fun _ => false, IsByzantium := fun _ => false,
    IsConstantinople := fun _ => false, IsMuirGlacier := fun _ => false,
    IsLondon := fun _ => false, IsArrowGlacier := fun _ => false,
    IsGrayGlacier := fun _ => false }

/-- An uncle with number 4 and the coinbase of `Oracle.Toy.child`. -/
def Toy.uncle : Oracle.Header :=
  { Oracle.Toy.parent with Number := some 4, Coinbase := Oracle.Toy.child.Coinbase }

/-- C25 on block 6 of the small environment with two uncles, numbers 5 and 4,
no fork active and all balances zero before: the coinbase of the first uncle
gets `7 * 5e18 / 8`, the coinbase of the block, which is also the coinbase of
the second uncle, gets `6 * 5e18 / 8 + 5e18 + 2 * (5e18 / 32)`, and the zero
address gets nothing. -/
theorem C25_rewards_witness :
    (accumulateRewards Toy.frontier (fun _ => 0) Oracle.Toy.child
      [Oracle.Toy.parent, Toy.uncle]).map
        (fun f => (f Oracle.Toy.parent.Coinbase, f Oracle.Toy.child.Coinbase,
          f Oracle.Address.zero)) =
      some (4375000000000000000, 9062500000000000000, 0) ∧
    accumulateRewards Toy.frontier (fun _ => 0) Oracle.Toy.child
        [Oracle.Toy.parent, Toy.uncle] =
      some (fun a =>
        if a = Oracle.Toy.child.Coinbase ∨
            ∃ u ∈ [Oracle.Toy.parent, Toy.uncle], u.Coinbase = a then
          (0 + credited (blockRewardSpec Toy.frontier (6 % 2 ^ 64)) 6 Oracle.Toy.child
            [Oracle.Toy.parent, Toy.uncle] a) % 2 ^ 256
        else 0) :=
  ⟨by decide,
    C25_rewards Toy.frontier (fun _ => 0) Oracle.Toy.child [Oracle.Toy.parent, Toy.uncle] 6
      rfl (by decide)⟩

/-! ## The choice of the difficulty rule -/

/-- The type of a difficulty rule: the arguments are `time`, `parentTime`,
`parentDifficulty`, `parentNumber` and `parentUncleHash`. -/
abbrev Rule := Nat → Nat → Int → Nat → Oracle.Hash → Int

/-- The variable `calcDifficultyEip5133` (line 44). -/
def calcDifficultyEip5133 (emptyUncleHash : Oracle.Hash) : Rule :=
  makeDifficultyCalculator emptyUncleHash 11400000

/-- The variable `calcDifficultyEip4345` (line 49). -/
def calcDifficultyEip4345 (emptyUncleHash : Oracle.Hash) : Rule :=
  makeDifficultyCalculator emptyUncleHash 10700000

/-- The variable `calcDifficultyEip3554` (line 54). -/
def calcDifficultyEip3554 (emptyUncleHash : Oracle.Hash) : Rule :=
  makeDifficultyCalculator emptyUncleHash 9700000

/-- The variable `calcDifficultyEip2384` (line 59). -/
def calcDifficultyEip2384 (emptyUncleHash : Oracle.Hash) : Rule :=
  makeDifficultyCalculator emptyUncleHash 9000000

/-- The variable `calcDifficultyConstantinople` (line 66). -/
def calcDifficultyConstantinople (emptyUncleHash : Oracle.Hash) : Rule :=
  makeDifficultyCalculator emptyUncleHash 5000000

/-- The variable `calcDifficultyByzantium` (line 72). -/
def calcDifficultyByzantium (emptyUncleHash : Oracle.Hash) : Rule :=
  makeDifficultyCalculator emptyUncleHash 3000000

/-- `CalcDifficulty`. `emptyUncleHash` and `durationLimit` are the constants
`types.EmptyUncleHash` and `params.DurationLimit`, declared outside the
sources. -/
def CalcDifficulty (emptyUncleHash : Oracle.Hash) (durationLimit : Int) (config : Config)
    (time parentTime : Nat) (parentDifficulty : Int) (parentNumber : Nat)
    (parentUncleHash : Oracle.Hash) : Int :=
  let next := addUint64 parentNumber 1
  if config.IsGrayGlacier next then
    calcDifficultyEip5133 emptyUncleHash time parentTime parentDifficulty parentNumber
      parentUncleHash
  else if config.IsArrowGlacier next then
    calcDifficultyEip4345 emptyUncleHash time parentTime parentDifficulty parentNumber
      parentUncleHash
  else if config.IsLondon next then
    calcDifficultyEip3554 emptyUncleHash time parentTime parentDifficulty parentNumber
      parentUncleHash
  else if config.IsMuirGlacier next then
    calcDifficultyEip2384 emptyUncleHash time parentTime parentDifficulty parentNumber
      parentUncleHash
  else if config.IsConstantinople next then
    calcDifficultyConstantinople emptyUncleHash time parentTime parentDifficulty parentNumber
      parentUncleHash
  else if config.IsByzantium next then
    calcDifficultyByzantium emptyUncleHash time parentTime parentDifficulty parentNumber
      parentUncleHash
  else if config.IsHomestead next then
    calcDifficultyHomestead time parentTime parentDifficulty parentNumber parentUncleHash
  else
    calcDifficultyFrontier durationLimit time parentTime parentDifficulty parentNumber
      parentUncleHash

/-- The fork blocks of a `chain.Config`, nil when the fork is not set. -/
structure ForkBlocks where
  HomesteadBlock : Option Nat
  ByzantiumBlock : Option Nat
  ConstantinopleBlock : Option Nat
  MuirGlacierBlock : Option Nat
  LondonBlock : Option Nat
  ArrowGlacierBlock : Option Nat
  GrayGlacierBlock : Option Nat

/-- The function `isForked` of `chain.Config`: a fork that is not set is not
active, and one that is set is active from its block on. -/
def isForked (s : Option Nat) (head : Nat) : Bool :=
  match s with
  | none => false
  | some b => decide (b % 2 ^ 64 ≤ head)

/-- The methods of a `chain.Config` with the fork blocks `c`. -/
def Config.ofBlocks (c : ForkBlocks) : Config :=
  { IsHomestead := isForked c.HomesteadBlock
    IsByzantium := isForked c.ByzantiumBlock
    IsConstantinople := isForked c.ConstantinopleBlock
    IsMuirGlacier := isForked c.MuirGlacierBlock
    IsLondon := isForked c.LondonBlock
    IsArrowGlacier := isForked c.ArrowGlacierBlock
    IsGrayGlacier := isForked c.GrayGlacierBlock }

/-- The configuration of the replayer, `chain.Config{ChainID: big.NewInt(288)}`
(`cmd/minierigon/main.go`, line 91): no fork block is set. -/
def replayerConfig : Config :=
  Config.ofBlocks
    { HomesteadBlock := none, ByzantiumBlock := none, ConstantinopleBlock := none,
      MuirGlacierBlock := none, LondonBlock := none, ArrowGlacierBlock := none,
      GrayGlacierBlock := none }

/-- A fork of the claim: whether it is active at a block, and its rule. -/
structure Fork where
  name : String
  active : Config → Nat → Bool
  rule : Rule

/-- The forks in the order of the claim, each with the rule of its bomb
delay. -/
def forkOrder (emptyUncleHash : Oracle.Hash) : List Fork :=
  [ ⟨"GrayGlacier", Config.IsGrayGlacier, makeDifficultyCalculator emptyUncleHash 11400000⟩,
    ⟨"ArrowGlacier", Config.IsArrowGlacier, makeDifficultyCalculator emptyUncleHash 10700000⟩,
    ⟨"London", Config.IsLondon, makeDifficultyCalculator emptyUncleHash 9700000⟩,
    ⟨"MuirGlacier", Config.IsMuirGlacier, makeDifficultyCalculator emptyUncleHash 9000000⟩,
    ⟨"Constantinople", Config.IsConstantinople,
      makeDifficultyCalculator emptyUncleHash 5000000⟩,
    ⟨"Byzantium", Config.IsByzantium, makeDifficultyCalculator emptyUncleHash 3000000⟩,
    ⟨"Homestead", Config.IsHomestead, calcDifficultyHomestead⟩ ]

/-- The rule of the first fork of the list that is active at block `next`,
and `otherwise` when none is. -/
def firstActive (forks : List Fork) (otherwise : Rule) (config : Config) (next : Nat) : Rule :=
  match forks.find? (fun f => f.active config next) with
  | some f => f.rule
  | none => otherwise

/-- A configuration in which Homestead is active from block 1150000 and
Byzantium from block 4370000. -/
def Toy.byzantium : Config :=
  Config.ofBlocks
    { HomesteadBlock := some 1150000, ByzantiumBlock := some 4370000,
      ConstantinopleBlock := none, MuirGlacierBlock := none, LondonBlock := none,
      ArrowGlacierBlock := none, GrayGlacierBlock := none }

/-- C31: `CalcDifficulty` evaluates the forks at block `next`, the `uint64`
sum `parentNumber + 1` (which is the exact sum unless `parentNumber` is
`2^64 - 1`), and returns the result of one rule: the rule of the first active
fork in the order GrayGlacier (bomb delay 11400000), ArrowGlacier (10700000),
London (9700000), MuirGlacier (9000000), Constantinople (5000000), Byzantium
(3000000), Homestead, and the Frontier rule when none is active. For a
configuration in which no fork is active at `next`, and for the configuration
of the replayer, which holds only a chain id, it equals
`calcDifficultyFrontier` on the same arguments. -/
theorem C31_rule_choice (emptyUncleHash : Oracle.Hash) (durationLimit : Int) (config : Config)
    (time parentTime : Nat) (parentDifficulty : Int) (parentNumber : Nat)
    (parentUncleHash : Oracle.Hash) :
    CalcDifficulty emptyUncleHash durationLimit config time parentTime parentDifficulty
        parentNumber parentUncleHash =
      firstActive (forkOrder emptyUncleHash) (calcDifficultyFrontier durationLimit) config
        (addUint64 parentNumber 1) time parentTime parentDifficulty parentNumber
        parentUncleHash ∧
    (parentNumber + 1 < 2 ^ 64 → addUint64 parentNumber 1 = parentNumber + 1) ∧
    ((∀ f ∈ forkOrder emptyUncleHash, f.active config (addUint64 parentNumber 1) = false) →
      CalcDifficulty emptyUncleHash durationLimit config time parentTime parentDifficulty
          parentNumber parentUncleHash =
        calcDifficultyFrontier durationLimit time parentTime parentDifficulty parentNumber
          parentUncleHash) ∧
    CalcDifficulty emptyUncleHash durationLimit replayerConfig time parentTime parentDifficulty
        parentNumber parentUncleHash =
      calcDifficultyFrontier durationLimit time parentTime parentDifficulty parentNumber
        parentUncleHash := by
  have hmain : ∀ c : Config,
      CalcDifficulty emptyUncleHash durationLimit c time parentTime parentDifficulty
          parentNumber parentUncleHash =
        firstActive (forkOrder emptyUncleHash) (calcDifficultyFrontier durationLimit) c
          (addUint64 parentNumber 1) time parentTime parentDifficulty parentNumber
          parentUncleHash := by
    intro c
    unfold CalcDifficulty firstActive forkOrder calcDifficultyEip5133 calcDifficultyEip4345
      calcDifficultyEip3554 calcDifficultyEip2384 calcDifficultyConstantinople
      calcDifficultyByzantium
    simp only [List.find?_cons, List.find?_nil]
    cases c.IsGrayGlacier (addUint64 parentNumber 1) <;>
      cases c.IsArrowGlacier (addUint64 parentNumber 1) <;>
      cases c.IsLondon (addUint64 parentNumber 1) <;>
      cases c.IsMuirGlacier (addUint64 parentNumber 1) <;>
      cases c.IsConstantinople (addUint64 parentNumber 1) <;>
      cases c.IsByzantium (addUint64 parentNumber 1) <;>
      cases c.IsHomestead (addUint64 parentNumber 1) <;> rfl
  refine ⟨hmain config, ?_, ?_, ?_⟩
  · intro h
    unfold addUint64
    exact Nat.mod_eq_of_lt h
  · intro hnone
    rw [hmain]
    unfold firstActive
    have hfind : (forkOrder emptyUncleHash).find?
        (fun f => f.active config (addUint64 parentNumber 1)) = none := by
      rw [List.find?_eq_none]
      intro f hf
      rw [hnone f hf]
      simp
    rw [hfind]
  · rw [hmain]
    rfl

/-- C31 on two configurations, for the parent block 4400000: with Homestead
and Byzantium active the result is the one of the Byzantium rule, bomb delay
3000000, and with the configuration of the replayer it is the one of the
Frontier rule. -/
theorem C31_example :
    CalcDifficulty Oracle.Hash.zero 13 Toy.byzantium 1013 1000 (2 ^ 40) 4400000
        Oracle.Hash.zero =
      makeDifficultyCalculator Oracle.Hash.zero 3000000 1013 1000 (2 ^ 40) 4400000
        Oracle.Hash.zero ∧
    CalcDifficulty Oracle.Hash.zero 13 replayerConfig 1013 1000 (2 ^ 40) 4400000
        Oracle.Hash.zero =
      calcDifficultyFrontier 13 1013 1000 (2 ^ 40) 4400000 Oracle.Hash.zero := by
  refine ⟨by decide, by decide⟩

end Ethash

/-! # The deposit transaction -/

namespace Types

open Oracle (Byte Bytes Hash Address setBytes BytesToHash bigBytes bytesToNat)

set_option maxRecDepth 1000000

/-! ## The encoder buffer of `go-ethereum/rlp` -/

/-- The function `putint`: the big-endian bytes of `i` without leading zero
bytes, and one zero byte for 0. -/
def putint (i : Nat) : Bytes := if i = 0 then [0] else bigBytes i

/-- The function `puthead`: the header of a value of `size` bytes, one tag
byte holding the size below 56 and a tag byte followed by the bytes of the
size otherwise. -/
def puthead (smalltag largetag : Nat) (size : Nat) : Bytes :=
  if size < 56 then [Fin.ofNat (smalltag + size)]
  else Fin.ofNat (largetag + (putint size).length) :: putint size

/-- The type `listhead`: `offset` is the index of the header in the string
data, `size` the size of the encoded content. -/
structure ListHead where
  offset : Nat
  size : Nat
deriving DecidableEq

/-- The method `listhead.encode`. -/
def ListHead.encode (head : ListHead) : Bytes := puthead 0xC0 0xF7 head.size

/-- An `rlp.EncoderBuffer`: the string data `str`, the list headers `lheads`
in the order in which the lists were opened, and the size `lhsize` of the
headers of the lists that are closed. -/
structure EncoderBuffer where
  str : Bytes
  lheads : List ListHead
  lhsize : Nat
deriving DecidableEq

/-- The function `rlp.NewEncoderBuffer` on an empty `bytes.Buffer`. -/
def NewEncoderBuffer : EncoderBuffer := { str := [], lheads := [], lhsize := 0 }

/-- The method `size`: the size of the output so far. -/
def EncoderBuffer.size (w : EncoderBuffer) : Nat := w.str.length + w.lhsize

/-- The method `WriteUint64`. -/
def EncoderBuffer.WriteUint64 (w : EncoderBuffer) (i : Nat) : EncoderBuffer :=
  if i = 0 then { w with str := w.str ++ [0x80] }
  else if i < 128 then { w with str := w.str ++ [Fin.ofNat i] }
  else { w with str := w.str ++ Fin.ofNat (0x80 + (putint i).length) :: putint i }

/-- The method `encodeStringHeader`. -/
def EncoderBuffer.encodeStringHeader (w : EncoderBuffer) (size : Nat) : EncoderBuffer :=
  if size < 56 then { w with str := w.str ++ [Fin.ofNat (0x80 + size)] }
  else { w with str := w.str ++ Fin.ofNat (0xB7 + (putint size).length) :: putint size }

/-- The method `WriteBytes`: a single byte up to `0x7F` is written as it is,
any other string after its header. -/
def EncoderBuffer.WriteBytes (w : EncoderBuffer) (b : Bytes) : EncoderBuffer :=
  match b with
  | [x] =>
    if x.val ≤ 0x7F then { w with str := w.str ++ [x] }
    else
      let w1 := w.encodeStringHeader 1
      { w1 with str := w1.str ++ [x] }
  | _ =>
    let w1 := w.encodeStringHeader b.length
    { w1 with str := w1.str ++ b }

/-- The method `WriteBool`. -/
def EncoderBuffer.WriteBool (w : EncoderBuffer) (b : Bool) : EncoderBuffer :=
  if b then { w with str := w.str ++ [0x01] } else { w with str := w.str ++ [0x80] }

/-- The method `List`: it opens a list and returns its index. -/
def EncoderBuffer.List (w : EncoderBuffer) : Nat × EncoderBuffer :=
  (w.lheads.length, { w with lheads := w.lheads ++ [{ offset := w.str.length, size := w.lhsize }] })

/-- The method `ListEnd`: it closes the list of the index; `none` is the
panic for an index that is out of range. -/
def EncoderBuffer.ListEnd (w : EncoderBuffer) (index : Nat) : Option EncoderBuffer :=
  match w.lheads.get? index with
  | none => none
  | some lh =>
    let size := w.size - lh.offset - lh.size
    some { w with
      lheads := w.lheads.set index { lh with size := size }
      lhsize := if size < 56 then w.lhsize + 1 else w.lhsize + (1 + (putint size).length) }

/-- The loop of the method `copyTo`: the string data from `strpos` on, with
each list header at its offset. -/
def copyToAux (str : Bytes) : Nat → List ListHead → Bytes
  | strpos, [] => str.drop strpos
  | strpos, head :: rest =>
    (str.drop strpos).take (head.offset - strpos) ++ head.encode ++
      copyToAux str (strpos + (head.offset - strpos)) rest

/-- The method `ToBytes`: the encoded output. -/
def EncoderBuffer.ToBytes (w : EncoderBuffer) : Bytes := copyToAux w.str 0 w.lheads

/-! ## The deposit transaction and its encoder -/

/-- The type `DepositTransaction`. A pointer field is an option, `none` for
nil; a `uint256.Int` is a number below `2^256` and a `uint64` a number below
`2^64`. The embedded `TransactionMisc`, which holds caches only, is left
out. -/
structure DepositTransaction where
  SourceHash : Option Hash
  Nonce : Nat
  From : Option Address
  To : Option Address
  Mint : Option Nat
  Value : Option Nat
  GasLimit : Nat
  IsSystemTx : Bool
  Data : Bytes
deriving DecidableEq

/-- The method `DepositTransaction.EncodeRLP`: the bytes that it writes to
`w`, and `none` when it panics on a nil pointer. `depositTxType` is the
constant `DepositTxType`, declared outside the sources. `Hash.Bytes` and
`Address.Bytes` are the bytes of the array, and `uint256.Int.Bytes` the
big-endian bytes of the number without leading zero bytes. -/
def DepositTransaction.EncodeRLP (depositTxType : Nat) (tx : DepositTransaction) :
    Option Bytes :=
  let buf := NewEncoderBuffer
  let buf := buf.WriteUint64 depositTxType
  let (idx1, buf) := buf.List
  match tx.SourceHash with
  | none => none
  | some sourceHash =>
  let buf := buf.WriteBytes sourceHash.bytes
  match tx.From with
  | none => none
  | some sender =>
  let buf := buf.WriteBytes sender.bytes
  match tx.To with
  | none => none
  | some recipient =>
  let buf := buf.WriteBytes recipient.bytes
  match tx.Mint with
  | none => none
  | some mint =>
  let buf := buf.WriteBytes (bigBytes mint)
  match tx.Value with
  | none => none
  | some value =>
  let buf := buf.WriteBytes (bigBytes value)
  let buf := buf.WriteUint64 tx.GasLimit
  let buf := buf.WriteBool tx.IsSystemTx
  let buf := buf.WriteBytes tx.Data
  match buf.ListEnd idx1 with
  | none => none
  | some buf => some buf.ToBytes


/-! ## The decoding stream of package `rlp` -/

/-- Modelled from the spec: the errors that `DecodeRLP` returns. They are the
error values of package `rlp`, which is not among the sources, and of package
`io`, and the errors that `DecodeRLP` makes with `fmt.Errorf`, which keep the
text before the colon and the argument. -/
inductive Error where
  | EOF
  | ErrUnexpectedEOF
  | EOL
  | ErrExpectedString
  | ErrExpectedList
  | ErrCanonInt
  | ErrCanonSize
  | ErrElemTooLarge
  | ErrValueTooLarge
  | errNotInList
  | errNotAtEOL
  | errUintOverflow
  | invalidBoolean (num : Nat)
  | wrongSize (field : String) (size : Nat)
  | wrap (context : String) (cause : Error)
deriving DecidableEq

/-- Modelled from the spec: the type `rlp.Kind`, the kind of the value ahead
in a stream. -/
inductive Kind where
  | Byte
  | String
  | List
deriving DecidableEq

/-- Modelled from the spec: the type `rlp.Stream`, whose package is not among
the sources. `input` holds the bytes of the reader that are not read yet,
`remaining` and `limited` are the input limit, and `stack` holds, innermost
list first, the number of bytes left in each list that is open. The state is
the one between two values: the fields that keep a header read ahead by `Kind`
are left out, because each method below reads the header it needs and
`DecodeRLP` returns at the first error. -/
structure Stream where
  input : Bytes
  remaining : Nat
  limited : Bool
  stack : List Nat
deriving DecidableEq

/-- Modelled from the spec: `rlp.NewStream` on a reader of the byte slice
`input`; the limit is `inputLimit`, and the length of the slice when
`inputLimit` is 0. -/
def NewStream (input : Bytes) (inputLimit : Nat) : Stream :=
  { input := input
    remaining := if inputLimit > 0 then inputLimit else input.length
    limited := true
    stack := [] }

/-- Modelled from the spec: the method `willRead` of `rlp.Stream`. A read of
`n` bytes must fit in the innermost open list and in the input limit. -/
def Stream.willRead (s : Stream) (n : Nat) : Except Error Stream :=
  let inList : Except Error Stream :=
    match s.stack with
    | [] => .ok s
    | tos :: rest =>
      if n > tos then .error .ErrElemTooLarge else .ok { s with stack := (tos - n) :: rest }
  match inList with
  | .error e => .error e
  | .ok s1 =>
    if s1.limited then
      if n > s1.remaining then .error .ErrValueTooLarge
      else .ok { s1 with remaining := s1.remaining - n }
    else .ok s1

/-- Modelled from the spec: the method `readByte` of `rlp.Stream`. -/
def Stream.readByte (s : Stream) : Except Error (Byte × Stream) :=
  match s.willRead 1 with
  | .error e => .error e
  | .ok s1 =>
    match s1.input with
    | [] => .error .ErrUnexpectedEOF
    | b :: rest => .ok (b, { s1 with input := rest })

/-- Modelled from the spec: the method `readFull` of `rlp.Stream`, for a
buffer of `n` bytes. -/
def Stream.readFull (s : Stream) (n : Nat) : Except Error (Oracle.Bytes × Stream) :=
  match s.willRead n with
  | .error e => .error e
  | .ok s1 =>
    if s1.input.length < n then .error .ErrUnexpectedEOF
    else .ok (s1.input.take n, { s1 with input := s1.input.drop n })

/-- Modelled from the spec: the method `readUint` of `rlp.Stream`: a
big-endian number of `size` bytes, which has no leading zero byte when `size`
is above 1. -/
def Stream.readUint (s : Stream) (size : Nat) : Except Error (Nat × Stream) :=
  if size = 0 then .ok (0, s)
  else if size = 1 then
    match s.readByte with
    | .error e => .error e
    | .ok (b, s1) => .ok (b.val, s1)
  else
    match s.readFull size with
    | .error e => .error e
    | .ok (buf, s1) =>
      if buf.head? = some 0 then .error .ErrCanonSize else .ok (bytesToNat buf, s1)

/-- Modelled from the spec: the method `readKind` of `rlp.Stream`. It reads
the header of the value ahead and returns the kind, the size and, for a
single byte, the byte. -/
def Stream.readKind (s : Stream) : Except Error (Types.Kind × Nat × Byte × Stream) :=
  match s.readByte with
  | .error e =>
    if s.stack.isEmpty then
      match e with
      | .ErrUnexpectedEOF => .error .EOF
      | .ErrValueTooLarge => .error .EOF
      | _ => .error e
    else .error e
  | .ok (b, s1) =>
    if b.val < 0x80 then .ok (.Byte, 0, b, s1)
    else if b.val < 0xB8 then .ok (.String, b.val - 0x80, 0, s1)
    else if b.val < 0xC0 then
      match s1.readUint (b.val - 0xB7) with
      | .error e => .error e
      | .ok (size, s2) => if size < 56 then .error .ErrCanonSize else .ok (.String, size, 0, s2)
    else if b.val < 0xF8 then .ok (.List, b.val - 0xC0, 0, s1)
    else
      match s1.readUint (b.val - 0xF7) with
      | .error e => .error e
      | .ok (size, s2) => if size < 56 then .error .ErrCanonSize else .ok (.List, size, 0, s2)

/-- Modelled from the spec: the method `Kind` of `rlp.Stream`. At the end of
the innermost list it returns `EOL`; a value must fit in the list that holds
it, and at top level in the input limit. -/
def Stream.Kind (s : Stream) : Except Error (Types.Kind × Nat × Byte × Stream) :=
  if s.stack.head? = some 0 then .error .EOL
  else
    match s.readKind with
    | .error e => .error e
    | .ok (kind, size, byteval, s1) =>
      match s1.stack with
      | [] =>
        if s1.limited && decide (size > s1.remaining) then .error .ErrValueTooLarge
        else .ok (kind, size, byteval, s1)
      | tos :: _ =>
        if size > tos then .error .ErrElemTooLarge else .ok (kind, size, byteval, s1)

/-- Modelled from the spec: the method `Bytes` of `rlp.Stream`. It reads a
string; a string of one byte below 128 that comes with a header is not
canonical. -/
def Stream.Bytes (s : Stream) : Except Error (Oracle.Bytes × Stream) :=
  match s.Kind with
  | .error e => .error e
  | .ok (kind, size, byteval, s1) =>
    match kind with
    | .Byte => .ok ([byteval], s1)
    | .String =>
      match s1.readFull size with
      | .error e => .error e
      | .ok (b, s2) =>
        if size = 1 ∧ (b.headD 0).val < 128 then .error .ErrCanonSize else .ok (b, s2)
    | .List => .error .ErrExpectedString

/-- Modelled from the spec: the method `uint` of `rlp.Stream`: a number of at
most `maxbits` bits in canonical form. -/
def Stream.uint (s : Stream) (maxbits : Nat) : Except Error (Nat × Stream) :=
  match s.Kind with
  | .error e => .error e
  | .ok (kind, size, byteval, s1) =>
    match kind with
    | .Byte => if byteval.val = 0 then .error .ErrCanonInt else .ok (byteval.val, s1)
    | .String =>
      if size > maxbits / 8 then .error .errUintOverflow
      else
        match s1.readUint size with
        | .error .ErrCanonSize => .error .ErrCanonInt
        | .error e => .error e
        | .ok (v, s2) => if size > 0 ∧ v < 128 then .error .ErrCanonSize else .ok (v, s2)
    | .List => .error .ErrExpectedString

/-- Modelled from the spec: the method `Uint` of `rlp.Stream`. -/
def Stream.Uint (s : Stream) : Except Error (Nat × Stream) := s.uint 64

/-- Modelled from the spec: the method `Bool` of `rlp.Stream`. -/
def Stream.Bool (s : Stream) : Except Error (Bool × Stream) :=
  match s.uint 8 with
  | .error e => .error e
  | .ok (num, s1) =>
    if num = 0 then .ok (false, s1)
    else if num = 1 then .ok (true, s1)
    else .error (.invalidBoolean num)

/-- Modelled from the spec: the method `bigIntBytes` of `rlp.Stream`: the
bytes of a number in canonical form, without leading zero byte. -/
def Stream.bigIntBytes (s : Stream) : Except Error (Oracle.Bytes × Stream) :=
  match s.Kind with
  | .error e => .error e
  | .ok (kind, size, byteval, s1) =>
    let read : Except Error (Oracle.Bytes × Stream) :=
      match kind with
      | .List => .error .ErrExpectedString
      | .Byte => .ok ([byteval], s1)
      | .String =>
        if size = 0 then .ok ([], s1)
        else
          match s1.readFull size with
          | .error e => .error e
          | .ok (b, s2) =>
            if size = 1 ∧ (b.headD 0).val < 128 then .error .ErrCanonSize else .ok (b, s2)
    match read with
    | .error e => .error e
    | .ok (buffer, s2) =>
      if buffer.head? = some 0 then .error .ErrCanonInt else .ok (buffer, s2)

/-- Modelled from the spec: the method `Uint256Bytes` of `rlp.Stream`: the
bytes of a number of at most 32 bytes. -/
def Stream.Uint256Bytes (s : Stream) : Except Error (Oracle.Bytes × Stream) :=
  match s.bigIntBytes with
  | .error e => .error e
  | .ok (b, s1) => if b.length > 32 then .error .errUintOverflow else .ok (b, s1)

/-- Modelled from the spec: the method `List` of `rlp.Stream`: it reads the
header of a list, opens the list and returns its size. The list around it has
the size of the new list less to read. -/
def Stream.List (s : Stream) : Except Error (Nat × Stream) :=
  match s.Kind with
  | .error e => .error e
  | .ok (kind, size, _, s1) =>
    match kind with
    | .List =>
      match s1.stack with
      | [] => .ok (size, { s1 with stack := [size] })
      | tos :: rest => .ok (size, { s1 with stack := size :: (tos - size) :: rest })
    | _ => .error .ErrExpectedList

/-- Modelled from the spec: the method `ListEnd` of `rlp.Stream`: it closes
the innermost list, which must have been read to its end. -/
def Stream.ListEnd (s : Stream) : Except Error Stream :=
  match s.stack with
  | [] => .error .errNotInList
  | tos :: rest => if tos ≠ 0 then .error .errNotAtEOL else .ok { s with stack := rest }

/-! ## The decoder of the deposit transaction -/

/-- The method `DepositTransaction.DecodeRLP`. The receiver `tx` is updated
field by field; the result is the transaction and the stream after the call,
or the error. `Hash.SetBytes` is `setBytes 32` and `uint256.Int.SetBytes`
the big-endian value of the bytes modulo `2^256`. -/
def DepositTransaction.DecodeRLP (tx : DepositTransaction) (s : Stream) :
    Except Error (DepositTransaction × Stream) :=
  match s.List with
  | .error err => .error (.wrap "list header" err)
  | .ok (_, s) =>
  let tx := { tx with Nonce := 0xfffffffffffffffd }
  match s.Bytes with
  | .error err => .error (.wrap "read SourceHash" err)
  | .ok (b, s) =>
  let tx := { tx with SourceHash := some (BytesToHash b) }
  match s.Bytes with
  | .error err => .error (.wrap "read From" err)
  | .ok (b, s) =>
  if h : b.length ≠ 20 then .error (.wrongSize "From" b.length)
  else
  let tx := { tx with From := some ⟨b, Decidable.of_not_not h⟩ }
  match s.Bytes with
  | .error err => .error (.wrap "read To" err)
  | .ok (b, s) =>
  if h : b.length ≠ 20 then .error (.wrongSize "To" b.length)
  else
  let tx := { tx with To := some ⟨b, Decidable.of_not_not h⟩ }
  match s.Uint256Bytes with
  | .error err => .error (.wrap "read Mint" err)
  | .ok (b, s) =>
  let tx := { tx with Mint := some (bytesToNat b % 2 ^ 256) }
  match s.Uint256Bytes with
  | .error err => .error (.wrap "read Value" err)
  | .ok (b, s) =>
  let tx := { tx with Value := some (bytesToNat b % 2 ^ 256) }
  match s.Uint with
  | .error err => .error (.wrap "read GasLimit" err)
  | .ok (gasLimit, s) =>
  let tx := { tx with GasLimit := gasLimit }
  match s.Bool with
  | .error err => .error (.wrap "read IsSystemTx" err)
  | .ok (isSystemTx, s) =>
  let tx := { tx with IsSystemTx := isSystemTx }
  match s.Bytes with
  | .error err => .error (.wrap "read Data" err)
  | .ok (data, s) =>
  let tx := { tx with Data := data }
  match s.ListEnd with
  | .error err => .error (.wrap "close tx struct" err)
  | .ok s => .ok (tx, s)

/-! ## Encodings and positions in a stream -/

/-- A byte string is canonical when it does not start with a zero byte. -/
def Canonical (b : Bytes) : Prop := b.head? ≠ some 0

instance (b : Bytes) : Decidable (Canonical b) :=
  inferInstanceAs (Decidable (b.head? ≠ some 0))

/-- A read of `n` bytes is within the input limit and within the innermost
open list. -/
def Room (s : Stream) (n : Nat) : Prop :=
  (s.limited = true → n ≤ s.remaining) ∧ n ≤ s.stack.headD n

/-- The stream after `k` bytes were read. -/
def advance (s : Stream) (k : Nat) : Stream :=
  { input := s.input.drop k
    remaining := if s.limited then s.remaining - k else s.remaining
    limited := s.limited
    stack :=
      match s.stack with
      | [] => []
      | tos :: rest => (tos - k) :: rest }

/-- The stream `s` has the bytes `enc` ahead, reads them, and is `t`
afterwards. -/
def Reads (s : Stream) (enc : Bytes) (t : Stream) : Prop :=
  Room s enc.length ∧ enc <+: s.input ∧ t = advance s enc.length

/-- The RLP encoding of the string `b`: a single byte up to `0x7F` is its own
encoding, any other string follows its header. -/
def encString (b : Bytes) : Bytes :=
  match b with
  | [x] => if x.val ≤ 0x7F then [x] else puthead 0x80 0xB7 1 ++ [x]
  | _ => puthead 0x80 0xB7 b.length ++ b

/-- The RLP encoding of a boolean. -/
def encBool (b : Bool) : Bytes := if b then [0x01] else [0x80]

/-- A value of `size` bytes fits where `Kind` checks it: in the innermost open
list, and at top level in the input limit. -/
def KindRoom (t : Stream) (size : Nat) : Prop :=
  match t.stack with
  | [] => t.limited = true → size ≤ t.remaining
  | tos :: _ => size ≤ tos

/-- The stream after the header of a list of `size` bytes was read: the list
is open, and the list around it has `size` bytes less to read. -/
def openList (s : Stream) (size : Nat) : Stream :=
  { s with
    stack :=
      match s.stack with
      | [] => [size]
      | tos :: rest => size :: (tos - size) :: rest }

/-- The bytes that `WriteUint64` appends for the number `i`. -/
def encUint (i : Nat) : Bytes := (NewEncoderBuffer.WriteUint64 i).str

/-- The items of a deposit transaction, one after the other. -/
def depositPayload (sourceHash sender recipient : Bytes) (mint value gasLimit : Nat)
    (isSystemTx : Bool) (data : Bytes) : Bytes :=
  encString sourceHash ++ encString sender ++ encString recipient ++
    encString (bigBytes mint) ++ encString (bigBytes value) ++ encString (bigBytes gasLimit) ++
    encBool isSystemTx ++ encString data

/-- The RLP list of the eight items of a deposit transaction: the source
hash, the sender and the recipient as strings, the numbers `mint`, `value` and
`gasLimit`, the boolean and the data. -/
def depositList (sourceHash sender recipient : Bytes) (mint value gasLimit : Nat)
    (isSystemTx : Bool) (data : Bytes) : Bytes :=
  puthead 0xC0 0xF7
      (depositPayload sourceHash sender recipient mint value gasLimit isSystemTx data).length ++
    depositPayload sourceHash sender recipient mint value gasLimit isSystemTx data

/-- A transaction for the examples. -/
def Toy.tx : DepositTransaction :=
  { SourceHash := some (BytesToHash [1, 2, 3])
    Nonce := 7
    From := some (Oracle.BytesToAddress [0xaa])
    To := some (Oracle.BytesToAddress [0xbb, 0xcc])
    Mint := some 1000
    Value := some 0
    GasLimit := 21000
    IsSystemTx := true
    Data := [0xde, 0xad] }

/-- The bytes `input` start with the RLP list of exactly the eight expected
items in order: the source hash, a string; the sender and the recipient,
strings of 20 bytes; `mint` and `value`, numbers below `2^256`; the gas limit,
a number below `2^64`; the boolean; and the data, a string. The claim gives no
length for the source hash. -/
def IsDepositList (input : Bytes) : Prop :=
  ∃ (sourceHash sender recipient : Bytes) (mint value gasLimit : Nat) (isSystemTx : Bool)
    (data : Bytes),
    sender.length = 20 ∧ recipient.length = 20 ∧ sourceHash.length < 2 ^ 64 ∧
    mint < 2 ^ 256 ∧ value < 2 ^ 256 ∧ gasLimit < 2 ^ 64 ∧ data.length < 2 ^ 64 ∧
    depositList sourceHash sender recipient mint value gasLimit isSystemTx data <+: input

/-! ## Big-endian bytes without leading zero -/

theorem bigBytes_zero : bigBytes 0 = [] := by
  simp [bigBytes, Oracle.bigBytesAux]

theorem byte_ofNat_val (n : Nat) (h : n < 256) : (Fin.ofNat n : Byte).val = n := by
  simp [Fin.ofNat]
  omega

theorem byte_ofNat_self (x : Byte) : (Fin.ofNat x.val : Byte) = x := by
  apply Fin.ext
  rw [byte_ofNat_val _ x.isLt]

theorem bigBytesAux_zero (fuel : Nat) (acc : Bytes) : Oracle.bigBytesAux fuel 0 acc = acc := by
  cases fuel <;> simp [Oracle.bigBytesAux]

theorem bigBytesAux_canonical (fuel : Nat) :
    ∀ (n : Nat) (acc : Bytes), 0 < n → n ≤ fuel →
      ∃ h t, Oracle.bigBytesAux fuel n acc = h :: t ∧ h ≠ 0 := by
  induction fuel with
  | zero => intro n acc h0 hn; omega
  | succ fuel ih =>
    intro n acc h0 hn
    unfold Oracle.bigBytesAux
    rw [if_neg (by omega)]
    by_cases hd : n / 256 = 0
    · rw [hd, bigBytesAux_zero]
      refine ⟨_, _, rfl, ?_⟩
      intro hz
      have hv := congrArg Fin.val hz
      rw [byte_ofNat_val _ (Nat.mod_lt _ (by norm_num))] at hv
      have : n < 256 := by
        by_contra hge
        have : 1 ≤ n / 256 := (Nat.one_le_div_iff (by norm_num)).2 (by omega)
        omega
      simp at hv
      omega
    · exact ih (n / 256) _ (by omega) (by omega)

/-- The bytes of a positive number start with a byte that is not zero. -/
theorem bigBytes_pos (n : Nat) (h : 0 < n) : ∃ x t, bigBytes n = x :: t ∧ x ≠ 0 := by
  unfold bigBytes
  exact bigBytesAux_canonical _ _ _ (by simpa using h) (by simp)

theorem bigBytes_canonical (n : Nat) : Canonical (bigBytes n) := by
  unfold Canonical
  rcases Nat.eq_zero_or_pos n with h | h
  · subst h
    rw [show ((0 : Nat) : Int) = 0 from rfl, bigBytes_zero]
    simp
  · obtain ⟨x, t, hx, hne⟩ := bigBytes_pos n h
    rw [hx]
    simpa using hne

theorem bytesToNat_bigBytes_nat (n : Nat) : bytesToNat (bigBytes n) = n := by
  rw [Oracle.bytesToNat_bigBytes]
  simp

/-- A canonical string that is not empty has a value of at least
`256 ^ (length - 1)`. -/
theorem canonical_le (x : Byte) (t : Bytes) (h : x ≠ 0) :
    256 ^ t.length ≤ bytesToNat (x :: t) := by
  rw [Oracle.bytesToNat_cons]
  have hx : 1 ≤ x.val := by
    rcases Nat.eq_zero_or_pos x.val with h0 | h0
    · exact absurd (Fin.ext h0) h
    · exact h0
  calc 256 ^ t.length = 1 * 256 ^ t.length := by ring
    _ ≤ x.val * 256 ^ t.length := Nat.mul_le_mul_right _ hx
    _ ≤ _ := Nat.le_add_right _ _

/-- Two canonical strings with the same value are equal. -/
theorem canonical_unique (a b : Bytes) (ha : Canonical a) (hb : Canonical b)
    (hv : bytesToNat a = bytesToNat b) : a = b := by
  have key : ∀ (a b : Bytes), Canonical a → Canonical b → bytesToNat a = bytesToNat b →
      a.length ≤ b.length := by
    intro a b ha _ hv
    cases a with
    | nil => simp
    | cons x t =>
      have hx : x ≠ 0 := by
        intro h0
        apply ha
        simp [h0]
      have h1 := canonical_le x t hx
      have h2 := Oracle.bytesToNat_lt b
      rw [hv] at h1
      have h3 : 256 ^ t.length < 256 ^ b.length := lt_of_le_of_lt h1 h2
      have h4 : t.length < b.length := (Nat.pow_lt_pow_iff_right (by norm_num)).1 h3
      simp only [List.length_cons]
      omega
  have hl : a.length = b.length :=
    Nat.le_antisymm (key a b ha hb hv) (key b a hb ha hv.symm)
  exact Oracle.bytesToNat_injective a b hl hv

/-- A canonical string is the bytes of its value. -/
theorem bigBytes_bytesToNat (b : Bytes) (h : Canonical b) : bigBytes (bytesToNat b) = b :=
  canonical_unique _ _ (bigBytes_canonical _) h (bytesToNat_bigBytes_nat _)

theorem bigBytes_length_le (n k : Nat) (h : n < 256 ^ k) : (bigBytes n).length ≤ k :=
  Oracle.bigBytes_length n k (by simpa using h)

theorem bigBytes_ne_nil (n : Nat) (h : 0 < n) : bigBytes n ≠ [] := by
  obtain ⟨x, t, hx, _⟩ := bigBytes_pos n h
  rw [hx]
  simp

/-- The bytes of a number below 256 that is not 0. -/
theorem bigBytes_byte (n : Nat) (h0 : 0 < n) (h : n < 256) : bigBytes n = [Fin.ofNat n] := by
  apply canonical_unique _ _ (bigBytes_canonical _)
  · unfold Canonical
    simp only [List.head?_cons, ne_eq, Option.some.injEq]
    intro hz
    have hv := congrArg Fin.val hz
    rw [byte_ofNat_val _ h] at hv
    simp at hv
    omega
  · rw [bytesToNat_bigBytes_nat, Oracle.bytesToNat_cons, byte_ofNat_val _ h]
    simp [bytesToNat]

/-! ## Reading bytes from a stream -/

theorem willRead_ok_iff (s t : Stream) (n : Nat) :
    s.willRead n = .ok t ↔ Room s n ∧ t = { advance s n with input := s.input } := by
  rcases s with ⟨input, remaining, limited, stack⟩
  cases stack with
  | nil =>
    cases limited
    · simp [Stream.willRead, Room, advance, eq_comm]
    · by_cases h : n > remaining
      · simp [Stream.willRead, Room, advance, h]
      · simp [Stream.willRead, Room, advance, h, eq_comm]
        try omega
  | cons tos rest =>
    by_cases h1 : n > tos
    · simp [Stream.willRead, Room, advance, h1]
    · cases limited
      · simp [Stream.willRead, Room, advance, h1, eq_comm]
        try (intro _; omega)
      · by_cases h : n > remaining
        · simp [Stream.willRead, Room, advance, h1, h]
          try omega
        · simp [Stream.willRead, Room, advance, h1, h, eq_comm]
          try omega

theorem readFull_ok_iff (s t : Stream) (n : Nat) (b : Bytes) :
    s.readFull n = .ok (b, t) ↔ b.length = n ∧ Reads s b t := by
  unfold Stream.readFull
  constructor
  · intro h
    split at h
    · exact absurd h (by simp)
    · rename_i s1 hw
      rw [willRead_ok_iff] at hw
      obtain ⟨hroom, hs1⟩ := hw
      subst hs1
      simp only at h
      split at h
      · exact absurd h (by simp)
      · rename_i hlen
        simp only [Except.ok.injEq, Prod.mk.injEq] at h
        obtain ⟨hb, ht⟩ := h
        subst hb
        have hl : (List.take n s.input).length = n := by
          rw [List.length_take]
          omega
        refine ⟨hl, ?_, List.take_prefix _ _, ?_⟩
        · rw [hl]; exact hroom
        · rw [hl, ← ht]
          simp [advance]
  · rintro ⟨hl, hroom, hpre, ht⟩
    subst hl
    have hw : s.willRead b.length = .ok { advance s b.length with input := s.input } :=
      (willRead_ok_iff _ _ _).2 ⟨hroom, rfl⟩
    rw [hw]
    simp only
    have hle : b.length ≤ s.input.length := hpre.length_le
    rw [if_neg (by omega)]
    have htake : List.take b.length s.input = b := by
      obtain ⟨r, hr⟩ := hpre
      rw [← hr]
      simp
    rw [htake, ht]
    simp [advance]

theorem readByte_ok_iff (s t : Stream) (x : Byte) :
    s.readByte = .ok (x, t) ↔ Reads s [x] t := by
  unfold Stream.readByte
  constructor
  · intro h
    split at h
    · exact absurd h (by simp)
    · rename_i s1 hw
      rw [willRead_ok_iff] at hw
      obtain ⟨hroom, hs1⟩ := hw
      subst hs1
      simp only at h
      split at h
      · exact absurd h (by simp)
      · rename_i y rest hin
        simp only [Except.ok.injEq, Prod.mk.injEq] at h
        obtain ⟨hb, ht⟩ := h
        subst hb
        refine ⟨hroom, ?_, ?_⟩
        · rw [hin]; simp
        · rw [← ht]
          simp [advance, hin]
  · rintro ⟨hroom, hpre, ht⟩
    have hw : s.willRead 1 = .ok { advance s 1 with input := s.input } :=
      (willRead_ok_iff _ _ _).2 ⟨hroom, rfl⟩
    rw [hw]
    simp only
    obtain ⟨r, hr⟩ := hpre
    rw [← hr]
    simp only [List.singleton_append]
    rw [ht]
    simp [advance, ← hr]

theorem advance_advance (s : Stream) (a b : Nat) :
    advance (advance s a) b = advance s (a + b) := by
  rcases s with ⟨input, remaining, limited, stack⟩
  cases stack <;> cases limited <;> simp [advance, List.drop_drop, Nat.sub_sub, Nat.add_comm]

theorem advance_zero (s : Stream) : advance s 0 = s := by
  rcases s with ⟨input, remaining, limited, stack⟩
  cases stack <;> cases limited <;> simp [advance]

theorem reads_nil (s t : Stream) : Reads s [] t ↔ t = s := by
  unfold Reads Room
  simp [advance_zero]

/-- Reading two strings one after the other is reading their
concatenation. -/
theorem reads_append (s t : Stream) (a b : Bytes) :
    Reads s (a ++ b) t ↔ ∃ s1, Reads s a s1 ∧ Reads s1 b t := by
  constructor
  · rintro ⟨hroom, hpre, ht⟩
    refine ⟨advance s a.length, ⟨?_, ?_, rfl⟩, ?_, ?_, ?_⟩
    · obtain ⟨h1, h2⟩ := hroom
      rw [List.length_append] at h1 h2
      refine ⟨fun hl => by have := h1 hl; omega, ?_⟩
      cases hst : s.stack with
      | nil => simp
      | cons tos rest =>
        rw [hst] at h2
        simp only [List.headD_cons] at h2 ⊢
        omega
    · exact (List.prefix_append a b).trans hpre
    · obtain ⟨h1, h2⟩ := hroom
      rw [List.length_append] at h1 h2
      refine ⟨fun hl => ?_, ?_⟩
      · have hl2 : s.limited = true := hl
        have := h1 hl2
        simp only [advance, hl2, if_true]
        omega
      · cases hst : s.stack with
        | nil => simp [advance, hst]
        | cons tos rest =>
          rw [hst] at h2
          simp only [List.headD_cons] at h2
          simp only [advance, hst, List.headD_cons]
          omega
    · obtain ⟨r, hr⟩ := hpre
      simp [advance, ← hr]
    · rw [ht, advance_advance, List.length_append]
  · rintro ⟨s1, ⟨hroom1, hpre1, hs1⟩, hroom2, hpre2, ht⟩
    subst hs1
    refine ⟨?_, ?_, ?_⟩
    · obtain ⟨h1, h2⟩ := hroom1
      obtain ⟨h3, h4⟩ := hroom2
      rw [List.length_append]
      refine ⟨fun hl => ?_, ?_⟩
      · have a1 := h1 hl
        have a3 := h3 hl
        simp only [advance, hl, if_true] at a3
        omega
      · cases hst : s.stack with
        | nil => simp
        | cons tos rest =>
          rw [hst] at h2
          simp only [advance, hst, List.headD_cons] at h4
          simp only [List.headD_cons] at h2 ⊢
          omega
    · obtain ⟨r, hr⟩ := hpre1
      obtain ⟨r2, hr2⟩ := hpre2
      refine ⟨r2, ?_⟩
      rw [← hr]
      simp only [advance, ← hr, List.drop_left] at hr2
      rw [List.append_assoc, hr2]
    · rw [ht, advance_advance, List.length_append]

theorem reads_length_le (s t : Stream) (a : Bytes) (h : Reads s a t) :
    a.length ≤ s.input.length := h.2.1.length_le

/-- What is read is determined by its length. -/
theorem reads_unique (s t u : Stream) (a b : Bytes) (hl : a.length = b.length)
    (ha : Reads s a t) (hb : Reads s b u) : a = b ∧ t = u := by
  obtain ⟨_, hpa, hta⟩ := ha
  obtain ⟨_, hpb, htb⟩ := hb
  have hab : a = b := List.prefix_of_prefix_length_le hpa hpb (by omega) |>.eq_of_length hl
  refine ⟨hab, ?_⟩
  rw [hta, htb, hl]

/-! ## Headers -/

theorem putint_pos (n : Nat) (h : 0 < n) : putint n = bigBytes n := by
  unfold putint
  rw [if_neg (by omega)]

theorem puthead_small (small large size : Nat) (h : size < 56) :
    puthead small large size = [Fin.ofNat (small + size)] := by
  unfold puthead
  rw [if_pos h]

theorem puthead_large (small large size : Nat) (h : 56 ≤ size) :
    puthead small large size =
      Fin.ofNat (large + (bigBytes size).length) :: bigBytes size := by
  unfold puthead
  rw [if_neg (by omega), putint_pos _ (by omega)]

theorem bigBytes_length_pos (n : Nat) (h : 0 < n) : 1 ≤ (bigBytes n).length := by
  obtain ⟨x, t, hx, _⟩ := bigBytes_pos n h
  rw [hx]
  simp

theorem lt_of_bigBytes_length (n k : Nat) (h : (bigBytes n).length ≤ k) : n < 256 ^ k := by
  have h1 := Oracle.bytesToNat_lt (bigBytes n)
  rw [bytesToNat_bigBytes_nat] at h1
  exact lt_of_lt_of_le h1 (Nat.pow_le_pow_right (by norm_num) h)

/-- The method `readUint` reads a size of at least 56 exactly when the bytes
ahead are the bytes of the size without leading zero. -/
theorem readUint_ok_iff (s t : Stream) (k v : Nat) (hk : 1 ≤ k) (hv : 0 < v) :
    s.readUint k = .ok (v, t) ↔ (bigBytes v).length = k ∧ Reads s (bigBytes v) t := by
  unfold Stream.readUint
  rw [if_neg (by omega)]
  by_cases h1 : k = 1
  · subst h1
    rw [if_pos rfl]
    constructor
    · intro h
      split at h
      · exact absurd h (by simp)
      · rename_i b s1 hb
        simp only [Except.ok.injEq, Prod.mk.injEq] at h
        obtain ⟨hbv, hst⟩ := h
        subst hst
        rw [readByte_ok_iff] at hb
        have hx : bigBytes v = [b] := by
          rw [← hbv, bigBytes_byte _ (by omega) b.isLt, byte_ofNat_self]
        rw [hx]
        exact ⟨rfl, hb⟩
    · rintro ⟨hl, hr⟩
      obtain ⟨x, rest, hx, _⟩ := bigBytes_pos v hv
      rw [hx] at hl hr
      have hrest : rest = [] := by
        simp only [List.length_cons] at hl
        exact List.length_eq_zero.1 (by omega)
      subst hrest
      have hval : x.val = v := by
        have := bytesToNat_bigBytes_nat v
        rw [hx, Oracle.bytesToNat_cons] at this
        simpa [bytesToNat] using this
      rw [(readByte_ok_iff s t x).2 hr]
      simp [hval]
  · rw [if_neg h1]
    constructor
    · intro h
      split at h
      · exact absurd h (by simp)
      · rename_i buf s1 hb
        split at h
        · exact absurd h (by simp)
        · rename_i hcanon
          simp only [Except.ok.injEq, Prod.mk.injEq] at h
          obtain ⟨hbv, hst⟩ := h
          subst hst
          rw [readFull_ok_iff] at hb
          have hx : bigBytes v = buf := by
            rw [← hbv]
            exact bigBytes_bytesToNat buf hcanon
          rw [hx]
          exact hb
    · rintro ⟨hl, hr⟩
      rw [(readFull_ok_iff s t k (bigBytes v)).2 ⟨hl, hr⟩]
      simp only
      rw [if_neg (bigBytes_canonical v), bytesToNat_bigBytes_nat]

theorem byte_eq_ofNat (x : Byte) (n : Nat) (h : x.val = n) : x = Fin.ofNat n := by
  rw [← h, byte_ofNat_self]

/-- The header that `readKind` reads, by the kind of the value. -/
theorem readKind_ok_iff (s t : Stream) (kind : Kind) (size : Nat) (byteval : Byte) :
    s.readKind = .ok (kind, size, byteval, t) ↔
      (kind = .Byte ∧ size = 0 ∧ byteval.val < 0x80 ∧ Reads s [byteval] t) ∨
      (kind = .String ∧ byteval = 0 ∧ size < 2 ^ 64 ∧ Reads s (puthead 0x80 0xB7 size) t) ∨
      (kind = .List ∧ byteval = 0 ∧ size < 2 ^ 64 ∧ Reads s (puthead 0xC0 0xF7 size) t) := by
  unfold Stream.readKind
  constructor
  · intro h
    split at h
    · split at h
      · split at h <;> exact absurd h (by simp)
      · exact absurd h (by simp)
    · rename_i b s1 hb
      rw [readByte_ok_iff] at hb
      split at h
      · rename_i hlt
        simp only [Except.ok.injEq, Prod.mk.injEq] at h
        obtain ⟨rfl, rfl, rfl, rfl⟩ := h
        exact Or.inl ⟨rfl, rfl, hlt, hb⟩
      · rename_i h80
        split at h
        · rename_i hb8
          simp only [Except.ok.injEq, Prod.mk.injEq] at h
          obtain ⟨rfl, rfl, rfl, rfl⟩ := h
          refine Or.inr (Or.inl ⟨rfl, rfl, by omega, ?_⟩)
          rw [puthead_small _ _ _ (by omega), ← byte_eq_ofNat b _ (by omega)]
          exact hb
        · rename_i hb8
          split at h
          · rename_i hc0
            split at h
            · exact absurd h (by simp)
            · rename_i sz s2 hu
              split at h
              · exact absurd h (by simp)
              · rename_i h56
                simp only [Except.ok.injEq, Prod.mk.injEq] at h
                obtain ⟨rfl, rfl, rfl, rfl⟩ := h
                rw [readUint_ok_iff _ _ _ _ (by omega) (by omega)] at hu
                obtain ⟨hl, hr⟩ := hu
                refine Or.inr (Or.inl ⟨rfl, rfl, ?_, ?_⟩)
                · have := lt_of_bigBytes_length sz 8 (by omega)
                  norm_num at this ⊢
                  exact this
                · rw [puthead_large _ _ _ (by omega), hl,
                    ← byte_eq_ofNat b _ (by omega)]
                  exact (reads_append s _ [b] (bigBytes sz)).2 ⟨s1, hb, hr⟩
          · rename_i hc0
            split at h
            · rename_i hf8
              simp only [Except.ok.injEq, Prod.mk.injEq] at h
              obtain ⟨rfl, rfl, rfl, rfl⟩ := h
              refine Or.inr (Or.inr ⟨rfl, rfl, by omega, ?_⟩)
              rw [puthead_small _ _ _ (by omega), ← byte_eq_ofNat b _ (by omega)]
              exact hb
            · rename_i hf8
              split at h
              · exact absurd h (by simp)
              · rename_i sz s2 hu
                split at h
                · exact absurd h (by simp)
                · rename_i h56
                  simp only [Except.ok.injEq, Prod.mk.injEq] at h
                  obtain ⟨rfl, rfl, rfl, rfl⟩ := h
                  have hb256 : b.val < 256 := b.isLt
                  rw [readUint_ok_iff _ _ _ _ (by omega) (by omega)] at hu
                  obtain ⟨hl, hr⟩ := hu
                  refine Or.inr (Or.inr ⟨rfl, rfl, ?_, ?_⟩)
                  · have := lt_of_bigBytes_length sz 8 (by omega)
                    norm_num at this ⊢
                    exact this
                  · rw [puthead_large _ _ _ (by omega), hl,
                      ← byte_eq_ofNat b _ (by omega)]
                    exact (reads_append s _ [b] (bigBytes sz)).2 ⟨s1, hb, hr⟩
  · rintro (⟨rfl, rfl, hlt, hr⟩ | ⟨rfl, rfl, hsz, hr⟩ | ⟨rfl, rfl, hsz, hr⟩)
    · rw [(readByte_ok_iff s t byteval).2 hr]
      simp only
      rw [if_pos hlt]
    · by_cases h56 : size < 56
      · rw [puthead_small _ _ _ h56] at hr
        rw [(readByte_ok_iff s t _).2 hr]
        simp only
        have hxv := byte_ofNat_val (0x80 + size) (by omega)
        have h1 : ¬ (Fin.ofNat (0x80 + size) : Byte).val < 0x80 := by omega
        have h2 : (Fin.ofNat (0x80 + size) : Byte).val < 0xB8 := by omega
        rw [if_neg h1, if_pos h2, hxv]
        simp
      · rw [puthead_large _ _ _ (by omega)] at hr
        have hk1 := bigBytes_length_pos size (by omega)
        have hk8 : (bigBytes size).length ≤ 8 :=
          bigBytes_length_le size 8 (by norm_num at hsz ⊢; exact hsz)
        obtain ⟨s1, hr1, hr2⟩ := (reads_append s t [_] (bigBytes size)).1 hr
        rw [(readByte_ok_iff s s1 _).2 hr1]
        simp only
        have hxv := byte_ofNat_val (0xB7 + (bigBytes size).length) (by omega)
        have h1 : ¬ (Fin.ofNat (0xB7 + (bigBytes size).length) : Byte).val < 0x80 := by omega
        have h2 : ¬ (Fin.ofNat (0xB7 + (bigBytes size).length) : Byte).val < 0xB8 := by omega
        have h3 : (Fin.ofNat (0xB7 + (bigBytes size).length) : Byte).val < 0xC0 := by omega
        rw [if_neg h1, if_neg h2, if_pos h3, hxv]
        have hu : s1.readUint (0xB7 + (bigBytes size).length - 0xB7) = .ok (size, t) :=
          (readUint_ok_iff s1 t _ size (by omega) (by omega)).2 ⟨by omega, hr2⟩
        rw [hu]
        simp only
        rw [if_neg h56]
    · by_cases h56 : size < 56
      · rw [puthead_small _ _ _ h56] at hr
        rw [(readByte_ok_iff s t _).2 hr]
        simp only
        have hxv := byte_ofNat_val (0xC0 + size) (by omega)
        have h1 : ¬ (Fin.ofNat (0xC0 + size) : Byte).val < 0x80 := by omega
        have h2 : ¬ (Fin.ofNat (0xC0 + size) : Byte).val < 0xB8 := by omega
        have h3 : ¬ (Fin.ofNat (0xC0 + size) : Byte).val < 0xC0 := by omega
        have h4 : (Fin.ofNat (0xC0 + size) : Byte).val < 0xF8 := by omega
        rw [if_neg h1, if_neg h2, if_neg h3, if_pos h4, hxv]
        simp
      · rw [puthead_large _ _ _ (by omega)] at hr
        have hk1 := bigBytes_length_pos size (by omega)
        have hk8 : (bigBytes size).length ≤ 8 :=
          bigBytes_length_le size 8 (by norm_num at hsz ⊢; exact hsz)
        obtain ⟨s1, hr1, hr2⟩ := (reads_append s t [_] (bigBytes size)).1 hr
        rw [(readByte_ok_iff s s1 _).2 hr1]
        simp only
        have hxv := byte_ofNat_val (0xF7 + (bigBytes size).length) (by omega)
        have h1 : ¬ (Fin.ofNat (0xF7 + (bigBytes size).length) : Byte).val < 0x80 := by omega
        have h2 : ¬ (Fin.ofNat (0xF7 + (bigBytes size).length) : Byte).val < 0xB8 := by omega
        have h3 : ¬ (Fin.ofNat (0xF7 + (bigBytes size).length) : Byte).val < 0xC0 := by omega
        have h4 : ¬ (Fin.ofNat (0xF7 + (bigBytes size).length) : Byte).val < 0xF8 := by omega
        rw [if_neg h1, if_neg h2, if_neg h3, if_neg h4, hxv]
        have hu : s1.readUint (0xF7 + (bigBytes size).length - 0xF7) = .ok (size, t) :=
          (readUint_ok_iff s1 t _ size (by omega) (by omega)).2 ⟨by omega, hr2⟩
        rw [hu]
        simp only
        rw [if_neg h56]

/-! ## Items -/

theorem kindRoom_of_room (t : Stream) (size : Nat) (h : Room t size) : KindRoom t size := by
  unfold KindRoom
  obtain ⟨h1, h2⟩ := h
  cases hst : t.stack with
  | nil => exact h1
  | cons tos rest =>
    rw [hst] at h2
    simpa using h2

theorem encString_single (x : Byte) (h : x.val ≤ 0x7F) : encString [x] = [x] := by
  simp only [encString]
  rw [if_pos h]

theorem encString_header (b : Bytes) (h : ∀ x, b = [x] → 0x7F < x.val) :
    encString b = puthead 0x80 0xB7 b.length ++ b := by
  unfold encString
  split
  · rename_i x
    rw [if_neg (by have := h x rfl; omega)]
    rfl
  · rfl

theorem puthead_ne_nil (small large size : Nat) : puthead small large size ≠ [] := by
  unfold puthead
  split <;> simp

theorem not_reads_of_eol (s t : Stream) (enc : Bytes) (hne : enc ≠ [])
    (h0 : s.stack.head? = some 0) : ¬ Reads s enc t := by
  rintro ⟨⟨_, h2⟩, _, _⟩
  cases hst : s.stack with
  | nil => rw [hst] at h0; simp at h0
  | cons tos rest =>
    rw [hst] at h0 h2
    simp only [List.head?_cons, Option.some.injEq] at h0
    simp only [List.headD_cons] at h2
    have : 0 < enc.length := List.length_pos.2 hne
    omega

theorem Kind_ok_iff (s t : Stream) (kind : Kind) (size : Nat) (byteval : Byte) :
    s.Kind = .ok (kind, size, byteval, t) ↔
      s.readKind = .ok (kind, size, byteval, t) ∧ KindRoom t size := by
  unfold Stream.Kind
  by_cases h0 : s.stack.head? = some 0
  · rw [if_pos h0]
    constructor
    · intro h
      exact absurd h (by simp)
    · rintro ⟨h, _⟩
      exfalso
      rw [readKind_ok_iff] at h
      rcases h with ⟨_, _, _, hr⟩ | ⟨_, _, _, hr⟩ | ⟨_, _, _, hr⟩
      · exact not_reads_of_eol _ _ _ (by simp) h0 hr
      · exact not_reads_of_eol _ _ _ (puthead_ne_nil _ _ _) h0 hr
      · exact not_reads_of_eol _ _ _ (puthead_ne_nil _ _ _) h0 hr
  · rw [if_neg h0]
    constructor
    · intro h
      split at h
      · exact absurd h (by simp)
      · rename_i k sz bv s1 hk
        split at h
        · rename_i hst
          split at h
          · exact absurd h (by simp)
          · rename_i hc
            simp only [Except.ok.injEq, Prod.mk.injEq] at h
            obtain ⟨rfl, rfl, rfl, rfl⟩ := h
            refine ⟨hk, ?_⟩
            unfold KindRoom
            rw [hst]
            intro hl
            simp only [hl, Bool.true_and, decide_eq_true_eq] at hc
            omega
        · rename_i tos rest hst
          split at h
          · exact absurd h (by simp)
          · rename_i hc
            simp only [Except.ok.injEq, Prod.mk.injEq] at h
            obtain ⟨rfl, rfl, rfl, rfl⟩ := h
            refine ⟨hk, ?_⟩
            unfold KindRoom
            rw [hst]
            simp only
            omega
    · rintro ⟨h, hroom⟩
      rw [h]
      simp only
      unfold KindRoom at hroom
      split
      · rename_i hst
        rw [hst] at hroom
        simp only at hroom
        split
        · rename_i hc
          simp only [Bool.and_eq_true, decide_eq_true_eq] at hc
          have := hroom hc.1
          omega
        · rfl
      · rename_i tos rest hst
        rw [hst] at hroom
        simp only at hroom
        rw [if_neg (by omega)]

/-- The method `Bytes` returns the string `b` exactly when the encoding of `b`
is ahead and fits. -/
theorem Bytes_ok_iff (s t : Stream) (b : Bytes) :
    s.Bytes = .ok (b, t) ↔ b.length < 2 ^ 64 ∧ Reads s (encString b) t := by
  unfold Stream.Bytes
  constructor
  · intro h
    split at h
    · exact absurd h (by simp)
    · rename_i kind size bv s1 hk
      rw [Kind_ok_iff, readKind_ok_iff] at hk
      obtain ⟨hk, hroom⟩ := hk
      cases kind with
      | Byte =>
        simp only [Except.ok.injEq, Prod.mk.injEq] at h
        obtain ⟨rfl, rfl⟩ := h
        rcases hk with ⟨_, _, hlt, hr⟩ | ⟨hc, _⟩ | ⟨hc, _⟩
        · rw [encString_single _ (by omega)]
          exact ⟨by norm_num, hr⟩
        · exact absurd hc (by simp)
        · exact absurd hc (by simp)
      | String =>
        simp only at h
        split at h
        · exact absurd h (by simp)
        · rename_i b1 s2 hf
          split at h
          · exact absurd h (by simp)
          · rename_i hcanon
            simp only [Except.ok.injEq, Prod.mk.injEq] at h
            obtain ⟨rfl, rfl⟩ := h
            rw [readFull_ok_iff] at hf
            obtain ⟨hl, hr2⟩ := hf
            rcases hk with ⟨hc, _⟩ | ⟨_, _, hsz, hr⟩ | ⟨hc, _⟩
            · exact absurd hc (by simp)
            · refine ⟨by omega, ?_⟩
              rw [encString_header, hl]
              · exact (reads_append _ _ _ _).2 ⟨s1, hr, hr2⟩
              · intro x hx
                subst hx
                simp only [List.length_cons, List.length_nil, Nat.zero_add] at hl
                by_contra hle
                exact hcanon ⟨hl.symm, by simp; omega⟩
            · exact absurd hc (by simp)
      | List => exact absurd h (by simp)
  · rintro ⟨hlen, hr⟩
    by_cases hs : ∃ x, b = [x] ∧ x.val ≤ 0x7F
    · obtain ⟨x, rfl, hx⟩ := hs
      rw [encString_single _ hx] at hr
      have hk : s.Kind = .ok (.Byte, 0, x, t) := by
        rw [Kind_ok_iff, readKind_ok_iff]
        refine ⟨Or.inl ⟨rfl, rfl, by omega, hr⟩, ?_⟩
        unfold KindRoom
        split <;> simp
      rw [hk]
    · have hh : ∀ x, b = [x] → 0x7F < x.val := by
        intro x hx
        by_contra hle
        exact hs ⟨x, hx, by omega⟩
      rw [encString_header _ hh] at hr
      obtain ⟨s1, hr1, hr2⟩ := (reads_append _ _ _ _).1 hr
      have hk : s.Kind = .ok (.String, b.length, 0, s1) := by
        rw [Kind_ok_iff, readKind_ok_iff]
        exact ⟨Or.inr (Or.inl ⟨rfl, rfl, hlen, hr1⟩), kindRoom_of_room _ _ hr2.1⟩
      rw [hk]
      simp only
      rw [(readFull_ok_iff s1 t b.length b).2 ⟨rfl, hr2⟩]
      simp only
      rw [if_neg]
      rintro ⟨hl1, hx⟩
      match b, hl1, hh, hx with
      | [x], _, hh, hx =>
        have := hh x rfl
        simp at hx
        omega

theorem kindRoom_zero (t : Stream) : KindRoom t 0 := by
  unfold KindRoom
  split <;> simp

theorem encString_nil : encString [] = [0x80] := by
  decide

/-- The encoding of a number from 1 to 127 is the number itself. -/
theorem encString_bigBytes_small (v : Nat) (h0 : 0 < v) (h : v < 128) :
    encString (bigBytes v) = [Fin.ofNat v] := by
  rw [bigBytes_byte v h0 (by omega), encString_single]
  rw [byte_ofNat_val _ (by omega)]
  omega

/-- The encoding of a number from 128 on is its bytes after a header. -/
theorem encString_bigBytes_large (v : Nat) (h : 128 ≤ v) :
    encString (bigBytes v) = puthead 0x80 0xB7 (bigBytes v).length ++ bigBytes v := by
  apply encString_header
  intro x hx
  have := bytesToNat_bigBytes_nat v
  rw [hx, Oracle.bytesToNat_cons] at this
  simp [bytesToNat] at this
  omega

/-- The method `uint` returns the number `v` exactly when the encoding of `v`
is ahead and fits, and `v` has at most `maxbits / 8` bytes. -/
theorem uint_ok_iff (s t : Stream) (maxbits v : Nat) (h1 : 1 ≤ maxbits / 8)
    (h8 : maxbits / 8 ≤ 8) :
    s.uint maxbits = .ok (v, t) ↔
      v < 256 ^ (maxbits / 8) ∧ Reads s (encString (bigBytes v)) t := by
  have hpow : 256 ^ 1 ≤ 256 ^ (maxbits / 8) := Nat.pow_le_pow_right (by norm_num) h1
  unfold Stream.uint
  constructor
  · intro h
    split at h
    · exact absurd h (by simp)
    · rename_i kind size bv s1 hk
      rw [Kind_ok_iff, readKind_ok_iff] at hk
      obtain ⟨hk, hroom⟩ := hk
      cases kind with
      | Byte =>
        simp only at h
        split at h
        · exact absurd h (by simp)
        · rename_i hne
          simp only [Except.ok.injEq, Prod.mk.injEq] at h
          obtain ⟨rfl, rfl⟩ := h
          rcases hk with ⟨_, _, hlt, hr⟩ | ⟨hc, _⟩ | ⟨hc, _⟩
          · rw [encString_bigBytes_small _ (by omega) (by omega), byte_ofNat_self]
            exact ⟨by omega, hr⟩
          · exact absurd hc (by simp)
          · exact absurd hc (by simp)
      | String =>
        simp only at h
        rcases hk with ⟨hc, _⟩ | ⟨_, _, hsz, hr⟩ | ⟨hc, _⟩
        · exact absurd hc (by simp)
        · split at h
          · exact absurd h (by simp)
          · rename_i hm
            split at h
            · exact absurd h (by simp)
            · exact absurd h (by simp)
            · rename_i v1 s2 hu
              split at h
              · exact absurd h (by simp)
              · rename_i hcanon
                simp only [Except.ok.injEq, Prod.mk.injEq] at h
                obtain ⟨rfl, rfl⟩ := h
                by_cases hs0 : size = 0
                · subst hs0
                  simp only [Stream.readUint, if_true, Except.ok.injEq, Prod.mk.injEq] at hu
                  obtain ⟨rfl, rfl⟩ := hu
                  rw [show ((0 : Nat) : Int) = 0 from rfl, bigBytes_zero, encString_nil]
                  refine ⟨by positivity, ?_⟩
                  rw [puthead_small _ _ _ (by norm_num)] at hr
                  exact hr
                · have hv : 128 ≤ v1 := by
                    by_contra hlt
                    exact hcanon ⟨by omega, by omega⟩
                  rw [readUint_ok_iff _ _ _ _ (by omega) (by omega)] at hu
                  obtain ⟨hl, hr2⟩ := hu
                  refine ⟨?_, ?_⟩
                  · have := lt_of_bigBytes_length v1 size (by omega)
                    exact lt_of_lt_of_le this (Nat.pow_le_pow_right (by norm_num) (by omega))
                  · rw [encString_bigBytes_large _ hv, hl]
                    exact (reads_append _ _ _ _).2 ⟨s1, hr, hr2⟩
        · exact absurd hc (by simp)
      | List => exact absurd h (by simp)
  · rintro ⟨hv, hr⟩
    rcases Nat.eq_zero_or_pos v with h0 | h0
    · subst h0
      rw [show ((0 : Nat) : Int) = 0 from rfl, bigBytes_zero, encString_nil] at hr
      have hk : s.Kind = .ok (.String, 0, 0, t) := by
        rw [Kind_ok_iff, readKind_ok_iff]
        refine ⟨Or.inr (Or.inl ⟨rfl, rfl, by norm_num, ?_⟩), kindRoom_zero t⟩
        rw [puthead_small _ _ _ (by norm_num)]
        exact hr
      rw [hk]
      simp [Stream.readUint]
    · by_cases hsmall : v < 128
      · rw [encString_bigBytes_small _ h0 hsmall] at hr
        have hk : s.Kind = .ok (.Byte, 0, Fin.ofNat v, t) := by
          rw [Kind_ok_iff, readKind_ok_iff]
          refine ⟨Or.inl ⟨rfl, rfl, ?_, hr⟩, kindRoom_zero t⟩
          rw [byte_ofNat_val _ (by omega)]
          exact hsmall
        rw [hk]
        simp only
        rw [byte_ofNat_val _ (by omega), if_neg (by omega)]
      · rw [encString_bigBytes_large _ (by omega)] at hr
        obtain ⟨s1, hr1, hr2⟩ := (reads_append _ _ _ _).1 hr
        have hlen : (bigBytes v).length ≤ maxbits / 8 := bigBytes_length_le v _ hv
        have hk : s.Kind = .ok (.String, (bigBytes v).length, 0, s1) := by
          rw [Kind_ok_iff, readKind_ok_iff]
          exact ⟨Or.inr (Or.inl ⟨rfl, rfl, by omega, hr1⟩), kindRoom_of_room _ _ hr2.1⟩
        rw [hk]
        simp only
        rw [if_neg (by omega)]
        have hu : s1.readUint (bigBytes v).length = .ok (v, t) :=
          (readUint_ok_iff s1 t _ v (bigBytes_length_pos v h0) h0).2 ⟨rfl, hr2⟩
        rw [hu]
        simp only
        rw [if_neg (by omega)]

theorem Uint_ok_iff (s t : Stream) (v : Nat) :
    s.Uint = .ok (v, t) ↔ v < 2 ^ 64 ∧ Reads s (encString (bigBytes v)) t := by
  unfold Stream.Uint
  rw [uint_ok_iff s t 64 v (by norm_num) (by norm_num)]
  norm_num

theorem Bool_ok_iff (s t : Stream) (x : Bool) :
    s.Bool = .ok (x, t) ↔ Reads s (encBool x) t := by
  unfold Stream.Bool
  constructor
  · intro h
    split at h
    · exact absurd h (by simp)
    · rename_i num s1 hu
      rw [uint_ok_iff s s1 8 num (by norm_num) (by norm_num)] at hu
      obtain ⟨_, hr⟩ := hu
      split at h
      · rename_i h0
        subst h0
        simp only [Except.ok.injEq, Prod.mk.injEq] at h
        obtain ⟨rfl, rfl⟩ := h
        exact hr
      · split at h
        · rename_i h1
          subst h1
          simp only [Except.ok.injEq, Prod.mk.injEq] at h
          obtain ⟨rfl, rfl⟩ := h
          exact hr
        · exact absurd h (by simp)
  · intro hr
    cases x with
    | false =>
      have hu : s.uint 8 = .ok (0, t) :=
        (uint_ok_iff s t 8 0 (by norm_num) (by norm_num)).2 ⟨by norm_num, hr⟩
      rw [hu]
      simp
    | true =>
      have hu : s.uint 8 = .ok (1, t) :=
        (uint_ok_iff s t 8 1 (by norm_num) (by norm_num)).2 ⟨by norm_num, hr⟩
      rw [hu]
      simp

theorem reads_zero_length (s t : Stream) (b : Bytes) (h : b.length = 0) :
    Reads s b t ↔ t = s := by
  have : b = [] := List.length_eq_zero.1 h
  subst this
  exact reads_nil s t

/-- The method `bigIntBytes` reads what `Bytes` reads, and accepts it when it
does not start with a zero byte. -/
theorem bigIntBytes_ok_iff (s t : Stream) (b : Bytes) :
    s.bigIntBytes = .ok (b, t) ↔ s.Bytes = .ok (b, t) ∧ Canonical b := by
  unfold Stream.bigIntBytes Stream.Bytes Canonical
  cases hk : s.Kind with
  | error e => simp
  | ok r =>
    obtain ⟨kind, size, bv, s1⟩ := r
    cases kind with
    | Byte =>
      simp only
      constructor
      · intro h
        split at h
        · exact absurd h (by simp)
        · rename_i hc
          simp only [Except.ok.injEq, Prod.mk.injEq] at h
          obtain ⟨rfl, rfl⟩ := h
          exact ⟨rfl, hc⟩
      · rintro ⟨h, hc⟩
        simp only [Except.ok.injEq, Prod.mk.injEq] at h
        obtain ⟨rfl, rfl⟩ := h
        rw [if_neg hc]
    | List => simp
    | String =>
      simp only
      by_cases hs0 : size = 0
      · subst hs0
        have hf : ∀ b2 t2, s1.readFull 0 = .ok (b2, t2) ↔ b2 = [] ∧ t2 = s1 := by
          intro b2 t2
          rw [readFull_ok_iff]
          constructor
          · rintro ⟨hl, hr⟩
            exact ⟨List.length_eq_zero.1 hl, (reads_zero_length _ _ _ hl).1 hr⟩
          · rintro ⟨rfl, rfl⟩
            exact ⟨rfl, (reads_nil _ _).2 rfl⟩
        have hf0 : s1.readFull 0 = .ok ([], s1) := (hf _ _).2 ⟨rfl, rfl⟩
        rw [hf0]
        simp
        rintro rfl _
        simp
      · rw [if_neg hs0]
        cases hf : s1.readFull size with
        | error e => simp
        | ok r2 =>
          obtain ⟨b1, s2⟩ := r2
          simp only
          by_cases hcs : size = 1 ∧ (b1.headD 0).val < 128
          · rw [if_pos hcs]
            simp
          · rw [if_neg hcs]
            simp only
            constructor
            · intro h
              split at h
              · exact absurd h (by simp)
              · rename_i hc
                simp only [Except.ok.injEq, Prod.mk.injEq] at h
                obtain ⟨rfl, rfl⟩ := h
                exact ⟨rfl, hc⟩
            · rintro ⟨h, hc⟩
              simp only [Except.ok.injEq, Prod.mk.injEq] at h
              obtain ⟨rfl, rfl⟩ := h
              rw [if_neg hc]

/-- The method `Uint256Bytes` returns the bytes `b` exactly when they are the
bytes of a number below `2^256` without leading zero, and their encoding is
ahead and fits. -/
theorem Uint256Bytes_ok_iff (s t : Stream) (b : Bytes) :
    s.Uint256Bytes = .ok (b, t) ↔
      b.length ≤ 32 ∧ Canonical b ∧ Reads s (encString b) t := by
  unfold Stream.Uint256Bytes
  constructor
  · intro h
    split at h
    · exact absurd h (by simp)
    · rename_i b1 s1 hb
      split at h
      · exact absurd h (by simp)
      · rename_i hl
        simp only [Except.ok.injEq, Prod.mk.injEq] at h
        obtain ⟨rfl, rfl⟩ := h
        rw [bigIntBytes_ok_iff, Bytes_ok_iff] at hb
        exact ⟨by omega, hb.2, hb.1.2⟩
  · rintro ⟨hl, hc, hr⟩
    have hb : s.bigIntBytes = .ok (b, t) := by
      rw [bigIntBytes_ok_iff, Bytes_ok_iff]
      exact ⟨⟨by omega, hr⟩, hc⟩
    rw [hb]
    simp only
    rw [if_neg (by omega)]

/-! ## Lists -/

theorem List_ok_iff (s t : Stream) (size : Nat) :
    s.List = .ok (size, t) ↔
      size < 2 ^ 64 ∧
        ∃ s1, Reads s (puthead 0xC0 0xF7 size) s1 ∧ KindRoom s1 size ∧ t = openList s1 size := by
  unfold Stream.List
  constructor
  · intro h
    split at h
    · exact absurd h (by simp)
    · rename_i kind sz bv s1 hk
      rw [Kind_ok_iff, readKind_ok_iff] at hk
      obtain ⟨hk, hroom⟩ := hk
      cases kind with
      | Byte => exact absurd h (by simp)
      | String => exact absurd h (by simp)
      | List =>
        rcases hk with ⟨hc, _⟩ | ⟨hc, _⟩ | ⟨_, _, hsz, hr⟩
        · exact absurd hc (by simp)
        · exact absurd hc (by simp)
        · simp only at h
          split at h
          · rename_i hst
            simp only [Except.ok.injEq, Prod.mk.injEq] at h
            obtain ⟨rfl, rfl⟩ := h
            refine ⟨hsz, s1, hr, hroom, ?_⟩
            simp [openList, hst]
          · rename_i tos rest hst
            simp only [Except.ok.injEq, Prod.mk.injEq] at h
            obtain ⟨rfl, rfl⟩ := h
            refine ⟨hsz, s1, hr, hroom, ?_⟩
            simp [openList, hst]
  · rintro ⟨hsz, s1, hr, hroom, rfl⟩
    have hk : s.Kind = .ok (.List, size, 0, s1) := by
      rw [Kind_ok_iff, readKind_ok_iff]
      exact ⟨Or.inr (Or.inr ⟨rfl, rfl, hsz, hr⟩), hroom⟩
    rw [hk]
    simp only
    cases hst : s1.stack <;> simp [openList, hst]

theorem ListEnd_ok_iff (s t : Stream) :
    s.ListEnd = .ok t ↔ ∃ rest, s.stack = 0 :: rest ∧ t = { s with stack := rest } := by
  unfold Stream.ListEnd
  cases hst : s.stack with
  | nil => simp
  | cons tos rest =>
    simp only
    by_cases h0 : tos = 0
    · subst h0
      simp [eq_comm]
    · rw [if_pos h0]
      simp
      intro h
      exact absurd h h0

/-- Reading the content of a list that was just opened and closing the list
is reading the content, which has the size of the list. -/
theorem list_body (s1 t : Stream) (size : Nat) (p : Bytes) (hroom : KindRoom s1 size) :
    (∃ t2, Reads (openList s1 size) p t2 ∧ t2.ListEnd = .ok t) ↔
      p.length = size ∧ Reads s1 p t := by
  rcases s1 with ⟨input, remaining, limited, stack⟩
  constructor
  · rintro ⟨t2, ⟨⟨h1, h2⟩, hpre, rfl⟩, hend⟩
    rw [ListEnd_ok_iff] at hend
    obtain ⟨rest, hst, rfl⟩ := hend
    cases stack with
    | nil =>
      simp only [openList, advance, List.headD_cons, List.cons.injEq] at h1 h2 hst hpre ⊢
      obtain ⟨hz, rfl⟩ := hst
      have hl : p.length = size := by omega
      refine ⟨hl, ⟨?_, ?_⟩, hpre, ?_⟩
      · exact h1
      · simp
      · simp [advance]
    | cons tos rest2 =>
      simp only [openList, advance, List.headD_cons, List.cons.injEq] at h1 h2 hst hpre ⊢
      obtain ⟨hz, rfl⟩ := hst
      have hl : p.length = size := by omega
      simp only [KindRoom] at hroom
      refine ⟨hl, ⟨?_, ?_⟩, hpre, ?_⟩
      · exact h1
      · simp only [List.headD_cons]
        omega
      · simp [advance, hl]
  · rintro ⟨rfl, ⟨h1, h2⟩, hpre, rfl⟩
    refine ⟨advance (openList ⟨input, remaining, limited, stack⟩ p.length) p.length,
      ⟨⟨?_, ?_⟩, hpre, rfl⟩, ?_⟩
    · exact h1
    · cases stack <;> simp [openList]
    · rw [ListEnd_ok_iff]
      cases stack <;> simp [openList, advance]

/-! ## What the encoder buffer writes -/

theorem WriteUint64_eq (w : EncoderBuffer) (i : Nat) :
    w.WriteUint64 i = { w with str := w.str ++ encUint i } := by
  unfold encUint EncoderBuffer.WriteUint64 NewEncoderBuffer
  split
  · simp
  · split <;> simp

theorem encodeStringHeader_eq (w : EncoderBuffer) (size : Nat) :
    w.encodeStringHeader size = { w with str := w.str ++ puthead 0x80 0xB7 size } := by
  unfold EncoderBuffer.encodeStringHeader puthead
  split <;> rfl

theorem WriteBytes_eq (w : EncoderBuffer) (b : Bytes) :
    w.WriteBytes b = { w with str := w.str ++ encString b } := by
  rcases b with _ | ⟨x, _ | ⟨y, rest⟩⟩
  · simp [EncoderBuffer.WriteBytes, encString, encodeStringHeader_eq]
  · by_cases hx : x.val ≤ 0x7F
    · simp [EncoderBuffer.WriteBytes, encString, hx]
    · simp [EncoderBuffer.WriteBytes, encString, encodeStringHeader_eq, hx]
  · simp [EncoderBuffer.WriteBytes, encString, encodeStringHeader_eq]

theorem WriteBool_eq (w : EncoderBuffer) (b : Bool) :
    w.WriteBool b = { w with str := w.str ++ encBool b } := by
  unfold EncoderBuffer.WriteBool encBool
  split <;> rfl

/-- A number below `2^64` is written as the string of its bytes. -/
theorem encUint_eq (i : Nat) (h : i < 2 ^ 64) : encUint i = encString (bigBytes i) := by
  unfold encUint EncoderBuffer.WriteUint64 NewEncoderBuffer
  by_cases h0 : i = 0
  · subst h0
    rw [if_pos rfl, show ((0 : Nat) : Int) = 0 from rfl, bigBytes_zero, encString_nil]
    rfl
  · rw [if_neg h0]
    by_cases h1 : i < 128
    · rw [if_pos h1, encString_bigBytes_small _ (by omega) h1]
      rfl
    · rw [if_neg h1, encString_bigBytes_large _ (by omega), putint_pos _ (by omega)]
      have hl : (bigBytes i).length ≤ 8 :=
        bigBytes_length_le i 8 (by norm_num at h ⊢; exact h)
      rw [puthead_small _ _ _ (by omega)]
      rfl

/-- The output of a buffer that holds one list, which starts at `a.length`
and is closed after the content `p`. -/
theorem ToBytes_one_list (a p : Bytes) :
    Option.map EncoderBuffer.ToBytes
        (EncoderBuffer.ListEnd
          { str := a ++ p, lheads := [{ offset := a.length, size := 0 }], lhsize := 0 } 0) =
      some (a ++ puthead 0xC0 0xF7 p.length ++ p) := by
  simp [EncoderBuffer.ListEnd, EncoderBuffer.size, EncoderBuffer.ToBytes, copyToAux,
    ListHead.encode]

/-- What `EncodeRLP` writes: the type item and the list of the eight
items. -/
theorem EncodeRLP_eq (depositTxType : Nat) (tx : DepositTransaction) (sourceHash : Hash)
    (sender recipient : Address) (mint value : Nat)
    (h1 : tx.SourceHash = some sourceHash) (h2 : tx.From = some sender)
    (h3 : tx.To = some recipient) (h4 : tx.Mint = some mint) (h5 : tx.Value = some value)
    (hg : tx.GasLimit < 2 ^ 64) :
    tx.EncodeRLP depositTxType =
      some ((NewEncoderBuffer.WriteUint64 depositTxType).ToBytes ++
        depositList sourceHash.bytes sender.bytes recipient.bytes mint value tx.GasLimit
          tx.IsSystemTx tx.Data) := by
  unfold DepositTransaction.EncodeRLP
  simp only [h1, h2, h3, h4, h5, EncoderBuffer.List, WriteUint64_eq, WriteBytes_eq,
    WriteBool_eq]
  have hto : ({ NewEncoderBuffer with str := NewEncoderBuffer.str ++ encUint depositTxType } :
      EncoderBuffer).ToBytes = encUint depositTxType := by
    simp [EncoderBuffer.ToBytes, copyToAux, NewEncoderBuffer]
  rw [hto]
  have key := ToBytes_one_list (encUint depositTxType)
    (depositPayload sourceHash.bytes sender.bytes recipient.bytes mint value tx.GasLimit
      tx.IsSystemTx tx.Data)
  simp only [NewEncoderBuffer, List.nil_append, List.length_nil, List.append_assoc,
    depositList, depositPayload, encUint_eq _ hg] at key ⊢
  cases hle : EncoderBuffer.ListEnd _ 0 with
  | none =>
    rw [hle] at key
    simp at key
  | some buf =>
    rw [hle] at key
    simpa using key

/-! ## The decoder of the deposit transaction, as a relation -/

theorem bytesToNat_lt_of_length (b : Bytes) (k : Nat) (h : b.length ≤ k) :
    bytesToNat b < 256 ^ k :=
  lt_of_lt_of_le (Oracle.bytesToNat_lt b) (Nat.pow_le_pow_right (by norm_num) h)

/-- `DecodeRLP` succeeds exactly on a stream that has ahead, within its
limits, the RLP list of eight items: three strings, the second and the third
of 20 bytes, two numbers below `2^256`, a number below `2^64`, a boolean and a
string. The transaction holds these items and the deposit nonce, and the
stream is past the list. -/
theorem DecodeRLP_ok_iff (tx0 tx : DepositTransaction) (s t : Stream) :
    tx0.DecodeRLP s = .ok (tx, t) ↔
      ∃ (sourceHash sender recipient : Bytes) (mint value gasLimit : Nat) (isSystemTx : Bool)
        (data : Bytes) (hs : sender.length = 20) (hr : recipient.length = 20),
        sourceHash.length < 2 ^ 64 ∧ mint < 2 ^ 256 ∧ value < 2 ^ 256 ∧ gasLimit < 2 ^ 64 ∧
        data.length < 2 ^ 64 ∧
        (depositPayload sourceHash sender recipient mint value gasLimit isSystemTx
          data).length < 2 ^ 64 ∧
        Reads s
          (depositList sourceHash sender recipient mint value gasLimit isSystemTx data) t ∧
        tx =
          { SourceHash := some (BytesToHash sourceHash)
            Nonce := 0xfffffffffffffffd
            From := some ⟨sender, hs⟩
            To := some ⟨recipient, hr⟩
            Mint := some mint
            Value := some value
            GasLimit := gasLimit
            IsSystemTx := isSystemTx
            Data := data } := by
  constructor
  · intro h
    unfold DepositTransaction.DecodeRLP at h
    split at h
    · exact absurd h (by simp)
    rename_i size sA hList
    try simp only at h
    split at h
    · exact absurd h (by simp)
    rename_i b1 sB hB1
    try simp only at h
    split at h
    · exact absurd h (by simp)
    rename_i b2 sC hB2
    split at h
    · exact absurd h (by simp)
    rename_i hl2
    try simp only at h
    split at h
    · exact absurd h (by simp)
    rename_i b3 sD hB3
    split at h
    · exact absurd h (by simp)
    rename_i hl3
    try simp only at h
    split at h
    · exact absurd h (by simp)
    rename_i b4 sE hB4
    try simp only at h
    split at h
    · exact absurd h (by simp)
    rename_i b5 sF hB5
    try simp only at h
    split at h
    · exact absurd h (by simp)
    rename_i gas sG hB6
    try simp only at h
    split at h
    · exact absurd h (by simp)
    rename_i sys sH hB7
    try simp only at h
    split at h
    · exact absurd h (by simp)
    rename_i dat sI hB8
    try simp only at h
    split at h
    · exact absurd h (by simp)
    rename_i sJ hEnd
    simp only [Except.ok.injEq, Prod.mk.injEq] at h
    obtain ⟨htx, rfl⟩ := h
    rw [List_ok_iff] at hList
    obtain ⟨hsize, s1, hhdr, hroom, rfl⟩ := hList
    rw [Bytes_ok_iff] at hB1 hB2 hB3 hB8
    rw [Uint256Bytes_ok_iff] at hB4 hB5
    rw [Uint_ok_iff] at hB6
    rw [Bool_ok_iff] at hB7
    obtain ⟨hb4l, hb4c, hB4⟩ := hB4
    obtain ⟨hb5l, hb5c, hB5⟩ := hB5
    have e4 : bigBytes (bytesToNat b4) = b4 := bigBytes_bytesToNat b4 hb4c
    have e5 : bigBytes (bytesToNat b5) = b5 := bigBytes_bytesToNat b5 hb5c
    have v4 : bytesToNat b4 < 2 ^ 256 := by
      have := bytesToNat_lt_of_length b4 32 hb4l
      norm_num at this ⊢
      exact this
    have v5 : bytesToNat b5 < 2 ^ 256 := by
      have := bytesToNat_lt_of_length b5 32 hb5l
      norm_num at this ⊢
      exact this
    have hbody : Reads (openList s1 size)
        (depositPayload b1 b2 b3 (bytesToNat b4) (bytesToNat b5) gas sys dat) sI := by
      unfold depositPayload
      rw [e4, e5]
      exact (reads_append _ _ _ _).2 ⟨_, (reads_append _ _ _ _).2 ⟨_, (reads_append _ _ _ _).2
        ⟨_, (reads_append _ _ _ _).2 ⟨_, (reads_append _ _ _ _).2 ⟨_,
          (reads_append _ _ _ _).2 ⟨_, (reads_append _ _ _ _).2 ⟨_, hB1.2, hB2.2⟩, hB3.2⟩,
            hB4⟩, hB5⟩, hB6.2⟩, hB7⟩, hB8.2⟩
    obtain ⟨hlen, hreads⟩ := (list_body s1 sJ size _ hroom).1 ⟨sI, hbody, hEnd⟩
    refine ⟨b1, b2, b3, bytesToNat b4, bytesToNat b5, gas, sys, dat, Decidable.of_not_not hl2,
      Decidable.of_not_not hl3, hB1.1, v4, v5, hB6.1, hB8.1, by rw [hlen]; exact hsize, ?_, ?_⟩
    · unfold depositList
      rw [hlen]
      exact (reads_append _ _ _ _).2 ⟨s1, hhdr, hreads⟩
    · rw [← htx, Nat.mod_eq_of_lt v4, Nat.mod_eq_of_lt v5]
  · rintro ⟨b1, b2, b3, mint, value, gas, sys, dat, hs, hr, hb1, hmint, hvalue, hgas, hdat,
      hsize, hreads, rfl⟩
    unfold depositList at hreads
    obtain ⟨s1, hhdr, hbody⟩ := (reads_append _ _ _ _).1 hreads
    have hroom : KindRoom s1 (depositPayload b1 b2 b3 mint value gas sys dat).length :=
      kindRoom_of_room _ _ hbody.1
    obtain ⟨sI, hitems, hEnd⟩ := (list_body s1 t _ _ hroom).2 ⟨rfl, hbody⟩
    have hList : s.List = .ok ((depositPayload b1 b2 b3 mint value gas sys dat).length,
        openList s1 (depositPayload b1 b2 b3 mint value gas sys dat).length) :=
      (List_ok_iff _ _ _).2 ⟨hsize, s1, hhdr, hroom, rfl⟩
    obtain ⟨sA, hsA⟩ : ∃ sA, sA = openList s1
        (depositPayload b1 b2 b3 mint value gas sys dat).length := ⟨_, rfl⟩
    rw [← hsA] at hitems hList
    unfold depositPayload at hitems
    obtain ⟨sH, hitems, hB8⟩ := (reads_append _ _ _ _).1 hitems
    obtain ⟨sG, hitems, hB7⟩ := (reads_append _ _ _ _).1 hitems
    obtain ⟨sF, hitems, hB6⟩ := (reads_append _ _ _ _).1 hitems
    obtain ⟨sE, hitems, hB5⟩ := (reads_append _ _ _ _).1 hitems
    obtain ⟨sD, hitems, hB4⟩ := (reads_append _ _ _ _).1 hitems
    obtain ⟨sC, hitems, hB3⟩ := (reads_append _ _ _ _).1 hitems
    obtain ⟨sB, hB1, hB2⟩ := (reads_append _ _ _ _).1 hitems
    have l4 : (bigBytes mint).length ≤ 32 :=
      bigBytes_length_le mint 32 (by norm_num at hmint ⊢; exact hmint)
    have l5 : (bigBytes value).length ≤ 32 :=
      bigBytes_length_le value 32 (by norm_num at hvalue ⊢; exact hvalue)
    have k1 := (Bytes_ok_iff _ _ _).2 ⟨hb1, hB1⟩
    have k2 := (Bytes_ok_iff _ _ _).2 ⟨by omega, hB2⟩
    have k3 := (Bytes_ok_iff _ _ _).2 ⟨by omega, hB3⟩
    have k4 := (Uint256Bytes_ok_iff _ _ _).2 ⟨l4, bigBytes_canonical mint, hB4⟩
    have k5 := (Uint256Bytes_ok_iff _ _ _).2 ⟨l5, bigBytes_canonical value, hB5⟩
    have k6 := (Uint_ok_iff _ _ _).2 ⟨hgas, hB6⟩
    have k7 := (Bool_ok_iff _ _ _).2 hB7
    have k8 := (Bytes_ok_iff _ _ _).2 ⟨hdat, hB8⟩
    unfold DepositTransaction.DecodeRLP
    rw [hList]
    simp only
    rw [k1]
    simp only
    rw [k2]
    simp only
    rw [dif_neg (by simp [hs])]
    rw [k3]
    simp only
    rw [dif_neg (by simp [hr])]
    rw [k4]
    simp only
    rw [k5]
    simp only
    rw [k6]
    simp only
    rw [k7]
    simp only
    rw [k8]
    simp only
    rw [hEnd]
    simp only [bytesToNat_bigBytes_nat, Nat.mod_eq_of_lt hmint, Nat.mod_eq_of_lt hvalue]

/-! ## The round trip -/

theorem puthead_length_le (small large size : Nat) (h : size < 2 ^ 64) :
    (puthead small large size).length ≤ 9 := by
  by_cases h56 : size < 56
  · rw [puthead_small _ _ _ h56]
    simp
  · rw [puthead_large _ _ _ (by omega)]
    have := bigBytes_length_le size 8 (by norm_num at h ⊢; exact h)
    simp only [List.length_cons]
    omega

theorem encString_length_le (b : Bytes) (h : b.length < 2 ^ 64) :
    (encString b).length ≤ b.length + 9 := by
  by_cases hs : ∃ x, b = [x] ∧ x.val ≤ 0x7F
  · obtain ⟨x, rfl, hx⟩ := hs
    rw [encString_single _ hx]
    simp
  · rw [encString_header]
    · have := puthead_length_le 0x80 0xB7 b.length h
      rw [List.length_append]
      omega
    · intro x hx
      by_contra hle
      exact hs ⟨x, hx, by omega⟩

theorem encBool_length (b : Bool) : (encBool b).length = 1 := by
  cases b <;> rfl

/-- A new stream on the bytes `enc` followed by `rest` reads `enc`. -/
theorem reads_NewStream (enc rest : Bytes) :
    Reads (NewStream (enc ++ rest) 0) enc (advance (NewStream (enc ++ rest) 0) enc.length) := by
  refine ⟨⟨?_, ?_⟩, List.prefix_append _ _, rfl⟩
  · intro _
    simp [NewStream]
  · simp [NewStream]

/-- C32: for a deposit transaction `tx` whose SourceHash, From, To, Mint and
Value are not nil (with Mint and Value below `2^256`, GasLimit below `2^64` and
Data shorter than `2^63` bytes, as their Go types have it), `EncodeRLP` writes
the type item followed by a list `lst`, and `DecodeRLP` on a new stream over
`lst`, whatever the transaction it fills, succeeds at the end of the input with
the transaction `tx` in which Nonce is `0xfffffffffffffffd`: the same
SourceHash, From, To, Mint, Value, GasLimit, IsSystemTx and Data. -/
theorem C32_round_trip (depositTxType : Nat) (tx : DepositTransaction)
    (h1 : tx.SourceHash ≠ none) (h2 : tx.From ≠ none) (h3 : tx.To ≠ none)
    (h4 : tx.Mint ≠ none) (h5 : tx.Value ≠ none)
    (hmint : ∀ mint, tx.Mint = some mint → mint < 2 ^ 256)
    (hvalue : ∀ value, tx.Value = some value → value < 2 ^ 256)
    (hgas : tx.GasLimit < 2 ^ 64) (hdata : tx.Data.length < 2 ^ 63) :
    ∃ lst,
      tx.EncodeRLP depositTxType =
        some ((NewEncoderBuffer.WriteUint64 depositTxType).ToBytes ++ lst) ∧
      ∀ tx0 : DepositTransaction, ∃ t,
        tx0.DecodeRLP (NewStream lst 0) = .ok ({ tx with Nonce := 0xfffffffffffffffd }, t) ∧
        t.input = [] := by
  obtain ⟨sourceHash, e1⟩ := Option.ne_none_iff_exists'.1 h1
  obtain ⟨sender, e2⟩ := Option.ne_none_iff_exists'.1 h2
  obtain ⟨recipient, e3⟩ := Option.ne_none_iff_exists'.1 h3
  obtain ⟨mint, e4⟩ := Option.ne_none_iff_exists'.1 h4
  obtain ⟨value, e5⟩ := Option.ne_none_iff_exists'.1 h5
  have hm := hmint mint e4
  have hv := hvalue value e5
  refine ⟨_, EncodeRLP_eq depositTxType tx sourceHash sender recipient mint value e1 e2 e3 e4 e5
    hgas, ?_⟩
  intro tx0
  have hreads := reads_NewStream
    (depositList sourceHash.bytes sender.bytes recipient.bytes mint value tx.GasLimit
      tx.IsSystemTx tx.Data) []
  rw [List.append_nil] at hreads
  refine ⟨_, (DecodeRLP_ok_iff tx0 _ _ _).2 ⟨sourceHash.bytes, sender.bytes, recipient.bytes,
    mint, value, tx.GasLimit, tx.IsSystemTx, tx.Data, sender.size, recipient.size, ?_, hm, hv,
    hgas, ?_, ?_, hreads, ?_⟩, ?_⟩
  · rw [sourceHash.size]
    norm_num
  · omega
  · have l1 := encString_length_le sourceHash.bytes (by rw [sourceHash.size]; norm_num)
    have l2 := encString_length_le sender.bytes (by rw [sender.size]; norm_num)
    have l3 := encString_length_le recipient.bytes (by rw [recipient.size]; norm_num)
    have b4 : (bigBytes mint).length ≤ 32 :=
      bigBytes_length_le mint 32 (by norm_num at hm ⊢; exact hm)
    have b5 : (bigBytes value).length ≤ 32 :=
      bigBytes_length_le value 32 (by norm_num at hv ⊢; exact hv)
    have b6 : (bigBytes tx.GasLimit).length ≤ 8 :=
      bigBytes_length_le tx.GasLimit 8 (by norm_num at hgas ⊢; exact hgas)
    have l4 := encString_length_le (bigBytes mint) (by omega)
    have l5 := encString_length_le (bigBytes value) (by omega)
    have l6 := encString_length_le (bigBytes tx.GasLimit) (by omega)
    have l7 := encBool_length tx.IsSystemTx
    have l8 := encString_length_le tx.Data (by omega)
    rw [sourceHash.size] at l1
    rw [sender.size] at l2
    rw [recipient.size] at l3
    unfold depositPayload
    simp only [List.length_append]
    omega
  · rw [Oracle.BytesToHash_bytes]
    rcases tx with ⟨a1, a2, a3, a4, a5, a6, a7, a8, a9⟩
    simp only at e1 e2 e3 e4 e5
    subst e1 e2 e3 e4 e5
    rfl
  · simp [advance, NewStream]

/-- C32 on the transaction `Toy.tx` and the type `0x7e`. -/
theorem C32_round_trip_witness :
    ∃ lst,
      Toy.tx.EncodeRLP 0x7e = some ((NewEncoderBuffer.WriteUint64 0x7e).ToBytes ++ lst) ∧
      ∀ tx0 : DepositTransaction, ∃ t,
        tx0.DecodeRLP (NewStream lst 0) =
          .ok ({ Toy.tx with Nonce := 0xfffffffffffffffd }, t) ∧
        t.input = [] :=
  C32_round_trip 0x7e Toy.tx (by decide) (by decide) (by decide) (by decide) (by decide)
    (by intro mint h; simp [Toy.tx] at h; omega)
    (by intro value h; simp [Toy.tx] at h; omega)
    (by decide) (by decide)

/-! ## The inputs that are rejected -/

/-- A stream without limit and outside of any list reads any bytes that are
ahead. -/
theorem reads_free (enc rest : Bytes) :
    Reads ⟨enc ++ rest, 0, false, []⟩ enc (advance ⟨enc ++ rest, 0, false, []⟩ enc.length) := by
  refine ⟨⟨?_, ?_⟩, List.prefix_append _ _, rfl⟩
  · intro h
    exact absurd h (by simp)
  · simp

/-- Two encoded strings that start the same input are the same string. -/
theorem encString_unique (a b r1 r2 : Bytes) (ha : a.length < 2 ^ 64) (hb : b.length < 2 ^ 64)
    (h : encString a ++ r1 = encString b ++ r2) : a = b ∧ r1 = r2 := by
  have k1 := (Bytes_ok_iff _ _ a).2 ⟨ha, reads_free (encString a) r1⟩
  have k2 := (Bytes_ok_iff _ _ b).2 ⟨hb, reads_free (encString b) r2⟩
  rw [h, k2] at k1
  simp only [Except.ok.injEq, Prod.mk.injEq] at k1
  obtain ⟨hab, _⟩ := k1
  subst hab
  exact ⟨rfl, List.append_cancel_left h⟩

/-- Two list headers that start the same input are the same header. -/
theorem listHeader_unique (n m : Nat) (r1 r2 : Bytes) (hn : n < 2 ^ 64) (hm : m < 2 ^ 64)
    (h : puthead 0xC0 0xF7 n ++ r1 = puthead 0xC0 0xF7 m ++ r2) : n = m ∧ r1 = r2 := by
  have k1 := (readKind_ok_iff _ _ .List n 0).2
    (Or.inr (Or.inr ⟨rfl, rfl, hn, reads_free (puthead 0xC0 0xF7 n) r1⟩))
  have k2 := (readKind_ok_iff _ _ .List m 0).2
    (Or.inr (Or.inr ⟨rfl, rfl, hm, reads_free (puthead 0xC0 0xF7 m) r2⟩))
  rw [h, k2] at k1
  simp only [Except.ok.injEq, Prod.mk.injEq, true_and] at k1
  obtain ⟨hnm, _⟩ := k1
  subst hnm
  exact ⟨rfl, List.append_cancel_left h⟩

/-- A decoding that succeeds has read a list of the eight items. -/
theorem isDepositList_of_ok (tx0 tx : DepositTransaction) (s t : Stream)
    (h : tx0.DecodeRLP s = .ok (tx, t)) :
    ∃ (sourceHash sender recipient : Bytes) (mint value gasLimit : Nat) (isSystemTx : Bool)
      (data : Bytes),
      sender.length = 20 ∧ recipient.length = 20 ∧ sourceHash.length < 2 ^ 64 ∧
      mint < 2 ^ 256 ∧ value < 2 ^ 256 ∧ gasLimit < 2 ^ 64 ∧ data.length < 2 ^ 64 ∧
      (depositPayload sourceHash sender recipient mint value gasLimit isSystemTx
        data).length < 2 ^ 64 ∧
      depositList sourceHash sender recipient mint value gasLimit isSystemTx data <+:
        s.input := by
  obtain ⟨b1, b2, b3, mint, value, gas, sys, dat, hs, hr, h1, h2, h3, h4, h5, h6, hreads, _⟩ :=
    (DecodeRLP_ok_iff tx0 tx s t).1 h
  exact ⟨b1, b2, b3, mint, value, gas, sys, dat, hs, hr, h1, h2, h3, h4, h5, h6, hreads.2.1⟩

theorem error_of_not_ok {α : Type} (r : Except Error α) (h : ∀ a, r ≠ .ok a) :
    ∃ e, r = .error e := by
  cases r with
  | error e => exact ⟨e, rfl⟩
  | ok a => exact absurd rfl (h a)

/-- C33: `DecodeRLP` returns an error, whatever the transaction it fills and
whatever the limits of the stream, (1) when the input is an RLP list whose
second item is a string of a length other than 20, (2) when it is an RLP list
whose third item is a string of a length other than 20, and (3) when it does
not start with the RLP list of exactly the eight expected items in order
(SourceHash, From, To, Mint, Value, GasLimit, IsSystemTx, Data). -/
theorem C33_decode_errors :
    (∀ (tx0 : DepositTransaction) (s : Stream) (size : Nat) (sourceHash sender rest : Bytes),
      size < 2 ^ 64 → sourceHash.length < 2 ^ 64 → sender.length < 2 ^ 64 →
      s.input = puthead 0xC0 0xF7 size ++ (encString sourceHash ++ (encString sender ++ rest)) →
      sender.length ≠ 20 → ∃ e, tx0.DecodeRLP s = .error e) ∧
    (∀ (tx0 : DepositTransaction) (s : Stream) (size : Nat)
      (sourceHash sender recipient rest : Bytes),
      size < 2 ^ 64 → sourceHash.length < 2 ^ 64 → sender.length < 2 ^ 64 →
      recipient.length < 2 ^ 64 →
      s.input = puthead 0xC0 0xF7 size ++
        (encString sourceHash ++ (encString sender ++ (encString recipient ++ rest))) →
      recipient.length ≠ 20 → ∃ e, tx0.DecodeRLP s = .error e) ∧
    (∀ (tx0 : DepositTransaction) (s : Stream),
      ¬ IsDepositList s.input → ∃ e, tx0.DecodeRLP s = .error e) := by
  refine ⟨?_, ?_, ?_⟩
  · intro tx0 s size sourceHash sender rest hsize hsh hsender hin hne
    apply error_of_not_ok
    rintro ⟨tx, t⟩ hok
    obtain ⟨b1, b2, b3, mint, value, gas, sys, dat, hs, hr, h1, _, _, _, _, h6, ⟨r, hr0⟩⟩ :=
      isDepositList_of_ok tx0 tx s t hok
    rw [hin] at hr0
    unfold depositList at hr0
    generalize (depositPayload b1 b2 b3 mint value gas sys dat).length = n at hr0 h6
    unfold depositPayload at hr0
    simp only [List.append_assoc] at hr0
    obtain ⟨_, hr1⟩ := listHeader_unique _ _ _ _ h6 hsize hr0
    obtain ⟨_, hr2⟩ := encString_unique _ _ _ _ h1 hsh hr1
    obtain ⟨hb2, _⟩ := encString_unique _ _ _ _ (by omega) hsender hr2
    rw [← hb2] at hne
    exact hne hs
  · intro tx0 s size sourceHash sender recipient rest hsize hsh hsender hrecipient hin hne
    apply error_of_not_ok
    rintro ⟨tx, t⟩ hok
    obtain ⟨b1, b2, b3, mint, value, gas, sys, dat, hs, hr, h1, _, _, _, _, h6, ⟨r, hr0⟩⟩ :=
      isDepositList_of_ok tx0 tx s t hok
    rw [hin] at hr0
    unfold depositList at hr0
    generalize (depositPayload b1 b2 b3 mint value gas sys dat).length = n at hr0 h6
    unfold depositPayload at hr0
    simp only [List.append_assoc] at hr0
    obtain ⟨_, hr1⟩ := listHeader_unique _ _ _ _ h6 hsize hr0
    obtain ⟨_, hr2⟩ := encString_unique _ _ _ _ h1 hsh hr1
    obtain ⟨_, hr3⟩ := encString_unique _ _ _ _ (by omega) hsender hr2
    obtain ⟨hb3, _⟩ := encString_unique _ _ _ _ (by omega) hrecipient hr3
    rw [← hb3] at hne
    exact hne hr
  · intro tx0 s hnot
    apply error_of_not_ok
    rintro ⟨tx, t⟩ hok
    obtain ⟨b1, b2, b3, mint, value, gas, sys, dat, hs, hr, h1, h2, h3, h4, h5, _, hpre⟩ :=
      isDepositList_of_ok tx0 tx s t hok
    exact hnot ⟨b1, b2, b3, mint, value, gas, sys, dat, hs, hr, h1, h2, h3, h4, h5, hpre⟩

/-- A list whose second item has 19 bytes is rejected with the error of the
length check of From. -/
theorem DecodeRLP_From_example :
    Toy.tx.DecodeRLP
        (NewStream
          (depositList [1, 2, 3] (List.replicate 19 0xaa) (List.replicate 20 0xbb) 1000 0 21000
            true [0xde, 0xad]) 0) =
      .error (.wrongSize "From" 19) := by
  rfl

/-- A list of seven items, the data missing, is rejected at the end of the
list. -/
theorem DecodeRLP_short_example :
    Toy.tx.DecodeRLP
        (NewStream
          (puthead 0xC0 0xF7 50 ++
            (encString [1, 2, 3] ++ encString (List.replicate 20 0xaa) ++
              encString (List.replicate 20 0xbb) ++ encString (bigBytes 0) ++
              encString (bigBytes 0) ++ encString (bigBytes 0) ++ encBool false)) 0) =
      .error (.wrap "read Data" .EOL) := by
  rfl

/-- The first item may have any length: a source hash of three bytes is
accepted and padded with zero bytes on the left. -/
theorem DecodeRLP_SourceHash_example :
    ∃ t,
      Toy.tx.DecodeRLP
          (NewStream
            (depositList [1, 2, 3] (List.replicate 20 0xaa) (List.replicate 20 0xbb) 1000 0
              21000 true [0xde, 0xad]) 0) =
        .ok
          ({ SourceHash := some (BytesToHash [1, 2, 3])
             Nonce := 0xfffffffffffffffd
             From := some (Oracle.BytesToAddress (List.replicate 20 0xaa))
             To := some (Oracle.BytesToAddress (List.replicate 20 0xbb))
             Mint := some 1000
             Value := some 0
             GasLimit := 21000
             IsSystemTx := true
             Data := [0xde, 0xad] }, t) :=
  ⟨_, rfl⟩

end Types
